import Mathlib

/-!
# The re1 matching engines

A shallow embedding of the three virtual machines of the repository
(`backtrack.c`, `thompson.c`, `pike.c`) together with the reference-counted
capture frames they share.

Conventions of the embedding.

* An instruction reference (`Inst *`) is the index of the instruction in the
  program array; `pc + 1` is the next index.  A reference outside the array is a
  wild pointer and dereferencing it ends the run in `Res.fault`.
* A string pointer (`char *sp`) is an offset into the input.  The input is the
  list of bytes in front of the terminating NUL.
* A capture frame pointer (`Sub *`) is the index of a cell of an explicit heap.
* The global `gen` and the per-instruction `gen` fields are state handed to
  every lock-step engine and handed back by it.  The counter is a natural
  number; the C `int` would need more than two thousand million input bytes to
  wrap.
-/

namespace Re1

/-! ## Outcomes -/

/-- How a call of the model ends. -/
inductive Res (α : Type) where
  /-- The C function returned. -/
  | ok (a : α) : Res α
  /-- The call ended in `fatal("backtrack overflow")`. -/
  | fatal : Res α
  /-- Undefined behaviour: wild instruction reference, read behind the
  terminator, use of a frame whose count is zero, failed `assert`. -/
  | fault : Res α
  /-- The step budget given to the model ran out. -/
  | timeout : Res α
deriving DecidableEq

/-- Sequencing of outcomes. -/
def Res.bind {α β : Type} : Res α → (α → Res β) → Res β
  | .ok a, f => f a
  | .fatal, _ => .fatal
  | .fault, _ => .fault
  | .timeout, _ => .timeout

/-! ## Instructions and programs -/

/-- Modelled from the spec: the instruction record of `regexp.h` (opcode plus
the operands that opcode uses).  The mutable `gen` field is kept outside, in
the marker table of the engines. -/
inductive Inst where
  | Char (c : Nat) : Inst
  | Any : Inst
  | Match : Inst
  | Jmp (x : Nat) : Inst
  | Split (x y : Nat) : Inst
  | Save (n : Nat) : Inst
deriving DecidableEq

/-- Modelled from the spec: the program record of `regexp.h`: the instruction
array and the start reference; `len` is the number of instructions. -/
structure Prog where
  insts : List Inst
  start : Nat

/-- The field `prog->len`. -/
def Prog.len (prog : Prog) : Nat := prog.insts.length

/-- The byte under the string pointer: `*sp`.  Offset `input.length` holds the
terminating NUL, anything behind it is outside the string. -/
def peek (input : List Nat) (sp : Nat) : Option Nat := (input ++ [0])[sp]?

/-! ## Capture frames -/

/-- Modelled from the spec: a capture frame (`Sub` of `regexp.h`), a reference
count and the array of optional offsets. -/
structure Sub where
  ref : Nat
  sub : List (Option Nat)
deriving DecidableEq

/-- The frames allocated so far; a frame pointer is an index. -/
abbrev Heap := List Sub

/-- Modelled from the spec: `fresh(n)`, a new frame with count 1 and all `n`
slots unset (`newsub`, whose source file is not part of the sources). -/
def newsub (n : Nat) (h : Heap) : Heap × Nat :=
  (h ++ [⟨1, List.replicate n none⟩], h.length)

/-- Modelled from the spec: `acquire(frame)` (`incref`): one more reference. -/
def incref (s : Nat) (h : Heap) : Res Heap :=
  match h[s]? with
  | none => .fault
  | some c => if c.ref = 0 then .fault else .ok (h.set s ⟨c.ref + 1, c.sub⟩)

/-- Modelled from the spec: `release(frame)` (`decref`): one reference less.
Releasing a frame whose count is already zero is a fault. -/
def decref (s : Nat) (h : Heap) : Res Heap :=
  match h[s]? with
  | none => .fault
  | some c => if c.ref = 0 then .fault else .ok (h.set s ⟨c.ref - 1, c.sub⟩)

/-- Modelled from the spec: `update(frame, slot, pos)`: in place when the frame
has one owner, otherwise a copy with count 1 while the original loses one
reference.  A slot outside the frame is not written. -/
def update (s i p : Nat) (h : Heap) : Res (Heap × Nat) :=
  match h[s]? with
  | none => .fault
  | some c =>
    if c.ref = 0 then .fault
    else if c.ref = 1 then .ok (h.set s ⟨1, c.sub.set i (some p)⟩, s)
    else .ok (h.set s ⟨c.ref - 1, c.sub⟩ ++ [⟨1, c.sub.set i (some p)⟩], h.length)

/-- The loop `for (i = 0; i < nsubp; i++) sub->sub[i] = nil;`. -/
def clearsub (s n : Nat) (h : Heap) : Heap :=
  match h[s]? with
  | none => h
  | some c => h.set s ⟨c.ref, List.replicate (min n c.sub.length) none ++ c.sub.drop n⟩

/-- The loop `for (i = 0; i < nsubp; i++) subp[i] = sub->sub[i];` with
`nsubp` the length of the array of the caller. -/
def copyout (sub subp : List (Option Nat)) : List (Option Nat) :=
  (List.range subp.length).map fun i => (sub[i]?).getD none

/-- The field `sub->ref`, zero when `s` is not a frame. -/
def refOf (h : Heap) (s : Nat) : Nat :=
  match h[s]? with
  | none => 0
  | some c => c.ref

/-- The captures held by frame `s`. -/
def frame (h : Heap) (s : Nat) : List (Option Nat) :=
  match h[s]? with
  | none => []
  | some c => c.sub

/-! ## The backtracking engine (`backtrack.c`) -/

namespace Backtrack

/-- A waiting thread of `backtrack.c`: instruction, string pointer, frame. -/
structure Thread where
  pc : Nat
  sp : Nat
  sub : Nat
deriving DecidableEq

/-- The constant `MAX`. -/
def MAX : Nat := 1000

/-- What `backtrack` hands back: the return value, the array `subp` of the
caller and the frames as they are left behind. -/
structure Ret where
  matched : Bool
  subp : List (Option Nat)
  heap : Heap
deriving DecidableEq

/-- The registers of `backtrack`: the frames, the stack `ready` of waiting
threads (top first) and the thread being run, `pc, sp, sub`. -/
structure State where
  heap : Heap
  ready : List Thread
  pc : Nat
  sp : Nat
  sub : Nat
deriving DecidableEq

/-- The label `Dead` followed by the next turn of the `while` loop: the frame
of the dying thread is released; an empty stack ends the call with `return 0`,
otherwise the top thread is popped. -/
def dead (subp : List (Option Nat)) (s : State) : Res (Ret ⊕ State) :=
  (decref s.sub s.heap).bind fun h1 =>
    match s.ready with
    | [] => .ok (.inl ⟨false, subp, h1⟩)
    | t :: rest =>
      -- `assert(sub->ref > 0)`
      if refOf h1 t.sub = 0 then .fault else .ok (.inr ⟨h1, rest, t.pc, t.sp, t.sub⟩)

/-- One turn of the `switch` of `backtrack`: either the call returns, or the
loops go on in a new state. -/
def exec (prog : Prog) (input : List Nat) (subp : List (Option Nat)) (s : State) :
    Res (Ret ⊕ State) :=
  match prog.insts[s.pc]? with
  | none => .fault
  | some (Inst.Char c) =>
    match peek input s.sp with
    | none => .fault
    | some b =>
      if b ≠ c then dead subp s else .ok (.inr ⟨s.heap, s.ready, s.pc + 1, s.sp + 1, s.sub⟩)
  | some Inst.Any =>
    match peek input s.sp with
    | none => .fault
    | some b =>
      if b = 0 then dead subp s else .ok (.inr ⟨s.heap, s.ready, s.pc + 1, s.sp + 1, s.sub⟩)
  | some Inst.Match =>
    (decref s.sub s.heap).bind fun h1 =>
      .ok (.inl ⟨true, copyout (frame s.heap s.sub) subp, h1⟩)
  | some (Inst.Jmp x) => .ok (.inr ⟨s.heap, s.ready, x, s.sp, s.sub⟩)
  | some (Inst.Split x y) =>
    if MAX ≤ s.ready.length then .fatal
    else (incref s.sub s.heap).bind fun h1 =>
      .ok (.inr ⟨h1, ⟨y, s.sp, s.sub⟩ :: s.ready, x, s.sp, s.sub⟩)
  | some (Inst.Save n) =>
    (update s.sub n s.sp s.heap).bind fun r =>
      .ok (.inr ⟨r.1, s.ready, s.pc + 1, s.sp, r.2⟩)

/-- The two nested loops of `backtrack`, one instruction per unit of fuel. -/
def run (prog : Prog) (input : List Nat) (subp : List (Option Nat)) : Nat → State → Res Ret
  | 0, _ => .timeout
  | fuel + 1, s =>
    (exec prog input subp s).bind fun n =>
      match n with
      | .inl r => .ok r
      | .inr s1 => run prog input subp fuel s1

end Backtrack

/-- The function `backtrack` of `backtrack.c`: `subp` is the array of the
caller (its length is `nsubp`), `fuel` bounds the number of instructions
executed. -/
def backtrack (prog : Prog) (input : List Nat) (subp : List (Option Nat)) (fuel : Nat) :
    Res Backtrack.Ret :=
  let a := newsub subp.length []
  let h := clearsub a.2 subp.length a.1
  -- the first turn of the `while` loop pops the initial thread
  if refOf h a.2 = 0 then .fault
  else Backtrack.run prog input subp fuel ⟨h, [], prog.start, 0, a.2⟩

/-! ## The Pike engine (`pike.c`) -/

namespace Pike

/-- A thread of `pike.c`: instruction and frame. -/
structure Thread where
  pc : Nat
  sub : Nat
deriving DecidableEq

/-- The state every step of the Pike engine works on: the global `gen`, the
`gen` field of each instruction, the frames. -/
structure St where
  gen : Nat
  marks : Nat → Nat
  heap : Heap

/-- Writing `t.pc->gen = gen`. -/
def mark (marks : Nat → Nat) (pc g : Nat) : Nat → Nat :=
  fun i => if i = pc then g else marks i

/-- The function `addthread` of `pike.c`; the fuel bounds the depth of the
recursion. -/
def addthread (prog : Prog) : Nat → St → List Thread → Thread → Nat → Res (St × List Thread)
  | 0, _, _, _, _ => .timeout
  | fuel + 1, st, l, t, sp =>
    match prog.insts[t.pc]? with
    | none => .fault
    | some i =>
      if st.marks t.pc = st.gen then
        (decref t.sub st.heap).bind fun h => .ok (⟨st.gen, st.marks, h⟩, l)
      else
        let m := mark st.marks t.pc st.gen
        match i with
        | Inst.Jmp x => addthread prog fuel ⟨st.gen, m, st.heap⟩ l ⟨x, t.sub⟩ sp
        | Inst.Split x y =>
          (incref t.sub st.heap).bind fun h =>
            (addthread prog fuel ⟨st.gen, m, h⟩ l ⟨x, t.sub⟩ sp).bind fun r =>
              addthread prog fuel r.1 r.2 ⟨y, t.sub⟩ sp
        | Inst.Save n =>
          (update t.sub n sp st.heap).bind fun r =>
            addthread prog fuel ⟨st.gen, m, r.1⟩ l ⟨t.pc + 1, r.2⟩ sp
        | _ => .ok (⟨st.gen, m, st.heap⟩, l ++ [t])

/-- Releasing the frames of the threads behind a Match:
`for (i++; i < clist->n; i++) decref(clist->t[i].sub);`. -/
def release : List Thread → Heap → Res Heap
  | [], h => .ok h
  | t :: rest, h => (decref t.sub h).bind fun h1 => release rest h1

/-- The inner `for` loop of `pikevm` over the threads of `clist` not yet
looked at; `c` is `*sp`.  Hands back the state, `nlist` and `matched`. -/
def step (prog : Prog) (fuel c sp : Nat) :
    List Thread → St → List Thread → Option Nat → Res (St × List Thread × Option Nat)
  | [], st, nl, m => .ok (st, nl, m)
  | t :: rest, st, nl, m =>
    match prog.insts[t.pc]? with
    | none => .fault
    | some (Inst.Char k) =>
      if c ≠ k then
        (decref t.sub st.heap).bind fun h => step prog fuel c sp rest ⟨st.gen, st.marks, h⟩ nl m
      else if c = 0 then
        (decref t.sub st.heap).bind fun h => step prog fuel c sp rest ⟨st.gen, st.marks, h⟩ nl m
      else
        (addthread prog fuel st nl ⟨t.pc + 1, t.sub⟩ (sp + 1)).bind fun r =>
          step prog fuel c sp rest r.1 r.2 m
    | some Inst.Any =>
      if c = 0 then
        (decref t.sub st.heap).bind fun h => step prog fuel c sp rest ⟨st.gen, st.marks, h⟩ nl m
      else
        (addthread prog fuel st nl ⟨t.pc + 1, t.sub⟩ (sp + 1)).bind fun r =>
          step prog fuel c sp rest r.1 r.2 m
    | some Inst.Match =>
      (match m with
        | some old => decref old st.heap
        | none => .ok st.heap).bind fun h =>
        (release rest h).bind fun h1 => .ok (⟨st.gen, st.marks, h1⟩, nl, some t.sub)
    | some _ => step prog fuel c sp rest st nl m

/-- The outer `for (sp = input;; sp++)` loop of `pikevm`.  The first argument
is the input from `sp` on, so `*sp` is its head, or NUL when it is empty. -/
def loop (prog : Prog) (fuel : Nat) :
    List Nat → Nat → St → List Thread → Option Nat → Res (St × List Thread × Option Nat)
  | [], sp, st, cl, m =>
    if cl.length = 0 then .ok (st, cl, m)
    else step prog fuel 0 sp cl ⟨st.gen + 1, st.marks, st.heap⟩ [] m
  | c :: rest, sp, st, cl, m =>
    if cl.length = 0 then .ok (st, cl, m)
    else
      (step prog fuel c sp cl ⟨st.gen + 1, st.marks, st.heap⟩ [] m).bind fun r =>
        if c = 0 then .ok r else loop prog fuel rest (sp + 1) r.1 r.2.1 r.2.2

/-- What `pikevm` hands back: the return value, the array `subp`, the
generation state and the frames as they are left behind, and the threads still
on `clist`. -/
structure Ret where
  matched : Bool
  subp : List (Option Nat)
  gen : Nat
  marks : Nat → Nat
  heap : Heap
  clist : List Thread

end Pike

/-- The function `pikevm` of `pike.c`: `subp` is the array of the caller,
`gen` and `marks` the generation state found at entry. -/
def pikevm (prog : Prog) (input : List Nat) (subp : List (Option Nat))
    (gen : Nat) (marks : Nat → Nat) : Res Pike.Ret :=
  let subp0 : List (Option Nat) := List.replicate subp.length none
  let a := newsub subp.length []
  let h := clearsub a.2 subp.length a.1
  let fuel := prog.len + 1
  (Pike.addthread prog fuel ⟨gen + 1, marks, h⟩ [] ⟨prog.start, a.2⟩ 0).bind fun r =>
    (Pike.loop prog fuel input 0 r.1 r.2 none).bind fun e =>
      match e.2.2 with
      | some s =>
        (decref s e.1.heap).bind fun h1 =>
          .ok ⟨true, copyout (frame e.1.heap s) subp0, e.1.gen, e.1.marks, h1, e.2.1⟩
      | none => .ok ⟨false, subp0, e.1.gen, e.1.marks, e.1.heap, e.2.1⟩

/-! ## The Thompson engine (`thompson.c`) -/

namespace Thompson

/-- The generation state of the Thompson engine. -/
structure St where
  gen : Nat
  marks : Nat → Nat

/-- The function `addthread` of `thompson.c`; a thread is its instruction.
The fuel bounds the depth of the recursion. -/
def addthread (prog : Prog) : Nat → St → List Nat → Nat → Res (St × List Nat)
  | 0, _, _, _ => .timeout
  | fuel + 1, st, l, pc =>
    match prog.insts[pc]? with
    | none => .fault
    | some i =>
      if st.marks pc = st.gen then .ok (st, l)
      else
        let st1 : St := ⟨st.gen, Pike.mark st.marks pc st.gen⟩
        let l1 := l ++ [pc]
        match i with
        | Inst.Jmp x => addthread prog fuel st1 l1 x
        | Inst.Split x y =>
          (addthread prog fuel st1 l1 x).bind fun r => addthread prog fuel r.1 r.2 y
        | Inst.Save _ => addthread prog fuel st1 l1 (pc + 1)
        | _ => .ok (st1, l1)

/-- What the loops of `thompsonvm` carry: the generation state, `nlist`,
`matched` and the array `subp`. -/
structure Acc where
  st : St
  nlist : List Nat
  matched : Bool
  subp : List (Option Nat)

/-- The inner `for` loop of `thompsonvm` over the threads of `clist` not yet
looked at; `c` is `*sp`. -/
def step (prog : Prog) (fuel c sp : Nat) : List Nat → Acc → Res Acc
  | [], a => .ok a
  | pc :: rest, a =>
    match prog.insts[pc]? with
    | none => .fault
    | some (Inst.Char k) =>
      if c ≠ k then step prog fuel c sp rest a
      else if c = 0 then step prog fuel c sp rest a
      else
        (addthread prog fuel a.st a.nlist (pc + 1)).bind fun r =>
          step prog fuel c sp rest ⟨r.1, r.2, a.matched, a.subp⟩
    | some Inst.Any =>
      if c = 0 then step prog fuel c sp rest a
      else
        (addthread prog fuel a.st a.nlist (pc + 1)).bind fun r =>
          step prog fuel c sp rest ⟨r.1, r.2, a.matched, a.subp⟩
    | some Inst.Match =>
      .ok ⟨a.st, a.nlist, true, if 2 ≤ a.subp.length then a.subp.set 1 (some sp) else a.subp⟩
    | some _ => step prog fuel c sp rest a

/-- The outer `for (sp = input;; sp++)` loop of `thompsonvm`; the `nlist`
field of the result is the `clist` left behind. -/
def loop (prog : Prog) (fuel : Nat) : List Nat → Nat → List Nat → Acc → Res Acc
  | [], sp, cl, a =>
    if cl.length = 0 then .ok ⟨a.st, cl, a.matched, a.subp⟩
    else step prog fuel 0 sp cl ⟨⟨a.st.gen + 1, a.st.marks⟩, [], a.matched, a.subp⟩
  | c :: rest, sp, cl, a =>
    if cl.length = 0 then .ok ⟨a.st, cl, a.matched, a.subp⟩
    else
      (step prog fuel c sp cl ⟨⟨a.st.gen + 1, a.st.marks⟩, [], a.matched, a.subp⟩).bind fun r =>
        if c = 0 then .ok r else loop prog fuel rest (sp + 1) r.nlist r

/-- What `thompsonvm` hands back. -/
structure Ret where
  matched : Bool
  subp : List (Option Nat)
  gen : Nat
  marks : Nat → Nat

end Thompson

/-- The function `thompsonvm` of `thompson.c`: `subp` is the array of the
caller, `gen` and `marks` the generation state found at entry. -/
def thompsonvm (prog : Prog) (input : List Nat) (subp : List (Option Nat))
    (gen : Nat) (marks : Nat → Nat) : Res Thompson.Ret :=
  let subp0 : List (Option Nat) := List.replicate subp.length none
  let subp1 := if 1 ≤ subp.length then subp0.set 0 (some 0) else subp0
  let fuel := prog.len + 1
  (Thompson.addthread prog fuel ⟨gen + 1, marks⟩ [] prog.start).bind fun r =>
    (Thompson.loop prog fuel input 0 r.2 ⟨r.1, [], false, subp1⟩).bind fun e =>
      .ok ⟨e.matched, e.subp, e.st.gen, e.st.marks⟩

/-! ## Programs of the scenarios -/

/-- The alternation program of the pattern `a|ab`. -/
def aOrAb : Prog :=
  ⟨[Inst.Save 0, Inst.Split 2 4, Inst.Char 97, Inst.Jmp 6, Inst.Char 97, Inst.Char 98,
    Inst.Save 1, Inst.Match], 0⟩

/-- The greedy loop of the pattern `a*`, without captures. -/
def greedyLoop : Prog := ⟨[Inst.Split 1 3, Inst.Char 97, Inst.Jmp 0, Inst.Match], 0⟩

/-! ## Well-formed programs -/

/-- The instructions control can move to from instruction `pc`. -/
def Inst.succs (pc : Nat) : Inst → List Nat
  | .Char _ => [pc + 1]
  | .Any => [pc + 1]
  | .Match => []
  | .Jmp x => [x]
  | .Split x y => [x, y]
  | .Save _ => [pc + 1]

/-- Jump, Split and SaveCapture: the instructions `addthread` follows instead of
scheduling (pike.c). -/
def Inst.isCtl : Inst → Bool
  | .Jmp _ => true
  | .Split _ _ => true
  | .Save _ => true
  | _ => false

/-- A well-formed program: the start reference and every successor reference
lie inside the instruction array. -/
def Prog.WF (prog : Prog) : Prop :=
  prog.start < prog.len ∧
    ∀ pc, pc < prog.len → ∀ q ∈ (prog.insts.getD pc Inst.Match).succs pc, q < prog.len

instance (prog : Prog) : Decidable prog.WF := by
  unfold Prog.WF; infer_instance

/-- A valid generation state: no marker is ahead of the counter.  Every
lock-step engine keeps it so. -/
def MarksLe (gen : Nat) (marks : Nat → Nat) : Prop := ∀ pc, marks pc ≤ gen

/-! ## Comparing outcomes -/

/-- Two calls end the same way, and when both return, the values handed back
are related by `R`. -/
def Res.Rel {α β : Type} (R : α → β → Prop) : Res α → Res β → Prop
  | .ok a, .ok b => R a b
  | .fatal, .fatal => True
  | .fault, .fault => True
  | .timeout, .timeout => True
  | _, _ => False

/-! ## The lock-step search on values

The search of `pikevm` with the bookkeeping taken out: a thread carries its
captures by value, and the instructions already visited at the current
position are a list instead of generation markers.  It is what the engines
are compared with; the engines themselves are the definitions above. -/

/-- The value of a capture frame. -/
abbrev Caps := List (Option Nat)

namespace Pure

/-- A thread by value: instruction and captures. -/
structure Thread where
  pc : Nat
  caps : Caps
deriving DecidableEq

/-- The closure computed by `addthread`: `vis` are the instructions visited at
this position, `l` the list being built. -/
def addthread (prog : Prog) :
    Nat → List Nat → List Thread → Thread → Nat → Res (List Nat × List Thread)
  | 0, _, _, _, _ => .timeout
  | fuel + 1, vis, l, t, sp =>
    match prog.insts[t.pc]? with
    | none => .fault
    | some i =>
      if t.pc ∈ vis then .ok (vis, l)
      else
        match i with
        | Inst.Jmp x => addthread prog fuel (t.pc :: vis) l ⟨x, t.caps⟩ sp
        | Inst.Split x y =>
          (addthread prog fuel (t.pc :: vis) l ⟨x, t.caps⟩ sp).bind fun r =>
            addthread prog fuel r.1 r.2 ⟨y, t.caps⟩ sp
        | Inst.Save n =>
          addthread prog fuel (t.pc :: vis) l ⟨t.pc + 1, t.caps.set n (some sp)⟩ sp
        | _ => .ok (t.pc :: vis, l ++ [t])

/-- What one position of the search carries: the instructions visited for the
next position, the next list, and the best match so far with the position it
was found at. -/
structure Acc where
  vis : List Nat
  nlist : List Thread
  matched : Option (Nat × Caps)

/-- The pass over the current list at one position; `c` is the byte there. -/
def step (prog : Prog) (fuel c sp : Nat) : List Thread → Acc → Res Acc
  | [], a => .ok a
  | t :: rest, a =>
    match prog.insts[t.pc]? with
    | none => .fault
    | some (Inst.Char k) =>
      if c ≠ k then step prog fuel c sp rest a
      else if c = 0 then step prog fuel c sp rest a
      else
        (addthread prog fuel a.vis a.nlist ⟨t.pc + 1, t.caps⟩ (sp + 1)).bind fun r =>
          step prog fuel c sp rest ⟨r.1, r.2, a.matched⟩
    | some Inst.Any =>
      if c = 0 then step prog fuel c sp rest a
      else
        (addthread prog fuel a.vis a.nlist ⟨t.pc + 1, t.caps⟩ (sp + 1)).bind fun r =>
          step prog fuel c sp rest ⟨r.1, r.2, a.matched⟩
    | some Inst.Match => .ok ⟨a.vis, a.nlist, some (sp, t.caps)⟩
    | some _ => step prog fuel c sp rest a

/-- The walk over the input; hands back the best match. -/
def loop (prog : Prog) (fuel : Nat) :
    List Nat → Nat → List Thread → Option (Nat × Caps) → Res (Option (Nat × Caps))
  | [], sp, cl, m =>
    if cl.length = 0 then .ok m
    else (step prog fuel 0 sp cl ⟨[], [], m⟩).bind fun r => .ok r.matched
  | c :: rest, sp, cl, m =>
    if cl.length = 0 then .ok m
    else
      (step prog fuel c sp cl ⟨[], [], m⟩).bind fun r =>
        if c = 0 then .ok r.matched else loop prog fuel rest (sp + 1) r.nlist r.matched

/-- The whole search with `n` capture slots: the best match, as the position
it was found at and its captures. -/
def pikevm (prog : Prog) (input : List Nat) (n : Nat) : Res (Option (Nat × Caps)) :=
  (addthread prog (prog.len + 1) [] [] ⟨prog.start, List.replicate n none⟩ 0).bind fun r =>
    loop prog (prog.len + 1) input 0 r.2 none

end Pure

/-! ## Ownership of frames -/

/-- The frames `h` are exactly accounted for by the owners `O`, each a frame
pointer with the captures its owner sees: every owner reads its captures in
its frame, and the count of a frame is the number of owners pointing at it. -/
def HeapInv (h : Heap) (O : List (Nat × Caps)) : Prop :=
  (∀ x ∈ O, frame h x.1 = x.2) ∧ ∀ p, refOf h p = (O.map Prod.fst).count p

/-- The markers equal to the counter are the visited instructions. -/
def MarkRel (gen : Nat) (marks : Nat → Nat) (vis : List Nat) : Prop :=
  MarksLe gen marks ∧ ∀ pc, marks pc = gen ↔ pc ∈ vis

/-- A thread with its frame pointer and the captures behind it. -/
abbrev Trip := Nat × Nat × Caps

/-- The threads as `pike.c` holds them. -/
def conc (T : List Trip) : List Pike.Thread := T.map fun x => ⟨x.1, x.2.1⟩

/-- The threads by value. -/
def pur (T : List Trip) : List Pure.Thread := T.map fun x => ⟨x.1, x.2.2⟩

/-- The threads as owners of frames. -/
def own (T : List Trip) : List (Nat × Caps) := T.map fun x => x.2

/-- The instruction at `pc` exists and is one that is scheduled. -/
def Sched (prog : Prog) (pc : Nat) : Prop :=
  ∃ i, prog.insts[pc]? = some i ∧ i.isCtl = false

/-- The owner standing behind `matched`: the frame kept as the best match. -/
def mown : Option Nat → Option (Nat × Caps) → List (Nat × Caps)
  | some s, some kc => [(s, kc.2)]
  | _, _ => []

/-- The captures a search on values reports into an array of `n` slots. -/
def reported (n : Nat) : Option (Nat × Caps) → List (Option Nat)
  | some kc => copyout kc.2 (List.replicate n none)
  | none => List.replicate n none

/-! ## Paths through a program -/

/-- Moves that consume nothing, with their effect on the captures: `u` is
reached from `t` at position `sp` through Jump, Split and SaveCapture
instructions only. -/
inductive Eps (prog : Prog) (sp : Nat) : Pure.Thread → Pure.Thread → Prop
  | refl (t : Pure.Thread) : Eps prog sp t t
  | jmp {t u : Pure.Thread} {x : Nat} : prog.insts[t.pc]? = some (Inst.Jmp x) →
      Eps prog sp ⟨x, t.caps⟩ u → Eps prog sp t u
  | splitx {t u : Pure.Thread} {x y : Nat} : prog.insts[t.pc]? = some (Inst.Split x y) →
      Eps prog sp ⟨x, t.caps⟩ u → Eps prog sp t u
  | splity {t u : Pure.Thread} {x y : Nat} : prog.insts[t.pc]? = some (Inst.Split x y) →
      Eps prog sp ⟨y, t.caps⟩ u → Eps prog sp t u
  | save {t u : Pure.Thread} {n : Nat} : prog.insts[t.pc]? = some (Inst.Save n) →
      Eps prog sp ⟨t.pc + 1, t.caps.set n (some sp)⟩ u → Eps prog sp t u

/-- Instruction `q` is dealt with by the visited set `vis` and the list `l`:
a scheduled instruction is on the list, the successors of any other are
visited. -/
def CloseAt (prog : Prog) (vis : List Nat) (l : List Pure.Thread) (q : Nat) : Prop :=
  ∃ i, prog.insts[q]? = some i ∧ (i.isCtl = true → ∀ s ∈ i.succs q, s ∈ vis) ∧
    (i.isCtl = false → q ∈ l.map Pure.Thread.pc)

/-- The instructions of the range `0 .. prog.len` not yet visited. -/
def unvisited (prog : Prog) (vis : List Nat) : Nat :=
  (List.range prog.len).countP fun pc => decide (pc ∉ vis)

/-- One move of a path.  A configuration is an instruction together with the
number of input bytes consumed so far: Consume-Literal `c` consumes one byte
equal to `c`, Consume-Any consumes any one byte, Jump, Split and SaveCapture
consume nothing; nothing moves on from a Match. -/
def Move (prog : Prog) (input : List Nat) (a b : Nat × Nat) : Prop :=
  match prog.insts[a.1]? with
  | some (Inst.Char c) => input[a.2]? = some c ∧ b = (a.1 + 1, a.2 + 1)
  | some Inst.Any => a.2 < input.length ∧ b = (a.1 + 1, a.2 + 1)
  | some (Inst.Jmp x) => b = (x, a.2)
  | some (Inst.Split x y) => b = (x, a.2) ∨ b = (y, a.2)
  | some (Inst.Save _) => b = (a.1 + 1, a.2)
  | _ => False

/-- There is a path of moves from configuration `a`, through the
configurations `path`, that ends on a Match instruction having consumed `k`
bytes. -/
def PathTo (prog : Prog) (input : List Nat) (a : Nat × Nat) (path : List (Nat × Nat))
    (k : Nat) : Prop :=
  List.Chain (Move prog input) a path ∧
    ∃ pc, (a :: path).getLast? = some (pc, k) ∧ prog.insts[pc]? = some Inst.Match

/-- The program accepts a prefix of the input: for some `k ≤ input.length`
there is a path from the start instruction to a Match instruction that
consumes exactly the first `k` bytes. -/
def Accepts (prog : Prog) (input : List Nat) : Prop :=
  ∃ k path, k ≤ input.length ∧ PathTo prog input (prog.start, 0) path k

/-- From instruction `pc` a Match can be reached by consuming a prefix of
`rest`. -/
inductive AccFrom (prog : Prog) : List Nat → Nat → Prop
  | mtch {rest : List Nat} {pc : Nat} : prog.insts[pc]? = some Inst.Match →
      AccFrom prog rest pc
  | char {c : Nat} {rest : List Nat} {pc : Nat} : prog.insts[pc]? = some (Inst.Char c) →
      AccFrom prog rest (pc + 1) → AccFrom prog (c :: rest) pc
  | any {b : Nat} {rest : List Nat} {pc : Nat} : prog.insts[pc]? = some Inst.Any →
      AccFrom prog rest (pc + 1) → AccFrom prog (b :: rest) pc
  | jmp {rest : List Nat} {pc x : Nat} : prog.insts[pc]? = some (Inst.Jmp x) →
      AccFrom prog rest x → AccFrom prog rest pc
  | splitx {rest : List Nat} {pc x y : Nat} : prog.insts[pc]? = some (Inst.Split x y) →
      AccFrom prog rest x → AccFrom prog rest pc
  | splity {rest : List Nat} {pc x y : Nat} : prog.insts[pc]? = some (Inst.Split x y) →
      AccFrom prog rest y → AccFrom prog rest pc
  | save {rest : List Nat} {pc n : Nat} : prog.insts[pc]? = some (Inst.Save n) →
      AccFrom prog rest (pc + 1) → AccFrom prog rest pc

/-- The visited set and the list of one position fit together: every visited
instruction is dealt with and every thread of the list is scheduled. -/
def Closed (prog : Prog) (vis : List Nat) (nl : List Pure.Thread) : Prop :=
  (∀ q ∈ vis, CloseAt prog vis nl q) ∧ ∀ u ∈ nl, Sched prog u.pc

/-- The thread at instruction `pc` moves on over the byte `c`: the byte is not
the terminating NUL and the instruction is Consume-Any or Consume-Literal `c`. -/
def Adv (prog : Prog) (c pc : Nat) : Prop :=
  c ≠ 0 ∧ (prog.insts[pc]? = some (Inst.Char c) ∨ prog.insts[pc]? = some Inst.Any)

/-- The test behind `Sched`: the instruction at `pc` exists and is scheduled. -/
def schedB (prog : Prog) (pc : Nat) : Bool :=
  match prog.insts[pc]? with
  | some i => !i.isCtl
  | none => false

/-- The array the Thompson engine reports for a search on values with `n`
slots: offset 0 in slot 0, and in slot 1 the position of the best match. -/
def treported (n : Nat) : Option (Nat × Caps) → List (Option Nat)
  | some kc =>
    if 2 ≤ n then ((List.replicate n none).set 0 (some 0)).set 1 (some kc.1)
    else (List.replicate n none).set 0 (some 0)
  | none => (List.replicate n none).set 0 (some 0)

/-- A property of threads (instruction, captures, position) that every move
of the program keeps. -/
structure ThreadInv (prog : Prog) (I : Nat → Caps → Nat → Prop) : Prop where
  jmp : ∀ pc x caps sp, prog.insts[pc]? = some (Inst.Jmp x) → I pc caps sp → I x caps sp
  splitx : ∀ pc x y caps sp, prog.insts[pc]? = some (Inst.Split x y) → I pc caps sp →
    I x caps sp
  splity : ∀ pc x y caps sp, prog.insts[pc]? = some (Inst.Split x y) → I pc caps sp →
    I y caps sp
  save : ∀ pc n caps sp, prog.insts[pc]? = some (Inst.Save n) → I pc caps sp →
    I (pc + 1) (caps.set n (some sp)) sp
  char : ∀ pc c caps sp, prog.insts[pc]? = some (Inst.Char c) → I pc caps sp →
    I (pc + 1) caps (sp + 1)
  any : ∀ pc caps sp, prog.insts[pc]? = some Inst.Any → I pc caps sp →
    I (pc + 1) caps (sp + 1)

/-- The best match, if any, was found on a Match instruction by a thread with
the property `I`. -/
def MatchInv (prog : Prog) (I : Nat → Caps → Nat → Prop) (m : Option (Nat × Caps)) : Prop :=
  ∀ k caps, m = some (k, caps) → ∃ pc, prog.insts[pc]? = some Inst.Match ∧ I pc caps k

/-- The convention of the compiler for the end of the match: every
SaveCapture 1 is immediately followed by a Match. -/
def EndConv (prog : Prog) : Prop :=
  ∀ pc, pc < prog.len → prog.insts[pc]? = some (Inst.Save 1) →
    prog.insts[pc + 1]? = some Inst.Match

instance (prog : Prog) : Decidable (EndConv prog) := by
  unfold EndConv; infer_instance

/-- An anchored program: the start instruction is the only SaveCapture 0 and
no instruction has it as a successor. -/
def StartConv (prog : Prog) : Prop :=
  prog.insts[prog.start]? = some (Inst.Save 0) ∧
    ∀ pc, pc < prog.len →
      (prog.insts[pc]? = some (Inst.Save 0) → pc = prog.start) ∧
      prog.start ∉ (prog.insts.getD pc Inst.Match).succs pc

instance (prog : Prog) : Decidable (StartConv prog) := by
  unfold StartConv; infer_instance

/-- The unanchored search for `b`, the pattern `.*?(b)` as the parser of the
repository wraps it. -/
def findB : Prog :=
  ⟨[Inst.Split 3 1, Inst.Any, Inst.Jmp 0, Inst.Save 0, Inst.Char 98, Inst.Save 1,
    Inst.Match], 0⟩

/-! ## The depth-first search behind `backtrack`

The search `backtrack` performs with its explicit stack, written as a
recursion on values: the thread at `pc`, `sp` with captures `caps` is run to
its end, a Split running its primary successor first and its secondary
successor only when the primary one fails.  The bytes are read as
`backtrack.c` reads them. -/

/-- The depth-first search from one thread: `some caps` for the first Match
found, `none` when every path dies.  The fuel bounds the depth. -/
def dfs (prog : Prog) (input : List Nat) : Nat → Nat → Nat → Caps → Res (Option Caps)
  | 0, _, _, _ => .timeout
  | fuel + 1, pc, sp, caps =>
    match prog.insts[pc]? with
    | none => .fault
    | some (Inst.Char c) =>
      match peek input sp with
      | none => .fault
      | some b => if b ≠ c then .ok none else dfs prog input fuel (pc + 1) (sp + 1) caps
    | some Inst.Any =>
      match peek input sp with
      | none => .fault
      | some b => if b = 0 then .ok none else dfs prog input fuel (pc + 1) (sp + 1) caps
    | some Inst.Match => .ok (some caps)
    | some (Inst.Jmp x) => dfs prog input fuel x sp caps
    | some (Inst.Split x y) =>
      (dfs prog input fuel x sp caps).bind fun r =>
        match r with
        | some c => .ok (some c)
        | none => dfs prog input fuel y sp caps
    | some (Inst.Save n) => dfs prog input fuel (pc + 1) sp (caps.set n (some sp))

/-- Searches run one after the other, in order, until one finds a match: the
outcome is the first match found, `none` when every search ends without one.
Each search is given as a function of its fuel. -/
inductive FirstHit : List (Nat → Res (Option Caps)) → Option Caps → Prop
  | nil : FirstHit [] none
  | hit {g : Nat → Res (Option Caps)} {rest : List (Nat → Res (Option Caps))} {c : Caps} :
      (∃ f, g f = .ok (some c)) → FirstHit (g :: rest) (some c)
  | miss {g : Nat → Res (Option Caps)} {rest : List (Nat → Res (Option Caps))}
      {r : Option Caps} :
      (∃ f, g f = .ok none) → FirstHit rest r → FirstHit (g :: rest) r

/-- The depth-first searches from the threads of a list, all at position
`sp`. -/
def searches (prog : Prog) (input : List Nat) (sp : Nat) (l : List Pure.Thread) :
    List (Nat → Res (Option Caps)) :=
  l.map fun t f => dfs prog input f t.pc sp t.caps

/-- No Consume-Literal instruction carries the byte NUL. -/
def NoNulLit (prog : Prog) : Prop := Inst.Char 0 ∉ prog.insts

instance (prog : Prog) : Decidable (NoNulLit prog) := by
  unfold NoNulLit; infer_instance

/-- The outcome with the captures forgotten: how the search ended and
whether it found a match. -/
def shape : Res (Option Caps) → Res Bool
  | .ok r => .ok r.isSome
  | .fatal => .fatal
  | .fault => .fault
  | .timeout => .timeout

/-- A thread of `backtrack.c` with the captures behind its frame pointer:
instruction, string pointer, frame pointer, captures. -/
abbrev BTrip := Nat × Nat × Nat × Caps

/-- The waiting threads as `backtrack.c` holds them. -/
def bconc (T : List BTrip) : List Backtrack.Thread := T.map fun x => ⟨x.1, x.2.1, x.2.2.1⟩

/-- The waiting threads as owners of frames. -/
def bown (T : List BTrip) : List (Nat × Caps) := T.map fun x => (x.2.2.1, x.2.2.2)

/-- The depth-first searches from the waiting threads. -/
def bsearches (prog : Prog) (input : List Nat) (T : List BTrip) :
    List (Nat → Res (Option Caps)) :=
  T.map fun x f => dfs prog input f x.1 x.2.1 x.2.2.2

/-- The search from instruction `v` at position `sp` ends without a match,
whatever the captures. -/
def Fails (prog : Prog) (input : List Nat) (sp v : Nat) : Prop :=
  ∃ f c, dfs prog input f v sp c = .ok none

/-- The search from instruction `v` at position `sp` does not end within
fuel `f`. -/
def Pending (prog : Prog) (input : List Nat) (sp f v : Nat) : Prop :=
  ∀ c, dfs prog input f v sp c = .timeout

/-- The outcome of the searches of the next list, and behind it the best
match recorded so far. -/
def orBest (r : Option Caps) (m : Option (Nat × Caps)) : Option Caps :=
  match r with
  | some c => some c
  | none => m.map Prod.snd

/-- A Consume-Literal NUL in front of a Match. -/
def nulLit : Prog := ⟨[Inst.Char 0, Inst.Match], 0⟩

/-- A Split whose primary successor is a Jump to itself and whose secondary
successor is a Match. -/
def jumpLoop : Prog := ⟨[Inst.Split 1 2, Inst.Jmp 1, Inst.Match], 0⟩

/-! ## Relations between the engines and the searches on values -/

/-- What `addthread` of `pike.c` and the closure on values hand back after
adding to `l` and `pl`: the same new threads `N`, whose frames are accounted
for together with the other owners `O`. -/
def AddRel (prog : Prog) (gen : Nat) (l : List Pike.Thread) (pl : List Pure.Thread)
    (O : List (Nat × Caps)) (r : Pike.St × List Pike.Thread)
    (pr : List Nat × List Pure.Thread) : Prop :=
  ∃ N : List Trip, r.2 = l ++ conc N ∧ pr.2 = pl ++ pur N ∧ r.1.gen = gen ∧
    MarkRel gen r.1.marks pr.1 ∧ HeapInv r.1.heap (own N ++ O) ∧ ∀ x ∈ N, Sched prog x.1

/-- What the pass of `pikevm` over `clist` and the pass on values hand back. -/
def StepRel (prog : Prog) (gen : Nat) (r : Pike.St × List Pike.Thread × Option Nat)
    (pa : Pure.Acc) : Prop :=
  ∃ N : List Trip, r.2.1 = conc N ∧ pa.nlist = pur N ∧ r.1.gen = gen ∧
    MarkRel gen r.1.marks pa.vis ∧ r.2.2.isSome = pa.matched.isSome ∧
    HeapInv r.1.heap (own N ++ mown r.2.2 pa.matched) ∧ ∀ x ∈ N, Sched prog x.1

/-- What the outer loop of `pikevm` and the walk on values hand back. -/
def LoopRel (r : Pike.St × List Pike.Thread × Option Nat) (pm : Option (Nat × Caps)) : Prop :=
  r.2.1 = [] ∧ r.2.2.isSome = pm.isSome ∧ MarksLe r.1.gen r.1.marks ∧
    HeapInv r.1.heap (mown r.2.2 pm)

/-- What `pikevm` and the search on values hand back. -/
def PikeRel (n : Nat) (r : Pike.Ret) (pm : Option (Nat × Caps)) : Prop :=
  r.matched = pm.isSome ∧ r.subp = reported n pm ∧ (∀ p, refOf r.heap p = 0) ∧
    MarksLe r.gen r.marks ∧ r.clist = []

namespace Thompson

/-- What `addthread` of `thompson.c` and the closure on values hand back:
the scheduled instructions of the list are the threads of the list on values. -/
def AddRel (prog : Prog) (gen : Nat) (r : St × List Nat)
    (pr : List Nat × List Pure.Thread) : Prop :=
  r.1.gen = gen ∧ MarkRel gen r.1.marks pr.1 ∧
    r.2.filter (schedB prog) = pr.2.map Pure.Thread.pc ∧ ∀ q ∈ r.2, q < prog.len

/-- What the loops of `thompsonvm` and of the search on values carry. -/
def AccRel (prog : Prog) (gen n : Nat) (a : Acc) (pa : Pure.Acc) : Prop :=
  a.st.gen = gen ∧ MarkRel gen a.st.marks pa.vis ∧
    a.nlist.filter (schedB prog) = pa.nlist.map Pure.Thread.pc ∧
    (∀ q ∈ a.nlist, q < prog.len) ∧
    a.matched = pa.matched.isSome ∧ a.subp = treported n pa.matched

/-- What `thompsonvm` and the search on values hand back. -/
def LoopRel (n : Nat) (a : Acc) (pm : Option (Nat × Caps)) : Prop :=
  a.matched = pm.isSome ∧ a.subp = treported n pm ∧ MarksLe a.st.gen a.st.marks

end Thompson

/-- What `thompsonvm` hands back for a search on values. -/
def ThompsonRel (n : Nat) (r : Thompson.Ret) (pm : Option (Nat × Caps)) : Prop :=
  r.matched = pm.isSome ∧ r.subp = treported n pm ∧ MarksLe r.gen r.marks

/-- Slot 1 is unset, or holds the current position on a Match instruction. -/
def EndInv (prog : Prog) (pc : Nat) (caps : Caps) (sp : Nat) : Prop :=
  caps[1]? = some none ∨ (caps[1]? = some (some sp) ∧ prog.insts[pc]? = some Inst.Match)

/-- A thread stands on the start instruction at position 0 only, and past it
slot 0 holds offset 0. -/
def StartInv (prog : Prog) (pc : Nat) (caps : Caps) (sp : Nat) : Prop :=
  (pc = prog.start → sp = 0) ∧ (pc ≠ prog.start → caps[0]? = some (some 0)) ∧
    0 < caps.length

/-- What a call of `backtrack` that returns hands back, against the outcome
`res` of the depth-first search. -/
def BtRel (subp : List (Option Nat)) (r : Backtrack.Ret) (res : Option Caps) : Prop :=
  r.matched = res.isSome ∧ ∀ c, res = some c → r.subp = copyout c subp

/-- The program of Scenario A, the pattern `a(b|c)*` with its group saved in
slots 2 and 3. -/
def groupLoop : Prog :=
  ⟨[Inst.Save 0, Inst.Char 97, Inst.Split 3 10, Inst.Save 2, Inst.Split 5 7, Inst.Char 98,
    Inst.Jmp 8, Inst.Char 99, Inst.Save 3, Inst.Jmp 2, Inst.Save 1, Inst.Match], 0⟩

/-- The program of Scenario B, the pattern `a*` inside the overall captures. -/
def starLoop : Prog :=
  ⟨[Inst.Save 0, Inst.Split 2 4, Inst.Char 97, Inst.Jmp 1, Inst.Save 1, Inst.Match], 0⟩

/-! ## The recursive backtracker of the specification -/

/-- The purely recursive backtracker `run(pc, pos, caps)` in the words of the
specification, to be compared with `backtrack`: Consume-Literal and
Consume-Any fail on a mismatch or at the end of the input and otherwise go on
at `(pc + 1, pos + 1)`; Jump goes on at its successor; SaveCapture `k` goes on
at `pc + 1` with `caps[k] := pos`; Split tries its primary successor and, only
if that fails, its secondary successor with the captures as they were at the
Split; Match succeeds with `caps`.  The fuel bounds the depth. -/
def specRun (prog : Prog) (input : List Nat) : Nat → Nat → Nat → Caps → Res (Option Caps)
  | 0, _, _, _ => .timeout
  | fuel + 1, pc, pos, caps =>
    match prog.insts[pc]? with
    | none => .fault
    | some (Inst.Char c) =>
      if input[pos]? = some c then specRun prog input fuel (pc + 1) (pos + 1) caps
      else .ok none
    | some Inst.Any =>
      if pos < input.length then specRun prog input fuel (pc + 1) (pos + 1) caps
      else .ok none
    | some Inst.Match => .ok (some caps)
    | some (Inst.Jmp x) => specRun prog input fuel x pos caps
    | some (Inst.Split x y) =>
      (specRun prog input fuel x pos caps).bind fun r =>
        match r with
        | some found => .ok (some found)
        | none => specRun prog input fuel y pos caps
    | some (Inst.Save k) => specRun prog input fuel (pc + 1) pos (caps.set k (some pos))

/-- A Consume-Literal NUL in front of a SaveCapture and a Match. -/
def nulSave : Prog := ⟨[Inst.Char 0, Inst.Save 0, Inst.Match], 0⟩

/-! ## The lock-step engines with their lists checked

The lists `clist` and `nlist` are arrays allocated once by `threadlist(len)`.
The definitions below are the engines again, with the state of the lists
asserted where they change: the write `l->t[l->n] = t` of `addthread` must
fall in the first `prog.len` entries and must not repeat an instruction of
the list, and the list a pass starts on must hold no instruction twice.  A
failed assertion ends the run in `Res.fault`. -/

namespace Pike

/-- The function `addthread` of `pike.c` with the write to the list checked. -/
def addthreadChk (prog : Prog) :
    Nat → St → List Thread → Thread → Nat → Res (St × List Thread)
  | 0, _, _, _, _ => .timeout
  | fuel + 1, st, l, t, sp =>
    match prog.insts[t.pc]? with
    | none => .fault
    | some i =>
      if st.marks t.pc = st.gen then
        (decref t.sub st.heap).bind fun h => .ok (⟨st.gen, st.marks, h⟩, l)
      else
        let m := mark st.marks t.pc st.gen
        match i with
        | Inst.Jmp x => addthreadChk prog fuel ⟨st.gen, m, st.heap⟩ l ⟨x, t.sub⟩ sp
        | Inst.Split x y =>
          (incref t.sub st.heap).bind fun h =>
            (addthreadChk prog fuel ⟨st.gen, m, h⟩ l ⟨x, t.sub⟩ sp).bind fun r =>
              addthreadChk prog fuel r.1 r.2 ⟨y, t.sub⟩ sp
        | Inst.Save n =>
          (update t.sub n sp st.heap).bind fun r =>
            addthreadChk prog fuel ⟨st.gen, m, r.1⟩ l ⟨t.pc + 1, r.2⟩ sp
        | _ =>
          if l.length < prog.len ∧ t.pc ∉ l.map Thread.pc then
            .ok (⟨st.gen, m, st.heap⟩, l ++ [t])
          else .fault

/-- The inner loop of `pikevm` over `addthreadChk`. -/
def stepChk (prog : Prog) (fuel c sp : Nat) :
    List Thread → St → List Thread → Option Nat → Res (St × List Thread × Option Nat)
  | [], st, nl, m => .ok (st, nl, m)
  | t :: rest, st, nl, m =>
    match prog.insts[t.pc]? with
    | none => .fault
    | some (Inst.Char k) =>
      if c ≠ k then
        (decref t.sub st.heap).bind fun h =>
          stepChk prog fuel c sp rest ⟨st.gen, st.marks, h⟩ nl m
      else if c = 0 then
        (decref t.sub st.heap).bind fun h =>
          stepChk prog fuel c sp rest ⟨st.gen, st.marks, h⟩ nl m
      else
        (addthreadChk prog fuel st nl ⟨t.pc + 1, t.sub⟩ (sp + 1)).bind fun r =>
          stepChk prog fuel c sp rest r.1 r.2 m
    | some Inst.Any =>
      if c = 0 then
        (decref t.sub st.heap).bind fun h =>
          stepChk prog fuel c sp rest ⟨st.gen, st.marks, h⟩ nl m
      else
        (addthreadChk prog fuel st nl ⟨t.pc + 1, t.sub⟩ (sp + 1)).bind fun r =>
          stepChk prog fuel c sp rest r.1 r.2 m
    | some Inst.Match =>
      (match m with
        | some old => decref old st.heap
        | none => .ok st.heap).bind fun h =>
        (release rest h).bind fun h1 => .ok (⟨st.gen, st.marks, h1⟩, nl, some t.sub)
    | some _ => stepChk prog fuel c sp rest st nl m

/-- The state of `clist` asserted at the head of a pass: no instruction twice
and at most `prog.len` entries. -/
def listOk (prog : Prog) (pcs : List Nat) : Prop := pcs.Nodup ∧ pcs.length ≤ prog.len

instance (prog : Prog) (pcs : List Nat) : Decidable (listOk prog pcs) := by
  unfold listOk; infer_instance

/-- The outer loop of `pikevm` over `stepChk`, with `clist` checked at the
head of every pass. -/
def loopChk (prog : Prog) (fuel : Nat) :
    List Nat → Nat → St → List Thread → Option Nat → Res (St × List Thread × Option Nat)
  | [], sp, st, cl, m =>
    if ¬ listOk prog (cl.map Thread.pc) then .fault
    else if cl.length = 0 then .ok (st, cl, m)
    else stepChk prog fuel 0 sp cl ⟨st.gen + 1, st.marks, st.heap⟩ [] m
  | c :: rest, sp, st, cl, m =>
    if ¬ listOk prog (cl.map Thread.pc) then .fault
    else if cl.length = 0 then .ok (st, cl, m)
    else
      (stepChk prog fuel c sp cl ⟨st.gen + 1, st.marks, st.heap⟩ [] m).bind fun r =>
        if c = 0 then .ok r else loopChk prog fuel rest (sp + 1) r.1 r.2.1 r.2.2

end Pike

/-- The function `pikevm` over the checked lists. -/
def pikevmChk (prog : Prog) (input : List Nat) (subp : List (Option Nat))
    (gen : Nat) (marks : Nat → Nat) : Res Pike.Ret :=
  let subp0 : List (Option Nat) := List.replicate subp.length none
  let a := newsub subp.length []
  let h := clearsub a.2 subp.length a.1
  let fuel := prog.len + 1
  (Pike.addthreadChk prog fuel ⟨gen + 1, marks, h⟩ [] ⟨prog.start, a.2⟩ 0).bind fun r =>
    (Pike.loopChk prog fuel input 0 r.1 r.2 none).bind fun e =>
      match e.2.2 with
      | some s =>
        (decref s e.1.heap).bind fun h1 =>
          .ok ⟨true, copyout (frame e.1.heap s) subp0, e.1.gen, e.1.marks, h1, e.2.1⟩
      | none => .ok ⟨false, subp0, e.1.gen, e.1.marks, e.1.heap, e.2.1⟩

namespace Thompson

/-- The function `addthread` of `thompson.c` with the write to the list
checked. -/
def addthreadChk (prog : Prog) : Nat → St → List Nat → Nat → Res (St × List Nat)
  | 0, _, _, _ => .timeout
  | fuel + 1, st, l, pc =>
    match prog.insts[pc]? with
    | none => .fault
    | some i =>
      if st.marks pc = st.gen then .ok (st, l)
      else if ¬ (l.length < prog.len ∧ pc ∉ l) then .fault
      else
        let st1 : St := ⟨st.gen, Pike.mark st.marks pc st.gen⟩
        let l1 := l ++ [pc]
        match i with
        | Inst.Jmp x => addthreadChk prog fuel st1 l1 x
        | Inst.Split x y =>
          (addthreadChk prog fuel st1 l1 x).bind fun r => addthreadChk prog fuel r.1 r.2 y
        | Inst.Save _ => addthreadChk prog fuel st1 l1 (pc + 1)
        | _ => .ok (st1, l1)

/-- The inner loop of `thompsonvm` over `addthreadChk`. -/
def stepChk (prog : Prog) (fuel c sp : Nat) : List Nat → Acc → Res Acc
  | [], a => .ok a
  | pc :: rest, a =>
    match prog.insts[pc]? with
    | none => .fault
    | some (Inst.Char k) =>
      if c ≠ k then stepChk prog fuel c sp rest a
      else if c = 0 then stepChk prog fuel c sp rest a
      else
        (addthreadChk prog fuel a.st a.nlist (pc + 1)).bind fun r =>
          stepChk prog fuel c sp rest ⟨r.1, r.2, a.matched, a.subp⟩
    | some Inst.Any =>
      if c = 0 then stepChk prog fuel c sp rest a
      else
        (addthreadChk prog fuel a.st a.nlist (pc + 1)).bind fun r =>
          stepChk prog fuel c sp rest ⟨r.1, r.2, a.matched, a.subp⟩
    | some Inst.Match =>
      .ok ⟨a.st, a.nlist, true, if 2 ≤ a.subp.length then a.subp.set 1 (some sp) else a.subp⟩
    | some _ => stepChk prog fuel c sp rest a

/-- The outer loop of `thompsonvm` over `stepChk`, with `clist` checked at
the head of every pass. -/
def loopChk (prog : Prog) (fuel : Nat) : List Nat → Nat → List Nat → Acc → Res Acc
  | [], sp, cl, a =>
    if ¬ Pike.listOk prog cl then .fault
    else if cl.length = 0 then .ok ⟨a.st, cl, a.matched, a.subp⟩
    else stepChk prog fuel 0 sp cl ⟨⟨a.st.gen + 1, a.st.marks⟩, [], a.matched, a.subp⟩
  | c :: rest, sp, cl, a =>
    if ¬ Pike.listOk prog cl then .fault
    else if cl.length = 0 then .ok ⟨a.st, cl, a.matched, a.subp⟩
    else
      (stepChk prog fuel c sp cl ⟨⟨a.st.gen + 1, a.st.marks⟩, [], a.matched, a.subp⟩).bind
        fun r => if c = 0 then .ok r else loopChk prog fuel rest (sp + 1) r.nlist r

end Thompson

/-- The function `thompsonvm` over the checked lists. -/
def thompsonvmChk (prog : Prog) (input : List Nat) (subp : List (Option Nat))
    (gen : Nat) (marks : Nat → Nat) : Res Thompson.Ret :=
  let subp0 : List (Option Nat) := List.replicate subp.length none
  let subp1 := if 1 ≤ subp.length then subp0.set 0 (some 0) else subp0
  let fuel := prog.len + 1
  (Thompson.addthreadChk prog fuel ⟨gen + 1, marks⟩ [] prog.start).bind fun r =>
    (Thompson.loopChk prog fuel input 0 r.2 ⟨r.1, [], false, subp1⟩).bind fun e =>
      .ok ⟨e.matched, e.subp, e.st.gen, e.st.marks⟩

/-- The list `l` of instructions is in order for the generation state: it
holds no instruction twice, and each of its instructions is inside the
program and marked with the current generation. -/
def ListInv (prog : Prog) (gen : Nat) (marks : Nat → Nat) (pcs : List Nat) : Prop :=
  pcs.Nodup ∧ ∀ q ∈ pcs, marks q = gen ∧ q < prog.len

/-- The instructions of the program not marked with the current generation:
what a call of `addthread` can still mark. -/
def unmarked (prog : Prog) (gen : Nat) (marks : Nat → Nat) : Nat :=
  (List.range prog.len).countP fun pc => decide (marks pc ≠ gen)

/-- A ring of Jumps: each instruction jumps to the next one, the last one
back to the first. -/
def jumpRing : Prog := ⟨[Inst.Jmp 1, Inst.Jmp 2, Inst.Jmp 0], 0⟩

/-! ## A measure for the runs of `backtrack` -/

/-- The successors of an instruction that `backtrack` runs with the stack no
higher than it is, without consuming a byte: the target of a Jump, the
instruction after a SaveCapture, and the secondary successor of a Split,
which waits on the stack while the primary successor is run above it. -/
def Inst.level (pc : Nat) : Inst → List Nat
  | .Jmp x => [x]
  | .Split _ y => [y]
  | .Save _ => [pc + 1]
  | _ => []

/-- The instructions control can reach from the start instruction. -/
inductive Reach (prog : Prog) : Nat → Prop
  | start : Reach prog prog.start
  | move {pc q : Nat} {i : Inst} : Reach prog pc → prog.insts[pc]? = some i →
      q ∈ i.succs pc → Reach prog q

/-- A ranking of the instructions that falls, at every instruction control can
reach, along a Jump, along a SaveCapture and along the move from a Split to
its secondary successor: every cycle of reachable moves that consume no input
goes through the primary successor of a Split. -/
def Ranked (prog : Prog) (rk : Nat → Nat) : Prop :=
  ∀ pc, Reach prog pc → ∀ i, prog.insts[pc]? = some i → ∀ q ∈ i.level pc, rk q < rk pc

/-- A Split whose primary successor is the Split itself, before a Match, and
behind them a Jump to itself that control never reaches. -/
def primaryLoop : Prog := ⟨[Inst.Split 0 1, Inst.Match, Inst.Jmp 2], 0⟩

namespace Backtrack

/-- The weight of a thread at instruction `pc` and position `sp` that runs
with `h` threads waiting below it, on an input of `n` bytes and with the
ranks bounded by `b`: it bounds the instructions `backtrack` can execute on
behalf of the thread and of the threads it pushes. -/
def weight (rk : Nat → Nat) (n b h pc sp : Nat) : Nat :=
  3 ^ (((MAX - h) * (n + 1) + (n - sp)) * (b + 1) + rk pc)

/-- The weight of the threads waiting on the stack, the top one first: each
is run when the threads above it are gone. -/
def stackWeight (rk : Nat → Nat) (n b : Nat) : List Thread → Nat
  | [] => 0
  | t :: rest => weight rk n b rest.length t.pc t.sp + stackWeight rk n b rest

/-- The weight of a state of `backtrack`: of the thread being run and of the
threads waiting on the stack. -/
def total (rk : Nat → Nat) (n b : Nat) (s : State) : Nat :=
  weight rk n b s.ready.length s.pc s.sp + stackWeight rk n b s.ready

/-- A state of `backtrack` in order: the frames are accounted for by the
thread being run and the waiting threads, whose instructions lie inside the
program and are reached from the start instruction, and whose positions lie
inside the input. -/
def Live (prog : Prog) (input : List Nat) (s : State) : Prop :=
  ∃ (caps : Caps) (T : List BTrip), s.ready = bconc T ∧
    HeapInv s.heap ((s.sub, caps) :: bown T) ∧ s.pc < prog.len ∧ s.sp ≤ input.length ∧
    Reach prog s.pc ∧
    ∀ t ∈ s.ready, t.pc < prog.len ∧ t.sp ≤ input.length ∧ Reach prog t.pc

end Backtrack

/-- Every offset held by the captures is at most `n`. -/
def CapsLe (caps : Caps) (n : Nat) : Prop := ∀ p, some p ∈ caps → p ≤ n

/-! ## The position of the match `pikevm` keeps -/

/-- A program whose SaveCapture 1 comes before the byte it consumes. -/
def earlyEnd : Prog := ⟨[Inst.Save 0, Inst.Save 1, Inst.Char 97, Inst.Match], 0⟩

/-- The position recorded by a pass at `sp` over the instructions `pcs`: `sp`
when one of them is a Match, and `g`, what was recorded before, otherwise. -/
def hitAt (prog : Prog) (sp : Nat) : List Nat → Option Nat → Option Nat
  | [], g => g
  | pc :: rest, g =>
    if prog.insts[pc]? = some Inst.Match then some sp else hitAt prog sp rest g

namespace Pike

/-- The inner `for` loop of `pikevm` with one observation added: `g` is the
value of `sp` at which the case `Match` last replaced `matched`.  Everything
else is `step`. -/
def stepAt (prog : Prog) (fuel c sp : Nat) :
    List Thread → St → List Thread → Option Nat → Option Nat →
      Res ((St × List Thread × Option Nat) × Option Nat)
  | [], st, nl, m, g => .ok ((st, nl, m), g)
  | t :: rest, st, nl, m, g =>
    match prog.insts[t.pc]? with
    | none => .fault
    | some (Inst.Char k) =>
      if c ≠ k then
        (decref t.sub st.heap).bind fun h =>
          stepAt prog fuel c sp rest ⟨st.gen, st.marks, h⟩ nl m g
      else if c = 0 then
        (decref t.sub st.heap).bind fun h =>
          stepAt prog fuel c sp rest ⟨st.gen, st.marks, h⟩ nl m g
      else
        (addthread prog fuel st nl ⟨t.pc + 1, t.sub⟩ (sp + 1)).bind fun r =>
          stepAt prog fuel c sp rest r.1 r.2 m g
    | some Inst.Any =>
      if c = 0 then
        (decref t.sub st.heap).bind fun h =>
          stepAt prog fuel c sp rest ⟨st.gen, st.marks, h⟩ nl m g
      else
        (addthread prog fuel st nl ⟨t.pc + 1, t.sub⟩ (sp + 1)).bind fun r =>
          stepAt prog fuel c sp rest r.1 r.2 m g
    | some Inst.Match =>
      (match m with
        | some old => decref old st.heap
        | none => .ok st.heap).bind fun h =>
        (release rest h).bind fun h1 =>
          .ok ((⟨st.gen, st.marks, h1⟩, nl, some t.sub), some sp)
    | some _ => stepAt prog fuel c sp rest st nl m g

/-- The outer loop of `pikevm` with the observation of `stepAt`. -/
def loopAt (prog : Prog) (fuel : Nat) :
    List Nat → Nat → St → List Thread → Option Nat → Option Nat →
      Res ((St × List Thread × Option Nat) × Option Nat)
  | [], sp, st, cl, m, g =>
    if cl.length = 0 then .ok ((st, cl, m), g)
    else stepAt prog fuel 0 sp cl ⟨st.gen + 1, st.marks, st.heap⟩ [] m g
  | c :: rest, sp, st, cl, m, g =>
    if cl.length = 0 then .ok ((st, cl, m), g)
    else
      (stepAt prog fuel c sp cl ⟨st.gen + 1, st.marks, st.heap⟩ [] m g).bind fun r =>
        if c = 0 then .ok r else loopAt prog fuel rest (sp + 1) r.1.1 r.1.2.1 r.1.2.2 r.2

end Pike

/-- The function `pikevm` with the observation of `Pike.stepAt`: next to what
`pikevm` hands back, the position at which the match it reports was found on
a Match instruction, if there is one. -/
def pikevmAt (prog : Prog) (input : List Nat) (subp : List (Option Nat))
    (gen : Nat) (marks : Nat → Nat) : Res (Pike.Ret × Option Nat) :=
  let subp0 : List (Option Nat) := List.replicate subp.length none
  let a := newsub subp.length []
  let h := clearsub a.2 subp.length a.1
  let fuel := prog.len + 1
  (Pike.addthread prog fuel ⟨gen + 1, marks, h⟩ [] ⟨prog.start, a.2⟩ 0).bind fun r =>
    (Pike.loopAt prog fuel input 0 r.1 r.2 none none).bind fun e =>
      match e.1.2.2 with
      | some s =>
        (decref s e.1.1.heap).bind fun h1 =>
          .ok (⟨true, copyout (frame e.1.1.heap s) subp0, e.1.1.gen, e.1.1.marks, h1,
            e.1.2.1⟩, e.2)
      | none => .ok (⟨false, subp0, e.1.1.gen, e.1.1.marks, e.1.1.heap, e.1.2.1⟩, e.2)

/-! # Properties -/

/-! ## Outcomes -/

@[simp] theorem Res.bind_ok {α β : Type} (a : α) (f : α → Res β) :
    (Res.ok a).bind f = f a := rfl

@[simp] theorem Res.bind_fatal {α β : Type} (f : α → Res β) :
    (Res.fatal : Res α).bind f = .fatal := rfl

@[simp] theorem Res.bind_fault {α β : Type} (f : α → Res β) :
    (Res.fault : Res α).bind f = .fault := rfl

@[simp] theorem Res.bind_timeout {α β : Type} (f : α → Res β) :
    (Res.timeout : Res α).bind f = .timeout := rfl

theorem Res.bind_eq_ok {α β : Type} {a : Res α} {f : α → Res β} {b : β} :
    a.bind f = .ok b ↔ ∃ x, a = .ok x ∧ f x = .ok b := by
  cases a <;> simp

/-! ## The backtracking loop and its fuel -/

namespace Backtrack

theorem run_succ_eq (prog : Prog) (input : List Nat) (subp : List (Option Nat)) (f : Nat)
    (s : State) :
    run prog input subp (f + 1) s =
      (exec prog input subp s).bind fun n =>
        match n with
        | .inl r => .ok r
        | .inr s1 => run prog input subp f s1 := rfl

/-- One more unit of fuel does not change a run that has ended. -/
theorem run_succ (prog : Prog) (input : List Nat) (subp : List (Option Nat)) :
    ∀ f s, run prog input subp f s ≠ .timeout →
      run prog input subp (f + 1) s = run prog input subp f s := by
  intro f
  induction f with
  | zero => intro s h; simp [run] at h
  | succ f ih =>
    intro s h
    rw [run_succ_eq prog input subp (f + 1), run_succ_eq prog input subp f]
    rw [run_succ_eq prog input subp f] at h
    cases he : exec prog input subp s with
    | ok n =>
      cases n with
      | inl r => simp
      | inr s1 =>
        rw [he] at h
        simp only [Res.bind_ok] at h ⊢
        exact ih s1 h
    | fatal => simp
    | fault => simp
    | timeout => simp

/-- More fuel does not change a run that has ended. -/
theorem run_mono (prog : Prog) (input : List Nat) (subp : List (Option Nat)) (f : Nat)
    (s : State) (h : run prog input subp f s ≠ .timeout) :
    ∀ k, run prog input subp (f + k) s = run prog input subp f s := by
  intro k
  induction k with
  | zero => rfl
  | succ k ih =>
    rw [← Nat.add_assoc, run_succ prog input subp (f + k) s (by rw [ih]; exact h), ih]

theorem dead_inl {subp : List (Option Nat)} {s : State} {r : Ret}
    (h : dead subp s = .ok (.inl r)) : r.matched = false ∧ r.subp = subp := by
  unfold dead at h
  obtain ⟨h1, -, h2⟩ := Res.bind_eq_ok.1 h
  cases hr : s.ready with
  | nil => rw [hr] at h2; simp at h2; subst h2; exact ⟨rfl, rfl⟩
  | cons t rest =>
    rw [hr] at h2
    by_cases h0 : refOf h1 t.sub = 0 <;> simp [h0] at h2

/-- A turn that returns without a match leaves the array of the caller as it
was. -/
theorem exec_inl_unmatched {prog : Prog} {input : List Nat} {subp : List (Option Nat)}
    {s : State} {r : Ret} (h : exec prog input subp s = .ok (.inl r))
    (hm : r.matched = false) : r.subp = subp := by
  unfold exec at h
  split at h
  · simp at h
  · split at h
    · simp at h
    · split at h
      · exact (dead_inl h).2
      · simp at h
  · split at h
    · simp at h
    · split at h
      · exact (dead_inl h).2
      · simp at h
  · obtain ⟨h1, -, h2⟩ := Res.bind_eq_ok.1 h
    simp at h2; subst h2; simp at hm
  · simp at h
  · split at h
    · simp at h
    · obtain ⟨h1, -, h2⟩ := Res.bind_eq_ok.1 h
      simp at h2
  · obtain ⟨h1, -, h2⟩ := Res.bind_eq_ok.1 h
    simp at h2

theorem run_unmatched (prog : Prog) (input : List Nat) (subp : List (Option Nat)) :
    ∀ f s r, run prog input subp f s = .ok r → r.matched = false → r.subp = subp := by
  intro f
  induction f with
  | zero => intro s r h; simp [run] at h
  | succ f ih =>
    intro s r h hm
    rw [run_succ_eq] at h
    obtain ⟨n, hn, h2⟩ := Res.bind_eq_ok.1 h
    cases n with
    | inl r1 =>
      simp at h2; subst h2
      exact exec_inl_unmatched hn hm
    | inr s1 => exact ih s1 r h2 hm

end Backtrack

/-! ## What a failed call leaves in the array of the caller -/

namespace Thompson

theorem step_unmatched (prog : Prog) (fuel c sp : Nat) :
    ∀ cl a r, step prog fuel c sp cl a = .ok r → r.matched = false →
      a.matched = false ∧ r.subp = a.subp := by
  intro cl
  induction cl with
  | nil => intro a r h hm; simp [step] at h; subst h; exact ⟨hm, rfl⟩
  | cons pc rest ih =>
    intro a r h hm
    rw [step] at h
    split at h
    · simp at h
    · split at h
      · exact ih _ r h hm
      · split at h
        · exact ih _ r h hm
        · obtain ⟨x, -, h2⟩ := Res.bind_eq_ok.1 h
          have := ih _ r h2 hm
          exact this
    · split at h
      · exact ih _ r h hm
      · obtain ⟨x, -, h2⟩ := Res.bind_eq_ok.1 h
        have := ih _ r h2 hm
        exact this
    · simp at h; subst h; simp at hm
    · exact ih _ r h hm

theorem loop_unmatched (prog : Prog) (fuel : Nat) :
    ∀ inp sp cl a r, loop prog fuel inp sp cl a = .ok r → r.matched = false →
      a.matched = false ∧ r.subp = a.subp := by
  intro inp
  induction inp with
  | nil =>
    intro sp cl a r h hm
    rw [loop] at h
    split at h
    · simp at h; subst h; exact ⟨hm, rfl⟩
    · have := step_unmatched prog fuel 0 sp cl _ r h hm
      exact this
  | cons c rest ih =>
    intro sp cl a r h hm
    rw [loop] at h
    split at h
    · simp at h; subst h; exact ⟨hm, rfl⟩
    · obtain ⟨x, hx, h2⟩ := Res.bind_eq_ok.1 h
      split at h2
      · simp at h2; subst h2
        have := step_unmatched prog fuel c sp cl _ x hx hm
        exact this
      · obtain ⟨h3, h4⟩ := ih _ _ _ r h2 hm
        have := step_unmatched prog fuel c sp cl _ x hx h3
        exact ⟨this.1, h4.trans this.2⟩

end Thompson

/-- C5, counterexample: on the program `Char a; Match` and the input `b` the
Thompson engine returns no match, yet slot 0 of the array holds offset 0. -/
theorem thompson_failure_keeps_slot0 :
    ∃ r, thompsonvm ⟨[Inst.Char 97, Inst.Match], 0⟩ [98] [none, none] 0 (fun _ => 0) = .ok r ∧
      r.matched = false ∧ r.subp ≠ List.replicate 2 none :=
  ⟨_, rfl, rfl, by decide⟩

/-- C5, amended: when an engine returns `matched = false`, the Pike engine
reports every slot unset, the Thompson engine reports every slot unset apart
from slot 0, which holds offset 0, and the backtracking engine leaves the
array of the caller exactly as it was handed in. -/
theorem failure_leaves_captures (prog : Prog) (input : List Nat) (subp : List (Option Nat)) :
    (∀ gen marks r, pikevm prog input subp gen marks = .ok r → r.matched = false →
      r.subp = List.replicate subp.length none) ∧
    (∀ gen marks r, thompsonvm prog input subp gen marks = .ok r → r.matched = false →
      r.subp = (List.replicate subp.length none).set 0 (some 0)) ∧
    (∀ fuel r, backtrack prog input subp fuel = .ok r → r.matched = false →
      r.subp = subp) := by
  refine ⟨?_, ?_, ?_⟩
  · intro gen marks r h hm
    unfold pikevm at h
    obtain ⟨x, -, h⟩ := Res.bind_eq_ok.1 h
    obtain ⟨e, -, h⟩ := Res.bind_eq_ok.1 h
    split at h
    · obtain ⟨h1, -, h⟩ := Res.bind_eq_ok.1 h
      simp at h; subst h; simp at hm
    · simp at h; subst h; rfl
  · intro gen marks r h hm
    unfold thompsonvm at h
    obtain ⟨x, -, h⟩ := Res.bind_eq_ok.1 h
    obtain ⟨e, he, h⟩ := Res.bind_eq_ok.1 h
    simp at h; subst h
    have := (Thompson.loop_unmatched prog _ input 0 _ _ e he hm).2
    simp only at this hm ⊢
    rw [this]
    split
    · rfl
    · rename_i h0
      have : subp.length = 0 := by omega
      simp [this]
  · intro fuel r h hm
    simp only [backtrack] at h
    split at h
    · simp at h
    · exact Backtrack.run_unmatched prog input subp fuel _ r h hm

/-- C5, the amended statement at work on the program `Char a; Match` and the
input `b`, for each of the three engines. -/
theorem failure_leaves_captures_witness :
    (∃ r, pikevm ⟨[Inst.Char 97, Inst.Match], 0⟩ [98] [some 7, none] 0 (fun _ => 0) = .ok r ∧
      r.matched = false ∧ r.subp = [none, none]) ∧
    (∃ r, thompsonvm ⟨[Inst.Char 97, Inst.Match], 0⟩ [98] [some 7, none] 0 (fun _ => 0) = .ok r ∧
      r.matched = false ∧ r.subp = [some 0, none]) ∧
    (∃ r, backtrack ⟨[Inst.Char 97, Inst.Match], 0⟩ [98] [some 7, none] 5 = .ok r ∧
      r.matched = false ∧ r.subp = [some 7, none]) := by
  have key := failure_leaves_captures ⟨[Inst.Char 97, Inst.Match], 0⟩ [98] [some 7, none]
  refine ⟨⟨_, rfl, rfl, ?_⟩, ⟨_, rfl, rfl, ?_⟩, ⟨_, rfl, rfl, ?_⟩⟩
  · exact key.1 0 (fun _ => 0) _ rfl rfl
  · exact key.2.1 0 (fun _ => 0) _ rfl rfl
  · exact key.2.2 5 _ rfl rfl

/-! ## Frames left behind by a successful backtracking call -/

/-- C8, the code at the failing input: on the program of `a|ab` and the input
`ab` the backtracking engine returns a match while the frame shared with the
thread still waiting on the stack keeps reference count 1. -/
theorem backtrack_match_leaks_waiting_frame :
    backtrack aOrAb [97, 98] [none, none] 20 =
      .ok ⟨true, [some 0, some 1], [⟨1, [some 0, none]⟩, ⟨0, [some 0, some 1]⟩]⟩ := by
  decide

/-! ## Priority of the primary successor -/

/-- C10: on the program of `a|ab` and any input beginning with `ab`, with an
array of at least two slots and markers that do not exceed the generation
counter, `backtrack` and `pikevm` return a match with offsets (0, 1) and
`thompsonvm` returns a match with end offset 1. -/
theorem priority_determinism (rest : List Nat) (subp : List (Option Nat)) (gen : Nat)
    (marks : Nat → Nat) (hn : 2 ≤ subp.length) (hm : ∀ pc, marks pc ≤ gen) :
    (∃ r, backtrack aOrAb (97 :: 98 :: rest) subp 9 = .ok r ∧ r.matched = true ∧
      r.subp[0]? = some (some 0) ∧ r.subp[1]? = some (some 1)) ∧
    (∃ r, pikevm aOrAb (97 :: 98 :: rest) subp gen marks = .ok r ∧ r.matched = true ∧
      r.subp[0]? = some (some 0) ∧ r.subp[1]? = some (some 1)) ∧
    (∃ r, thompsonvm aOrAb (97 :: 98 :: rest) subp gen marks = .ok r ∧ r.matched = true ∧
      r.subp[1]? = some (some 1)) := by
  obtain ⟨a, b, tail, rfl⟩ : ∃ a b tail, subp = a :: b :: tail := by
    match subp, hn with
    | a :: b :: tail, _ => exact ⟨a, b, tail, rfl⟩
  have h1 : ∀ pc, marks pc ≠ gen + 1 := fun pc => by have := hm pc; omega
  have h2 : ∀ pc, marks pc ≠ gen + 1 + 1 := fun pc => by have := hm pc; omega
  have h3 : ∀ pc, marks pc ≠ gen + 1 + 1 + 1 := fun pc => by have := hm pc; omega
  refine ⟨?_, ?_, ?_⟩
  · simp [backtrack, Backtrack.run, Backtrack.exec, Backtrack.dead, aOrAb, newsub, clearsub,
      refOf, update, incref, decref, peek, frame, copyout, Backtrack.MAX,
      List.replicate_succ, List.range_succ_eq_map]
  · cases rest <;>
    simp [pikevm, Pike.addthread, Pike.loop, Pike.step, Pike.release, Pike.mark, aOrAb,
      Prog.len, newsub, clearsub, refOf, update, incref, decref, peek, frame, copyout,
      List.replicate_succ, List.range_succ_eq_map, h1, h2, h3]
  · cases rest <;>
    simp [thompsonvm, Thompson.addthread, Thompson.loop, Thompson.step, Pike.mark, aOrAb,
      Prog.len, List.replicate_succ, h1, h2, h3]

/-- C10 at the input `abc` with two slots and a fresh generation state. -/
theorem priority_determinism_witness :
    (2 ≤ [none, (none : Option Nat)].length ∧ ∀ pc : Nat, (fun _ => 0) pc ≤ 0) ∧
    (∃ r, backtrack aOrAb [97, 98, 99] [none, none] 9 = .ok r ∧ r.matched = true ∧
      r.subp[0]? = some (some 0) ∧ r.subp[1]? = some (some 1)) :=
  ⟨⟨by decide, fun _ => Nat.le_refl 0⟩,
   (priority_determinism [99] [none, none] 0 (fun _ => 0) (by decide)
      (fun _ => Nat.le_refl 0)).1⟩

/-! ## Frames: reading after writing -/

theorem refOf_set (h : Heap) (s p : Nat) (c : Sub) :
    refOf (h.set s c) p = if s = p ∧ s < h.length then c.ref else refOf h p := by
  unfold refOf
  rw [List.getElem?_set]
  by_cases hsp : s = p
  · subst hsp
    by_cases hl : s < h.length
    · simp [hl]
    · simp [hl, List.getElem?_eq_none (Nat.le_of_not_lt hl)]
  · simp [hsp]

theorem frame_set (h : Heap) (s p : Nat) (c : Sub) :
    frame (h.set s c) p = if s = p ∧ s < h.length then c.sub else frame h p := by
  unfold frame
  rw [List.getElem?_set]
  by_cases hsp : s = p
  · subst hsp
    by_cases hl : s < h.length
    · simp [hl]
    · simp [hl, List.getElem?_eq_none (Nat.le_of_not_lt hl)]
  · simp [hsp]

theorem refOf_append (h : Heap) (p : Nat) (c : Sub) :
    refOf (h ++ [c]) p = if p = h.length then c.ref else refOf h p := by
  unfold refOf
  rw [List.getElem?_append]
  by_cases hl : p < h.length
  · simp [hl, Nat.ne_of_lt hl]
  · by_cases he : p = h.length
    · subst he; simp
    · have : 1 ≤ p - h.length := by omega
      simp [hl, he, List.getElem?_eq_none (Nat.le_of_not_lt hl),
        List.getElem?_eq_none (l := [c]) (n := p - h.length) (by simpa using this)]

theorem frame_append (h : Heap) (p : Nat) (c : Sub) :
    frame (h ++ [c]) p = if p = h.length then c.sub else frame h p := by
  unfold frame
  rw [List.getElem?_append]
  by_cases hl : p < h.length
  · simp [hl, Nat.ne_of_lt hl]
  · by_cases he : p = h.length
    · subst he; simp
    · have : 1 ≤ p - h.length := by omega
      simp [hl, he, List.getElem?_eq_none (Nat.le_of_not_lt hl),
        List.getElem?_eq_none (l := [c]) (n := p - h.length) (by simpa using this)]

theorem refOf_eq_zero_of_le (h : Heap) (p : Nat) (hp : h.length ≤ p) : refOf h p = 0 := by
  unfold refOf; rw [List.getElem?_eq_none hp]

theorem getElem?_of_refOf_pos {h : Heap} {p : Nat} (hp : 0 < refOf h p) :
    h[p]? = some ⟨refOf h p, frame h p⟩ := by
  unfold refOf frame at *
  cases hc : h[p]? with
  | none => rw [hc] at hp; simp at hp
  | some c => rfl

theorem lt_length_of_refOf_pos {h : Heap} {p : Nat} (hp : 0 < refOf h p) : p < h.length := by
  by_contra hl
  rw [refOf_eq_zero_of_le h p (Nat.le_of_not_lt hl)] at hp
  exact Nat.lt_irrefl 0 hp

/-! ## Ownership is kept by the frame operations -/

theorem HeapInv.perm {h : Heap} {O O1 : List (Nat × Caps)} (hp : O.Perm O1)
    (hi : HeapInv h O) : HeapInv h O1 := by
  refine ⟨fun x hx => hi.1 x (hp.mem_iff.2 hx), fun p => ?_⟩
  rw [hi.2 p]
  exact (hp.map Prod.fst).count_eq p

theorem HeapInv.refOf_head {h : Heap} {s : Nat} {c : Caps} {O : List (Nat × Caps)}
    (hi : HeapInv h ((s, c) :: O)) : refOf h s = (O.map Prod.fst).count s + 1 := by
  rw [hi.2 s]; simp

theorem HeapInv.frame_head {h : Heap} {s : Nat} {c : Caps} {O : List (Nat × Caps)}
    (hi : HeapInv h ((s, c) :: O)) : frame h s = c :=
  hi.1 (s, c) (List.mem_cons_self _ _)

theorem HeapInv.get_head {h : Heap} {s : Nat} {c : Caps} {O : List (Nat × Caps)}
    (hi : HeapInv h ((s, c) :: O)) : h[s]? = some ⟨(O.map Prod.fst).count s + 1, c⟩ := by
  have h1 := hi.refOf_head
  have h2 := getElem?_of_refOf_pos (h := h) (p := s) (by omega)
  rw [h2, h1, hi.frame_head]

theorem HeapInv.nil_refOf {h : Heap} (hi : HeapInv h []) (p : Nat) : refOf h p = 0 := by
  rw [hi.2 p]; rfl

theorem HeapInv.decref {h : Heap} {s : Nat} {c : Caps} {O : List (Nat × Caps)}
    (hi : HeapInv h ((s, c) :: O)) : ∃ h1, decref s h = .ok h1 ∧ HeapInv h1 O := by
  have hg := hi.get_head
  have hl : s < h.length := lt_length_of_refOf_pos (by rw [hi.refOf_head]; omega)
  refine ⟨h.set s ⟨(O.map Prod.fst).count s, c⟩, by simp [Re1.decref, hg], ?_, ?_⟩
  · intro x hx
    rw [frame_set]
    by_cases hs : s = x.1
    · simp only [hs, true_and]
      rw [← hs, if_pos hl]
      have := hi.1 x (List.mem_cons_of_mem _ hx)
      rw [← hs, hi.frame_head] at this
      exact this
    · simp only [hs, false_and, if_false]
      exact hi.1 x (List.mem_cons_of_mem _ hx)
  · intro p
    rw [refOf_set]
    by_cases hs : s = p
    · subst hs; simp [hl]
    · simp only [hs, false_and, if_false]
      rw [hi.2 p]
      simp [List.count_cons, hs]

theorem HeapInv.incref {h : Heap} {s : Nat} {c : Caps} {O : List (Nat × Caps)}
    (hi : HeapInv h ((s, c) :: O)) :
    ∃ h1, incref s h = .ok h1 ∧ HeapInv h1 ((s, c) :: (s, c) :: O) := by
  have hg := hi.get_head
  have hl : s < h.length := lt_length_of_refOf_pos (by rw [hi.refOf_head]; omega)
  refine ⟨h.set s ⟨(O.map Prod.fst).count s + 1 + 1, c⟩, by simp [Re1.incref, hg], ?_, ?_⟩
  · intro x hx
    have hx1 : x ∈ (s, c) :: O := by
      rcases List.mem_cons.1 hx with h1 | h1
      · rw [h1]; exact List.mem_cons_self _ _
      · exact h1
    rw [frame_set]
    by_cases hs : s = x.1
    · simp only [hs, true_and]
      rw [← hs, if_pos hl]
      have := hi.1 x hx1
      rw [← hs, hi.frame_head] at this
      exact this
    · simp only [hs, false_and, if_false]
      exact hi.1 x hx1
  · intro p
    rw [refOf_set]
    by_cases hs : s = p
    · subst hs; simp [hl]
    · simp only [hs, false_and, if_false]
      rw [hi.2 p]
      simp [List.count_cons, hs]

theorem HeapInv.update {h : Heap} {s : Nat} {c : Caps} {O : List (Nat × Caps)} (i p : Nat)
    (hi : HeapInv h ((s, c) :: O)) :
    ∃ h1 s1, update s i p h = .ok (h1, s1) ∧ HeapInv h1 ((s1, c.set i (some p)) :: O) := by
  have hg := hi.get_head
  have hl : s < h.length := lt_length_of_refOf_pos (by rw [hi.refOf_head]; omega)
  have hO : ∀ x ∈ O, x.1 < h.length := by
    intro x hx
    apply lt_length_of_refOf_pos
    rw [hi.2 x.1]
    apply List.count_pos_iff.2
    exact List.mem_map_of_mem _ (List.mem_cons_of_mem _ hx)
  by_cases h0 : (O.map Prod.fst).count s = 0
  · -- the only owner: written in place
    have hs : ∀ x ∈ O, s ≠ x.1 := by
      intro x hx he
      have : 0 < (O.map Prod.fst).count s := by
        apply List.count_pos_iff.2
        rw [he]; exact List.mem_map_of_mem _ hx
      omega
    refine ⟨h.set s ⟨1, c.set i (some p)⟩, s, by simp [Re1.update, hg, h0], ?_, ?_⟩
    · intro x hx
      rcases List.mem_cons.1 hx with h1 | h1
      · rw [h1, frame_set]; simp [hl]
      · rw [frame_set]
        simp only [hs x h1, false_and, if_false]
        exact hi.1 x (List.mem_cons_of_mem _ h1)
    · intro q
      rw [refOf_set]
      by_cases hq : s = q
      · subst hq; simp [hl, h0]
      · simp only [hq, false_and, if_false]
        rw [hi.2 q]
        simp [List.count_cons, hq]
  · -- shared: copied
    have hnew : (O.map Prod.fst).count h.length = 0 := by
      have := hi.2 h.length
      rw [refOf_eq_zero_of_le h _ (Nat.le_refl _)] at this
      simp only [List.map_cons, List.count_cons] at this
      omega
    refine ⟨h.set s ⟨(O.map Prod.fst).count s, c⟩ ++ [⟨1, c.set i (some p)⟩], h.length,
      by simp [Re1.update, hg, h0], ?_, ?_⟩
    · intro x hx
      rcases List.mem_cons.1 hx with h1 | h1
      · rw [h1, frame_append]; simp
      · have hxl := hO x h1
        rw [frame_append]
        simp only [List.length_set, Nat.ne_of_lt hxl, if_false]
        rw [frame_set]
        by_cases hs : s = x.1
        · simp only [hs, true_and]
          rw [← hs, if_pos hl]
          have := hi.1 x (List.mem_cons_of_mem _ h1)
          rw [← hs, hi.frame_head] at this
          exact this
        · simp only [hs, false_and, if_false]
          exact hi.1 x (List.mem_cons_of_mem _ h1)
    · intro q
      rw [refOf_append]
      simp only [List.length_set]
      by_cases hq : q = h.length
      · subst hq; simp [hnew]
      · simp only [hq, if_false]
        rw [refOf_set]
        by_cases hs : s = q
        · subst hs
          have : h.length ≠ s := fun e => hq e.symm
          simp [hl, List.count_cons, this]
        · simp only [hs, false_and, if_false]
          rw [hi.2 q]
          have : h.length ≠ q := fun e => hq e.symm
          simp [List.count_cons, hs, this]

/-- The heap a call starts with: one fresh frame, cleared, owned by the
initial thread. -/
theorem HeapInv.init (n : Nat) :
    clearsub (newsub n []).2 n (newsub n []).1 = [⟨1, List.replicate n none⟩] ∧
    HeapInv [⟨1, List.replicate n none⟩] [(0, List.replicate n none)] := by
  refine ⟨by simp [clearsub, newsub], ?_, ?_⟩
  · intro x hx
    simp at hx; subst hx; simp [frame]
  · intro p
    cases p with
    | zero => simp [refOf]
    | succ p => simp [refOf]

/-! ## Comparing outcomes -/

theorem Res.Rel.bind {α β γ δ : Type} {R : α → β → Prop} {S : γ → δ → Prop}
    {a : Res α} {b : Res β} {f : α → Res γ} {g : β → Res δ}
    (h : Res.Rel R a b) (hf : ∀ x y, R x y → Res.Rel S (f x) (g y)) :
    Res.Rel S (a.bind f) (b.bind g) := by
  cases a <;> cases b <;> simp_all [Res.Rel]

theorem Res.Rel.mono {α β : Type} {R S : α → β → Prop} {a : Res α} {b : Res β}
    (h : Res.Rel R a b) (hf : ∀ x y, R x y → S x y) : Res.Rel S a b := by
  cases a <;> cases b <;> simp_all [Res.Rel]

theorem Res.Rel.ok_left {α β : Type} {R : α → β → Prop} {a : α} {b : Res β}
    (h : Res.Rel R (.ok a) b) : ∃ y, b = .ok y ∧ R a y := by
  cases b <;> simp_all [Res.Rel]

theorem Res.Rel.ok_right {α β : Type} {R : α → β → Prop} {a : Res α} {b : β}
    (h : Res.Rel R a (.ok b)) : ∃ x, a = .ok x ∧ R x b := by
  cases a <;> simp_all [Res.Rel]

/-! ## The Pike engine computes the search on values -/

theorem MarkRel.mark {gen : Nat} {marks : Nat → Nat} {vis : List Nat} (pc : Nat)
    (h : MarkRel gen marks vis) : MarkRel gen (Pike.mark marks pc gen) (pc :: vis) := by
  refine ⟨fun q => ?_, fun q => ?_⟩
  · unfold Pike.mark
    by_cases hq : q = pc
    · simp [hq]
    · simp only [hq, if_false]; exact h.1 q
  · unfold Pike.mark
    by_cases hq : q = pc
    · simp [hq]
    · simp only [hq, if_false, List.mem_cons, false_or]; exact h.2 q

theorem MarkRel.next {gen : Nat} {marks : Nat → Nat} (h : MarksLe gen marks) :
    MarkRel (gen + 1) marks [] := by
  refine ⟨fun q => Nat.le_succ_of_le (h q), fun q => ?_⟩
  have := h q
  simp only [List.not_mem_nil, iff_false]
  omega

theorem Pike.addthread_refines (prog : Prog) :
    ∀ fuel (st : Pike.St) (l : List Pike.Thread) (pl : List Pure.Thread) (t : Pike.Thread)
      (caps : Caps) (sp : Nat) (vis : List Nat) (O : List (Nat × Caps)),
      MarkRel st.gen st.marks vis → HeapInv st.heap ((t.sub, caps) :: O) →
      Res.Rel (AddRel prog st.gen l pl O) (Pike.addthread prog fuel st l t sp)
        (Pure.addthread prog fuel vis pl ⟨t.pc, caps⟩ sp) := by
  intro fuel
  induction fuel with
  | zero => intro st l pl t caps sp vis O _ _; simp [Pike.addthread, Pure.addthread, Res.Rel]
  | succ fuel ih =>
    intro st l pl t caps sp vis O hm hh
    rw [Pike.addthread, Pure.addthread]
    cases hi : prog.insts[t.pc]? with
    | none => simp [Res.Rel]
    | some i =>
      simp only
      by_cases hv : st.marks t.pc = st.gen
      · have hv2 : t.pc ∈ vis := (hm.2 _).1 hv
        obtain ⟨h1, hd, hh1⟩ := hh.decref
        simp only [hv, hv2, if_true, hd, Res.bind_ok, Res.Rel]
        exact ⟨[], by simp [conc], by simp [pur], rfl, hm, by simpa [own] using hh1, by simp⟩
      · have hv2 : t.pc ∉ vis := fun h => hv ((hm.2 _).2 h)
        simp only [hv, hv2, if_false]
        have hm1 := hm.mark t.pc
        cases i with
        | Jmp x => exact ih ⟨st.gen, _, st.heap⟩ l pl ⟨x, t.sub⟩ caps sp _ O hm1 hh
        | Split x y =>
          obtain ⟨h1, hd, hh1⟩ := hh.incref
          simp only [hd, Res.bind_ok]
          refine Res.Rel.bind (ih ⟨st.gen, _, h1⟩ l pl ⟨x, t.sub⟩ caps sp _ _ hm1 hh1) ?_
          rintro ⟨st1, l1⟩ ⟨vis1, pl1⟩ ⟨N1, e1, e2, e3, hm2, hh2, hs1⟩
          simp only at e1 e2 e3 hm2 hh2 ⊢
          subst e1 e2
          have hh3 : HeapInv st1.heap ((t.sub, caps) :: (own N1 ++ O)) :=
            hh2.perm (by simp)
          have hm3 : MarkRel st1.gen st1.marks vis1 := by rw [e3]; exact hm2
          have := ih st1 (l ++ conc N1) (pl ++ pur N1) ⟨y, t.sub⟩ caps sp vis1 _ hm3 hh3
          refine this.mono ?_
          rintro ⟨st2, l2⟩ ⟨vis2, pl2⟩ ⟨N2, f1, f2, f3, hm4, hh4, hs2⟩
          simp only at f1 f2 f3 hm4 hh4 ⊢
          refine ⟨N1 ++ N2, by simp [f1, conc], by simp [f2, pur], by rw [f3, e3], ?_, ?_, ?_⟩
          · rw [← e3]; exact hm4
          · refine hh4.perm ?_
            simp only [own, List.map_append, List.append_assoc]
            rw [← List.append_assoc, ← List.append_assoc]
            exact List.Perm.append_right _ List.perm_append_comm
          · intro x hx
            rcases List.mem_append.1 hx with h | h
            · exact hs1 x h
            · exact hs2 x h
        | Save n =>
          obtain ⟨h1, s1, hd, hh1⟩ := hh.update n sp
          simp only [hd, Res.bind_ok]
          exact ih ⟨st.gen, _, h1⟩ l pl ⟨t.pc + 1, s1⟩ _ sp _ O hm1 hh1
        | Char c =>
          simp only [Res.Rel]
          exact ⟨[(t.pc, t.sub, caps)], by simp [conc], by simp [pur], rfl, hm1,
            by simpa [own] using hh, by simp [Sched, hi, Inst.isCtl]⟩
        | Any =>
          simp only [Res.Rel]
          exact ⟨[(t.pc, t.sub, caps)], by simp [conc], by simp [pur], rfl, hm1,
            by simpa [own] using hh, by simp [Sched, hi, Inst.isCtl]⟩
        | Match =>
          simp only [Res.Rel]
          exact ⟨[(t.pc, t.sub, caps)], by simp [conc], by simp [pur], rfl, hm1,
            by simpa [own] using hh, by simp [Sched, hi, Inst.isCtl]⟩

theorem Pike.release_refines :
    ∀ (T : List Trip) (h : Heap) (O : List (Nat × Caps)), HeapInv h (own T ++ O) →
      ∃ h1, Pike.release (conc T) h = .ok h1 ∧ HeapInv h1 O := by
  intro T
  induction T with
  | nil => intro h O hh; exact ⟨h, rfl, by simpa [own] using hh⟩
  | cons x T ih =>
    intro h O hh
    have hh1 : HeapInv h ((x.2.1, x.2.2) :: (own T ++ O)) := by simpa [own] using hh
    obtain ⟨h1, hd, hh2⟩ := hh1.decref
    obtain ⟨h2, hr, hh3⟩ := ih h1 O hh2
    exact ⟨h2, by simp [conc, Pike.release, hd] at hr ⊢; simpa [conc] using hr, hh3⟩

theorem Pike.step_refines (prog : Prog) (fuel c sp : Nat) :
    ∀ (T : List Trip) (st : Pike.St) (N0 : List Trip) (m : Option Nat) (vis : List Nat)
      (pm : Option (Nat × Caps)),
      (∀ x ∈ T, Sched prog x.1) → (∀ x ∈ N0, Sched prog x.1) →
      MarkRel st.gen st.marks vis → m.isSome = pm.isSome →
      HeapInv st.heap (own T ++ (own N0 ++ mown m pm)) →
      Res.Rel (StepRel prog st.gen) (Pike.step prog fuel c sp (conc T) st (conc N0) m)
        (Pure.step prog fuel c sp (pur T) ⟨vis, pur N0, pm⟩) := by
  intro T
  induction T with
  | nil =>
    intro st N0 m vis pm _ hN hm hmm hh
    simp only [conc, pur, List.map_nil, Pike.step, Pure.step, Res.Rel]
    exact ⟨N0, rfl, rfl, rfl, hm, hmm, by simpa [own] using hh, hN⟩
  | cons x T ih =>
    intro st N0 m vis pm hT hN hm hmm hh
    obtain ⟨pc, s, caps⟩ := x
    have hT1 : ∀ x ∈ T, Sched prog x.1 := fun x hx => hT x (List.mem_cons_of_mem _ hx)
    have hh0 : HeapInv st.heap ((s, caps) :: (own T ++ (own N0 ++ mown m pm))) := by
      simpa [own] using hh
    have hdead : Res.Rel (StepRel prog st.gen)
        ((decref s st.heap).bind fun h =>
          Pike.step prog fuel c sp (conc T) ⟨st.gen, st.marks, h⟩ (conc N0) m)
        (Pure.step prog fuel c sp (pur T) ⟨vis, pur N0, pm⟩) := by
      obtain ⟨h1, hd, hh1⟩ := hh0.decref
      rw [hd, Res.bind_ok]
      exact ih ⟨st.gen, st.marks, h1⟩ N0 m vis pm hT1 hN hm hmm hh1
    have hadd : Res.Rel (StepRel prog st.gen)
        ((Pike.addthread prog fuel st (conc N0) ⟨pc + 1, s⟩ (sp + 1)).bind fun r =>
          Pike.step prog fuel c sp (conc T) r.1 r.2 m)
        ((Pure.addthread prog fuel vis (pur N0) ⟨pc + 1, caps⟩ (sp + 1)).bind fun r =>
          Pure.step prog fuel c sp (pur T) ⟨r.1, r.2, pm⟩) := by
      refine Res.Rel.bind
        (Pike.addthread_refines prog fuel st (conc N0) (pur N0) ⟨pc + 1, s⟩ caps (sp + 1) vis _
          hm hh0) ?_
      rintro ⟨st1, l1⟩ ⟨vis1, pl1⟩ ⟨N, e1, e2, e3, hm1, hh1, hs1⟩
      simp only at e1 e2 e3 hm1 hh1 ⊢
      have e1' : l1 = conc (N0 ++ N) := by rw [e1]; simp [conc]
      have e2' : pl1 = pur (N0 ++ N) := by rw [e2]; simp [pur]
      rw [e1', e2', ← e3]
      refine ih st1 (N0 ++ N) m vis1 pm hT1 ?_ (by rw [e3]; exact hm1) hmm ?_
      · intro x hx
        rcases List.mem_append.1 hx with h | h
        · exact hN x h
        · exact hs1 x h
      · refine hh1.perm ?_
        simp only [own, List.map_append]
        exact List.perm_iff_count.2 fun a => by
          simp only [List.count_append, List.count_cons, List.count_nil]; omega
    simp only [conc, pur, List.map_cons]
    obtain ⟨i, hi, hctl⟩ := hT (pc, s, caps) (List.mem_cons_self _ _)
    simp only at hi
    simp only [Pike.step, Pure.step, hi]
    cases i with
    | Char k =>
      simp only
      by_cases hk : c ≠ k
      · simp only [hk, if_true, ne_eq, not_false_eq_true]; exact hdead
      · by_cases h0 : c = 0
        · simp only [hk, h0, if_true, if_false]
          rw [h0] at hdead
          simpa using hdead
        · simp only [hk, h0, if_false]; exact hadd
    | Any =>
      simp only
      by_cases h0 : c = 0
      · simp only [h0, if_true]
        rw [h0] at hdead
        exact hdead
      · simp only [h0, if_false]; exact hadd
    | Match =>
      simp only
      have htail : ∀ h1, HeapInv h1 (own T ++ ((s, caps) :: own N0)) →
          Res.Rel (StepRel prog st.gen)
            ((Pike.release (List.map (fun x => (⟨x.1, x.2.1⟩ : Pike.Thread)) T) h1).bind
              fun h2 => Res.ok (⟨st.gen, st.marks, h2⟩, conc N0, some s))
            (Res.ok ⟨vis, pur N0, some (sp, caps)⟩) := by
        intro h1 hh1
        obtain ⟨h2, hr, hh2⟩ := Pike.release_refines T h1 _ hh1
        have hr' : Pike.release (List.map (fun x => (⟨x.1, x.2.1⟩ : Pike.Thread)) T) h1 =
            .ok h2 := hr
        rw [hr', Res.bind_ok]
        simp only [Res.Rel]
        refine ⟨N0, rfl, rfl, rfl, hm, rfl, ?_, hN⟩
        simp only [mown]
        exact hh2.perm (List.perm_append_singleton _ _).symm
      cases m with
      | none =>
        cases pm with
        | some kc => simp at hmm
        | none =>
          simp only [Res.bind_ok]
          refine htail st.heap (hh0.perm ?_)
          simp only [mown, List.append_nil]
          exact List.perm_middle.symm
      | some old =>
        cases pm with
        | none => simp at hmm
        | some kc =>
          have : HeapInv st.heap ((old, kc.2) :: (own T ++ ((s, caps) :: own N0))) := by
            refine hh0.perm ?_
            simp only [mown]
            exact List.perm_iff_count.2 fun a => by
              simp only [List.count_append, List.count_cons, List.count_nil]; omega
          obtain ⟨h1, hd, hh1⟩ := this.decref
          simp only [hd, Res.bind_ok]
          exact htail h1 hh1
    | Jmp x => simp [Inst.isCtl] at hctl
    | Split x y => simp [Inst.isCtl] at hctl
    | Save n => simp [Inst.isCtl] at hctl

theorem Res.bind_ok_right {α : Type} (a : Res α) : a.bind Res.ok = a := by
  cases a <;> rfl

/-- At the terminating NUL no thread moves on: `nlist` stays as it is. -/
theorem Pike.step_nul (prog : Prog) (fuel sp : Nat) :
    ∀ cl st nl m r, Pike.step prog fuel 0 sp cl st nl m = .ok r → r.2.1 = nl := by
  intro cl
  induction cl with
  | nil => intro st nl m r h; simp [Pike.step] at h; subst h; rfl
  | cons t rest ih =>
    intro st nl m r h
    simp only [Pike.step] at h
    split at h
    · simp at h
    · split at h
      · obtain ⟨x, -, h2⟩ := Res.bind_eq_ok.1 h
        exact ih _ _ _ _ h2
      · simp only [if_true] at h
        obtain ⟨x, -, h2⟩ := Res.bind_eq_ok.1 h
        exact ih _ _ _ _ h2
    · simp only [if_true] at h
      obtain ⟨x, -, h2⟩ := Res.bind_eq_ok.1 h
      exact ih _ _ _ _ h2
    · obtain ⟨x, -, h2⟩ := Res.bind_eq_ok.1 h
      obtain ⟨y, -, h3⟩ := Res.bind_eq_ok.1 h2
      simp at h3; subst h3; rfl
    · exact ih _ _ _ _ h

theorem StepRel.toLoopRel {prog : Prog} {gen : Nat}
    {r : Pike.St × List Pike.Thread × Option Nat} {pa : Pure.Acc}
    (h : StepRel prog gen r pa) (hn : r.2.1 = []) : LoopRel r pa.matched := by
  obtain ⟨N, e1, e2, e3, hm, hmm, hh, hs⟩ := h
  have hN : N = [] := by
    rw [hn] at e1
    cases N with
    | nil => rfl
    | cons x N => simp [conc] at e1
  subst hN
  exact ⟨hn, hmm, by rw [e3]; exact hm.1, by simpa [own] using hh⟩

theorem Pike.loop_refines (prog : Prog) (fuel : Nat) :
    ∀ (inp : List Nat) (sp : Nat) (st : Pike.St) (T : List Trip) (m : Option Nat)
      (pm : Option (Nat × Caps)),
      (∀ x ∈ T, Sched prog x.1) → MarksLe st.gen st.marks → m.isSome = pm.isSome →
      HeapInv st.heap (own T ++ mown m pm) →
      Res.Rel LoopRel (Pike.loop prog fuel inp sp st (conc T) m)
        (Pure.loop prog fuel inp sp (pur T) pm) := by
  intro inp
  induction inp with
  | nil =>
    intro sp st T m pm hT hle hmm hh
    rw [Pike.loop, Pure.loop]
    cases T with
    | nil =>
      simp only [conc, pur, List.map_nil, List.length_nil, if_true, Res.Rel]
      exact ⟨rfl, hmm, hle, by simpa [own] using hh⟩
    | cons x T =>
      simp only [conc, pur, List.map_cons, List.length_cons, Nat.succ_ne_zero, if_false]
      have := Pike.step_refines prog fuel 0 sp (x :: T) ⟨st.gen + 1, st.marks, st.heap⟩ [] m []
        pm hT (by simp) (MarkRel.next hle) hmm (by simpa [own] using hh)
      simp only [conc, pur, List.map_cons, List.map_nil] at this
      cases hs : Pike.step prog fuel 0 sp
          (⟨x.1, x.2.1⟩ :: List.map (fun x => (⟨x.1, x.2.1⟩ : Pike.Thread)) T)
          ⟨st.gen + 1, st.marks, st.heap⟩ [] m with
      | ok r =>
        rw [hs] at this
        obtain ⟨pa, hp, hrel⟩ := this.ok_left
        rw [hp, Res.bind_ok]
        exact hrel.toLoopRel (Pike.step_nul prog fuel sp _ _ _ _ _ hs)
      | fatal =>
        rw [hs] at this
        revert this
        cases Pure.step prog fuel 0 sp
          (⟨x.1, x.2.2⟩ :: List.map (fun x => (⟨x.1, x.2.2⟩ : Pure.Thread)) T) ⟨[], [], pm⟩ <;>
          simp [Res.Rel]
      | fault =>
        rw [hs] at this
        revert this
        cases Pure.step prog fuel 0 sp
          (⟨x.1, x.2.2⟩ :: List.map (fun x => (⟨x.1, x.2.2⟩ : Pure.Thread)) T) ⟨[], [], pm⟩ <;>
          simp [Res.Rel]
      | timeout =>
        rw [hs] at this
        revert this
        cases Pure.step prog fuel 0 sp
          (⟨x.1, x.2.2⟩ :: List.map (fun x => (⟨x.1, x.2.2⟩ : Pure.Thread)) T) ⟨[], [], pm⟩ <;>
          simp [Res.Rel]
  | cons c rest ih =>
    intro sp st T m pm hT hle hmm hh
    rw [Pike.loop, Pure.loop]
    cases T with
    | nil =>
      simp only [conc, pur, List.map_nil, List.length_nil, if_true, Res.Rel]
      exact ⟨rfl, hmm, hle, by simpa [own] using hh⟩
    | cons x T =>
      simp only [conc, pur, List.map_cons, List.length_cons, Nat.succ_ne_zero, if_false]
      have := Pike.step_refines prog fuel c sp (x :: T) ⟨st.gen + 1, st.marks, st.heap⟩ [] m []
        pm hT (by simp) (MarkRel.next hle) hmm (by simpa [own] using hh)
      simp only [conc, pur, List.map_cons, List.map_nil] at this
      cases hs : Pike.step prog fuel c sp
          (⟨x.1, x.2.1⟩ :: List.map (fun x => (⟨x.1, x.2.1⟩ : Pike.Thread)) T)
          ⟨st.gen + 1, st.marks, st.heap⟩ [] m with
      | ok r =>
        rw [hs] at this
        obtain ⟨pa, hp, hrel⟩ := this.ok_left
        rw [hp, Res.bind_ok, Res.bind_ok]
        by_cases h0 : c = 0
        · simp only [h0, if_true, Res.Rel]
          rw [h0] at hs
          exact hrel.toLoopRel (Pike.step_nul prog fuel sp _ _ _ _ _ hs)
        · simp only [h0, if_false]
          obtain ⟨N, e1, e2, e3, hm1, hmm1, hh1, hs1⟩ := hrel
          rw [e1, e2]
          exact ih (sp + 1) r.1 N r.2.2 pa.matched hs1 (by rw [e3]; exact hm1.1) hmm1 hh1
      | fatal =>
        rw [hs] at this
        revert this
        cases Pure.step prog fuel c sp
          (⟨x.1, x.2.2⟩ :: List.map (fun x => (⟨x.1, x.2.2⟩ : Pure.Thread)) T) ⟨[], [], pm⟩ <;>
          simp [Res.Rel]
      | fault =>
        rw [hs] at this
        revert this
        cases Pure.step prog fuel c sp
          (⟨x.1, x.2.2⟩ :: List.map (fun x => (⟨x.1, x.2.2⟩ : Pure.Thread)) T) ⟨[], [], pm⟩ <;>
          simp [Res.Rel]
      | timeout =>
        rw [hs] at this
        revert this
        cases Pure.step prog fuel c sp
          (⟨x.1, x.2.2⟩ :: List.map (fun x => (⟨x.1, x.2.2⟩ : Pure.Thread)) T) ⟨[], [], pm⟩ <;>
          simp [Res.Rel]

/-- The function `pikevm` ends as the search on values does, reports what it
reports, and leaves every frame with count zero and a valid generation state. -/
theorem pikevm_refines (prog : Prog) (input : List Nat) (subp : List (Option Nat))
    (gen : Nat) (marks : Nat → Nat) (hle : MarksLe gen marks) :
    Res.Rel (PikeRel subp.length) (pikevm prog input subp gen marks)
      (Pure.pikevm prog input subp.length) := by
  unfold pikevm Pure.pikevm
  simp only [(HeapInv.init subp.length).1]
  have hadd := Pike.addthread_refines prog (prog.len + 1)
    ⟨gen + 1, marks, [⟨1, List.replicate subp.length none⟩]⟩ [] [] ⟨prog.start, 0⟩
    (List.replicate subp.length none) 0 [] [] (MarkRel.next hle) (HeapInv.init subp.length).2
  refine Res.Rel.bind (by simpa [newsub] using hadd) ?_
  rintro ⟨st1, l1⟩ ⟨vis1, pl1⟩ ⟨N, e1, e2, e3, hm1, hh1, hs1⟩
  simp only [List.nil_append] at e1 e2 e3 hm1 hh1 ⊢
  subst e1 e2
  have hl := Pike.loop_refines prog (prog.len + 1) input 0 st1 N none none hs1
    (by rw [e3]; exact hm1.1) rfl (by simpa [mown] using hh1)
  rw [← Res.bind_ok_right (Pure.loop prog (prog.len + 1) input 0 (pur N) none)]
  refine Res.Rel.bind hl ?_
  rintro ⟨st2, cl2, m2⟩ pm ⟨f1, f2, f3, f4⟩
  simp only at f1 f2 f3 f4 ⊢
  cases m2 with
  | none =>
    cases pm with
    | some kc => simp at f2
    | none =>
      simp only [Res.Rel]
      exact ⟨rfl, rfl, f4.nil_refOf, f3, f1⟩
  | some s =>
    cases pm with
    | none => simp at f2
    | some kc =>
      simp only [mown] at f4
      obtain ⟨h1, hd, hh2⟩ := f4.decref
      simp only [hd, Res.bind_ok, Res.Rel]
      exact ⟨rfl, by simp [reported, f4.frame_head], hh2.nil_refOf, f3, f1⟩

/-! ## The closure on values, case by case -/

namespace Pure

theorem addthread_none {prog : Prog} {t : Thread} (fuel : Nat) (vis : List Nat)
    (l : List Thread) (sp : Nat) (h : prog.insts[t.pc]? = none) :
    addthread prog (fuel + 1) vis l t sp = .fault := by
  rw [addthread, h]

theorem addthread_seen {prog : Prog} {t : Thread} {i : Inst} (fuel : Nat) {vis : List Nat}
    (l : List Thread) (sp : Nat) (h : prog.insts[t.pc]? = some i) (hv : t.pc ∈ vis) :
    addthread prog (fuel + 1) vis l t sp = .ok (vis, l) := by
  rw [addthread, h]; simp [hv]

theorem addthread_jmp {prog : Prog} {t : Thread} {x : Nat} (fuel : Nat) {vis : List Nat}
    (l : List Thread) (sp : Nat) (h : prog.insts[t.pc]? = some (Inst.Jmp x)) (hv : t.pc ∉ vis) :
    addthread prog (fuel + 1) vis l t sp = addthread prog fuel (t.pc :: vis) l ⟨x, t.caps⟩ sp := by
  rw [addthread, h]; simp [hv]

theorem addthread_split {prog : Prog} {t : Thread} {x y : Nat} (fuel : Nat) {vis : List Nat}
    (l : List Thread) (sp : Nat) (h : prog.insts[t.pc]? = some (Inst.Split x y))
    (hv : t.pc ∉ vis) :
    addthread prog (fuel + 1) vis l t sp =
      (addthread prog fuel (t.pc :: vis) l ⟨x, t.caps⟩ sp).bind fun r =>
        addthread prog fuel r.1 r.2 ⟨y, t.caps⟩ sp := by
  rw [addthread, h]; simp [hv]

theorem addthread_save {prog : Prog} {t : Thread} {n : Nat} (fuel : Nat) {vis : List Nat}
    (l : List Thread) (sp : Nat) (h : prog.insts[t.pc]? = some (Inst.Save n)) (hv : t.pc ∉ vis) :
    addthread prog (fuel + 1) vis l t sp =
      addthread prog fuel (t.pc :: vis) l ⟨t.pc + 1, t.caps.set n (some sp)⟩ sp := by
  rw [addthread, h]; simp [hv]

theorem addthread_sched {prog : Prog} {t : Thread} {i : Inst} (fuel : Nat) {vis : List Nat}
    (l : List Thread) (sp : Nat) (h : prog.insts[t.pc]? = some i) (hc : i.isCtl = false)
    (hv : t.pc ∉ vis) :
    addthread prog (fuel + 1) vis l t sp = .ok (t.pc :: vis, l ++ [t]) := by
  rw [addthread, h]
  cases i <;> simp [hv, Inst.isCtl] at hc ⊢

end Pure

theorem CloseAt.weaken {prog : Prog} {vis vis1 : List Nat} {l N : List Pure.Thread} {q : Nat}
    (h : CloseAt prog vis l q) (hv : ∀ p ∈ vis, p ∈ vis1) : CloseAt prog vis1 (l ++ N) q := by
  obtain ⟨i, hi, h1, h2⟩ := h
  refine ⟨i, hi, fun hc s hs => hv s (h1 hc s hs), fun hc => ?_⟩
  rw [List.map_append]
  exact List.mem_append_left _ (h2 hc)

theorem Eps.trans {prog : Prog} {sp : Nat} {t u v : Pure.Thread}
    (h1 : Eps prog sp t u) (h2 : Eps prog sp u v) : Eps prog sp t v := by
  induction h1 with
  | refl t => exact h2
  | jmp hi _ ih => exact Eps.jmp hi (ih h2)
  | splitx hi _ ih => exact Eps.splitx hi (ih h2)
  | splity hi _ ih => exact Eps.splity hi (ih h2)
  | save hi _ ih => exact Eps.save hi (ih h2)

/-- What a call of the closure that returns has done: the visited set has
grown and holds the instruction added; the list has grown by threads `N`, each
scheduled, newly visited and reached from the thread added by moves that
consume nothing; every newly visited instruction is dealt with. -/
theorem Pure.addthread_spec (prog : Prog) :
    ∀ fuel vis l (t : Pure.Thread) sp vis1 l1,
      Pure.addthread prog fuel vis l t sp = .ok (vis1, l1) →
      (∀ q ∈ vis, q ∈ vis1) ∧ t.pc ∈ vis1 ∧
      ∃ N, l1 = l ++ N ∧
        (∀ u ∈ N, Sched prog u.pc ∧ u.pc ∉ vis ∧ u.pc ∈ vis1 ∧ Eps prog sp t u) ∧
        (∀ q ∈ vis1, q ∉ vis → CloseAt prog vis1 N q) := by
  intro fuel
  induction fuel with
  | zero => intro vis l t sp vis1 l1 h; simp [Pure.addthread] at h
  | succ fuel ih =>
    intro vis l t sp vis1 l1 h
    cases hi : prog.insts[t.pc]? with
    | none => rw [Pure.addthread_none fuel vis l sp hi] at h; simp at h
    | some i =>
      by_cases hv : t.pc ∈ vis
      · rw [Pure.addthread_seen fuel l sp hi hv] at h
        simp only [Res.ok.injEq, Prod.mk.injEq] at h
        obtain ⟨rfl, rfl⟩ := h
        exact ⟨fun q hq => hq, hv, [], by simp, by simp, fun q h1 h2 => absurd h1 h2⟩
      · cases hc : i.isCtl with
        | false =>
          rw [Pure.addthread_sched fuel l sp hi hc hv] at h
          simp only [Res.ok.injEq, Prod.mk.injEq] at h
          obtain ⟨rfl, rfl⟩ := h
          refine ⟨fun q hq => List.mem_cons_of_mem _ hq, List.mem_cons_self _ _, [t], rfl, ?_, ?_⟩
          · intro u hu
            simp only [List.mem_singleton] at hu
            subst hu
            exact ⟨⟨i, hi, hc⟩, hv, List.mem_cons_self _ _, Eps.refl _⟩
          · intro q hq hq2
            have : q = t.pc := by
              rcases List.mem_cons.1 hq with h | h
              · exact h
              · exact absurd h hq2
            subst this
            exact ⟨i, hi, fun h => by rw [hc] at h; simp at h, fun _ => by simp⟩
        | true =>
          cases i with
          | Char c => simp [Inst.isCtl] at hc
          | Any => simp [Inst.isCtl] at hc
          | Match => simp [Inst.isCtl] at hc
          | Jmp x =>
            rw [Pure.addthread_jmp fuel l sp hi hv] at h
            obtain ⟨h1, h2, N, h3, h4, h5⟩ := ih _ _ _ _ _ _ h
            refine ⟨fun q hq => h1 q (List.mem_cons_of_mem _ hq), h1 _ (List.mem_cons_self _ _),
              N, h3, ?_, ?_⟩
            · intro u hu
              obtain ⟨a, b, c, d⟩ := h4 u hu
              exact ⟨a, fun h => b (List.mem_cons_of_mem _ h), c, Eps.jmp hi d⟩
            · intro q hq hq2
              by_cases hqt : q = t.pc
              · subst hqt
                refine ⟨_, hi, fun _ s hs => ?_, fun h => by simp [Inst.isCtl] at h⟩
                simp only [Inst.succs, List.mem_singleton] at hs
                subst hs; exact h2
              · exact h5 q hq (by simp [hqt, hq2])
          | Save n =>
            rw [Pure.addthread_save fuel l sp hi hv] at h
            obtain ⟨h1, h2, N, h3, h4, h5⟩ := ih _ _ _ _ _ _ h
            refine ⟨fun q hq => h1 q (List.mem_cons_of_mem _ hq), h1 _ (List.mem_cons_self _ _),
              N, h3, ?_, ?_⟩
            · intro u hu
              obtain ⟨a, b, c, d⟩ := h4 u hu
              exact ⟨a, fun h => b (List.mem_cons_of_mem _ h), c, Eps.save hi d⟩
            · intro q hq hq2
              by_cases hqt : q = t.pc
              · subst hqt
                refine ⟨_, hi, fun _ s hs => ?_, fun h => by simp [Inst.isCtl] at h⟩
                simp only [Inst.succs, List.mem_singleton] at hs
                subst hs; exact h2
              · exact h5 q hq (by simp [hqt, hq2])
          | Split x y =>
            rw [Pure.addthread_split fuel l sp hi hv] at h
            obtain ⟨⟨vis2, l2⟩, ha, hb⟩ := Res.bind_eq_ok.1 h
            simp only at hb
            obtain ⟨h1, h2, N1, h3, h4, h5⟩ := ih _ _ _ _ _ _ ha
            obtain ⟨g1, g2, N2, g3, g4, g5⟩ := ih _ _ _ _ _ _ hb
            refine ⟨fun q hq => g1 q (h1 q (List.mem_cons_of_mem _ hq)),
              g1 _ (h1 _ (List.mem_cons_self _ _)), N1 ++ N2, by rw [g3, h3, List.append_assoc],
              ?_, ?_⟩
            · intro u hu
              rcases List.mem_append.1 hu with hu | hu
              · obtain ⟨a, b, c, d⟩ := h4 u hu
                exact ⟨a, fun h => b (List.mem_cons_of_mem _ h), g1 _ c, Eps.splitx hi d⟩
              · obtain ⟨a, b, c, d⟩ := g4 u hu
                exact ⟨a, fun h => b (h1 _ (List.mem_cons_of_mem _ h)), c, Eps.splity hi d⟩
            · intro q hq hq2
              by_cases hqt : q = t.pc
              · subst hqt
                refine ⟨_, hi, fun _ s hs => ?_, fun h => by simp [Inst.isCtl] at h⟩
                simp only [Inst.succs, List.mem_cons, List.mem_singleton, List.not_mem_nil,
                  or_false] at hs
                rcases hs with hs | hs
                · subst hs; exact g1 _ h2
                · subst hs; exact g2
              · by_cases hq3 : q ∈ vis2
                · exact (h5 q hq3 (by simp [hqt, hq2])).weaken g1
                · obtain ⟨i, hi2, c1, c2⟩ := g5 q hq hq3
                  refine ⟨i, hi2, c1, fun hc => ?_⟩
                  rw [List.map_append]
                  exact List.mem_append_right _ (c2 hc)

/-! ## The closure always returns -/

theorem countP_lt_of_mem {α : Type} (p q : α → Bool) (a : α) :
    ∀ L : List α, (∀ x, p x = true → q x = true) → a ∈ L → q a = true → p a = false →
      L.countP p < L.countP q := by
  intro L hpq
  induction L with
  | nil => intro h; simp at h
  | cons b L ih =>
    intro hmem hq hp
    have hle : L.countP p ≤ L.countP q := List.countP_mono_left fun x _ => hpq x
    simp only [List.countP_cons]
    by_cases hab : a = b
    · subst hab
      simp [hq, hp]
      omega
    · have hin : a ∈ L := by
        rcases List.mem_cons.1 hmem with h | h
        · exact absurd h hab
        · exact h
      have := ih hin hq hp
      by_cases hpb : p b = true
      · simp [hpb, hpq b hpb]; omega
      · by_cases hqb : q b = true
        · simp [hpb, hqb]; omega
        · simp [hpb, hqb]; omega

theorem unvisited_le (prog : Prog) (vis : List Nat) : unvisited prog vis ≤ prog.len := by
  unfold unvisited
  exact (List.countP_le_length _).trans (by simp)

theorem unvisited_mono (prog : Prog) {vis vis1 : List Nat} (h : ∀ q ∈ vis, q ∈ vis1) :
    unvisited prog vis1 ≤ unvisited prog vis := by
  unfold unvisited
  apply List.countP_mono_left
  intro x _ hx
  simp only [decide_eq_true_eq] at hx ⊢
  exact fun hv => hx (h x hv)

theorem unvisited_cons_lt (prog : Prog) {vis : List Nat} {pc : Nat} (hpc : pc < prog.len)
    (hv : pc ∉ vis) : unvisited prog (pc :: vis) < unvisited prog vis := by
  unfold unvisited
  apply countP_lt_of_mem _ _ pc
  · intro x hx
    simp only [decide_eq_true_eq, List.mem_cons, not_or] at hx ⊢
    exact hx.2
  · exact List.mem_range.2 hpc
  · simpa using hv
  · simp

theorem lt_len_of_fetch {prog : Prog} {pc : Nat} {i : Inst} (h : prog.insts[pc]? = some i) :
    pc < prog.len := by
  unfold Prog.len
  by_contra hl
  rw [List.getElem?_eq_none (Nat.le_of_not_lt hl)] at h
  simp at h

theorem Prog.WF.succ_lt {prog : Prog} (hwf : prog.WF) {pc : Nat} {i : Inst}
    (h : prog.insts[pc]? = some i) {q : Nat} (hq : q ∈ i.succs pc) : q < prog.len := by
  have := hwf.2 pc (lt_len_of_fetch h) q
  rw [List.getD_eq_getElem?_getD, h] at this
  exact this hq

theorem fetch_of_lt {prog : Prog} {pc : Nat} (h : pc < prog.len) :
    ∃ i, prog.insts[pc]? = some i :=
  ⟨_, List.getElem?_eq_getElem h⟩

/-- With more fuel than instructions not yet visited the closure does not run
out of fuel. -/
theorem Pure.addthread_ne_timeout (prog : Prog) :
    ∀ fuel vis l (t : Pure.Thread) sp, unvisited prog vis < fuel →
      Pure.addthread prog fuel vis l t sp ≠ .timeout := by
  intro fuel
  induction fuel with
  | zero => intro vis l t sp h; omega
  | succ fuel ih =>
    intro vis l t sp hf
    cases hi : prog.insts[t.pc]? with
    | none => rw [Pure.addthread_none fuel vis l sp hi]; simp
    | some i =>
      by_cases hv : t.pc ∈ vis
      · rw [Pure.addthread_seen fuel l sp hi hv]; simp
      · have hlt := unvisited_cons_lt prog (lt_len_of_fetch hi) hv
        have hf1 : unvisited prog (t.pc :: vis) < fuel := by omega
        cases i with
        | Char c => rw [Pure.addthread_sched fuel l sp hi rfl hv]; simp
        | Any => rw [Pure.addthread_sched fuel l sp hi rfl hv]; simp
        | Match => rw [Pure.addthread_sched fuel l sp hi rfl hv]; simp
        | Jmp x => rw [Pure.addthread_jmp fuel l sp hi hv]; exact ih _ _ _ _ hf1
        | Save n => rw [Pure.addthread_save fuel l sp hi hv]; exact ih _ _ _ _ hf1
        | Split x y =>
          rw [Pure.addthread_split fuel l sp hi hv]
          cases ha : Pure.addthread prog fuel (t.pc :: vis) l ⟨x, t.caps⟩ sp with
          | timeout => exact absurd ha (ih _ _ _ _ hf1)
          | fatal => simp
          | fault => simp
          | ok r =>
            obtain ⟨vis2, l2⟩ := r
            simp only [Res.bind_ok]
            have h1 := (Pure.addthread_spec prog _ _ _ _ _ _ _ ha).1
            exact ih _ _ _ _ (Nat.lt_of_le_of_lt (unvisited_mono prog h1) hf1)

/-- In a well-formed program the closure of an instruction of the program
does not run into a wild reference. -/
theorem Pure.addthread_ne_fault (prog : Prog) (hwf : prog.WF) :
    ∀ fuel vis l (t : Pure.Thread) sp, t.pc < prog.len →
      Pure.addthread prog fuel vis l t sp ≠ .fault := by
  intro fuel
  induction fuel with
  | zero => intro vis l t sp _; simp [Pure.addthread]
  | succ fuel ih =>
    intro vis l t sp hpc
    obtain ⟨i, hi⟩ := fetch_of_lt hpc
    by_cases hv : t.pc ∈ vis
    · rw [Pure.addthread_seen fuel l sp hi hv]; simp
    · cases i with
      | Char c => rw [Pure.addthread_sched fuel l sp hi rfl hv]; simp
      | Any => rw [Pure.addthread_sched fuel l sp hi rfl hv]; simp
      | Match => rw [Pure.addthread_sched fuel l sp hi rfl hv]; simp
      | Jmp x =>
        rw [Pure.addthread_jmp fuel l sp hi hv]
        exact ih _ _ _ _ (hwf.succ_lt hi (by simp [Inst.succs]))
      | Save n =>
        rw [Pure.addthread_save fuel l sp hi hv]
        exact ih _ _ _ _ (hwf.succ_lt hi (by simp [Inst.succs]))
      | Split x y =>
        rw [Pure.addthread_split fuel l sp hi hv]
        cases ha : Pure.addthread prog fuel (t.pc :: vis) l ⟨x, t.caps⟩ sp with
        | fault => exact absurd ha (ih _ _ _ _ (hwf.succ_lt hi (by simp [Inst.succs])))
        | fatal => simp
        | timeout => simp
        | ok r =>
          simp only [Res.bind_ok]
          exact ih _ _ _ _ (hwf.succ_lt hi (by simp [Inst.succs]))

theorem Pure.addthread_ne_fatal (prog : Prog) :
    ∀ fuel vis l (t : Pure.Thread) sp, Pure.addthread prog fuel vis l t sp ≠ .fatal := by
  intro fuel
  induction fuel with
  | zero => intro vis l t sp; simp [Pure.addthread]
  | succ fuel ih =>
    intro vis l t sp
    cases hi : prog.insts[t.pc]? with
    | none => rw [Pure.addthread_none fuel vis l sp hi]; simp
    | some i =>
      by_cases hv : t.pc ∈ vis
      · rw [Pure.addthread_seen fuel l sp hi hv]; simp
      · cases i with
        | Char c => rw [Pure.addthread_sched fuel l sp hi rfl hv]; simp
        | Any => rw [Pure.addthread_sched fuel l sp hi rfl hv]; simp
        | Match => rw [Pure.addthread_sched fuel l sp hi rfl hv]; simp
        | Jmp x => rw [Pure.addthread_jmp fuel l sp hi hv]; exact ih _ _ _ _
        | Save n => rw [Pure.addthread_save fuel l sp hi hv]; exact ih _ _ _ _
        | Split x y =>
          rw [Pure.addthread_split fuel l sp hi hv]
          cases ha : Pure.addthread prog fuel (t.pc :: vis) l ⟨x, t.caps⟩ sp with
          | fatal => exact absurd ha (ih _ _ _ _)
          | fault => simp
          | timeout => simp
          | ok r => simp only [Res.bind_ok]; exact ih _ _ _ _

/-- In a well-formed program the closure of an instruction of the program,
run with the fuel `pikevm` gives it, returns. -/
theorem Pure.addthread_ok (prog : Prog) (hwf : prog.WF) (vis : List Nat)
    (l : List Pure.Thread) (t : Pure.Thread) (sp : Nat) (hpc : t.pc < prog.len) :
    ∃ r, Pure.addthread prog (prog.len + 1) vis l t sp = .ok r := by
  have h1 := Pure.addthread_ne_timeout prog (prog.len + 1) vis l t sp
    (Nat.lt_succ_of_le (unvisited_le prog vis))
  have h2 := Pure.addthread_ne_fault prog hwf (prog.len + 1) vis l t sp hpc
  have h3 := Pure.addthread_ne_fatal prog (prog.len + 1) vis l t sp
  cases h : Pure.addthread prog (prog.len + 1) vis l t sp with
  | ok r => exact ⟨r, rfl⟩
  | fatal => exact absurd h h3
  | fault => exact absurd h h2
  | timeout => exact absurd h h1

/-! ## The pass on values, case by case -/

namespace Pure

theorem step_match {prog : Prog} {t : Thread} (fuel c sp : Nat) (rest : List Thread) (a : Acc)
    (h : prog.insts[t.pc]? = some Inst.Match) :
    step prog fuel c sp (t :: rest) a = .ok ⟨a.vis, a.nlist, some (sp, t.caps)⟩ := by
  rw [step, h]

theorem step_adv {prog : Prog} {t : Thread} {c : Nat} (fuel sp : Nat) (rest : List Thread)
    (a : Acc) (h : Adv prog c t.pc) :
    step prog fuel c sp (t :: rest) a =
      (addthread prog fuel a.vis a.nlist ⟨t.pc + 1, t.caps⟩ (sp + 1)).bind fun r =>
        step prog fuel c sp rest ⟨r.1, r.2, a.matched⟩ := by
  obtain ⟨h0, h1 | h1⟩ := h
  · rw [step, h1]; simp [h0]
  · rw [step, h1]; simp [h0]

theorem step_dead {prog : Prog} {t : Thread} {c : Nat} (fuel sp : Nat) (rest : List Thread)
    (a : Acc) (hs : Sched prog t.pc) (hm : prog.insts[t.pc]? ≠ some Inst.Match)
    (ha : ¬ Adv prog c t.pc) :
    step prog fuel c sp (t :: rest) a = step prog fuel c sp rest a := by
  obtain ⟨i, hi, hc⟩ := hs
  rw [step, hi]
  cases i with
  | Char k =>
    by_cases hk : c = k
    · subst hk
      by_cases h0 : c = 0
      · simp [h0]
      · exact absurd ⟨h0, Or.inl hi⟩ ha
    · simp [hk]
  | Any =>
    by_cases h0 : c = 0
    · simp [h0]
    · exact absurd ⟨h0, Or.inr hi⟩ ha
  | Match => exact absurd hi hm
  | Jmp x => simp [Inst.isCtl] at hc
  | Split x y => simp [Inst.isCtl] at hc
  | Save n => simp [Inst.isCtl] at hc

end Pure

theorem Adv.next_lt {prog : Prog} (hwf : prog.WF) {c pc : Nat} (h : Adv prog c pc) :
    pc + 1 < prog.len := by
  obtain ⟨-, h1 | h1⟩ := h
  · exact hwf.succ_lt h1 (by simp [Inst.succs])
  · exact hwf.succ_lt h1 (by simp [Inst.succs])

/-! ## The search on values always returns -/

theorem Pure.step_ok (prog : Prog) (hwf : prog.WF) (c sp : Nat) :
    ∀ (cl : List Pure.Thread) (a : Pure.Acc), (∀ t ∈ cl, Sched prog t.pc) →
      (∀ u ∈ a.nlist, Sched prog u.pc) →
      ∃ r, Pure.step prog (prog.len + 1) c sp cl a = .ok r ∧ ∀ u ∈ r.nlist, Sched prog u.pc := by
  intro cl
  induction cl with
  | nil => intro a _ hn; exact ⟨a, rfl, hn⟩
  | cons t rest ih =>
    intro a hcl hn
    have hrest : ∀ t ∈ rest, Sched prog t.pc := fun u hu => hcl u (List.mem_cons_of_mem _ hu)
    have hs := hcl t (List.mem_cons_self _ _)
    by_cases hm : prog.insts[t.pc]? = some Inst.Match
    · exact ⟨_, Pure.step_match _ c sp rest a hm, hn⟩
    · by_cases ha : Adv prog c t.pc
      · rw [Pure.step_adv _ sp rest a ha]
        obtain ⟨⟨vis1, l1⟩, hr⟩ :=
          Pure.addthread_ok prog hwf a.vis a.nlist ⟨t.pc + 1, t.caps⟩ (sp + 1) (ha.next_lt hwf)
        rw [hr, Res.bind_ok]
        obtain ⟨-, -, N, h3, h4, -⟩ := Pure.addthread_spec prog _ _ _ _ _ _ _ hr
        refine ih _ hrest ?_
        intro u hu
        simp only [h3] at hu
        rcases List.mem_append.1 hu with h | h
        · exact hn u h
        · exact (h4 u h).1
      · rw [Pure.step_dead _ sp rest a hs hm ha]
        exact ih a hrest hn

theorem Pure.loop_ok (prog : Prog) (hwf : prog.WF) :
    ∀ (inp : List Nat) (sp : Nat) (cl : List Pure.Thread) (m : Option (Nat × Caps)),
      (∀ t ∈ cl, Sched prog t.pc) → ∃ r, Pure.loop prog (prog.len + 1) inp sp cl m = .ok r := by
  intro inp
  induction inp with
  | nil =>
    intro sp cl m hcl
    rw [Pure.loop]
    split
    · exact ⟨m, rfl⟩
    · obtain ⟨r, hr, -⟩ := Pure.step_ok prog hwf 0 sp cl ⟨[], [], m⟩ hcl (by simp)
      exact ⟨r.matched, by rw [hr, Res.bind_ok]⟩
  | cons c rest ih =>
    intro sp cl m hcl
    rw [Pure.loop]
    split
    · exact ⟨m, rfl⟩
    · obtain ⟨r, hr, hn⟩ := Pure.step_ok prog hwf c sp cl ⟨[], [], m⟩ hcl (by simp)
      rw [hr, Res.bind_ok]
      split
      · exact ⟨_, rfl⟩
      · exact ih _ _ _ hn

/-- On a well-formed program the search on values returns. -/
theorem Pure.pikevm_ok (prog : Prog) (hwf : prog.WF) (input : List Nat) (n : Nat) :
    ∃ r, Pure.pikevm prog input n = .ok r := by
  unfold Pure.pikevm
  obtain ⟨⟨vis1, l1⟩, hr⟩ :=
    Pure.addthread_ok prog hwf [] [] ⟨prog.start, List.replicate n none⟩ 0 hwf.1
  rw [hr, Res.bind_ok]
  obtain ⟨-, -, N, h3, h4, -⟩ := Pure.addthread_spec prog _ _ _ _ _ _ _ hr
  refine Pure.loop_ok prog hwf input 0 l1 none ?_
  intro u hu
  simp only [h3, List.nil_append] at hu
  exact (h4 u hu).1

/-- On a well-formed program and from a valid generation state `pikevm`
returns, and what it hands back is what the search on values finds. -/
theorem pikevm_returns (prog : Prog) (hwf : prog.WF) (input : List Nat)
    (subp : List (Option Nat)) (gen : Nat) (marks : Nat → Nat) (hle : MarksLe gen marks) :
    ∃ r pm, pikevm prog input subp gen marks = .ok r ∧
      Pure.pikevm prog input subp.length = .ok pm ∧ PikeRel subp.length r pm := by
  obtain ⟨pm, hp⟩ := Pure.pikevm_ok prog hwf input subp.length
  have := pikevm_refines prog input subp gen marks hle
  rw [hp] at this
  obtain ⟨r, hr, hrel⟩ := this.ok_right
  exact ⟨r, pm, hr, hp, hrel⟩

/-! ## The Thompson engine computes the search on values -/

theorem schedB_iff (prog : Prog) (pc : Nat) : schedB prog pc = true ↔ Sched prog pc := by
  unfold schedB Sched
  cases h : prog.insts[pc]? with
  | none => simp
  | some i => cases hc : i.isCtl <;> simp [hc]

namespace Thompson

theorem tstep_match {prog : Prog} {pc : Nat} (fuel c sp : Nat) (rest : List Nat) (a : Acc)
    (h : prog.insts[pc]? = some Inst.Match) :
    step prog fuel c sp (pc :: rest) a =
      .ok ⟨a.st, a.nlist, true,
        if 2 ≤ a.subp.length then a.subp.set 1 (some sp) else a.subp⟩ := by
  rw [step, h]

theorem tstep_adv {prog : Prog} {pc c : Nat} (fuel sp : Nat) (rest : List Nat) (a : Acc)
    (h : Adv prog c pc) :
    step prog fuel c sp (pc :: rest) a =
      (addthread prog fuel a.st a.nlist (pc + 1)).bind fun r =>
        step prog fuel c sp rest ⟨r.1, r.2, a.matched, a.subp⟩ := by
  obtain ⟨h0, h1 | h1⟩ := h
  · rw [step, h1]; simp [h0]
  · rw [step, h1]; simp [h0]

theorem tstep_skip {prog : Prog} {pc c : Nat} {i : Inst} (fuel sp : Nat) (rest : List Nat)
    (a : Acc) (hi : prog.insts[pc]? = some i) (hm : i ≠ Inst.Match) (ha : ¬ Adv prog c pc) :
    step prog fuel c sp (pc :: rest) a = step prog fuel c sp rest a := by
  rw [step, hi]
  cases i with
  | Char k =>
    by_cases hk : c = k
    · subst hk
      by_cases h0 : c = 0
      · simp [h0]
      · exact absurd ⟨h0, Or.inl hi⟩ ha
    · simp [hk]
  | Any =>
    by_cases h0 : c = 0
    · simp [h0]
    · exact absurd ⟨h0, Or.inr hi⟩ ha
  | Match => exact absurd rfl hm
  | Jmp x => rfl
  | Split x y => rfl
  | Save n => rfl

theorem taddthread_refines (prog : Prog) :
    ∀ fuel (st : St) (l : List Nat) (pl : List Pure.Thread) (pc : Nat) (caps : Caps)
      (sp : Nat) (vis : List Nat),
      MarkRel st.gen st.marks vis → l.filter (schedB prog) = pl.map Pure.Thread.pc →
      (∀ q ∈ l, q < prog.len) →
      Res.Rel (AddRel prog st.gen) (addthread prog fuel st l pc)
        (Pure.addthread prog fuel vis pl ⟨pc, caps⟩ sp) := by
  intro fuel
  induction fuel with
  | zero => intro st l pl pc caps sp vis _ _ _; simp [addthread, Pure.addthread, Res.Rel]
  | succ fuel ih =>
    intro st l pl pc caps sp vis hm hl hlt
    cases hi : prog.insts[pc]? with
    | none =>
      rw [Pure.addthread_none fuel vis pl sp (t := ⟨pc, caps⟩) hi, addthread, hi]
      simp [Res.Rel]
    | some i =>
      have hpc := lt_len_of_fetch hi
      by_cases hv : st.marks pc = st.gen
      · have hv2 : pc ∈ vis := (hm.2 _).1 hv
        rw [Pure.addthread_seen fuel pl sp (t := ⟨pc, caps⟩) hi hv2, addthread, hi]
        simp only [hv, if_true, Res.Rel]
        exact ⟨rfl, hm, hl, hlt⟩
      · have hv2 : pc ∉ vis := fun h => hv ((hm.2 _).2 h)
        have hm1 := hm.mark pc
        have hlt1 : ∀ q ∈ l ++ [pc], q < prog.len := by
          intro q hq
          rcases List.mem_append.1 hq with h | h
          · exact hlt q h
          · simp only [List.mem_singleton] at h; rw [h]; exact hpc
        have hctl : i.isCtl = true →
            (l ++ [pc]).filter (schedB prog) = pl.map Pure.Thread.pc := by
          intro hc
          have : schedB prog pc = false := by simp [schedB, hi, hc]
          simp [List.filter_append, this, hl]
        rw [addthread, hi]
        simp only [hv, if_false]
        cases i with
        | Jmp x =>
          rw [Pure.addthread_jmp fuel pl sp (t := ⟨pc, caps⟩) hi hv2]
          exact ih ⟨st.gen, _⟩ _ pl x caps sp _ hm1 (hctl rfl) hlt1
        | Save n =>
          rw [Pure.addthread_save fuel pl sp (t := ⟨pc, caps⟩) hi hv2]
          exact ih ⟨st.gen, _⟩ _ pl (pc + 1) _ sp _ hm1 (hctl rfl) hlt1
        | Split x y =>
          rw [Pure.addthread_split fuel pl sp (t := ⟨pc, caps⟩) hi hv2]
          refine Res.Rel.bind (ih ⟨st.gen, _⟩ _ pl x caps sp _ hm1 (hctl rfl) hlt1) ?_
          rintro ⟨st1, l1⟩ ⟨vis1, pl1⟩ ⟨e1, hm2, hl2, hlt2⟩
          simp only at e1 hm2 hl2 hlt2 ⊢
          have := ih st1 l1 pl1 y caps sp vis1 (by rw [e1]; exact hm2) hl2 hlt2
          rw [e1] at this
          exact this
        | Char c =>
          rw [Pure.addthread_sched fuel pl sp (t := ⟨pc, caps⟩) hi rfl hv2]
          simp only [Res.Rel]
          refine ⟨rfl, hm1, ?_, hlt1⟩
          have : schedB prog pc = true := by simp [schedB, hi, Inst.isCtl]
          simp [List.filter_append, this, hl]
        | Any =>
          rw [Pure.addthread_sched fuel pl sp (t := ⟨pc, caps⟩) hi rfl hv2]
          simp only [Res.Rel]
          refine ⟨rfl, hm1, ?_, hlt1⟩
          have : schedB prog pc = true := by simp [schedB, hi, Inst.isCtl]
          simp [List.filter_append, this, hl]
        | Match =>
          rw [Pure.addthread_sched fuel pl sp (t := ⟨pc, caps⟩) hi rfl hv2]
          simp only [Res.Rel]
          refine ⟨rfl, hm1, ?_, hlt1⟩
          have : schedB prog pc = true := by simp [schedB, hi, Inst.isCtl]
          simp [List.filter_append, this, hl]

theorem treported_set (n k : Nat) (pm : Option (Nat × Caps)) (caps : Caps) :
    (if 2 ≤ (treported n pm).length then (treported n pm).set 1 (some k) else treported n pm) =
      treported n (some (k, caps)) := by
  cases pm with
  | none =>
    by_cases h2 : 2 ≤ n
    · simp [treported, h2]
    · simp [treported, h2]
  | some kc =>
    by_cases h2 : 2 ≤ n
    · simp [treported, h2, List.set_set]
    · simp [treported, h2]

theorem tstep_refines (prog : Prog) (fuel c sp n : Nat) :
    ∀ (cl : List Nat) (pcl : List Pure.Thread) (a : Acc) (pa : Pure.Acc),
      cl.filter (schedB prog) = pcl.map Pure.Thread.pc → (∀ q ∈ cl, q < prog.len) →
      AccRel prog a.st.gen n a pa →
      Res.Rel (AccRel prog a.st.gen n) (step prog fuel c sp cl a)
        (Pure.step prog fuel c sp pcl pa) := by
  intro cl
  induction cl with
  | nil =>
    intro pcl a pa hl _ hr
    have : pcl = [] := by simpa using hl.symm
    subst this
    simp only [step, Pure.step, Res.Rel]
    exact hr
  | cons pc rest ih =>
    intro pcl a pa hl hlt hr
    obtain ⟨i, hi⟩ := fetch_of_lt (hlt pc (List.mem_cons_self _ _))
    have hlt1 : ∀ q ∈ rest, q < prog.len := fun q hq => hlt q (List.mem_cons_of_mem _ hq)
    by_cases hs : schedB prog pc = true
    · -- a scheduled instruction: the head of the list on values
      have hS := (schedB_iff prog pc).1 hs
      rw [List.filter_cons_of_pos hs] at hl
      cases pcl with
      | nil => simp at hl
      | cons t prest =>
        simp only [List.map_cons, List.cons.injEq] at hl
        obtain ⟨hpc, hl1⟩ := hl
        subst hpc
        by_cases hm : prog.insts[t.pc]? = some Inst.Match
        · rw [tstep_match fuel c sp rest a hm, Pure.step_match fuel c sp prest pa hm]
          simp only [Res.Rel]
          obtain ⟨e1, e2, e3, e4, e5, e6⟩ := hr
          refine ⟨e1, e2, e3, e4, rfl, ?_⟩
          simp only [e6]
          exact treported_set n sp pa.matched t.caps
        · by_cases ha : Adv prog c t.pc
          · rw [tstep_adv fuel sp rest a ha, Pure.step_adv fuel sp prest pa ha]
            obtain ⟨e1, e2, e3, e4, e5, e6⟩ := hr
            refine Res.Rel.bind
              (taddthread_refines prog fuel a.st a.nlist pa.nlist (t.pc + 1) t.caps (sp + 1) pa.vis
                e2 e3 e4) ?_
            rintro ⟨st1, l1⟩ ⟨vis1, pl1⟩ ⟨f1, f2, f3, f4⟩
            simp only at f1 f2 f3 f4 ⊢
            have := ih prest ⟨st1, l1, a.matched, a.subp⟩ ⟨vis1, pl1, pa.matched⟩ hl1 hlt1
              ⟨rfl, by rw [f1]; exact f2, f3, f4, e5, e6⟩
            simp only [f1] at this
            exact this
          · have him : i ≠ Inst.Match := fun h => hm (by rw [hi, h])
            rw [tstep_skip fuel sp rest a hi him ha, Pure.step_dead fuel sp prest pa hS hm ha]
            exact ih prest a pa hl1 hlt1 hr
    · -- Jump, Split or SaveCapture on the list: passed over
      have hs' : schedB prog pc = false := by simpa using hs
      rw [List.filter_cons_of_neg hs] at hl
      have hctl : i.isCtl = true := by
        simp only [schedB, hi, Bool.not_eq_false'] at hs'
        exact hs'
      have him : i ≠ Inst.Match := fun h => by rw [h] at hctl; simp [Inst.isCtl] at hctl
      have ha : ¬ Adv prog c pc := by
        rintro ⟨-, h | h⟩
        · rw [hi] at h; cases h; simp [Inst.isCtl] at hctl
        · rw [hi] at h; cases h; simp [Inst.isCtl] at hctl
      rw [tstep_skip fuel sp rest a hi him ha]
      exact ih pcl a pa hl hlt1 hr

end Thompson

namespace Pure

theorem loop_empty (prog : Prog) (fuel : Nat) (inp : List Nat) (sp : Nat)
    (m : Option (Nat × Caps)) : loop prog fuel inp sp [] m = .ok m := by
  cases inp <;> simp [loop]

/-- The walk at the end of the input, whether or not the list is empty. -/
theorem loop_nil (prog : Prog) (fuel sp : Nat) (cl : List Thread) (m : Option (Nat × Caps)) :
    loop prog fuel [] sp cl m = (step prog fuel 0 sp cl ⟨[], [], m⟩).bind fun r => .ok r.matched := by
  cases cl with
  | nil => simp [loop, step]
  | cons t rest => simp [loop]

/-- The walk at an input byte, whether or not the list is empty. -/
theorem loop_cons (prog : Prog) (fuel c : Nat) (rest : List Nat) (sp : Nat) (cl : List Thread)
    (m : Option (Nat × Caps)) :
    loop prog fuel (c :: rest) sp cl m =
      (step prog fuel c sp cl ⟨[], [], m⟩).bind fun r =>
        if c = 0 then .ok r.matched else loop prog fuel rest (sp + 1) r.nlist r.matched := by
  cases cl with
  | nil => simp [loop, step, loop_empty]
  | cons t rest => simp [loop]

end Pure

namespace Thompson

theorem tloop_refines (prog : Prog) (fuel n : Nat) :
    ∀ (inp : List Nat) (sp : Nat) (cl : List Nat) (pcl : List Pure.Thread) (a : Acc)
      (pm : Option (Nat × Caps)),
      cl.filter (schedB prog) = pcl.map Pure.Thread.pc → (∀ q ∈ cl, q < prog.len) →
      MarksLe a.st.gen a.st.marks → a.matched = pm.isSome → a.subp = treported n pm →
      Res.Rel (LoopRel n) (loop prog fuel inp sp cl a) (Pure.loop prog fuel inp sp pcl pm) := by
  intro inp
  induction inp with
  | nil =>
    intro sp cl pcl a pm hl hlt hle hm hs
    cases cl with
    | nil =>
      have : pcl = [] := by simpa using hl.symm
      subst this
      simp only [loop, Pure.loop, List.length_nil, if_true, Res.Rel]
      exact ⟨hm, hs, hle⟩
    | cons pc rest =>
      rw [Pure.loop_nil, loop]
      simp only [List.length_cons, Nat.succ_ne_zero, if_false]
      have := tstep_refines prog fuel 0 sp n (pc :: rest) pcl
        ⟨⟨a.st.gen + 1, a.st.marks⟩, [], a.matched, a.subp⟩ ⟨[], [], pm⟩ hl hlt
        ⟨rfl, MarkRel.next hle, rfl, by simp, hm, hs⟩
      rw [← Res.bind_ok_right (step prog fuel 0 sp (pc :: rest) _)]
      refine Res.Rel.bind this ?_
      rintro r pa ⟨e1, e2, e3, e4, e5, e6⟩
      exact ⟨e5, e6, by rw [e1]; exact e2.1⟩
  | cons c rest ih =>
    intro sp cl pcl a pm hl hlt hle hm hs
    cases cl with
    | nil =>
      have : pcl = [] := by simpa using hl.symm
      subst this
      simp only [loop, Pure.loop, List.length_nil, if_true, Res.Rel]
      exact ⟨hm, hs, hle⟩
    | cons pc cl1 =>
      rw [Pure.loop_cons, loop]
      simp only [List.length_cons, Nat.succ_ne_zero, if_false]
      have := tstep_refines prog fuel c sp n (pc :: cl1) pcl
        ⟨⟨a.st.gen + 1, a.st.marks⟩, [], a.matched, a.subp⟩ ⟨[], [], pm⟩ hl hlt
        ⟨rfl, MarkRel.next hle, rfl, by simp, hm, hs⟩
      refine Res.Rel.bind this ?_
      rintro r pa ⟨e1, e2, e3, e4, e5, e6⟩
      by_cases h0 : c = 0
      · simp only [h0, if_true, Res.Rel]
        exact ⟨e5, e6, by rw [e1]; exact e2.1⟩
      · simp only [h0, if_false]
        exact ih (sp + 1) r.nlist pa.nlist r pa.matched e3 e4 (by rw [e1]; exact e2.1) e5 e6

end Thompson

/-- The function `thompsonvm` ends as the search on values does and reports
its outcome: the flag, offset 0 in slot 0 and the position of the best match
in slot 1. -/
theorem thompsonvm_refines (prog : Prog) (input : List Nat) (subp : List (Option Nat))
    (gen : Nat) (marks : Nat → Nat) (hle : MarksLe gen marks) :
    Res.Rel (ThompsonRel subp.length) (thompsonvm prog input subp gen marks)
      (Pure.pikevm prog input subp.length) := by
  unfold thompsonvm Pure.pikevm
  simp only
  have hadd := Thompson.taddthread_refines prog (prog.len + 1) ⟨gen + 1, marks⟩ [] []
    prog.start (List.replicate subp.length none) 0 [] (MarkRel.next hle) rfl (by simp)
  refine Res.Rel.bind hadd ?_
  rintro ⟨st1, l1⟩ ⟨vis1, pl1⟩ ⟨e1, e2, e3, e4⟩
  simp only at e1 e2 e3 e4 ⊢
  rw [← Res.bind_ok_right (Pure.loop prog (prog.len + 1) input 0 pl1 none)]
  refine Res.Rel.bind
    (Thompson.tloop_refines prog (prog.len + 1) subp.length input 0 l1 pl1
      ⟨st1, [], false, _⟩ none e3 e4 (by rw [e1]; exact e2.1) rfl ?_) ?_
  · simp only [treported]
    split
    · rfl
    · rename_i h
      have : subp.length = 0 := by omega
      simp [this]
  · rintro a pm ⟨f1, f2, f3⟩
    exact ⟨f1, f2, f3⟩

/-- On a well-formed program and from a valid generation state `thompsonvm`
returns, and what it hands back is what the search on values finds. -/
theorem thompsonvm_returns (prog : Prog) (hwf : prog.WF) (input : List Nat)
    (subp : List (Option Nat)) (gen : Nat) (marks : Nat → Nat) (hle : MarksLe gen marks) :
    ∃ r pm, thompsonvm prog input subp gen marks = .ok r ∧
      Pure.pikevm prog input subp.length = .ok pm ∧ ThompsonRel subp.length r pm := by
  obtain ⟨pm, hp⟩ := Pure.pikevm_ok prog hwf input subp.length
  have := thompsonvm_refines prog input subp gen marks hle
  rw [hp] at this
  obtain ⟨r, hr, hrel⟩ := this.ok_right
  exact ⟨r, pm, hr, hp, hrel⟩

theorem Res.Rel.meet {α β γ : Type} {R : α → γ → Prop} {S : β → γ → Prop}
    {a : Res α} {b : Res β} {p : Res γ} (h1 : Res.Rel R a p) (h2 : Res.Rel S b p) :
    Res.Rel (fun x y => ∃ z, R x z ∧ S y z) a b := by
  cases a <;> cases b <;> cases p <;> simp_all [Res.Rel]
  exact ⟨_, h1, h2⟩

theorem reported_length (n : Nat) (pm : Option (Nat × Caps)) : (reported n pm).length = n := by
  cases pm <;> simp [reported, copyout]

theorem treported_length (n : Nat) (pm : Option (Nat × Caps)) :
    (treported n pm).length = n := by
  cases pm with
  | none => simp [treported]
  | some kc =>
    simp only [treported]
    split <;> simp

/-! ## Thompson and Pike agree on the flag -/

/-- C3: on a well-formed program, each engine started from a valid generation
state, `thompsonvm` and `pikevm` both return and return the same `matched`
flag. -/
theorem thompson_pike_same_flag (prog : Prog) (input : List Nat) (subp : List (Option Nat))
    (gt : Nat) (mt : Nat → Nat) (gp : Nat) (mp : Nat → Nat) (hwf : prog.WF)
    (ht : MarksLe gt mt) (hp : MarksLe gp mp) :
    ∃ rt rp, thompsonvm prog input subp gt mt = .ok rt ∧
      pikevm prog input subp gp mp = .ok rp ∧ rt.matched = rp.matched := by
  obtain ⟨rt, pm, h1, h2, h3⟩ := thompsonvm_returns prog hwf input subp gt mt ht
  obtain ⟨rp, pm2, g1, g2, g3⟩ := pikevm_returns prog hwf input subp gp mp hp
  rw [h2] at g2
  cases g2
  exact ⟨rt, rp, h1, g1, by rw [h3.1, g3.1]⟩

/-- C3 on the program of `a|ab` and the input `ab`. -/
theorem thompson_pike_same_flag_witness :
    (aOrAb.WF ∧ MarksLe 0 (fun _ => 0)) ∧
    ∃ rt rp, thompsonvm aOrAb [97, 98] [none, none] 0 (fun _ => 0) = .ok rt ∧
      pikevm aOrAb [97, 98] [none, none] 0 (fun _ => 0) = .ok rp ∧ rt.matched = rp.matched :=
  ⟨⟨by decide, fun _ => Nat.le_refl 0⟩,
   thompson_pike_same_flag aOrAb [97, 98] [none, none] 0 (fun _ => 0) 0 (fun _ => 0)
     (by decide) (fun _ => Nat.le_refl 0) (fun _ => Nat.le_refl 0)⟩

/-! ## No frame outlives a call of the Pike engine -/

/-- C7: on a well-formed program and from a valid generation state `pikevm`
returns without a fault, so no frame is released or used when its count is
zero, and every frame allocated during the call is left with count zero; no
thread is left on the list. -/
theorem pike_leak_free (prog : Prog) (input : List Nat) (subp : List (Option Nat))
    (gen : Nat) (marks : Nat → Nat) (hwf : prog.WF) (hle : MarksLe gen marks) :
    ∃ r, pikevm prog input subp gen marks = .ok r ∧ (∀ c ∈ r.heap, c.ref = 0) ∧
      r.clist = [] := by
  obtain ⟨r, pm, h1, -, h3⟩ := pikevm_returns prog hwf input subp gen marks hle
  refine ⟨r, h1, ?_, h3.2.2.2.2⟩
  intro c hc
  obtain ⟨p, hp, hpc⟩ := List.getElem_of_mem hc
  have := h3.2.2.1 p
  unfold refOf at this
  rw [List.getElem?_eq_getElem hp, hpc] at this
  exact this

/-- C7 on the program of `a|ab` and the input `ab`. -/
theorem pike_leak_free_witness :
    (aOrAb.WF ∧ MarksLe 0 (fun _ => 0)) ∧
    ∃ r, pikevm aOrAb [97, 98] [none, none] 0 (fun _ => 0) = .ok r ∧
      (∀ c ∈ r.heap, c.ref = 0) ∧ r.clist = [] :=
  ⟨⟨by decide, fun _ => Nat.le_refl 0⟩,
   pike_leak_free aOrAb [97, 98] [none, none] 0 (fun _ => 0) (by decide)
     (fun _ => Nat.le_refl 0)⟩

/-! ## The result does not depend on the generation state -/

/-- C9: for `pikevm` and for `thompsonvm`, on every program and input, two
calls started from valid generation states, with arrays of the same length,
end the same way and return the same flag and the same captures; and a call
that returns leaves a valid generation state, so that a second call started
from the state the first one left returns the same flag and captures. -/
theorem idempotent_across_generations (prog : Prog) (input : List Nat)
    (subp subp2 : List (Option Nat)) (gen : Nat) (marks : Nat → Nat)
    (hlen : subp2.length = subp.length) (hle : MarksLe gen marks) :
    (∀ g2 m2, MarksLe g2 m2 →
      Res.Rel (fun a b => a.matched = b.matched ∧ a.subp = b.subp)
        (pikevm prog input subp gen marks) (pikevm prog input subp2 g2 m2)) ∧
    (∀ r1, pikevm prog input subp gen marks = .ok r1 →
      ∃ r2, pikevm prog input subp2 r1.gen r1.marks = .ok r2 ∧
        r2.matched = r1.matched ∧ r2.subp = r1.subp) ∧
    (∀ g2 m2, MarksLe g2 m2 →
      Res.Rel (fun a b => a.matched = b.matched ∧ a.subp = b.subp)
        (thompsonvm prog input subp gen marks) (thompsonvm prog input subp2 g2 m2)) ∧
    (∀ r1, thompsonvm prog input subp gen marks = .ok r1 →
      ∃ r2, thompsonvm prog input subp2 r1.gen r1.marks = .ok r2 ∧
        r2.matched = r1.matched ∧ r2.subp = r1.subp) := by
  have hp : ∀ g2 m2, MarksLe g2 m2 →
      Res.Rel (fun a b => a.matched = b.matched ∧ a.subp = b.subp)
        (pikevm prog input subp gen marks) (pikevm prog input subp2 g2 m2) := by
    intro g2 m2 h2
    have a1 := pikevm_refines prog input subp gen marks hle
    have a2 := pikevm_refines prog input subp2 g2 m2 h2
    rw [hlen] at a2
    refine (a1.meet a2).mono ?_
    rintro x y ⟨z, h1, h2⟩
    exact ⟨by rw [h1.1, h2.1], by rw [h1.2.1, h2.2.1]⟩
  have ht : ∀ g2 m2, MarksLe g2 m2 →
      Res.Rel (fun a b => a.matched = b.matched ∧ a.subp = b.subp)
        (thompsonvm prog input subp gen marks) (thompsonvm prog input subp2 g2 m2) := by
    intro g2 m2 h2
    have a1 := thompsonvm_refines prog input subp gen marks hle
    have a2 := thompsonvm_refines prog input subp2 g2 m2 h2
    rw [hlen] at a2
    refine (a1.meet a2).mono ?_
    rintro x y ⟨z, h1, h2⟩
    exact ⟨by rw [h1.1, h2.1], by rw [h1.2.1, h2.2.1]⟩
  refine ⟨hp, ?_, ht, ?_⟩
  · intro r1 h1
    have a1 := pikevm_refines prog input subp gen marks hle
    rw [h1] at a1
    obtain ⟨pm, -, hrel⟩ := a1.ok_left
    have := hp r1.gen r1.marks hrel.2.2.2.1
    rw [h1] at this
    obtain ⟨r2, h2, e1, e2⟩ := this.ok_left
    exact ⟨r2, h2, e1.symm, e2.symm⟩
  · intro r1 h1
    have a1 := thompsonvm_refines prog input subp gen marks hle
    rw [h1] at a1
    obtain ⟨pm, -, hrel⟩ := a1.ok_left
    have := ht r1.gen r1.marks hrel.2.2
    rw [h1] at this
    obtain ⟨r2, h2, e1, e2⟩ := this.ok_left
    exact ⟨r2, h2, e1.symm, e2.symm⟩

/-- C9 on the program of `a|ab` and the input `ab`: the second call of
`pikevm`, started from the state the first call left, returns the same. -/
theorem idempotent_across_generations_witness :
    ([none, (none : Option Nat)].length = [some 5, (none : Option Nat)].length ∧
      MarksLe 0 (fun _ => 0)) ∧
    ∃ r1, pikevm aOrAb [97, 98] [some 5, none] 0 (fun _ => 0) = .ok r1 ∧
      ∃ r2, pikevm aOrAb [97, 98] [none, none] r1.gen r1.marks = .ok r2 ∧
        r2.matched = r1.matched ∧ r2.subp = r1.subp :=
  ⟨⟨rfl, fun _ => Nat.le_refl 0⟩, _, rfl,
   (idempotent_across_generations aOrAb [97, 98] [some 5, none] [none, none] 0 (fun _ => 0) rfl
     (fun _ => Nat.le_refl 0)).2.1 _ rfl⟩

/-! ## What the search on values finds: some accepting path -/

theorem Eps.accepts {prog : Prog} {sp : Nat} {t u : Pure.Thread} {rest : List Nat}
    (h : Eps prog sp t u) (ha : AccFrom prog rest u.pc) : AccFrom prog rest t.pc := by
  induction h with
  | refl t => exact ha
  | jmp hi _ ih => exact AccFrom.jmp hi (ih ha)
  | splitx hi _ ih => exact AccFrom.splitx hi (ih ha)
  | splity hi _ ih => exact AccFrom.splity hi (ih ha)
  | save hi _ ih => exact AccFrom.save hi (ih ha)

theorem Closed.onList {prog : Prog} {vis : List Nat} {nl : List Pure.Thread} {rest : List Nat}
    (hc : Closed prog vis nl) {p : Nat} (ha : AccFrom prog rest p) (hp : p ∈ vis) :
    ∃ u ∈ nl, AccFrom prog rest u.pc := by
  have onlist : ∀ {rest : List Nat} {p : Nat} {i : Inst}, prog.insts[p]? = some i →
      i.isCtl = false → p ∈ vis → AccFrom prog rest p → ∃ u ∈ nl, AccFrom prog rest u.pc := by
    intro rest p i hi hctl hp ha
    obtain ⟨j, hj, -, h2⟩ := hc.1 p hp
    rw [hi] at hj
    cases hj
    obtain ⟨u, hu, rfl⟩ := List.mem_map.1 (h2 hctl)
    exact ⟨u, hu, ha⟩
  have succ : ∀ {p q : Nat} {i : Inst}, prog.insts[p]? = some i → i.isCtl = true →
      q ∈ i.succs p → p ∈ vis → q ∈ vis := by
    intro p q i hi hctl hq hp
    obtain ⟨j, hj, h1, -⟩ := hc.1 p hp
    rw [hi] at hj
    cases hj
    exact h1 hctl q hq
  induction ha with
  | mtch hi => exact onlist hi rfl hp (AccFrom.mtch hi)
  | char hi h _ => exact onlist hi rfl hp (AccFrom.char hi h)
  | any hi h _ => exact onlist hi rfl hp (AccFrom.any hi h)
  | jmp hi _ ih => exact ih (succ hi rfl (by simp [Inst.succs]) hp)
  | splitx hi _ ih => exact ih (succ hi rfl (by simp [Inst.succs]) hp)
  | splity hi _ ih => exact ih (succ hi rfl (by simp [Inst.succs]) hp)
  | save hi _ ih => exact ih (succ hi rfl (by simp [Inst.succs]) hp)

theorem Closed.nil (prog : Prog) : Closed prog [] [] :=
  ⟨fun q hq => by simp at hq, fun u hu => by simp at hu⟩

/-- The closure keeps the visited set and the list fitting together, and the
threads it adds accept exactly what the thread added accepts. -/
theorem Closed.addthread {prog : Prog} {vis vis1 : List Nat} {nl nl1 : List Pure.Thread}
    {fuel sp : Nat} {t : Pure.Thread} (hc : Closed prog vis nl)
    (h : Pure.addthread prog fuel vis nl t sp = .ok (vis1, nl1)) (rest : List Nat) :
    Closed prog vis1 nl1 ∧
      ((∃ u ∈ nl1, AccFrom prog rest u.pc) ↔
        ((∃ u ∈ nl, AccFrom prog rest u.pc) ∨ AccFrom prog rest t.pc)) := by
  obtain ⟨h1, h2, N, h3, h4, h5⟩ := Pure.addthread_spec prog _ _ _ _ _ _ _ h
  subst h3
  have hcl : Closed prog vis1 (nl ++ N) := by
    refine ⟨fun q hq => ?_, fun u hu => ?_⟩
    · by_cases hqv : q ∈ vis
      · exact (hc.1 q hqv).weaken h1
      · obtain ⟨i, hi, c1, c2⟩ := h5 q hq hqv
        refine ⟨i, hi, c1, fun hctl => ?_⟩
        rw [List.map_append]
        exact List.mem_append_right _ (c2 hctl)
    · rcases List.mem_append.1 hu with hu | hu
      · exact hc.2 u hu
      · exact (h4 u hu).1
  refine ⟨hcl, ⟨?_, ?_⟩⟩
  · rintro ⟨u, hu, ha⟩
    rcases List.mem_append.1 hu with hu | hu
    · exact Or.inl ⟨u, hu, ha⟩
    · exact Or.inr ((h4 u hu).2.2.2.accepts ha)
  · rintro (⟨u, hu, ha⟩ | ha)
    · exact ⟨u, List.mem_append_left _ hu, ha⟩
    · exact hcl.onList ha h2

theorem acc_cons_sched {prog : Prog} {c pc : Nat} {rest : List Nat} (hc : c ≠ 0)
    (hs : Sched prog pc) :
    AccFrom prog (c :: rest) pc ↔
      (prog.insts[pc]? = some Inst.Match ∨ (Adv prog c pc ∧ AccFrom prog rest (pc + 1))) := by
  obtain ⟨i, hi, hctl⟩ := hs
  constructor
  · intro h
    cases h with
    | mtch h1 => exact Or.inl h1
    | char h1 h2 => exact Or.inr ⟨⟨hc, Or.inl h1⟩, h2⟩
    | any h1 h2 => exact Or.inr ⟨⟨hc, Or.inr h1⟩, h2⟩
    | jmp h1 _ => rw [hi] at h1; cases h1; simp [Inst.isCtl] at hctl
    | splitx h1 _ => rw [hi] at h1; cases h1; simp [Inst.isCtl] at hctl
    | splity h1 _ => rw [hi] at h1; cases h1; simp [Inst.isCtl] at hctl
    | save h1 _ => rw [hi] at h1; cases h1; simp [Inst.isCtl] at hctl
  · rintro (h | ⟨⟨-, h | h⟩, h2⟩)
    · exact AccFrom.mtch h
    · exact AccFrom.char h h2
    · exact AccFrom.any h h2

theorem acc_nil_sched {prog : Prog} {pc : Nat} (hs : Sched prog pc) :
    AccFrom prog [] pc ↔ prog.insts[pc]? = some Inst.Match := by
  obtain ⟨i, hi, hctl⟩ := hs
  constructor
  · intro h
    cases h with
    | mtch h1 => exact h1
    | jmp h1 _ => rw [hi] at h1; cases h1; simp [Inst.isCtl] at hctl
    | splitx h1 _ => rw [hi] at h1; cases h1; simp [Inst.isCtl] at hctl
    | splity h1 _ => rw [hi] at h1; cases h1; simp [Inst.isCtl] at hctl
    | save h1 _ => rw [hi] at h1; cases h1; simp [Inst.isCtl] at hctl
  · exact AccFrom.mtch

/-- One pass over a byte of the input: a match is recorded or some thread of
the next list accepts the rest, exactly when that held before the pass or
some thread of the current list accepts the byte followed by the rest. -/
theorem Pure.step_acc (prog : Prog) (fuel c sp : Nat) (rest : List Nat) (hc : c ≠ 0) :
    ∀ (cl : List Pure.Thread) (a r : Pure.Acc), (∀ t ∈ cl, Sched prog t.pc) →
      Closed prog a.vis a.nlist → Pure.step prog fuel c sp cl a = .ok r →
      Closed prog r.vis r.nlist ∧
        ((r.matched.isSome = true ∨ ∃ u ∈ r.nlist, AccFrom prog rest u.pc) ↔
          (a.matched.isSome = true ∨ (∃ u ∈ a.nlist, AccFrom prog rest u.pc) ∨
            ∃ t ∈ cl, AccFrom prog (c :: rest) t.pc)) := by
  intro cl
  induction cl with
  | nil =>
    intro a r _ hcl h
    simp only [Pure.step, Res.ok.injEq] at h
    subst h
    exact ⟨hcl, by simp⟩
  | cons t cl1 ih =>
    intro a r hs hcl h
    have hs1 : ∀ t ∈ cl1, Sched prog t.pc := fun u hu => hs u (List.mem_cons_of_mem _ hu)
    have hst := hs t (List.mem_cons_self _ _)
    have hacc : AccFrom prog (c :: rest) t.pc ↔ _ := acc_cons_sched hc hst
    by_cases hm : prog.insts[t.pc]? = some Inst.Match
    · rw [Pure.step_match fuel c sp cl1 a hm] at h
      simp only [Res.ok.injEq] at h
      subst h
      refine ⟨hcl, ?_⟩
      simp only [Option.isSome_some, true_or, true_iff]
      exact Or.inr (Or.inr ⟨t, List.mem_cons_self _ _, AccFrom.mtch hm⟩)
    · by_cases ha : Adv prog c t.pc
      · rw [Pure.step_adv fuel sp cl1 a ha] at h
        obtain ⟨⟨vis1, nl1⟩, hadd, hrest⟩ := Res.bind_eq_ok.1 h
        obtain ⟨hcl1, hiff⟩ := hcl.addthread hadd rest
        obtain ⟨hcl2, hiff2⟩ := ih ⟨vis1, nl1, a.matched⟩ r hs1 hcl1 hrest
        refine ⟨hcl2, hiff2.trans ?_⟩
        simp only [hiff, List.mem_cons, exists_eq_or_imp, hacc]
        constructor
        · rintro (h | (h | h) | h)
          · exact Or.inl h
          · exact Or.inr (Or.inl h)
          · exact Or.inr (Or.inr (Or.inl (Or.inr ⟨ha, h⟩)))
          · exact Or.inr (Or.inr (Or.inr h))
        · rintro (h | h | (h | ⟨-, h⟩) | h)
          · exact Or.inl h
          · exact Or.inr (Or.inl (Or.inl h))
          · exact absurd h hm
          · exact Or.inr (Or.inl (Or.inr h))
          · exact Or.inr (Or.inr h)
      · rw [Pure.step_dead fuel sp cl1 a hst hm ha] at h
        obtain ⟨hcl2, hiff2⟩ := ih a r hs1 hcl h
        refine ⟨hcl2, hiff2.trans ?_⟩
        simp only [List.mem_cons, exists_eq_or_imp, hacc]
        constructor
        · rintro (h | h | h)
          · exact Or.inl h
          · exact Or.inr (Or.inl h)
          · exact Or.inr (Or.inr (Or.inr h))
        · rintro (h | h | (h | ⟨h, -⟩) | h)
          · exact Or.inl h
          · exact Or.inr (Or.inl h)
          · exact absurd h hm
          · exact absurd h ha
          · exact Or.inr (Or.inr h)

/-- The pass at the end of the input: a match is recorded exactly when one was
recorded before or some thread of the list stands on a Match. -/
theorem Pure.step_acc_nul (prog : Prog) (fuel sp : Nat) :
    ∀ (cl : List Pure.Thread) (a r : Pure.Acc), (∀ t ∈ cl, Sched prog t.pc) →
      Pure.step prog fuel 0 sp cl a = .ok r →
      (r.matched.isSome = true ↔
        (a.matched.isSome = true ∨ ∃ t ∈ cl, AccFrom prog [] t.pc)) := by
  intro cl
  induction cl with
  | nil =>
    intro a r _ h
    simp only [Pure.step, Res.ok.injEq] at h
    subst h
    simp
  | cons t cl1 ih =>
    intro a r hs h
    have hs1 : ∀ t ∈ cl1, Sched prog t.pc := fun u hu => hs u (List.mem_cons_of_mem _ hu)
    have hst := hs t (List.mem_cons_self _ _)
    by_cases hm : prog.insts[t.pc]? = some Inst.Match
    · rw [Pure.step_match fuel 0 sp cl1 a hm] at h
      simp only [Res.ok.injEq] at h
      subst h
      simp only [Option.isSome_some, true_iff]
      exact Or.inr ⟨t, List.mem_cons_self _ _, AccFrom.mtch hm⟩
    · have ha : ¬ Adv prog 0 t.pc := fun h => h.1 rfl
      rw [Pure.step_dead fuel sp cl1 a hst hm ha] at h
      refine (ih a r hs1 h).trans ?_
      simp only [List.mem_cons, exists_eq_or_imp, acc_nil_sched hst, hm, false_or]

theorem Pure.loop_acc (prog : Prog) (fuel : Nat) :
    ∀ (inp : List Nat) (sp : Nat) (cl : List Pure.Thread) (m res : Option (Nat × Caps)),
      0 ∉ inp → (∀ t ∈ cl, Sched prog t.pc) → Pure.loop prog fuel inp sp cl m = .ok res →
      (res.isSome = true ↔ (m.isSome = true ∨ ∃ t ∈ cl, AccFrom prog inp t.pc)) := by
  intro inp
  induction inp with
  | nil =>
    intro sp cl m res _ hs h
    rw [Pure.loop_nil] at h
    obtain ⟨r, hr, h2⟩ := Res.bind_eq_ok.1 h
    simp only [Res.ok.injEq] at h2
    subst h2
    exact Pure.step_acc_nul prog fuel sp cl _ r hs hr
  | cons c rest ih =>
    intro sp cl m res h0 hs h
    have hc : c ≠ 0 := fun e => h0 (by simp [e])
    have h0' : 0 ∉ rest := fun e => h0 (List.mem_cons_of_mem _ e)
    rw [Pure.loop_cons] at h
    obtain ⟨r, hr, h2⟩ := Res.bind_eq_ok.1 h
    simp only [hc, if_false] at h2
    obtain ⟨hcl, hiff⟩ := Pure.step_acc prog fuel c sp rest hc cl ⟨[], [], m⟩ r hs
      (Closed.nil prog) hr
    refine (ih (sp + 1) r.nlist r.matched res h0' hcl.2 h2).trans (hiff.trans ?_)
    simp

/-- The search on values finds a match exactly when a Match can be reached
from the start instruction by consuming a prefix of the input. -/
theorem Pure.pikevm_acc (prog : Prog) (input : List Nat) (n : Nat)
    (res : Option (Nat × Caps)) (h0 : 0 ∉ input) (h : Pure.pikevm prog input n = .ok res) :
    res.isSome = true ↔ AccFrom prog input prog.start := by
  unfold Pure.pikevm at h
  obtain ⟨⟨vis1, l1⟩, hadd, hl⟩ := Res.bind_eq_ok.1 h
  obtain ⟨hcl, hiff⟩ := (Closed.nil prog).addthread hadd input
  refine (Pure.loop_acc prog _ input 0 l1 none res h0 hcl.2 hl).trans ?_
  simp only [Option.isSome_none, Bool.false_eq_true, false_or]
  exact hiff.trans (by simp)

/-! ## Accepting paths -/

theorem drop_eq_cons {input : List Nat} {j c : Nat} {rest : List Nat}
    (h : input.drop j = c :: rest) :
    j < input.length ∧ input[j]? = some c ∧ input.drop (j + 1) = rest := by
  have hj : j < input.length := by
    by_contra hl
    rw [List.drop_eq_nil_of_le (Nat.le_of_not_lt hl)] at h
    simp at h
  rw [List.drop_eq_getElem_cons hj] at h
  simp only [List.cons.injEq] at h
  exact ⟨hj, by rw [List.getElem?_eq_getElem hj, h.1], h.2⟩

theorem path_of_acc (prog : Prog) (input : List Nat) {rest : List Nat} {pc : Nat}
    (h : AccFrom prog rest pc) :
    ∀ j, j ≤ input.length → input.drop j = rest →
      ∃ k path, k ≤ input.length ∧ PathTo prog input (pc, j) path k := by
  induction h with
  | @mtch rest pc hi =>
    intro j hj _
    exact ⟨j, [], hj, List.Chain.nil, pc, by simp, hi⟩
  | @char c rest pc hi _ ih =>
    intro j _ hr
    obtain ⟨hj, hc, hd⟩ := drop_eq_cons hr
    obtain ⟨k, path, hk, hch, q, hq, hm⟩ := ih (j + 1) hj hd
    refine ⟨k, (pc + 1, j + 1) :: path, hk, List.Chain.cons ?_ hch, q, ?_, hm⟩
    · simp [Move, hi, hc]
    · rw [List.getLast?_cons_cons]; exact hq
  | @any b rest pc hi _ ih =>
    intro j _ hr
    obtain ⟨hj, hc, hd⟩ := drop_eq_cons hr
    obtain ⟨k, path, hk, hch, q, hq, hm⟩ := ih (j + 1) hj hd
    refine ⟨k, (pc + 1, j + 1) :: path, hk, List.Chain.cons ?_ hch, q, ?_, hm⟩
    · simp [Move, hi, hj]
    · rw [List.getLast?_cons_cons]; exact hq
  | @jmp rest pc x hi _ ih =>
    intro j hj hr
    obtain ⟨k, path, hk, hch, q, hq, hm⟩ := ih j hj hr
    refine ⟨k, (x, j) :: path, hk, List.Chain.cons ?_ hch, q, ?_, hm⟩
    · simp [Move, hi]
    · rw [List.getLast?_cons_cons]; exact hq
  | @splitx rest pc x y hi _ ih =>
    intro j hj hr
    obtain ⟨k, path, hk, hch, q, hq, hm⟩ := ih j hj hr
    refine ⟨k, (x, j) :: path, hk, List.Chain.cons ?_ hch, q, ?_, hm⟩
    · simp [Move, hi]
    · rw [List.getLast?_cons_cons]; exact hq
  | @splity rest pc x y hi _ ih =>
    intro j hj hr
    obtain ⟨k, path, hk, hch, q, hq, hm⟩ := ih j hj hr
    refine ⟨k, (y, j) :: path, hk, List.Chain.cons ?_ hch, q, ?_, hm⟩
    · simp [Move, hi]
    · rw [List.getLast?_cons_cons]; exact hq
  | @save rest pc n hi _ ih =>
    intro j hj hr
    obtain ⟨k, path, hk, hch, q, hq, hm⟩ := ih j hj hr
    refine ⟨k, (pc + 1, j) :: path, hk, List.Chain.cons ?_ hch, q, ?_, hm⟩
    · simp [Move, hi]
    · rw [List.getLast?_cons_cons]; exact hq

theorem acc_of_path (prog : Prog) (input : List Nat) :
    ∀ (path : List (Nat × Nat)) (pc j k : Nat), PathTo prog input (pc, j) path k →
      AccFrom prog (input.drop j) pc := by
  intro path
  induction path with
  | nil =>
    rintro pc j k ⟨-, q, hq, hm⟩
    simp only [List.getLast?_singleton, Option.some.injEq, Prod.mk.injEq] at hq
    rw [hq.1]
    exact AccFrom.mtch hm
  | cons b path ih =>
    rintro pc j k ⟨hch, q, hq, hm⟩
    rw [List.getLast?_cons_cons] at hq
    obtain ⟨hmv, hch1⟩ := List.chain_cons.1 hch
    have hrec : ∀ pc1 j1, b = (pc1, j1) → AccFrom prog (input.drop j1) pc1 := by
      intro pc1 j1 hb
      subst hb
      exact ih pc1 j1 k ⟨hch1, q, hq, hm⟩
    unfold Move at hmv
    cases hi : prog.insts[pc]? with
    | none => rw [hi] at hmv; exact absurd hmv (by simp)
    | some i =>
      rw [hi] at hmv
      cases i with
      | Char c =>
        simp only at hmv
        have hj : j < input.length := by
          by_contra hl
          rw [List.getElem?_eq_none (Nat.le_of_not_lt hl)] at hmv
          simp at hmv
        rw [List.drop_eq_getElem_cons hj]
        have hc : input[j] = c := by
          have := hmv.1
          rw [List.getElem?_eq_getElem hj] at this
          simpa using this
        rw [hc]
        exact AccFrom.char hi (hrec _ _ hmv.2)
      | Any =>
        simp only at hmv
        rw [List.drop_eq_getElem_cons hmv.1]
        exact AccFrom.any hi (hrec _ _ hmv.2)
      | Match => simp at hmv
      | Jmp x => exact AccFrom.jmp hi (hrec _ _ hmv)
      | Split x y =>
        simp only at hmv
        rcases hmv with h | h
        · exact AccFrom.splitx hi (hrec _ _ h)
        · exact AccFrom.splity hi (hrec _ _ h)
      | Save n => exact AccFrom.save hi (hrec _ _ hmv)

theorem accepts_iff_acc (prog : Prog) (input : List Nat) :
    Accepts prog input ↔ AccFrom prog input prog.start := by
  constructor
  · rintro ⟨k, path, -, hp⟩
    have := acc_of_path prog input path prog.start 0 k hp
    simpa using this
  · intro h
    exact path_of_acc prog input h 0 (Nat.zero_le _) (by simp)

/-- On a well-formed program and an input without NUL, from a valid generation
state, `pikevm` returns, and with `matched` exactly when the program accepts a
prefix of the input. -/
theorem pikevm_matched_iff (prog : Prog) (input : List Nat) (subp : List (Option Nat))
    (gen : Nat) (marks : Nat → Nat) (hwf : prog.WF) (h0 : 0 ∉ input)
    (hle : MarksLe gen marks) :
    ∃ r, pikevm prog input subp gen marks = .ok r ∧
      (r.matched = true ↔ AccFrom prog input prog.start) := by
  obtain ⟨r, pm, h1, h2, h3⟩ := pikevm_returns prog hwf input subp gen marks hle
  refine ⟨r, h1, ?_⟩
  rw [h3.1]
  exact Pure.pikevm_acc prog input subp.length pm h0 h2

/-! ## The Pike engine matches exactly when an accepting path exists -/

/-- C2: on a well-formed program and an input without NUL, from a valid
generation state, `pikevm` returns, and it returns `matched = true` exactly
when, for some `k ≤ input.length`, there is a path from the start instruction
to a Match instruction consuming exactly the first `k` bytes of the input. -/
theorem pike_match_iff_path (prog : Prog) (input : List Nat) (subp : List (Option Nat))
    (gen : Nat) (marks : Nat → Nat) (hwf : prog.WF) (h0 : 0 ∉ input)
    (hle : MarksLe gen marks) :
    ∃ r, pikevm prog input subp gen marks = .ok r ∧
      (r.matched = true ↔
        ∃ k path, k ≤ input.length ∧ PathTo prog input (prog.start, 0) path k) := by
  obtain ⟨r, h1, h2⟩ := pikevm_matched_iff prog input subp gen marks hwf h0 hle
  exact ⟨r, h1, h2.trans (accepts_iff_acc prog input).symm⟩

/-- C2 on the program of `a|ab` and the input `ab`, where the path through
the primary successor of the Split consumes one byte. -/
theorem pike_match_iff_path_witness :
    (aOrAb.WF ∧ 0 ∉ [97, 98] ∧ MarksLe 0 (fun _ => 0)) ∧
    (∃ r, pikevm aOrAb [97, 98] [none, none] 0 (fun _ => 0) = .ok r ∧
      (r.matched = true ↔
        ∃ k path, k ≤ [97, 98].length ∧ PathTo aOrAb [97, 98] (aOrAb.start, 0) path k)) ∧
    PathTo aOrAb [97, 98] (0, 0) [(1, 0), (2, 0), (3, 1), (6, 1), (7, 1)] 1 :=
  ⟨⟨by decide, by decide, fun _ => Nat.le_refl 0⟩,
   pike_match_iff_path aOrAb [97, 98] [none, none] 0 (fun _ => 0) (by decide) (by decide)
     (fun _ => Nat.le_refl 0),
   ⟨by simp [Move, aOrAb], 7, rfl, rfl⟩⟩

/-! ## The greedy loop and the capacity of the backtracking stack -/

theorem peek_replicate_lt (n j c : Nat) (h : j < n) : peek (List.replicate n c) j = some c := by
  unfold peek
  rw [List.getElem?_append_left (by simpa using h)]
  simp [List.getElem?_replicate, h]

theorem peek_replicate_end (n c : Nat) : peek (List.replicate n c) n = some 0 := by
  unfold peek
  rw [List.getElem?_append_right (by simp)]
  simp

namespace Backtrack

/-- One turn of the greedy loop on a byte `a`: Split, Consume-Literal, Jump. -/
theorem greedy_turn (n : Nat) (subp : List (Option Nat)) (fr : Caps) (f j : Nat)
    (ready : List Thread) (hr : ready.length < 1000) (hj : j < n) :
    run greedyLoop (List.replicate n 97) subp (f + 3) ⟨[⟨j + 1, fr⟩], ready, 0, j, 0⟩ =
      run greedyLoop (List.replicate n 97) subp f
        ⟨[⟨j + 2, fr⟩], ⟨3, j, 0⟩ :: ready, 0, j + 1, 0⟩ := by
  have hr' : ¬ 1000 ≤ ready.length := by omega
  rw [run_succ_eq]
  simp only [exec, greedyLoop, MAX, hr', incref, List.getElem?_cons_zero, if_false,
    Nat.add_one_ne_zero, Res.bind_ok, List.set_cons_zero]
  rw [run_succ_eq]
  simp only [exec, List.getElem?_cons_succ, List.getElem?_cons_zero,
    peek_replicate_lt n j 97 hj, ne_eq, not_true_eq_false, if_false, Res.bind_ok]
  rw [run_succ_eq]
  simp only [exec, List.getElem?_cons_succ, List.getElem?_cons_zero, Res.bind_ok]

/-- The last turn of the greedy loop, at the end of the input: Split, a
Consume-Literal that dies, and the Match popped from the stack. -/
theorem greedy_last (n : Nat) (subp : List (Option Nat)) (fr : Caps) (ready : List Thread)
    (hr : ready.length < 1000) :
    run greedyLoop (List.replicate n 97) subp 3 ⟨[⟨n + 1, fr⟩], ready, 0, n, 0⟩ =
      .ok ⟨true, copyout fr subp, [⟨n, fr⟩]⟩ := by
  have hr' : ¬ 1000 ≤ ready.length := by omega
  simp [run, exec, dead, greedyLoop, MAX, hr', incref, decref, refOf, frame,
    peek_replicate_end n 97]

theorem greedy_run (n : Nat) (subp : List (Option Nat)) (fr : Caps) (hn : n ≤ 999) :
    ∀ (m j : Nat) (ready : List Thread), ready.length = j → j + m = n →
      run greedyLoop (List.replicate n 97) subp (3 * m + 3) ⟨[⟨j + 1, fr⟩], ready, 0, j, 0⟩ =
        .ok ⟨true, copyout fr subp, [⟨n, fr⟩]⟩ := by
  intro m
  induction m with
  | zero =>
    intro j ready hr hj
    have : j = n := by omega
    subst this
    exact greedy_last j subp fr ready (by omega)
  | succ m ih =>
    intro j ready hr hj
    have : 3 * (m + 1) + 3 = (3 * m + 3) + 3 := by ring
    rw [this, greedy_turn n subp fr _ j ready (by omega) (by omega)]
    exact ih (j + 1) _ (by simp [hr]) (by omega)

theorem greedy_overflow (n : Nat) (subp : List (Option Nat)) (fr : Caps) (hn : 1000 ≤ n) :
    ∀ (m j : Nat) (ready : List Thread), ready.length = j → j + m = 1000 →
      run greedyLoop (List.replicate n 97) subp (3 * m + 1) ⟨[⟨j + 1, fr⟩], ready, 0, j, 0⟩ =
        .fatal := by
  intro m
  induction m with
  | zero =>
    intro j ready hr hj
    have : 1000 ≤ ready.length := by omega
    simp [run, exec, greedyLoop, MAX, this]
  | succ m ih =>
    intro j ready hr hj
    have : 3 * (m + 1) + 1 = (3 * m + 1) + 3 := by ring
    rw [this, greedy_turn n subp fr _ j ready (by omega) (by omega)]
    exact ih (j + 1) _ (by simp [hr]) (by omega)

end Backtrack

theorem backtrack_eq_run (prog : Prog) (input : List Nat) (subp : List (Option Nat))
    (fuel : Nat) :
    backtrack prog input subp fuel =
      Backtrack.run prog input subp fuel
        ⟨[⟨1, List.replicate subp.length none⟩], [], prog.start, 0, 0⟩ := by
  unfold backtrack
  simp only [(HeapInv.init subp.length).1]
  simp [newsub, refOf]

theorem greedy_acc : ∀ n : Nat, AccFrom greedyLoop (List.replicate n 97) 0 := by
  intro n
  induction n with
  | zero => exact AccFrom.splity (x := 1) (y := 3) rfl (AccFrom.mtch rfl)
  | succ n ih =>
    exact AccFrom.splitx (x := 1) (y := 3) rfl
      (AccFrom.char (c := 97) rfl (AccFrom.jmp (x := 0) rfl ih))

/-- C6: on the greedy-loop program and an input of `n` bytes `a`, `backtrack`
returns a match when `n ≤ 999` (for every fuel from `3 * n + 3` on); when
`n ≥ 1000` it ends in the capacity failure for every fuel from 3001 on and for
no fuel at all returns; `pikevm` returns a match for every `n`. -/
theorem capacity_exhaustion (n : Nat) (subp : List (Option Nat)) (gen : Nat)
    (marks : Nat → Nat) (hle : MarksLe gen marks) :
    (n ≤ 999 → ∃ r, r.matched = true ∧
      ∀ fuel, 3 * n + 3 ≤ fuel →
        backtrack greedyLoop (List.replicate n 97) subp fuel = .ok r) ∧
    (1000 ≤ n →
      (∀ fuel, 3001 ≤ fuel →
        backtrack greedyLoop (List.replicate n 97) subp fuel = .fatal) ∧
      ∀ fuel r, backtrack greedyLoop (List.replicate n 97) subp fuel ≠ .ok r) ∧
    ∃ r, pikevm greedyLoop (List.replicate n 97) subp gen marks = .ok r ∧
      r.matched = true := by
  refine ⟨fun hn => ?_, fun hn => ?_, ?_⟩
  · refine ⟨⟨true, copyout (List.replicate subp.length none) subp,
      [⟨n, List.replicate subp.length none⟩]⟩, rfl, fun fuel hf => ?_⟩
    have h1 := Backtrack.greedy_run n subp (List.replicate subp.length none) hn n 0 [] rfl
      (by omega)
    obtain ⟨k, rfl⟩ := Nat.exists_eq_add_of_le hf
    rw [backtrack_eq_run]
    have := Backtrack.run_mono greedyLoop (List.replicate n 97) subp (3 * n + 3) _
      (by rw [greedyLoop] at h1 ⊢; rw [h1]; simp) k
    rw [greedyLoop] at h1 this ⊢
    rw [this, h1]
  · have h1 := Backtrack.greedy_overflow n subp (List.replicate subp.length none) hn 1000 0 []
      rfl (by omega)
    have hfat : ∀ fuel, 3001 ≤ fuel →
        backtrack greedyLoop (List.replicate n 97) subp fuel = .fatal := by
      intro fuel hf
      obtain ⟨k, rfl⟩ := Nat.exists_eq_add_of_le hf
      rw [backtrack_eq_run]
      have := Backtrack.run_mono greedyLoop (List.replicate n 97) subp 3001 _
        (by rw [greedyLoop] at h1 ⊢; rw [h1]; simp) k
      rw [greedyLoop] at h1 this ⊢
      rw [this, h1]
    refine ⟨hfat, fun fuel r h => ?_⟩
    have h2 := hfat (fuel + 3001) (by omega)
    rw [backtrack_eq_run] at h h2
    have := Backtrack.run_mono greedyLoop (List.replicate n 97) subp fuel _
      (by rw [h]; simp) 3001
    rw [this, h] at h2
    simp at h2
  · obtain ⟨r, h1, h2⟩ := pikevm_matched_iff greedyLoop (List.replicate n 97) subp gen marks
      (by decide) (by simp) hle
    exact ⟨r, h1, h2.2 (greedy_acc n)⟩

/-- C6 at `n = 2` and at `n = 1000`, with a fresh generation state. -/
theorem capacity_exhaustion_witness :
    (MarksLe 0 (fun _ => 0) ∧ 2 ≤ 999 ∧ 1000 ≤ 1000) ∧
    (∃ r, r.matched = true ∧
      ∀ fuel, 3 * 2 + 3 ≤ fuel →
        backtrack greedyLoop (List.replicate 2 97) [none, none] fuel = .ok r) ∧
    (∀ fuel, 3001 ≤ fuel →
        backtrack greedyLoop (List.replicate 1000 97) [none, none] fuel = .fatal) :=
  ⟨⟨fun _ => Nat.le_refl 0, by decide, by decide⟩,
   (capacity_exhaustion 2 [none, none] 0 (fun _ => 0) (fun _ => Nat.le_refl 0)).1 (by decide),
   ((capacity_exhaustion 1000 [none, none] 0 (fun _ => 0) (fun _ => Nat.le_refl 0)).2.1
     (by decide)).1⟩

/-! ## Properties of threads kept along the search -/

theorem Eps.keeps {prog : Prog} {I : Nat → Caps → Nat → Prop} (hI : ThreadInv prog I) {sp : Nat}
    {t u : Pure.Thread} (h : Eps prog sp t u) (ht : I t.pc t.caps sp) : I u.pc u.caps sp := by
  induction h with
  | refl t => exact ht
  | jmp hi _ ih => exact ih (hI.jmp _ _ _ _ hi ht)
  | splitx hi _ ih => exact ih (hI.splitx _ _ _ _ _ hi ht)
  | splity hi _ ih => exact ih (hI.splity _ _ _ _ _ hi ht)
  | save hi _ ih => exact ih (hI.save _ _ _ _ hi ht)

theorem Adv.keeps_next {prog : Prog} {I : Nat → Caps → Nat → Prop} (hI : ThreadInv prog I)
    {c pc sp : Nat} {caps : Caps} (h : Adv prog c pc) (ht : I pc caps sp) :
    I (pc + 1) caps (sp + 1) := by
  obtain ⟨-, h1 | h1⟩ := h
  · exact hI.char _ _ _ _ h1 ht
  · exact hI.any _ _ _ h1 ht

theorem Pure.step_inv (prog : Prog) (I : Nat → Caps → Nat → Prop) (hI : ThreadInv prog I)
    (fuel c sp : Nat) :
    ∀ (cl : List Pure.Thread) (a r : Pure.Acc), (∀ t ∈ cl, Sched prog t.pc) →
      (∀ t ∈ cl, I t.pc t.caps sp) → (∀ u ∈ a.nlist, I u.pc u.caps (sp + 1)) →
      MatchInv prog I a.matched → Pure.step prog fuel c sp cl a = .ok r →
      (∀ u ∈ r.nlist, I u.pc u.caps (sp + 1)) ∧ MatchInv prog I r.matched := by
  intro cl
  induction cl with
  | nil =>
    intro a r _ _ hn hm h
    simp only [Pure.step, Res.ok.injEq] at h
    subst h
    exact ⟨hn, hm⟩
  | cons t cl1 ih =>
    intro a r hs hcl hn hm h
    have hs1 : ∀ t ∈ cl1, Sched prog t.pc := fun u hu => hs u (List.mem_cons_of_mem _ hu)
    have hcl1 : ∀ t ∈ cl1, I t.pc t.caps sp := fun u hu => hcl u (List.mem_cons_of_mem _ hu)
    have hst := hs t (List.mem_cons_self _ _)
    have hit := hcl t (List.mem_cons_self _ _)
    by_cases hmt : prog.insts[t.pc]? = some Inst.Match
    · rw [Pure.step_match fuel c sp cl1 a hmt] at h
      simp only [Res.ok.injEq] at h
      subst h
      refine ⟨hn, ?_⟩
      intro k caps e
      simp only [Option.some.injEq, Prod.mk.injEq] at e
      obtain ⟨rfl, rfl⟩ := e
      exact ⟨t.pc, hmt, hit⟩
    · by_cases ha : Adv prog c t.pc
      · rw [Pure.step_adv fuel sp cl1 a ha] at h
        obtain ⟨⟨vis1, nl1⟩, hadd, hrest⟩ := Res.bind_eq_ok.1 h
        obtain ⟨-, -, N, h3, h4, -⟩ := Pure.addthread_spec prog _ _ _ _ _ _ _ hadd
        refine ih ⟨vis1, nl1, a.matched⟩ r hs1 hcl1 ?_ hm hrest
        intro u hu
        simp only [h3] at hu
        rcases List.mem_append.1 hu with hu | hu
        · exact hn u hu
        · exact (h4 u hu).2.2.2.keeps hI (ha.keeps_next hI hit)
      · rw [Pure.step_dead fuel sp cl1 a hst hmt ha] at h
        exact ih a r hs1 hcl1 hn hm h

theorem Pure.loop_inv (prog : Prog) (I : Nat → Caps → Nat → Prop) (hI : ThreadInv prog I)
    (fuel : Nat) :
    ∀ (inp : List Nat) (sp : Nat) (cl : List Pure.Thread) (m res : Option (Nat × Caps)),
      (∀ t ∈ cl, Sched prog t.pc) → (∀ t ∈ cl, I t.pc t.caps sp) → MatchInv prog I m →
      Pure.loop prog fuel inp sp cl m = .ok res → MatchInv prog I res := by
  intro inp
  induction inp with
  | nil =>
    intro sp cl m res hs hcl hm h
    rw [Pure.loop_nil] at h
    obtain ⟨r, hr, h2⟩ := Res.bind_eq_ok.1 h
    simp only [Res.ok.injEq] at h2
    subst h2
    exact (Pure.step_inv prog I hI fuel 0 sp cl _ r hs hcl (by simp) hm hr).2
  | cons c rest ih =>
    intro sp cl m res hs hcl hm h
    rw [Pure.loop_cons] at h
    obtain ⟨r, hr, h2⟩ := Res.bind_eq_ok.1 h
    obtain ⟨h3, h4⟩ := Pure.step_inv prog I hI fuel c sp cl _ r hs hcl (by simp) hm hr
    by_cases h0 : c = 0
    · simp only [h0, if_true, Res.ok.injEq] at h2
      subst h2
      exact h4
    · simp only [h0, if_false] at h2
      have hsn : ∀ u ∈ r.nlist, Sched prog u.pc := by
        have := (Pure.step_acc prog fuel c sp [] h0 cl ⟨[], [], m⟩ r hs (Closed.nil prog) hr).1
        exact this.2
      exact ih (sp + 1) r.nlist r.matched res hsn h3 h4 h2

/-- A property of threads that every move keeps and that holds of the initial
thread holds of the thread that found the match reported. -/
theorem Pure.pikevm_inv (prog : Prog) (I : Nat → Caps → Nat → Prop) (hI : ThreadInv prog I)
    (input : List Nat) (n : Nat) (res : Option (Nat × Caps))
    (h0 : I prog.start (List.replicate n none) 0) (h : Pure.pikevm prog input n = .ok res) :
    MatchInv prog I res := by
  unfold Pure.pikevm at h
  obtain ⟨⟨vis1, l1⟩, hadd, hl⟩ := Res.bind_eq_ok.1 h
  obtain ⟨-, -, N, h3, h4, -⟩ := Pure.addthread_spec prog _ _ _ _ _ _ _ hadd
  simp only [List.nil_append] at h3
  subst h3
  refine Pure.loop_inv prog I hI _ input 0 _ none res (fun u hu => (h4 u hu).1) ?_ ?_ hl
  · intro u hu
    exact (h4 u hu).2.2.2.keeps hI h0
  · intro k caps e
    simp at e

/-! ## Overall start and end: Thompson against Pike -/

theorem reported_get (n k i : Nat) (caps : Caps) (hi : i < n) :
    (reported n (some (k, caps)))[i]? = some ((caps[i]?).getD none) := by
  simp [reported, copyout, List.getElem?_map, List.getElem?_range hi]

theorem treported_get (n k : Nat) (caps : Caps) (hn : 2 ≤ n) :
    (treported n (some (k, caps)))[0]? = some (some 0) ∧
      (treported n (some (k, caps)))[1]? = some (some k) := by
  have h0 : 0 < n := by omega
  have h1 : 1 < n := by omega
  simp [treported, hn, List.getElem?_set, h0, h1]

theorem EndInv.threadInv {prog : Prog} (hc : EndConv prog) : ThreadInv prog (EndInv prog) := by
  have other : ∀ {pc : Nat} {caps : Caps} {sp : Nat} (q : Nat) (sq : Nat),
      prog.insts[pc]? ≠ some Inst.Match → EndInv prog pc caps sp → EndInv prog q caps sq := by
    intro pc caps sp q sq hne h
    rcases h with h | ⟨-, h⟩
    · exact Or.inl h
    · exact absurd h hne
  refine ⟨?_, ?_, ?_, ?_, ?_, ?_⟩
  · intro pc x caps sp hi h
    exact other x sp (by rw [hi]; simp) h
  · intro pc x y caps sp hi h
    exact other x sp (by rw [hi]; simp) h
  · intro pc x y caps sp hi h
    exact other y sp (by rw [hi]; simp) h
  · intro pc n caps sp hi h
    have hlen : 1 < caps.length := by
      by_contra hl
      have : caps[1]? = none := List.getElem?_eq_none (Nat.le_of_not_lt hl)
      rcases h with h | ⟨h, -⟩ <;> rw [this] at h <;> simp at h
    by_cases hn : n = 1
    · subst hn
      refine Or.inr ⟨?_, hc pc (lt_len_of_fetch hi) hi⟩
      simp [List.getElem?_set, hlen]
    · have hne : prog.insts[pc]? ≠ some Inst.Match := by rw [hi]; simp
      rcases h with h | ⟨-, h⟩
      · refine Or.inl ?_
        rw [List.getElem?_set_ne hn]
        exact h
      · exact absurd h hne
  · intro pc c caps sp hi h
    exact other (pc + 1) (sp + 1) (by rw [hi]; simp) h
  · intro pc caps sp hi h
    exact other (pc + 1) (sp + 1) (by rw [hi]; simp) h

theorem StartInv.startThreadInv {prog : Prog} (hc : StartConv prog) : ThreadInv prog (StartInv prog) := by
  have hsucc : ∀ {pc q : Nat} {i : Inst}, prog.insts[pc]? = some i → q ∈ i.succs pc →
      q ≠ prog.start := by
    intro pc q i hi hq e
    have := (hc.2 pc (lt_len_of_fetch hi)).2
    rw [List.getD_eq_getElem?_getD, hi] at this
    exact this (e ▸ hq)
  have hne : ∀ {pc : Nat} {i : Inst}, prog.insts[pc]? = some i → i ≠ Inst.Save 0 →
      pc ≠ prog.start := by
    intro pc i hi hi0 e
    rw [e, hc.1] at hi
    cases hi
    exact hi0 rfl
  have other : ∀ {pc : Nat} {i : Inst} {caps : Caps} {sp : Nat} (q : Nat) (sq : Nat),
      prog.insts[pc]? = some i → i ≠ Inst.Save 0 → q ∈ i.succs pc →
      StartInv prog pc caps sp → StartInv prog q caps sq := by
    intro pc i caps sp q sq hi hi0 hq h
    exact ⟨fun e => absurd e (hsucc hi hq), fun _ => h.2.1 (hne hi hi0), h.2.2⟩
  refine ⟨?_, ?_, ?_, ?_, ?_, ?_⟩
  · intro pc x caps sp hi h
    exact other x sp hi (by simp) (by simp [Inst.succs]) h
  · intro pc x y caps sp hi h
    exact other x sp hi (by simp) (by simp [Inst.succs]) h
  · intro pc x y caps sp hi h
    exact other y sp hi (by simp) (by simp [Inst.succs]) h
  · intro pc n caps sp hi h
    have hq : pc + 1 ≠ prog.start := hsucc hi (by simp [Inst.succs])
    refine ⟨fun e => absurd e hq, fun _ => ?_, by simpa using h.2.2⟩
    by_cases hn : n = 0
    · subst hn
      have hpc := (hc.2 pc (lt_len_of_fetch hi)).1 hi
      have hsp := h.1 hpc
      subst hsp
      simp [List.getElem?_set, h.2.2]
    · rw [List.getElem?_set_ne hn]
      exact h.2.1 (hne hi (by simpa using hn))
  · intro pc c caps sp hi h
    exact other (pc + 1) (sp + 1) hi (by simp) (by simp [Inst.succs]) h
  · intro pc caps sp hi h
    exact other (pc + 1) (sp + 1) hi (by simp) (by simp [Inst.succs]) h

/-! ## The depth-first search: fuel and captures -/

theorem dfs_succ (prog : Prog) (input : List Nat) :
    ∀ f pc sp caps, dfs prog input f pc sp caps ≠ .timeout →
      dfs prog input (f + 1) pc sp caps = dfs prog input f pc sp caps := by
  intro f
  induction f with
  | zero => intro pc sp caps h; simp [dfs] at h
  | succ f ih =>
    intro pc sp caps h
    rw [dfs] at h
    rw [dfs]
    conv => rhs; rw [dfs]
    cases hi : prog.insts[pc]? with
    | none => rfl
    | some i =>
      rw [hi] at h
      cases i with
      | Char c =>
        simp only at h ⊢
        cases hp : peek input sp with
        | none => rfl
        | some b =>
          rw [hp] at h
          simp only at h ⊢
          by_cases hb : b ≠ c
          · simp [hb]
          · simp only [hb, if_false] at h ⊢
            exact ih _ _ _ h
      | Any =>
        simp only at h ⊢
        cases hp : peek input sp with
        | none => rfl
        | some b =>
          rw [hp] at h
          simp only at h ⊢
          by_cases hb : b = 0
          · simp [hb]
          · simp only [hb, if_false] at h ⊢
            exact ih _ _ _ h
      | Match => rfl
      | Jmp x => exact ih _ _ _ h
      | Save n => exact ih _ _ _ h
      | Split x y =>
        simp only at h ⊢
        cases hx : dfs prog input f x sp caps with
        | timeout => rw [hx] at h; simp at h
        | fatal => rw [ih _ _ _ (by rw [hx]; simp), hx]; rfl
        | fault => rw [ih _ _ _ (by rw [hx]; simp), hx]; rfl
        | ok r =>
          rw [ih _ _ _ (by rw [hx]; simp), hx]
          rw [hx] at h
          cases r with
          | some c => rfl
          | none =>
            simp only [Res.bind_ok] at h ⊢
            exact ih _ _ _ h

theorem dfs_mono (prog : Prog) (input : List Nat) {f f1 pc sp : Nat} {caps : Caps}
    {r : Option Caps} (h : dfs prog input f pc sp caps = .ok r) (hf : f ≤ f1) :
    dfs prog input f1 pc sp caps = .ok r := by
  obtain ⟨k, rfl⟩ := Nat.exists_eq_add_of_le hf
  induction k with
  | zero => exact h
  | succ k ih =>
    rw [← Nat.add_assoc, dfs_succ prog input _ _ _ _ (by rw [ih (Nat.le_add_right _ _)]; simp)]
    exact ih (Nat.le_add_right _ _)

theorem dfs_timeout_of_le (prog : Prog) (input : List Nat) {f f1 pc sp : Nat} {caps : Caps}
    (h : dfs prog input f1 pc sp caps = .timeout) (hf : f ≤ f1) :
    dfs prog input f pc sp caps = .timeout := by
  obtain ⟨k, rfl⟩ := Nat.exists_eq_add_of_le hf
  induction k with
  | zero => exact h
  | succ k ih =>
    apply ih
    · by_contra hne
      rw [← Nat.add_assoc, dfs_succ prog input _ _ _ _ hne] at h
      exact hne h
    · exact Nat.le_add_right _ _

theorem dfs_det (prog : Prog) (input : List Nat) {f f1 pc sp : Nat} {caps : Caps}
    {r r1 : Option Caps} (h : dfs prog input f pc sp caps = .ok r)
    (h1 : dfs prog input f1 pc sp caps = .ok r1) : r = r1 := by
  have a := dfs_mono prog input h (Nat.le_max_left f f1)
  have b := dfs_mono prog input h1 (Nat.le_max_right f f1)
  rw [a] at b
  cases b
  rfl

/-- How a search ends, and whether it finds a match, does not depend on the
captures it starts with. -/
theorem dfs_shape (prog : Prog) (input : List Nat) :
    ∀ f pc sp (c1 c2 : Caps),
      shape (dfs prog input f pc sp c1) = shape (dfs prog input f pc sp c2) := by
  intro f
  induction f with
  | zero => intro pc sp c1 c2; rfl
  | succ f ih =>
    intro pc sp c1 c2
    rw [dfs, dfs]
    cases hi : prog.insts[pc]? with
    | none => rfl
    | some i =>
      cases i with
      | Char c =>
        simp only
        cases hp : peek input sp with
        | none => rfl
        | some b =>
          simp only
          by_cases hb : b ≠ c
          · simp [hb]
          · simp only [hb, if_false]
            exact ih _ _ _ _
      | Any =>
        simp only
        cases hp : peek input sp with
        | none => rfl
        | some b =>
          simp only
          by_cases hb : b = 0
          · simp [hb]
          · simp only [hb, if_false]
            exact ih _ _ _ _
      | Match => rfl
      | Jmp x => exact ih _ _ _ _
      | Save n => exact ih _ _ _ _
      | Split x y =>
        simp only
        have hx := ih x sp c1 c2
        have hy := ih y sp c1 c2
        cases h1 : dfs prog input f x sp c1 with
        | ok r1 =>
          cases h2 : dfs prog input f x sp c2 with
          | ok r2 =>
            rw [h1, h2] at hx
            simp only [shape, Res.ok.injEq] at hx
            cases r1 with
            | none =>
              cases r2 with
              | none => simpa using hy
              | some c => simp at hx
            | some c =>
              cases r2 with
              | none => simp at hx
              | some c => rfl
          | fatal => rw [h1, h2] at hx; simp [shape] at hx
          | fault => rw [h1, h2] at hx; simp [shape] at hx
          | timeout => rw [h1, h2] at hx; simp [shape] at hx
        | fatal =>
          cases h2 : dfs prog input f x sp c2 <;> rw [h1, h2] at hx <;> simp [shape] at hx ⊢
        | fault =>
          cases h2 : dfs prog input f x sp c2 <;> rw [h1, h2] at hx <;> simp [shape] at hx ⊢
        | timeout =>
          cases h2 : dfs prog input f x sp c2 <;> rw [h1, h2] at hx <;> simp [shape] at hx ⊢

theorem dfs_fail_caps (prog : Prog) (input : List Nat) {f pc sp : Nat} {c1 : Caps} (c2 : Caps)
    (h : dfs prog input f pc sp c1 = .ok none) : dfs prog input f pc sp c2 = .ok none := by
  have := dfs_shape prog input f pc sp c1 c2
  rw [h] at this
  cases h2 : dfs prog input f pc sp c2 with
  | ok r =>
    rw [h2] at this
    simp only [shape, Res.ok.injEq, Option.isSome_none] at this
    cases r with
    | none => rfl
    | some c => simp at this
  | fatal => rw [h2] at this; simp [shape] at this
  | fault => rw [h2] at this; simp [shape] at this
  | timeout => rw [h2] at this; simp [shape] at this

theorem dfs_timeout_caps (prog : Prog) (input : List Nat) {f pc sp : Nat} {c1 : Caps}
    (c2 : Caps) (h : dfs prog input f pc sp c1 = .timeout) :
    dfs prog input f pc sp c2 = .timeout := by
  have := dfs_shape prog input f pc sp c1 c2
  rw [h] at this
  cases h2 : dfs prog input f pc sp c2 <;> rw [h2] at this <;> simp [shape] at this ⊢

/-! ## `backtrack` performs the depth-first search -/

theorem FirstHit.head_of {g g1 : Nat → Res (Option Caps)}
    {rest : List (Nat → Res (Option Caps))} {res : Option Caps}
    (hg : ∀ f r, g1 f = .ok r → ∃ f1, g f1 = .ok r) (h : FirstHit (g1 :: rest) res) :
    FirstHit (g :: rest) res := by
  cases h with
  | hit hf =>
    obtain ⟨f, hf⟩ := hf
    exact FirstHit.hit (hg f _ hf)
  | miss hf hr =>
    obtain ⟨f, hf⟩ := hf
    exact FirstHit.miss (hg f _ hf) hr

/-- A Split at the head of the searches stands for its two successors. -/
theorem FirstHit.split {prog : Prog} {input : List Nat} {pc sp x y : Nat} {caps : Caps}
    {rest : List (Nat → Res (Option Caps))} {res : Option Caps}
    (hi : prog.insts[pc]? = some (Inst.Split x y))
    (h : FirstHit ((fun f => dfs prog input f x sp caps) ::
      (fun f => dfs prog input f y sp caps) :: rest) res) :
    FirstHit ((fun f => dfs prog input f pc sp caps) :: rest) res := by
  cases h with
  | hit hf =>
    obtain ⟨f, hf⟩ := hf
    refine FirstHit.hit ⟨f + 1, ?_⟩
    simp only at hf
    simp [dfs, hi, hf]
  | miss hf hr =>
    obtain ⟨f, hf⟩ := hf
    simp only at hf
    cases hr with
    | hit hf2 =>
      obtain ⟨f2, hf2⟩ := hf2
      simp only at hf2
      refine FirstHit.hit ⟨max f f2 + 1, ?_⟩
      simp [dfs, hi, dfs_mono prog input hf (Nat.le_max_left f f2),
        dfs_mono prog input hf2 (Nat.le_max_right f f2)]
    | miss hf2 hr2 =>
      obtain ⟨f2, hf2⟩ := hf2
      simp only at hf2
      refine FirstHit.miss ⟨max f f2 + 1, ?_⟩ hr2
      simp [dfs, hi, dfs_mono prog input hf (Nat.le_max_left f f2),
        dfs_mono prog input hf2 (Nat.le_max_right f f2)]

theorem Backtrack.run_dfs (prog : Prog) (input : List Nat) (subp : List (Option Nat)) :
    ∀ fuel (s : Backtrack.State) (caps : Caps) (T : List BTrip) (r : Backtrack.Ret),
      s.ready = bconc T → HeapInv s.heap ((s.sub, caps) :: bown T) →
      Backtrack.run prog input subp fuel s = .ok r →
      ∃ res, FirstHit ((fun f => dfs prog input f s.pc s.sp caps) :: bsearches prog input T)
        res ∧ BtRel subp r res := by
  intro fuel
  induction fuel with
  | zero => intro s caps T r _ _ h; simp [Backtrack.run] at h
  | succ fuel ih =>
    intro s caps T r hready hh h
    rw [Backtrack.run_succ_eq] at h
    obtain ⟨n, hn, h2⟩ := Res.bind_eq_ok.1 h
    -- the thread dies: the next one is popped
    have hdead : Backtrack.dead subp s = .ok n →
        (∃ f, dfs prog input f s.pc s.sp caps = .ok none) →
        ∃ res, FirstHit ((fun f => dfs prog input f s.pc s.sp caps) :: bsearches prog input T)
          res ∧ BtRel subp r res := by
      intro hd hfail
      unfold Backtrack.dead at hd
      obtain ⟨h1, hd1, hh1⟩ := hh.decref
      rw [hd1, Res.bind_ok, hready] at hd
      cases T with
      | nil =>
        simp only [bconc, List.map_nil, Res.ok.injEq] at hd
        subst hd
        simp only [Res.ok.injEq] at h2
        subst h2
        exact ⟨none, FirstHit.miss hfail FirstHit.nil, rfl, by simp⟩
      | cons x T1 =>
        have hh2 : HeapInv h1 ((x.2.2.1, x.2.2.2) :: bown T1) := by simpa [bown] using hh1
        have hne : refOf h1 x.2.2.1 ≠ 0 := by rw [hh2.refOf_head]; omega
        simp only [bconc, List.map_cons, hne, if_false, Res.ok.injEq] at hd
        subst hd
        simp only at h2
        obtain ⟨res, hres, hrel⟩ := ih ⟨h1, bconc T1, x.1, x.2.1, x.2.2.1⟩ x.2.2.2 T1 r rfl hh2 h2
        exact ⟨res, FirstHit.miss hfail (by simpa [bsearches] using hres), hrel⟩
    -- the thread moves on without touching the frames
    have hmove : ∀ pc1 sp1, n = .inr ⟨s.heap, s.ready, pc1, sp1, s.sub⟩ →
        (∀ f r, dfs prog input f pc1 sp1 caps = .ok r →
          ∃ f1, dfs prog input f1 s.pc s.sp caps = .ok r) →
        ∃ res, FirstHit ((fun f => dfs prog input f s.pc s.sp caps) :: bsearches prog input T)
          res ∧ BtRel subp r res := by
      intro pc1 sp1 hn1 hstep
      subst hn1
      simp only at h2
      obtain ⟨res, hres, hrel⟩ := ih ⟨s.heap, s.ready, pc1, sp1, s.sub⟩ caps T r hready hh h2
      exact ⟨res, FirstHit.head_of hstep hres, hrel⟩
    unfold Backtrack.exec at hn
    cases hi : prog.insts[s.pc]? with
    | none => rw [hi] at hn; simp at hn
    | some i =>
      rw [hi] at hn
      cases i with
      | Char c =>
        simp only at hn
        cases hp : peek input s.sp with
        | none => rw [hp] at hn; simp at hn
        | some b =>
          rw [hp] at hn
          simp only at hn
          by_cases hb : b ≠ c
          · simp only [hb, if_true, ne_eq, not_false_eq_true] at hn
            exact hdead hn ⟨1, by simp [dfs, hi, hp, hb]⟩
          · simp only [hb, if_false, Res.ok.injEq] at hn
            refine hmove _ _ hn.symm fun f r hf => ⟨f + 1, ?_⟩
            simp [dfs, hi, hp, hb, hf]
      | Any =>
        simp only at hn
        cases hp : peek input s.sp with
        | none => rw [hp] at hn; simp at hn
        | some b =>
          rw [hp] at hn
          simp only at hn
          by_cases hb : b = 0
          · simp only [hb, if_true] at hn
            exact hdead hn ⟨1, by simp [dfs, hi, hp, hb]⟩
          · simp only [hb, if_false, Res.ok.injEq] at hn
            refine hmove _ _ hn.symm fun f r hf => ⟨f + 1, ?_⟩
            simp [dfs, hi, hp, hb, hf]
      | Match =>
        simp only at hn
        obtain ⟨h1, hd1, hh1⟩ := hh.decref
        rw [hd1, Res.bind_ok] at hn
        simp only [Res.ok.injEq] at hn
        subst hn
        simp only [Res.ok.injEq] at h2
        subst h2
        refine ⟨some caps, FirstHit.hit ⟨1, by simp [dfs, hi]⟩, rfl, ?_⟩
        intro c hc
        cases hc
        simp [hh.frame_head]
      | Jmp x =>
        simp only [Res.ok.injEq] at hn
        refine hmove _ _ hn.symm fun f r hf => ⟨f + 1, ?_⟩
        simp [dfs, hi, hf]
      | Split x y =>
        simp only at hn
        by_cases hmax : Backtrack.MAX ≤ s.ready.length
        · simp [hmax] at hn
        · simp only [hmax, if_false] at hn
          obtain ⟨h1, hd1, hh1⟩ := hh.incref
          rw [hd1, Res.bind_ok] at hn
          simp only [Res.ok.injEq] at hn
          subst hn
          simp only at h2
          obtain ⟨res, hres, hrel⟩ := ih ⟨h1, ⟨y, s.sp, s.sub⟩ :: s.ready, x, s.sp, s.sub⟩ caps
            ((y, s.sp, s.sub, caps) :: T) r
            (by simp [bconc, hready]) (by simpa [bown] using hh1) h2
          exact ⟨res, FirstHit.split hi (by simpa [bsearches] using hres), hrel⟩
      | Save k =>
        simp only at hn
        obtain ⟨h1, s1, hd1, hh1⟩ := hh.update k s.sp
        rw [hd1, Res.bind_ok] at hn
        simp only [Res.ok.injEq] at hn
        subst hn
        simp only at h2
        obtain ⟨res, hres, hrel⟩ := ih ⟨h1, s.ready, s.pc + 1, s.sp, s1⟩ (caps.set k (some s.sp)) T r
          hready hh1 h2
        refine ⟨res, FirstHit.head_of (fun f r hf => ⟨f + 1, ?_⟩) hres, hrel⟩
        simp only at hf
        simp [dfs, hi, hf]

/-- A call of `backtrack` that returns hands back the outcome of the
depth-first search from the start instruction with every slot unset. -/
theorem backtrack_dfs (prog : Prog) (input : List Nat) (subp : List (Option Nat)) (fuel : Nat)
    (r : Backtrack.Ret) (h : backtrack prog input subp fuel = .ok r) :
    ∃ f res, dfs prog input f prog.start 0 (List.replicate subp.length none) = .ok res ∧
      BtRel subp r res := by
  rw [backtrack_eq_run] at h
  obtain ⟨res, hres, hrel⟩ := Backtrack.run_dfs prog input subp fuel _
    (List.replicate subp.length none) [] r rfl
    (by simpa [bown] using (HeapInv.init subp.length).2) h
  simp only [bsearches, List.map_nil] at hres
  cases hres with
  | hit hf =>
    obtain ⟨f, hf⟩ := hf
    exact ⟨f, _, hf, hrel⟩
  | miss hf hr =>
    obtain ⟨f, hf⟩ := hf
    cases hr
    exact ⟨f, _, hf, hrel⟩

/-! ## The closure lists the depth-first search in its order -/

theorem FirstHit.append_hit {A B : List (Nat → Res (Option Caps))} {c : Caps}
    (h : FirstHit A (some c)) : FirstHit (A ++ B) (some c) := by
  generalize hr : some c = r at h
  induction h with
  | nil => cases hr
  | hit hf => cases hr; exact FirstHit.hit hf
  | miss hf _ ih => exact FirstHit.miss hf (ih hr)

theorem FirstHit.append_miss {A B : List (Nat → Res (Option Caps))} {r : Option Caps}
    (h : FirstHit A none) (hb : FirstHit B r) : FirstHit (A ++ B) r := by
  generalize hr : (none : Option Caps) = r0 at h
  induction h with
  | nil => exact hb
  | hit hf => cases hr
  | miss hf _ ih => exact FirstHit.miss hf (ih hr)

theorem FirstHit.append_inv {A B : List (Nat → Res (Option Caps))} {r : Option Caps}
    (h : FirstHit (A ++ B) r) :
    (∃ c, FirstHit A (some c) ∧ r = some c) ∨ (FirstHit A none ∧ FirstHit B r) := by
  induction A with
  | nil => exact Or.inr ⟨FirstHit.nil, h⟩
  | cons g A ih =>
    cases h with
    | hit hf => exact Or.inl ⟨_, FirstHit.hit hf, rfl⟩
    | miss hf hr =>
      rcases ih hr with ⟨c, h1, h2⟩ | ⟨h1, h2⟩
      · exact Or.inl ⟨c, FirstHit.miss hf h1, h2⟩
      · exact Or.inr ⟨FirstHit.miss hf h1, h2⟩

theorem searches_append (prog : Prog) (input : List Nat) (sp : Nat) (l N : List Pure.Thread) :
    searches prog input sp (l ++ N) = searches prog input sp l ++ searches prog input sp N := by
  simp [searches]

theorem FirstHit.det {prog : Prog} {input : List Nat} {sp : Nat} :
    ∀ {l : List Pure.Thread} {r r1 : Option Caps},
      FirstHit (searches prog input sp l) r → FirstHit (searches prog input sp l) r1 →
      r = r1 := by
  intro l
  induction l with
  | nil =>
    intro r r1 h h1
    simp only [searches, List.map_nil] at h h1
    cases h; cases h1; rfl
  | cons t l ih =>
    intro r r1 h h1
    simp only [searches, List.map_cons] at h h1
    cases h with
    | hit hf =>
      obtain ⟨f, hf⟩ := hf
      cases h1 with
      | hit hf1 =>
        obtain ⟨f1, hf1⟩ := hf1
        exact dfs_det prog input hf hf1
      | miss hf1 _ =>
        obtain ⟨f1, hf1⟩ := hf1
        exact absurd (dfs_det prog input hf hf1) (by simp)
    | miss hf hr =>
      obtain ⟨f, hf⟩ := hf
      cases h1 with
      | hit hf1 =>
        obtain ⟨f1, hf1⟩ := hf1
        exact absurd (dfs_det prog input hf hf1) (by simp)
      | miss hf1 hr1 => exact ih hr hr1

theorem dfs_min_fuel (prog : Prog) (input : List Nat) {pc sp : Nat} {caps : Caps}
    {r : Option Caps} :
    ∀ f, dfs prog input f pc sp caps = .ok r →
      ∃ f0, f0 + 1 ≤ f ∧ dfs prog input (f0 + 1) pc sp caps = .ok r ∧
        dfs prog input f0 pc sp caps = .timeout := by
  intro f
  induction f with
  | zero => intro h; simp [dfs] at h
  | succ f ih =>
    intro h
    by_cases ht : dfs prog input f pc sp caps = .timeout
    · exact ⟨f, Nat.le_refl _, h, ht⟩
    · rw [dfs_succ prog input f pc sp caps ht] at h
      obtain ⟨f0, h1, h2, h3⟩ := ih h
      exact ⟨f0, Nat.le_succ_of_le h1, h2, h3⟩

/-- The threads `N` a call of the closure adds are, in order, what the
depth-first search from the thread added runs through: when that search ends
with `r`, given that every instruction visited before fails or is still
pending within the fuel of the search, the searches from `N` end with `r`;
and when `r` is a failure, every newly visited instruction fails. -/
theorem Pure.addthread_dfs (prog : Prog) (input : List Nat) (sp : Nat) :
    ∀ fuel vis l (t : Pure.Thread) vis1 l1 N,
      Pure.addthread prog fuel vis l t sp = .ok (vis1, l1) → l1 = l ++ N →
      ∀ f r, (∀ v ∈ vis, Fails prog input sp v ∨ Pending prog input sp f v) →
        dfs prog input f t.pc sp t.caps = .ok r →
        FirstHit (searches prog input sp N) r ∧
          (r = none → ∀ v ∈ vis1, v ∈ vis ∨ Fails prog input sp v) := by
  intro fuel
  induction fuel with
  | zero => intro vis l t vis1 l1 N h; simp [Pure.addthread] at h
  | succ fuel ih =>
    intro vis l t vis1 l1 N h hN f r hvis hd
    cases hi : prog.insts[t.pc]? with
    | none => rw [Pure.addthread_none fuel vis l sp hi] at h; simp at h
    | some i =>
      by_cases hv : t.pc ∈ vis
      · rw [Pure.addthread_seen fuel l sp hi hv] at h
        simp only [Res.ok.injEq, Prod.mk.injEq] at h
        obtain ⟨rfl, rfl⟩ := h
        have hNil : N = [] := by simpa using hN
        subst hNil
        have hr : r = none := by
          rcases hvis _ hv with ⟨f1, c1, h1⟩ | h1
          · exact (dfs_det prog input hd (dfs_fail_caps prog input t.caps h1))
          · rw [h1 t.caps] at hd; simp at hd
        subst hr
        exact ⟨FirstHit.nil, fun _ v hv => Or.inl hv⟩
      · obtain ⟨f0, hf0, hd1, hd0⟩ := dfs_min_fuel prog input f hd
        have hfailpc : r = none → Fails prog input sp t.pc := fun e => ⟨f, t.caps, e ▸ hd⟩
        have hvis1 : ∀ v ∈ t.pc :: vis, Fails prog input sp v ∨ Pending prog input sp f0 v := by
          intro v hv1
          rcases List.mem_cons.1 hv1 with e | hv2
          · subst e
            exact Or.inr fun c => dfs_timeout_caps prog input c hd0
          · rcases hvis v hv2 with h1 | h1
            · exact Or.inl h1
            · exact Or.inr fun c => dfs_timeout_of_le prog input (h1 c) (by omega)
        have hcons : ∀ {vis2 : List Nat},
            (r = none → ∀ v ∈ vis2, v ∈ t.pc :: vis ∨ Fails prog input sp v) →
            r = none → ∀ v ∈ vis2, v ∈ vis ∨ Fails prog input sp v := by
          intro vis2 h2 e v hv2
          rcases h2 e v hv2 with h3 | h3
          · rcases List.mem_cons.1 h3 with e1 | h4
            · exact Or.inr (e1 ▸ hfailpc e)
            · exact Or.inl h4
          · exact Or.inr h3
        cases hc : i.isCtl with
        | false =>
          rw [Pure.addthread_sched fuel l sp hi hc hv] at h
          simp only [Res.ok.injEq, Prod.mk.injEq] at h
          obtain ⟨rfl, rfl⟩ := h
          have hNt : N = [t] := (List.append_cancel_left hN).symm
          subst hNt
          refine ⟨?_, hcons fun _ v hv1 => Or.inl hv1⟩
          simp only [searches, List.map_cons, List.map_nil]
          cases r with
          | none => exact FirstHit.miss ⟨f, hd⟩ FirstHit.nil
          | some c => exact FirstHit.hit ⟨f, hd⟩
        | true =>
          cases i with
          | Char c => simp [Inst.isCtl] at hc
          | Any => simp [Inst.isCtl] at hc
          | Match => simp [Inst.isCtl] at hc
          | Jmp x =>
            rw [Pure.addthread_jmp fuel l sp hi hv] at h
            have hd2 : dfs prog input f0 x sp t.caps = .ok r := by
              rw [dfs, hi] at hd1; exact hd1
            obtain ⟨a, b⟩ := ih _ _ _ _ _ N h hN f0 r hvis1 hd2
            exact ⟨a, hcons b⟩
          | Save n =>
            rw [Pure.addthread_save fuel l sp hi hv] at h
            have hd2 : dfs prog input f0 (t.pc + 1) sp (t.caps.set n (some sp)) = .ok r := by
              rw [dfs, hi] at hd1; exact hd1
            obtain ⟨a, b⟩ := ih _ _ _ _ _ N h hN f0 r hvis1 hd2
            exact ⟨a, hcons b⟩
          | Split x y =>
            rw [Pure.addthread_split fuel l sp hi hv] at h
            obtain ⟨⟨vis2, l2⟩, ha, hb⟩ := Res.bind_eq_ok.1 h
            simp only at hb
            obtain ⟨-, -, N1, e1, -, -⟩ := Pure.addthread_spec prog _ _ _ _ _ _ _ ha
            obtain ⟨-, -, N2, e2, -, -⟩ := Pure.addthread_spec prog _ _ _ _ _ _ _ hb
            have hNN : N = N1 ++ N2 := by
              rw [e2, e1, List.append_assoc] at hN
              exact (List.append_cancel_left hN).symm
            subst hNN
            rw [dfs, hi] at hd1
            simp only at hd1
            obtain ⟨rx, hx, hrest⟩ := Res.bind_eq_ok.1 hd1
            obtain ⟨a1, b1⟩ := ih _ _ _ _ _ N1 ha e1 f0 rx hvis1 hx
            rw [searches_append]
            cases rx with
            | some c =>
              simp only [Res.ok.injEq] at hrest
              subst hrest
              exact ⟨a1.append_hit, fun e => by simp at e⟩
            | none =>
              simp only at hrest
              have hvis2 : ∀ v ∈ vis2, Fails prog input sp v ∨ Pending prog input sp f0 v := by
                intro v hv2
                rcases b1 rfl v hv2 with h3 | h3
                · exact hvis1 v h3
                · exact Or.inl h3
              obtain ⟨a2, b2⟩ := ih _ _ _ _ _ N2 hb e2 f0 r hvis2 hrest
              refine ⟨a1.append_miss a2, hcons fun e v hv1 => ?_⟩
              rcases b2 e v hv1 with h3 | h3
              · exact b1 rfl v h3
              · exact Or.inr h3

/-! ## The lock-step search finds what the depth-first search finds -/

theorem mem_of_fetch {prog : Prog} {pc : Nat} {i : Inst} (h : prog.insts[pc]? = some i) :
    i ∈ prog.insts := by
  have hl := lt_len_of_fetch h
  unfold Prog.len at hl
  rw [List.getElem?_eq_getElem hl] at h
  simp only [Option.some.injEq] at h
  exact h ▸ List.getElem_mem hl

/-- A thread on a Match: its search ends there. -/
theorem dfs_of_match (prog : Prog) (input : List Nat) {pc : Nat} (sp : Nat) (caps : Caps)
    (h : prog.insts[pc]? = some Inst.Match) (f : Nat) :
    dfs prog input (f + 1) pc sp caps = .ok (some caps) := by
  rw [dfs, h]

/-- A thread that moves on over the byte at `sp`: its search goes on from the
next instruction at the next position. -/
theorem dfs_of_adv (prog : Prog) (input : List Nat) {c pc sp : Nat} (caps : Caps)
    (hp : peek input sp = some c) (h : Adv prog c pc) (f : Nat) :
    dfs prog input (f + 1) pc sp caps = dfs prog input f (pc + 1) (sp + 1) caps := by
  obtain ⟨h0, h1 | h1⟩ := h
  · rw [dfs, h1]; simp [hp]
  · rw [dfs, h1]; simp [hp, h0]

/-- A scheduled thread that neither stands on a Match nor moves on: its
search fails.  This is where the program must not hold Consume-Literal NUL. -/
theorem dfs_of_dead (prog : Prog) (input : List Nat) (hnn : NoNulLit prog) {c pc sp : Nat}
    (caps : Caps) (hp : peek input sp = some c) (hs : Sched prog pc)
    (hm : prog.insts[pc]? ≠ some Inst.Match) (ha : ¬ Adv prog c pc) (f : Nat) :
    dfs prog input (f + 1) pc sp caps = .ok none := by
  obtain ⟨i, hi, hc⟩ := hs
  rw [dfs, hi]
  cases i with
  | Char k =>
    simp only [hp]
    by_cases hk : c = k
    · subst hk
      by_cases h0 : c = 0
      · subst h0
        exact absurd (mem_of_fetch hi) hnn
      · exact absurd ⟨h0, Or.inl hi⟩ ha
    · simp [hk]
  | Any =>
    simp only [hp]
    by_cases h0 : c = 0
    · simp [h0]
    · exact absurd ⟨h0, Or.inr hi⟩ ha
  | Match => exact absurd hi hm
  | Jmp x => simp [Inst.isCtl] at hc
  | Split x y => simp [Inst.isCtl] at hc
  | Save n => simp [Inst.isCtl] at hc

theorem dfs_pos {prog : Prog} {input : List Nat} {f pc sp : Nat} {caps : Caps}
    {r : Option Caps} (h : dfs prog input f pc sp caps = .ok r) : ∃ f0, f = f0 + 1 := by
  cases f with
  | zero => simp [dfs] at h
  | succ f0 => exact ⟨f0, rfl⟩

/-- At the terminating NUL the pass on values leaves the next list as it is. -/
theorem Pure.step_nul_nlist (prog : Prog) (fuel sp : Nat) :
    ∀ (cl : List Pure.Thread) (a r : Pure.Acc), (∀ t ∈ cl, Sched prog t.pc) →
      Pure.step prog fuel 0 sp cl a = .ok r → r.nlist = a.nlist := by
  intro cl
  induction cl with
  | nil => intro a r _ h; simp only [Pure.step, Res.ok.injEq] at h; subst h; rfl
  | cons t cl1 ih =>
    intro a r hs h
    have hs1 : ∀ t ∈ cl1, Sched prog t.pc := fun u hu => hs u (List.mem_cons_of_mem _ hu)
    by_cases hm : prog.insts[t.pc]? = some Inst.Match
    · rw [Pure.step_match fuel 0 sp cl1 a hm] at h
      simp only [Res.ok.injEq] at h
      subst h; rfl
    · have ha : ¬ Adv prog 0 t.pc := fun h => h.1 rfl
      rw [Pure.step_dead fuel sp cl1 a (hs t (List.mem_cons_self _ _)) hm ha] at h
      exact ih a r hs1 h

/-- One pass of the lock-step search, against the depth-first searches from
the threads of the next list followed by those of the current list: what
these find in order is what the searches from the next list after the pass
find, with the best match after the pass behind them. -/
theorem Pure.step_dfs (prog : Prog) (input : List Nat) (hnn : NoNulLit prog) (fuel c sp : Nat)
    (hp : peek input sp = some c) :
    ∀ (cl : List Pure.Thread) (a r1 : Pure.Acc) (res : Option Caps),
      (∀ t ∈ cl, Sched prog t.pc) →
      (FirstHit (searches prog input (sp + 1) a.nlist) none →
        ∀ v ∈ a.vis, Fails prog input (sp + 1) v) →
      FirstHit (searches prog input (sp + 1) a.nlist ++ searches prog input sp cl) res →
      Pure.step prog fuel c sp cl a = .ok r1 →
      ∃ rr, FirstHit (searches prog input (sp + 1) r1.nlist) rr ∧
        orBest rr r1.matched = orBest res a.matched := by
  intro cl
  induction cl with
  | nil =>
    intro a r1 res _ _ hres h
    simp only [Pure.step, Res.ok.injEq] at h
    subst h
    exact ⟨res, by simpa [searches] using hres, rfl⟩
  | cons t cl1 ih =>
    intro a r1 res hs hvis hres h
    have hs1 : ∀ t ∈ cl1, Sched prog t.pc := fun u hu => hs u (List.mem_cons_of_mem _ hu)
    have hst := hs t (List.mem_cons_self _ _)
    have hcons : searches prog input sp (t :: cl1) =
        (fun f => dfs prog input f t.pc sp t.caps) :: searches prog input sp cl1 := rfl
    rw [hcons] at hres
    by_cases hm : prog.insts[t.pc]? = some Inst.Match
    · rw [Pure.step_match fuel c sp cl1 a hm] at h
      simp only [Res.ok.injEq] at h
      subst h
      rcases hres.append_inv with ⟨c1, h1, h2⟩ | ⟨h1, h2⟩
      · exact ⟨some c1, h1, by rw [h2]; rfl⟩
      · refine ⟨none, h1, ?_⟩
        cases h2 with
        | hit hf =>
          obtain ⟨f, hf⟩ := hf
          obtain ⟨f0, rfl⟩ := dfs_pos hf
          beta_reduce at hf
          rw [dfs_of_match prog input sp t.caps hm] at hf
          cases hf
          rfl
        | miss hf _ =>
          obtain ⟨f, hf⟩ := hf
          obtain ⟨f0, rfl⟩ := dfs_pos hf
          beta_reduce at hf
          rw [dfs_of_match prog input sp t.caps hm] at hf
          cases hf
    · by_cases ha : Adv prog c t.pc
      · rw [Pure.step_adv fuel sp cl1 a ha] at h
        obtain ⟨⟨vis1, nl1⟩, hadd, hrest⟩ := Res.bind_eq_ok.1 h
        obtain ⟨-, -, N, e1, -, -⟩ := Pure.addthread_spec prog _ _ _ _ _ _ _ hadd
        have key : FirstHit (searches prog input (sp + 1) nl1 ++ searches prog input sp cl1)
              res ∧
            (FirstHit (searches prog input (sp + 1) nl1) none →
              ∀ v ∈ vis1, Fails prog input (sp + 1) v) := by
          rw [e1, searches_append]
          rcases hres.append_inv with ⟨c1, h1, h2⟩ | ⟨h1, h2⟩
          · subst h2
            refine ⟨(h1.append_hit).append_hit, fun hnone => ?_⟩
            rcases hnone.append_inv with ⟨c2, -, h3⟩ | ⟨h3, -⟩
            · simp at h3
            · exact absurd (FirstHit.det h1 h3) (by simp)
          · have hvis0 : ∀ v ∈ a.vis,
                Fails prog input (sp + 1) v ∨ Pending prog input (sp + 1) 0 v :=
              fun v hv => Or.inl (hvis h1 v hv)
            cases h2 with
            | hit hf =>
              obtain ⟨f, hf⟩ := hf
              obtain ⟨f0, rfl⟩ := dfs_pos hf
              beta_reduce at hf
              rw [dfs_of_adv prog input t.caps hp ha] at hf
              obtain ⟨g1, -⟩ := Pure.addthread_dfs prog input (sp + 1) _ _ _ _ _ _ N hadd e1
                f0 _ (fun v hv => Or.inl (hvis h1 v hv)) hf
              refine ⟨(h1.append_miss g1).append_hit, fun hnone => ?_⟩
              rcases hnone.append_inv with ⟨c2, -, h3⟩ | ⟨-, h3⟩
              · simp at h3
              · exact absurd (FirstHit.det g1 h3) (by simp)
            | miss hf hr =>
              obtain ⟨f, hf⟩ := hf
              obtain ⟨f0, rfl⟩ := dfs_pos hf
              beta_reduce at hf
              rw [dfs_of_adv prog input t.caps hp ha] at hf
              obtain ⟨g1, g2⟩ := Pure.addthread_dfs prog input (sp + 1) _ _ _ _ _ _ N hadd e1
                f0 _ (fun v hv => Or.inl (hvis h1 v hv)) hf
              refine ⟨(h1.append_miss g1).append_miss hr, fun _ v hv => ?_⟩
              rcases g2 rfl v hv with h3 | h3
              · exact hvis h1 v h3
              · exact h3
        exact ih ⟨vis1, nl1, a.matched⟩ r1 res hs1 key.2 key.1 hrest
      · rw [Pure.step_dead fuel sp cl1 a hst hm ha] at h
        refine ih a r1 res hs1 hvis ?_ h
        rcases hres.append_inv with ⟨c1, h1, h2⟩ | ⟨h1, h2⟩
        · subst h2; exact h1.append_hit
        · cases h2 with
          | hit hf =>
            obtain ⟨f, hf⟩ := hf
            obtain ⟨f0, rfl⟩ := dfs_pos hf
            beta_reduce at hf
            rw [dfs_of_dead prog input hnn t.caps hp hst hm ha] at hf
            cases hf
          | miss hf hr => exact h1.append_miss hr

theorem peek_of_drop_nil {input : List Nat} {sp : Nat} (hsp : sp ≤ input.length)
    (h : input.drop sp = []) : peek input sp = some 0 := by
  have : sp = input.length := by
    have := List.drop_eq_nil_iff.1 h
    omega
  subst this
  unfold peek
  rw [List.getElem?_append_right (Nat.le_refl _)]
  simp

theorem peek_of_drop_cons {input : List Nat} {sp c : Nat} {rest : List Nat}
    (h : input.drop sp = c :: rest) : peek input sp = some c := by
  obtain ⟨hj, hc, -⟩ := drop_eq_cons h
  unfold peek
  rw [List.getElem?_append_left hj, hc]

theorem orBest_none (m : Option (Nat × Caps)) : orBest none m = m.map Prod.snd := rfl

theorem Pure.loop_dfs (prog : Prog) (input : List Nat) (hnn : NoNulLit prog) (fuel : Nat) :
    ∀ (inp : List Nat) (sp : Nat) (cl : List Pure.Thread) (m res : Option (Nat × Caps))
      (r : Option Caps), sp ≤ input.length → input.drop sp = inp →
      (∀ t ∈ cl, Sched prog t.pc) → FirstHit (searches prog input sp cl) r →
      Pure.loop prog fuel inp sp cl m = .ok res → res.map Prod.snd = orBest r m := by
  intro inp
  induction inp with
  | nil =>
    intro sp cl m res r hsp hdrop hs hr h
    rw [Pure.loop_nil] at h
    obtain ⟨r1, hr1, h2⟩ := Res.bind_eq_ok.1 h
    simp only [Res.ok.injEq] at h2
    subst h2
    obtain ⟨rr, g1, g2⟩ := Pure.step_dfs prog input hnn fuel 0 sp (peek_of_drop_nil hsp hdrop)
      cl ⟨[], [], m⟩ r1 r hs (fun _ v hv => by simp at hv) (by simpa [searches] using hr) hr1
    rw [Pure.step_nul_nlist prog fuel sp cl _ r1 hs hr1] at g1
    simp only [searches, List.map_nil] at g1
    cases g1
    rw [← g2, orBest_none]
  | cons c rest ih =>
    intro sp cl m res r hsp hdrop hs hr h
    rw [Pure.loop_cons] at h
    obtain ⟨r1, hr1, h2⟩ := Res.bind_eq_ok.1 h
    obtain ⟨rr, g1, g2⟩ := Pure.step_dfs prog input hnn fuel c sp (peek_of_drop_cons hdrop)
      cl ⟨[], [], m⟩ r1 r hs (fun _ v hv => by simp at hv) (by simpa [searches] using hr) hr1
    by_cases h0 : c = 0
    · subst h0
      simp only [if_true, Res.ok.injEq] at h2
      subst h2
      rw [Pure.step_nul_nlist prog fuel sp cl _ r1 hs hr1] at g1
      simp only [searches, List.map_nil] at g1
      cases g1
      rw [← g2, orBest_none]
    · simp only [h0, if_false] at h2
      obtain ⟨hj, -, hd⟩ := drop_eq_cons hdrop
      have hsn : ∀ u ∈ r1.nlist, Sched prog u.pc :=
        (Pure.step_acc prog fuel c sp [] h0 cl ⟨[], [], m⟩ r1 hs (Closed.nil prog) hr1).1.2
      rw [ih (sp + 1) r1.nlist r1.matched res rr hj hd hsn g1 h2, g2]

/-- When the depth-first search from the start instruction ends, the search
on values reports its outcome. -/
theorem Pure.pikevm_dfs (prog : Prog) (input : List Nat) (hnn : NoNulLit prog) (n f : Nat)
    (r : Option Caps) (res : Option (Nat × Caps))
    (hd : dfs prog input f prog.start 0 (List.replicate n none) = .ok r)
    (h : Pure.pikevm prog input n = .ok res) : res.map Prod.snd = r := by
  unfold Pure.pikevm at h
  obtain ⟨⟨vis1, l1⟩, hadd, hl⟩ := Res.bind_eq_ok.1 h
  obtain ⟨-, -, N, e1, h4, -⟩ := Pure.addthread_spec prog _ _ _ _ _ _ _ hadd
  obtain ⟨g1, -⟩ := Pure.addthread_dfs prog input 0 _ _ _ _ _ _ N hadd e1 f r
    (fun v hv => by simp at hv) hd
  simp only [List.nil_append] at e1
  subst e1
  rw [Pure.loop_dfs prog input hnn _ input 0 _ none res r (Nat.zero_le _) (by simp)
    (fun u hu => (h4 u hu).1) g1 hl]
  cases r <;> rfl

/-! ## Backtracking against Pike -/

theorem copyout_length_only (c : Caps) (subp : List (Option Nat)) :
    copyout c subp = copyout c (List.replicate subp.length none) := by
  simp [copyout]

theorem Backtrack.jumpLoop_spins (subp : List (Option Nat)) :
    ∀ f h ready, Backtrack.run jumpLoop [] subp f ⟨h, ready, 1, 0, 0⟩ = .timeout := by
  intro f
  induction f with
  | zero => intro h ready; rfl
  | succ f ih =>
    intro h ready
    rw [Backtrack.run_succ_eq]
    simp only [Backtrack.exec, jumpLoop, List.getElem?_cons_succ, List.getElem?_cons_zero,
      Res.bind_ok]
    exact ih h ready

/-- C1, counterexamples: (a) on `Char NUL; Match` and the empty input
`backtrack` returns a match and `pikevm` returns none; (b) on the greedy loop
and a thousand bytes `a` the call of `backtrack` ends in the capacity failure
while `pikevm` returns a match; (c) on a Split into a Jump to itself the call
of `backtrack` runs out of every fuel while `pikevm` returns a match. -/
theorem backtrack_pike_differ :
    (∃ rb rp, backtrack nulLit [] [none, none] 5 = .ok rb ∧
      pikevm nulLit [] [none, none] 0 (fun _ => 0) = .ok rp ∧
      rb.matched = true ∧ rp.matched = false) ∧
    (backtrack greedyLoop (List.replicate 1000 97) [none, none] 3001 = .fatal ∧
      ∃ rp, pikevm greedyLoop (List.replicate 1000 97) [none, none] 0 (fun _ => 0) = .ok rp ∧
        rp.matched = true) ∧
    ((∀ fuel, backtrack jumpLoop [] [none, none] fuel = .timeout) ∧
      ∃ rp, pikevm jumpLoop [] [none, none] 0 (fun _ => 0) = .ok rp ∧ rp.matched = true) := by
  refine ⟨⟨_, _, rfl, rfl, rfl, rfl⟩, ⟨?_, ?_⟩, ⟨?_, _, rfl, rfl⟩⟩
  · rw [backtrack_eq_run]
    exact Backtrack.greedy_overflow 1000 [none, none] _ (Nat.le_refl _) 1000 0 [] rfl rfl
  · obtain ⟨r, h1, h2⟩ := pikevm_matched_iff greedyLoop (List.replicate 1000 97) [none, none] 0
      (fun _ => 0) (by decide) (fun h => by have := (List.mem_replicate.1 h).2; omega)
      (fun _ => Nat.le_refl 0)
    exact ⟨r, h1, h2.2 (greedy_acc 1000)⟩
  · intro fuel
    rw [backtrack_eq_run]
    cases fuel with
    | zero => rfl
    | succ f =>
      rw [Backtrack.run_succ_eq]
      simp only [Backtrack.exec, jumpLoop, Backtrack.MAX, incref, List.getElem?_cons_zero,
        List.length_nil, List.length_cons, List.length_replicate]
      simp only [Nat.reduceLeDiff, if_false, Nat.one_ne_zero, Res.bind_ok, List.set_cons_zero]
      exact Backtrack.jumpLoop_spins _ f _ _

/-- C1, amended: on a well-formed program without Consume-Literal NUL, from a
valid generation state, whenever a call of `backtrack` returns (for some
fuel: it neither exceeds the capacity of its stack nor runs forever),
`pikevm` returns the same `matched` flag and, on a match, the same offset in
every capture slot. -/
theorem backtrack_pike_agree (prog : Prog) (input : List Nat) (subp : List (Option Nat))
    (fuel gen : Nat) (marks : Nat → Nat) (rb : Backtrack.Ret) (hwf : prog.WF)
    (hnn : NoNulLit prog) (hle : MarksLe gen marks)
    (hb : backtrack prog input subp fuel = .ok rb) :
    ∃ rp, pikevm prog input subp gen marks = .ok rp ∧ rp.matched = rb.matched ∧
      (rb.matched = true → rp.subp = rb.subp) := by
  obtain ⟨f, res, hd, hrel⟩ := backtrack_dfs prog input subp fuel rb hb
  obtain ⟨rp, pm, h1, h2, h3⟩ := pikevm_returns prog hwf input subp gen marks hle
  have hpm := Pure.pikevm_dfs prog input hnn subp.length f res pm hd h2
  refine ⟨rp, h1, ?_, fun hm => ?_⟩
  · rw [h3.1, hrel.1, ← hpm]
    cases pm <;> rfl
  · rw [h3.2.1]
    cases pm with
    | none =>
      simp only [Option.map_none'] at hpm
      rw [hrel.1, ← hpm] at hm
      simp at hm
    | some kc =>
      simp only [Option.map_some'] at hpm
      rw [hrel.2 kc.2 hpm.symm, copyout_length_only]
      rfl

/-- C1, the amended statement on the program of `a|ab` and the input `ab`. -/
theorem backtrack_pike_agree_witness :
    (aOrAb.WF ∧ NoNulLit aOrAb ∧ MarksLe 0 (fun _ => 0)) ∧
    ∃ rb, backtrack aOrAb [97, 98] [none, none] 9 = .ok rb ∧
      ∃ rp, pikevm aOrAb [97, 98] [none, none] 0 (fun _ => 0) = .ok rp ∧
        rp.matched = rb.matched ∧ (rb.matched = true → rp.subp = rb.subp) :=
  ⟨⟨by decide, by decide, fun _ => Nat.le_refl 0⟩, _, rfl,
   backtrack_pike_agree aOrAb [97, 98] [none, none] 9 0 (fun _ => 0) _ (by decide) (by decide)
     (fun _ => Nat.le_refl 0) rfl⟩

/-! ## Scenario A: the captures of the last iteration -/

theorem Backtrack.run_inr {prog : Prog} {input : List Nat} {subp : List (Option Nat)}
    {s : Backtrack.State} (f : Nat) (s1 : Backtrack.State)
    (h : Backtrack.exec prog input subp s = .ok (.inr s1)) :
    Backtrack.run prog input subp (f + 1) s = Backtrack.run prog input subp f s1 := by
  rw [Backtrack.run_succ_eq, h]; rfl

theorem Backtrack.run_inl {prog : Prog} {input : List Nat} {subp : List (Option Nat)}
    {s : Backtrack.State} {r : Backtrack.Ret} (f : Nat)
    (h : Backtrack.exec prog input subp s = .ok (.inl r)) :
    Backtrack.run prog input subp (f + 1) s = .ok r := by
  rw [Backtrack.run_succ_eq, h]; rfl

/-- The run of the program of `a(b|c)*` on `abc`, instruction by instruction;
the frames carry `m` slots behind the four the program writes. -/
theorem Backtrack.groupLoop_run (subp : List (Option Nat)) (m : Nat) :
    Backtrack.run groupLoop [97, 98, 99] subp 23
        ⟨[⟨1, List.replicate (m + 4) none⟩], [], 0, 0, 0⟩ =
    .ok ⟨true, copyout (some 0 :: some 3 :: some 2 :: some 3 :: List.replicate m none) subp,
      [⟨1, some 0 :: none :: none :: none :: List.replicate m none⟩,
       ⟨1, some 0 :: none :: some 1 :: none :: List.replicate m none⟩,
       ⟨1, some 0 :: none :: some 1 :: some 2 :: List.replicate m none⟩,
       ⟨0, some 0 :: some 3 :: some 2 :: some 3 :: List.replicate m none⟩,
       ⟨0, some 0 :: none :: some 3 :: some 3 :: List.replicate m none⟩]⟩ := by
  refine Eq.trans (Backtrack.run_inr _
    ⟨[⟨1, some 0 :: none :: none :: none :: List.replicate m none⟩], [], 1, 0, 0⟩ rfl) ?_
  refine Eq.trans (Backtrack.run_inr _
    ⟨[⟨1, some 0 :: none :: none :: none :: List.replicate m none⟩], [], 2, 1, 0⟩ rfl) ?_
  refine Eq.trans (Backtrack.run_inr _
    ⟨[⟨2, some 0 :: none :: none :: none :: List.replicate m none⟩], [⟨10, 1, 0⟩], 3, 1, 0⟩ rfl) ?_
  refine Eq.trans (Backtrack.run_inr _
    ⟨[⟨1, some 0 :: none :: none :: none :: List.replicate m none⟩,
    ⟨1, some 0 :: none :: some 1 :: none :: List.replicate m none⟩], [⟨10, 1, 0⟩], 4, 1, 1⟩ rfl) ?_
  refine Eq.trans (Backtrack.run_inr _
    ⟨[⟨1, some 0 :: none :: none :: none :: List.replicate m none⟩,
    ⟨2, some 0 :: none :: some 1 :: none :: List.replicate m none⟩], [⟨7, 1, 1⟩,
    ⟨10, 1, 0⟩], 5, 1, 1⟩ rfl) ?_
  refine Eq.trans (Backtrack.run_inr _
    ⟨[⟨1, some 0 :: none :: none :: none :: List.replicate m none⟩,
    ⟨2, some 0 :: none :: some 1 :: none :: List.replicate m none⟩], [⟨7, 1, 1⟩,
    ⟨10, 1, 0⟩], 6, 2, 1⟩ rfl) ?_
  refine Eq.trans (Backtrack.run_inr _
    ⟨[⟨1, some 0 :: none :: none :: none :: List.replicate m none⟩,
    ⟨2, some 0 :: none :: some 1 :: none :: List.replicate m none⟩], [⟨7, 1, 1⟩,
    ⟨10, 1, 0⟩], 8, 2, 1⟩ rfl) ?_
  refine Eq.trans (Backtrack.run_inr _
    ⟨[⟨1, some 0 :: none :: none :: none :: List.replicate m none⟩,
    ⟨1, some 0 :: none :: some 1 :: none :: List.replicate m none⟩,
    ⟨1, some 0 :: none :: some 1 :: some 2 :: List.replicate m none⟩], [⟨7, 1, 1⟩,
    ⟨10, 1, 0⟩], 9, 2, 2⟩ rfl) ?_
  refine Eq.trans (Backtrack.run_inr _
    ⟨[⟨1, some 0 :: none :: none :: none :: List.replicate m none⟩,
    ⟨1, some 0 :: none :: some 1 :: none :: List.replicate m none⟩,
    ⟨1, some 0 :: none :: some 1 :: some 2 :: List.replicate m none⟩], [⟨7, 1, 1⟩,
    ⟨10, 1, 0⟩], 2, 2, 2⟩ rfl) ?_
  refine Eq.trans (Backtrack.run_inr _
    ⟨[⟨1, some 0 :: none :: none :: none :: List.replicate m none⟩,
    ⟨1, some 0 :: none :: some 1 :: none :: List.replicate m none⟩,
    ⟨2, some 0 :: none :: some 1 :: some 2 :: List.replicate m none⟩], [⟨10, 2, 2⟩, ⟨7, 1, 1⟩,
    ⟨10, 1, 0⟩], 3, 2, 2⟩ rfl) ?_
  refine Eq.trans (Backtrack.run_inr _
    ⟨[⟨1, some 0 :: none :: none :: none :: List.replicate m none⟩,
    ⟨1, some 0 :: none :: some 1 :: none :: List.replicate m none⟩,
    ⟨1, some 0 :: none :: some 1 :: some 2 :: List.replicate m none⟩,
    ⟨1, some 0 :: none :: some 2 :: some 2 :: List.replicate m none⟩], [⟨10, 2, 2⟩, ⟨7, 1, 1⟩,
    ⟨10, 1, 0⟩], 4, 2, 3⟩ rfl) ?_
  refine Eq.trans (Backtrack.run_inr _
    ⟨[⟨1, some 0 :: none :: none :: none :: List.replicate m none⟩,
    ⟨1, some 0 :: none :: some 1 :: none :: List.replicate m none⟩,
    ⟨1, some 0 :: none :: some 1 :: some 2 :: List.replicate m none⟩,
    ⟨2, some 0 :: none :: some 2 :: some 2 :: List.replicate m none⟩], [⟨7, 2, 3⟩, ⟨10, 2, 2⟩,
    ⟨7, 1, 1⟩, ⟨10, 1, 0⟩], 5, 2, 3⟩ rfl) ?_
  refine Eq.trans (Backtrack.run_inr _
    ⟨[⟨1, some 0 :: none :: none :: none :: List.replicate m none⟩,
    ⟨1, some 0 :: none :: some 1 :: none :: List.replicate m none⟩,
    ⟨1, some 0 :: none :: some 1 :: some 2 :: List.replicate m none⟩,
    ⟨1, some 0 :: none :: some 2 :: some 2 :: List.replicate m none⟩], [⟨10, 2, 2⟩, ⟨7, 1, 1⟩,
    ⟨10, 1, 0⟩], 7, 2, 3⟩ rfl) ?_
  refine Eq.trans (Backtrack.run_inr _
    ⟨[⟨1, some 0 :: none :: none :: none :: List.replicate m none⟩,
    ⟨1, some 0 :: none :: some 1 :: none :: List.replicate m none⟩,
    ⟨1, some 0 :: none :: some 1 :: some 2 :: List.replicate m none⟩,
    ⟨1, some 0 :: none :: some 2 :: some 2 :: List.replicate m none⟩], [⟨10, 2, 2⟩, ⟨7, 1, 1⟩,
    ⟨10, 1, 0⟩], 8, 3, 3⟩ rfl) ?_
  refine Eq.trans (Backtrack.run_inr _
    ⟨[⟨1, some 0 :: none :: none :: none :: List.replicate m none⟩,
    ⟨1, some 0 :: none :: some 1 :: none :: List.replicate m none⟩,
    ⟨1, some 0 :: none :: some 1 :: some 2 :: List.replicate m none⟩,
    ⟨1, some 0 :: none :: some 2 :: some 3 :: List.replicate m none⟩], [⟨10, 2, 2⟩, ⟨7, 1, 1⟩,
    ⟨10, 1, 0⟩], 9, 3, 3⟩ rfl) ?_
  refine Eq.trans (Backtrack.run_inr _
    ⟨[⟨1, some 0 :: none :: none :: none :: List.replicate m none⟩,
    ⟨1, some 0 :: none :: some 1 :: none :: List.replicate m none⟩,
    ⟨1, some 0 :: none :: some 1 :: some 2 :: List.replicate m none⟩,
    ⟨1, some 0 :: none :: some 2 :: some 3 :: List.replicate m none⟩], [⟨10, 2, 2⟩, ⟨7, 1, 1⟩,
    ⟨10, 1, 0⟩], 2, 3, 3⟩ rfl) ?_
  refine Eq.trans (Backtrack.run_inr _
    ⟨[⟨1, some 0 :: none :: none :: none :: List.replicate m none⟩,
    ⟨1, some 0 :: none :: some 1 :: none :: List.replicate m none⟩,
    ⟨1, some 0 :: none :: some 1 :: some 2 :: List.replicate m none⟩,
    ⟨2, some 0 :: none :: some 2 :: some 3 :: List.replicate m none⟩], [⟨10, 3, 3⟩, ⟨10, 2, 2⟩,
    ⟨7, 1, 1⟩, ⟨10, 1, 0⟩], 3, 3, 3⟩ rfl) ?_
  refine Eq.trans (Backtrack.run_inr _
    ⟨[⟨1, some 0 :: none :: none :: none :: List.replicate m none⟩,
    ⟨1, some 0 :: none :: some 1 :: none :: List.replicate m none⟩,
    ⟨1, some 0 :: none :: some 1 :: some 2 :: List.replicate m none⟩,
    ⟨1, some 0 :: none :: some 2 :: some 3 :: List.replicate m none⟩,
    ⟨1, some 0 :: none :: some 3 :: some 3 :: List.replicate m none⟩], [⟨10, 3, 3⟩, ⟨10, 2, 2⟩,
    ⟨7, 1, 1⟩, ⟨10, 1, 0⟩], 4, 3, 4⟩ rfl) ?_
  refine Eq.trans (Backtrack.run_inr _
    ⟨[⟨1, some 0 :: none :: none :: none :: List.replicate m none⟩,
    ⟨1, some 0 :: none :: some 1 :: none :: List.replicate m none⟩,
    ⟨1, some 0 :: none :: some 1 :: some 2 :: List.replicate m none⟩,
    ⟨1, some 0 :: none :: some 2 :: some 3 :: List.replicate m none⟩,
    ⟨2, some 0 :: none :: some 3 :: some 3 :: List.replicate m none⟩], [⟨7, 3, 4⟩, ⟨10, 3, 3⟩,
    ⟨10, 2, 2⟩, ⟨7, 1, 1⟩, ⟨10, 1, 0⟩], 5, 3, 4⟩ rfl) ?_
  refine Eq.trans (Backtrack.run_inr _
    ⟨[⟨1, some 0 :: none :: none :: none :: List.replicate m none⟩,
    ⟨1, some 0 :: none :: some 1 :: none :: List.replicate m none⟩,
    ⟨1, some 0 :: none :: some 1 :: some 2 :: List.replicate m none⟩,
    ⟨1, some 0 :: none :: some 2 :: some 3 :: List.replicate m none⟩,
    ⟨1, some 0 :: none :: some 3 :: some 3 :: List.replicate m none⟩], [⟨10, 3, 3⟩, ⟨10, 2, 2⟩,
    ⟨7, 1, 1⟩, ⟨10, 1, 0⟩], 7, 3, 4⟩ rfl) ?_
  refine Eq.trans (Backtrack.run_inr _
    ⟨[⟨1, some 0 :: none :: none :: none :: List.replicate m none⟩,
    ⟨1, some 0 :: none :: some 1 :: none :: List.replicate m none⟩,
    ⟨1, some 0 :: none :: some 1 :: some 2 :: List.replicate m none⟩,
    ⟨1, some 0 :: none :: some 2 :: some 3 :: List.replicate m none⟩,
    ⟨0, some 0 :: none :: some 3 :: some 3 :: List.replicate m none⟩], [⟨10, 2, 2⟩, ⟨7, 1, 1⟩,
    ⟨10, 1, 0⟩], 10, 3, 3⟩ rfl) ?_
  refine Eq.trans (Backtrack.run_inr _
    ⟨[⟨1, some 0 :: none :: none :: none :: List.replicate m none⟩,
    ⟨1, some 0 :: none :: some 1 :: none :: List.replicate m none⟩,
    ⟨1, some 0 :: none :: some 1 :: some 2 :: List.replicate m none⟩,
    ⟨1, some 0 :: some 3 :: some 2 :: some 3 :: List.replicate m none⟩,
    ⟨0, some 0 :: none :: some 3 :: some 3 :: List.replicate m none⟩], [⟨10, 2, 2⟩, ⟨7, 1, 1⟩,
    ⟨10, 1, 0⟩], 11, 3, 3⟩ rfl) ?_
  exact Backtrack.run_inl _ rfl

theorem copyout_get (caps : Caps) (subp : List (Option Nat)) (i : Nat)
    (hi : i < subp.length) : (copyout caps subp)[i]? = some ((caps[i]?).getD none) := by
  simp [copyout, List.getElem?_map, List.getElem?_range hi]

/-- The search on values of the program of `a(b|c)*` on `abc`. -/
theorem Pure.groupLoop_search (m : Nat) :
    Pure.pikevm groupLoop [97, 98, 99] (m + 4) =
      .ok (some (3, some 0 :: some 3 :: some 2 :: some 3 :: List.replicate m none)) := rfl

/-- C11 (Scenario A): on the program of `a(b|c)*` and the input `abc`, with an
array of at least four slots, `backtrack` (given fuel for its 23 instructions)
and `pikevm` (from a valid generation state) return a match with slots
(0, 1) = (0, 3) and slots (2, 3) = (2, 3), the offsets of the last iteration.
The iteration abandoned at the end of the input wrote offset 3 into slot 2 of
a frame of its own, which `backtrack` leaves behind released: the write is
not in the result. -/
theorem scenario_a_last_iteration (subp : List (Option Nat)) (gen : Nat) (marks : Nat → Nat)
    (hn : 4 ≤ subp.length) (hle : MarksLe gen marks) :
    (∃ r, (∀ fuel, 23 ≤ fuel → backtrack groupLoop [97, 98, 99] subp fuel = .ok r) ∧
      r.matched = true ∧ r.subp[0]? = some (some 0) ∧ r.subp[1]? = some (some 3) ∧
      r.subp[2]? = some (some 2) ∧ r.subp[3]? = some (some 3) ∧
      ∃ c ∈ r.heap, c.ref = 0 ∧ c.sub[2]? = some (some 3)) ∧
    (∃ r, pikevm groupLoop [97, 98, 99] subp gen marks = .ok r ∧
      r.matched = true ∧ r.subp[0]? = some (some 0) ∧ r.subp[1]? = some (some 3) ∧
      r.subp[2]? = some (some 2) ∧ r.subp[3]? = some (some 3)) := by
  obtain ⟨m, hm⟩ : ∃ m, subp.length = m + 4 := ⟨subp.length - 4, by omega⟩
  refine ⟨⟨⟨true, copyout (some 0 :: some 3 :: some 2 :: some 3 :: List.replicate m none) subp,
      [⟨1, some 0 :: none :: none :: none :: List.replicate m none⟩,
       ⟨1, some 0 :: none :: some 1 :: none :: List.replicate m none⟩,
       ⟨1, some 0 :: none :: some 1 :: some 2 :: List.replicate m none⟩,
       ⟨0, some 0 :: some 3 :: some 2 :: some 3 :: List.replicate m none⟩,
       ⟨0, some 0 :: none :: some 3 :: some 3 :: List.replicate m none⟩]⟩,
    fun fuel hf => ?_, rfl, ?_, ?_, ?_, ?_,
    ⟨⟨0, some 0 :: none :: some 3 :: some 3 :: List.replicate m none⟩, by simp, rfl, rfl⟩⟩, ?_⟩
  · have h23 := Backtrack.groupLoop_run subp m
    have hne : Backtrack.run groupLoop [97, 98, 99] subp 23
        ⟨[⟨1, List.replicate (m + 4) none⟩], [], 0, 0, 0⟩ ≠ .timeout := by
      rw [h23]; exact fun h => Res.noConfusion h
    have hk := Backtrack.run_mono groupLoop [97, 98, 99] subp 23 _ hne (fuel - 23)
    rw [backtrack_eq_run, hm]
    have he : fuel = 23 + (fuel - 23) := by omega
    rw [he]
    exact hk.trans h23
  · rw [copyout_get _ _ 0 (by omega)]; rfl
  · rw [copyout_get _ _ 1 (by omega)]; rfl
  · rw [copyout_get _ _ 2 (by omega)]; rfl
  · rw [copyout_get _ _ 3 (by omega)]; simp
  · obtain ⟨r, pm, h1, h2, h3⟩ :=
      pikevm_returns groupLoop (by decide) [97, 98, 99] subp gen marks hle
    rw [hm, Pure.groupLoop_search m] at h2
    cases h2
    refine ⟨r, h1, h3.1, ?_, ?_, ?_, ?_⟩
    · rw [h3.2.1, reported_get _ _ 0 _ (by omega)]; rfl
    · rw [h3.2.1, reported_get _ _ 1 _ (by omega)]; rfl
    · rw [h3.2.1, reported_get _ _ 2 _ (by omega)]; rfl
    · rw [h3.2.1, reported_get _ _ 3 _ (by omega)]; simp

/-- C11 at an array of four slots and a fresh generation state. -/
theorem scenario_a_last_iteration_witness :
    (4 ≤ [none, none, none, (none : Option Nat)].length ∧ MarksLe 0 (fun _ => 0)) ∧
    ∃ r, pikevm groupLoop [97, 98, 99] [none, none, none, none] 0 (fun _ => 0) = .ok r ∧
      r.matched = true ∧ r.subp[0]? = some (some 0) ∧ r.subp[1]? = some (some 3) ∧
      r.subp[2]? = some (some 2) ∧ r.subp[3]? = some (some 3) :=
  ⟨⟨by decide, fun _ => Nat.le_refl 0⟩,
   (scenario_a_last_iteration [none, none, none, none] 0 (fun _ => 0) (by decide)
      (fun _ => Nat.le_refl 0)).2⟩

/-! ## Scenario B: the empty match of a star -/

/-- The byte under the start of an input that does not begin with `a`. -/
theorem peek_head_ne {input : List Nat} (hi : input.head? ≠ some 97) :
    ∃ b, peek input 0 = some b ∧ b ≠ 97 := by
  cases input with
  | nil => exact ⟨0, rfl, by decide⟩
  | cons b rest =>
    refine ⟨b, by simp [peek], fun h => hi ?_⟩
    simp [h]

/-- The run of the program of `a*` on an input that does not begin with `a`,
instruction by instruction. -/
theorem Backtrack.starLoop_run (input : List Nat) (subp : List (Option Nat)) (m : Nat)
    (hi : input.head? ≠ some 97) :
    Backtrack.run starLoop input subp 5 ⟨[⟨1, List.replicate (m + 2) none⟩], [], 0, 0, 0⟩ =
      .ok ⟨true, copyout (some 0 :: some 0 :: List.replicate m none) subp,
        [⟨0, some 0 :: some 0 :: List.replicate m none⟩]⟩ := by
  obtain ⟨b, hb, hne⟩ := peek_head_ne hi
  refine Eq.trans (Backtrack.run_inr _
    ⟨[⟨1, some 0 :: none :: List.replicate m none⟩], [], 1, 0, 0⟩ rfl) ?_
  refine Eq.trans (Backtrack.run_inr _
    ⟨[⟨2, some 0 :: none :: List.replicate m none⟩], [⟨4, 0, 0⟩], 2, 0, 0⟩ rfl) ?_
  refine Eq.trans (Backtrack.run_inr _
    ⟨[⟨1, some 0 :: none :: List.replicate m none⟩], [], 4, 0, 0⟩ ?_) ?_
  · simp [Backtrack.exec, Backtrack.dead, starLoop, hb, hne, decref, refOf]
  refine Eq.trans (Backtrack.run_inr _
    ⟨[⟨1, some 0 :: some 0 :: List.replicate m none⟩], [], 5, 0, 0⟩ rfl) ?_
  exact Backtrack.run_inl _ rfl

/-- The search on values of the program of `a*` on an input that does not
begin with `a`. -/
theorem Pure.starLoop_search (input : List Nat) (m : Nat) (hi : input.head? ≠ some 97) :
    Pure.pikevm starLoop input (m + 2) =
      .ok (some (0, some 0 :: some 0 :: List.replicate m none)) := by
  have ha : Pure.addthread starLoop (starLoop.len + 1) [] []
      ⟨starLoop.start, List.replicate (m + 2) none⟩ 0 =
      .ok ([5, 4, 2, 1, 0], [⟨2, some 0 :: none :: List.replicate m none⟩,
        ⟨5, some 0 :: some 0 :: List.replicate m none⟩]) := rfl
  unfold Pure.pikevm
  rw [ha, Res.bind_ok]
  cases input with
  | nil => rfl
  | cons b rest =>
    have hne : b ≠ 97 := fun h => hi (by simp [h])
    rw [Pure.loop_cons]
    have hs : Pure.step starLoop (starLoop.len + 1) b 0
        [⟨2, some 0 :: none :: List.replicate m none⟩,
          ⟨5, some 0 :: some 0 :: List.replicate m none⟩] ⟨[], [], none⟩ =
        .ok ⟨[], [], some (0, some 0 :: some 0 :: List.replicate m none)⟩ := by
      simp [Pure.step, starLoop, hne]
    simp only [hs, Res.bind_ok, Pure.loop_empty]
    split <;> rfl

/-- C12 (Scenario B): on the program of `a*` and every input that does not
begin with `a`, with an array of at least two slots, `backtrack` (given fuel
for its five instructions), `pikevm` and `thompsonvm` (from a valid generation
state) return a match with overall offsets (0, 0). -/
theorem scenario_b_empty_match (input : List Nat) (subp : List (Option Nat)) (gen : Nat)
    (marks : Nat → Nat) (hi : input.head? ≠ some 97) (hn : 2 ≤ subp.length)
    (hle : MarksLe gen marks) :
    (∃ r, (∀ fuel, 5 ≤ fuel → backtrack starLoop input subp fuel = .ok r) ∧
      r.matched = true ∧ r.subp[0]? = some (some 0) ∧ r.subp[1]? = some (some 0)) ∧
    (∃ r, pikevm starLoop input subp gen marks = .ok r ∧
      r.matched = true ∧ r.subp[0]? = some (some 0) ∧ r.subp[1]? = some (some 0)) ∧
    (∃ r, thompsonvm starLoop input subp gen marks = .ok r ∧
      r.matched = true ∧ r.subp[0]? = some (some 0) ∧ r.subp[1]? = some (some 0)) := by
  obtain ⟨m, hm⟩ : ∃ m, subp.length = m + 2 := ⟨subp.length - 2, by omega⟩
  refine ⟨⟨⟨true, copyout (some 0 :: some 0 :: List.replicate m none) subp,
      [⟨0, some 0 :: some 0 :: List.replicate m none⟩]⟩, fun fuel hf => ?_, rfl, ?_, ?_⟩,
    ?_, ?_⟩
  · have h5 := Backtrack.starLoop_run input subp m hi
    have hne : Backtrack.run starLoop input subp 5
        ⟨[⟨1, List.replicate (m + 2) none⟩], [], 0, 0, 0⟩ ≠ .timeout := by
      rw [h5]; exact fun h => Res.noConfusion h
    have hk := Backtrack.run_mono starLoop input subp 5 _ hne (fuel - 5)
    rw [backtrack_eq_run, hm]
    have he : fuel = 5 + (fuel - 5) := by omega
    rw [he]
    exact hk.trans h5
  · rw [copyout_get _ _ 0 (by omega)]; rfl
  · rw [copyout_get _ _ 1 (by omega)]; simp
  · obtain ⟨r, pm, h1, h2, h3⟩ := pikevm_returns starLoop (by decide) input subp gen marks hle
    rw [hm, Pure.starLoop_search input m hi] at h2
    cases h2
    refine ⟨r, h1, h3.1, ?_, ?_⟩
    · rw [h3.2.1, reported_get _ _ 0 _ (by omega)]; rfl
    · rw [h3.2.1, reported_get _ _ 1 _ (by omega)]; simp
  · obtain ⟨r, pm, h1, h2, h3⟩ :=
      thompsonvm_returns starLoop (by decide) input subp gen marks hle
    rw [hm, Pure.starLoop_search input m hi] at h2
    cases h2
    have hg := treported_get subp.length 0 (some 0 :: some 0 :: List.replicate m none) hn
    refine ⟨r, h1, h3.1, ?_, ?_⟩
    · rw [h3.2.1]; exact hg.1
    · rw [h3.2.1]; exact hg.2

/-- C12 at the input `bbb` with two slots and a fresh generation state. -/
theorem scenario_b_empty_match_witness :
    ([98, 98, 98].head? ≠ some 97 ∧ 2 ≤ [none, (none : Option Nat)].length ∧
      MarksLe 0 (fun _ => 0)) ∧
    ∃ r, thompsonvm starLoop [98, 98, 98] [none, none] 0 (fun _ => 0) = .ok r ∧
      r.matched = true ∧ r.subp[0]? = some (some 0) ∧ r.subp[1]? = some (some 0) :=
  ⟨⟨by decide, by decide, fun _ => Nat.le_refl 0⟩,
   (scenario_b_empty_match [98, 98, 98] [none, none] 0 (fun _ => 0) (by decide) (by decide)
      (fun _ => Nat.le_refl 0)).2.2⟩

/-! ## Boundary: a program that starts on its Match -/

theorem copyout_unset (n : Nat) (subp : List (Option Nat)) :
    copyout (List.replicate n none) subp = List.replicate subp.length none := by
  apply List.ext_getElem?
  intro i
  by_cases hi : i < subp.length
  · rw [copyout_get _ _ i hi]
    simp [List.getElem?_replicate, hi]
    split <;> rfl
  · have h1 : (copyout (List.replicate n none) subp).length ≤ i := by
      simp [copyout]; omega
    rw [List.getElem?_eq_none h1, List.getElem?_eq_none (by simp; omega)]

/-- The search on values of a program whose start instruction is Match. -/
theorem Pure.start_match_search (prog : Prog) (input : List Nat) (n : Nat)
    (hs : prog.insts[prog.start]? = some Inst.Match) :
    Pure.pikevm prog input n = .ok (some (0, List.replicate n none)) := by
  unfold Pure.pikevm
  have ha := @Pure.addthread_sched prog ⟨prog.start, List.replicate n none⟩ _ prog.len []
    [] 0 hs rfl (by simp)
  simp only [ha, Res.bind_ok, List.nil_append]
  cases input with
  | nil =>
    rw [Pure.loop_nil, Pure.step_match _ _ _ _ _ hs]
    rfl
  | cons c rest =>
    rw [Pure.loop_cons, Pure.step_match _ _ _ _ _ hs]
    simp only [Res.bind_ok, Pure.loop_empty]
    split <;> rfl

/-- C13 (Boundary): on every program whose start instruction is Match and
every input, `backtrack` (given fuel for its one instruction) and `pikevm`
(from a valid generation state) return a match with every capture slot
unset. -/
theorem start_on_match (prog : Prog) (input : List Nat) (subp : List (Option Nat)) (gen : Nat)
    (marks : Nat → Nat) (hs : prog.insts[prog.start]? = some Inst.Match)
    (hle : MarksLe gen marks) :
    (∃ r, (∀ fuel, 1 ≤ fuel → backtrack prog input subp fuel = .ok r) ∧
      r.matched = true ∧ r.subp = List.replicate subp.length none) ∧
    (∃ r, pikevm prog input subp gen marks = .ok r ∧
      r.matched = true ∧ r.subp = List.replicate subp.length none) := by
  refine ⟨⟨⟨true, copyout (List.replicate subp.length none) subp,
      [⟨0, List.replicate subp.length none⟩]⟩, fun fuel hf => ?_, rfl, copyout_unset _ _⟩, ?_⟩
  · obtain ⟨f, rfl⟩ : ∃ f, fuel = f + 1 := ⟨fuel - 1, by omega⟩
    rw [backtrack_eq_run]
    refine Backtrack.run_inl _ ?_
    simp [Backtrack.exec, hs, decref, frame]
  · have h := pikevm_refines prog input subp gen marks hle
    rw [Pure.start_match_search prog input subp.length hs] at h
    obtain ⟨r, hr, hrel⟩ := h.ok_right
    refine ⟨r, hr, hrel.1, ?_⟩
    rw [hrel.2.1]
    simp [reported, copyout_unset]

/-- C13 on the program made of a Match alone, the empty input, two slots. -/
theorem start_on_match_witness :
    ((⟨[Inst.Match], 0⟩ : Prog).insts[(⟨[Inst.Match], 0⟩ : Prog).start]? = some Inst.Match ∧
      MarksLe 0 (fun _ => 0)) ∧
    ∃ r, pikevm ⟨[Inst.Match], 0⟩ [] [some 7, none] 0 (fun _ => 0) = .ok r ∧
      r.matched = true ∧ r.subp = List.replicate [some 7, (none : Option Nat)].length none :=
  ⟨⟨rfl, fun _ => Nat.le_refl 0⟩,
   (start_on_match ⟨[Inst.Match], 0⟩ [] [some 7, none] 0 (fun _ => 0) rfl
      (fun _ => Nat.le_refl 0)).2⟩

/-! ## Slots the program never saves -/

/-- The depth-first search writes a slot only at a SaveCapture of that slot. -/
theorem dfs_keeps_slot (prog : Prog) (input : List Nat) (k : Nat)
    (hno : Inst.Save k ∉ prog.insts) :
    ∀ f pc sp (caps res : Caps), dfs prog input f pc sp caps = .ok (some res) →
      res[k]? = caps[k]? := by
  intro f
  induction f with
  | zero => intro pc sp caps c h; simp [dfs] at h
  | succ f ih =>
    intro pc sp caps c h
    rw [dfs] at h
    cases hi : prog.insts[pc]? with
    | none => simp [hi] at h
    | some i =>
      rw [hi] at h
      cases i with
      | Char ch =>
        simp only at h
        cases hp : peek input sp with
        | none => simp [hp] at h
        | some b =>
          rw [hp] at h
          simp only at h
          split at h
          · simp at h
          · exact ih _ _ _ _ h
      | Any =>
        simp only at h
        cases hp : peek input sp with
        | none => simp [hp] at h
        | some b =>
          rw [hp] at h
          simp only at h
          split at h
          · simp at h
          · exact ih _ _ _ _ h
      | Match =>
        simp only at h
        cases h
        rfl
      | Jmp x => exact ih _ _ _ _ h
      | Split x y =>
        simp only at h
        cases hx : dfs prog input f x sp caps with
        | ok r =>
          rw [hx, Res.bind_ok] at h
          cases r with
          | some c1 =>
            simp only at h
            cases h
            exact ih _ _ _ _ hx
          | none => exact ih _ _ _ _ h
        | fatal => simp [hx, Res.bind] at h
        | fault => simp [hx, Res.bind] at h
        | timeout => simp [hx, Res.bind] at h
      | Save n =>
        simp only at h
        have hne : n ≠ k := by
          intro hnk
          subst hnk
          exact hno (mem_of_fetch hi)
        rw [ih _ _ _ _ h, List.getElem?_set_ne hne]

/-- A thread keeps slot `k` unset as long as the program has no SaveCapture
`k`. -/
theorem unsetThreadInv {prog : Prog} {k : Nat} (hno : Inst.Save k ∉ prog.insts) :
    ThreadInv prog (fun _ caps _ => caps[k]? = some none) where
  jmp := fun _ _ _ _ _ h => h
  splitx := fun _ _ _ _ _ _ h => h
  splity := fun _ _ _ _ _ _ h => h
  save := fun pc n caps sp hi h => by
    have hne : n ≠ k := by
      intro hnk
      subst hnk
      exact hno (mem_of_fetch hi)
    rw [List.getElem?_set_ne hne]
    exact h
  char := fun _ _ _ _ _ h => h
  any := fun _ _ _ _ h => h

theorem treported_high (n i : Nat) (pm : Option (Nat × Caps)) (h2 : 2 ≤ i) (hi : i < n) :
    (treported n pm)[i]? = some none := by
  have h0 : 0 ≠ i := by omega
  have h1 : 1 ≠ i := by omega
  cases pm with
  | none => simp [treported, List.getElem?_set_ne h0, List.getElem?_replicate, hi]
  | some kc =>
    simp only [treported]
    split <;>
      simp [List.getElem?_set_ne h0, List.getElem?_set_ne h1, List.getElem?_replicate, hi]

/-! ## `backtrack` against the recursive backtracker of the specification -/

theorem peek_of_lt {input : List Nat} {sp : Nat} (h : sp < input.length) :
    peek input sp = input[sp]? := by
  simp [peek, List.getElem?_append_left h]

theorem peek_at_end (input : List Nat) : peek input input.length = some 0 := by
  simp [peek]

/-- Inside the input, on a program without Consume-Literal NUL and an input
without NUL byte, the depth-first search of `backtrack` is the recursive
backtracker of the specification. -/
theorem dfs_eq_specRun (prog : Prog) (input : List Nat) (hnn : NoNulLit prog)
    (h0 : 0 ∉ input) :
    ∀ f pc sp caps, sp ≤ input.length →
      dfs prog input f pc sp caps = specRun prog input f pc sp caps := by
  intro f
  induction f with
  | zero => intro pc sp caps _; rfl
  | succ f ih =>
    intro pc sp caps hsp
    rw [dfs, specRun]
    cases hi : prog.insts[pc]? with
    | none => rfl
    | some i =>
      cases i with
      | Char ch =>
        have hch : ch ≠ 0 := by
          intro hz
          subst hz
          exact hnn (mem_of_fetch hi)
        simp only
        rcases Nat.lt_or_ge sp input.length with hlt | hge
        · rw [peek_of_lt hlt, List.getElem?_eq_getElem hlt]
          simp only [Option.some.injEq]
          by_cases hb : input[sp] = ch
          · simp only [hb, ne_eq, not_true_eq_false, if_false, if_true]
            exact ih _ _ _ (by omega)
          · simp only [hb, ne_eq, not_false_eq_true, if_true, if_false]
        · have he : sp = input.length := by omega
          subst he
          rw [peek_at_end, List.getElem?_eq_none (Nat.le_refl _)]
          have : (0 : Nat) ≠ ch := fun h => hch h.symm
          simp [this]
      | Any =>
        simp only
        rcases Nat.lt_or_ge sp input.length with hlt | hge
        · rw [peek_of_lt hlt, List.getElem?_eq_getElem hlt]
          have hb : input[sp] ≠ 0 := fun h => h0 (h ▸ List.getElem_mem hlt)
          simp only [hb, if_false, hlt, if_true]
          exact ih _ _ _ (by omega)
        · have he : sp = input.length := by omega
          subst he
          rw [peek_at_end]
          simp
      | Match => rfl
      | Jmp x => exact ih _ _ _ hsp
      | Split x y =>
        simp only
        rw [ih x sp caps hsp, ih y sp caps hsp]
      | Save n => exact ih _ _ _ hsp

/-- On a program without Consume-Literal NUL and an input without NUL byte,
a call of `backtrack` that returns hands back what the recursive backtracker
of the specification finds from the start instruction: the same flag and, on
a match, its captures. -/
theorem backtrack_recursive_agree (prog : Prog) (input : List Nat) (subp : List (Option Nat))
    (fuel : Nat) (r : Backtrack.Ret) (hnn : NoNulLit prog) (h0 : 0 ∉ input)
    (hb : backtrack prog input subp fuel = .ok r) :
    ∃ f res, specRun prog input f prog.start 0 (List.replicate subp.length none) = .ok res ∧
      r.matched = res.isSome ∧ ∀ found, res = some found → r.subp = copyout found subp := by
  obtain ⟨f, res, hd, hrel⟩ := backtrack_dfs prog input subp fuel r hb
  rw [dfs_eq_specRun prog input hnn h0 f _ _ _ (Nat.zero_le _)] at hd
  exact ⟨f, res, hd, hrel.1, hrel.2⟩

theorem backtrack_recursive_agree_witness :
    (NoNulLit aOrAb ∧ 0 ∉ [97, 98]) ∧
    ∃ r, backtrack aOrAb [97, 98] [none, none] 9 = .ok r ∧
      ∃ f res, specRun aOrAb [97, 98] f aOrAb.start 0 (List.replicate 2 none) = .ok res ∧
        r.matched = res.isSome ∧ ∀ found, res = some found → r.subp = copyout found [none, none] :=
  ⟨⟨by decide, by decide⟩, _, rfl,
   backtrack_recursive_agree aOrAb [97, 98] [none, none] 9 _ (by decide) (by decide) rfl⟩

/-- C15, the failing input: on the program `Char NUL; Match` and the empty
input `backtrack` takes the terminating NUL for the literal and returns a
match, while the recursive backtracker of the specification, whose
Consume-Literal fails at the end of the input, finds none, whatever its fuel
and captures. -/
theorem backtrack_not_recursive_on_nul :
    backtrack nulLit [] [none, none] 2 = .ok ⟨true, [none, none], [⟨0, [none, none]⟩]⟩ ∧
    ∀ f caps, specRun nulLit [] (f + 1) nulLit.start 0 caps = .ok none :=
  ⟨by decide, fun _ _ => rfl⟩

/-! ## The lists of the lock-step engines hold no instruction twice -/

/-- A list of distinct instructions of the program has at most `prog.len`
entries. -/
theorem nodup_length_le (prog : Prog) (pcs : List Nat) (hn : pcs.Nodup)
    (hlt : ∀ q ∈ pcs, q < prog.len) : pcs.length ≤ prog.len := by
  have hsub : pcs ⊆ List.range prog.len := fun q hq => List.mem_range.2 (hlt q hq)
  have := (List.subperm_of_subset hn hsub).length_le
  simpa using this

theorem ListInv.listOk {prog : Prog} {gen : Nat} {marks : Nat → Nat} {pcs : List Nat}
    (h : ListInv prog gen marks pcs) : Pike.listOk prog pcs :=
  ⟨h.1, nodup_length_le prog pcs h.1 fun q hq => (h.2 q hq).2⟩

theorem ListInv.empty (prog : Prog) (gen : Nat) (marks : Nat → Nat) : ListInv prog gen marks [] :=
  ⟨List.nodup_nil, fun _ h => absurd h (List.not_mem_nil _)⟩

/-- Marking an instruction keeps a list in order. -/
theorem ListInv.marked {prog : Prog} {gen : Nat} {marks : Nat → Nat} {pcs : List Nat} (pc : Nat)
    (h : ListInv prog gen marks pcs) : ListInv prog gen (Pike.mark marks pc gen) pcs := by
  refine ⟨h.1, fun q hq => ⟨?_, (h.2 q hq).2⟩⟩
  unfold Pike.mark
  split
  · rfl
  · exact (h.2 q hq).1

/-- The write of `addthread`: an instruction of the program that is not
marked is new to the list, there is room for it, and the list stays in
order. -/
theorem ListInv.write {prog : Prog} {gen : Nat} {marks : Nat → Nat} {pcs : List Nat} {pc : Nat}
    (h : ListInv prog gen marks pcs) (hpc : pc < prog.len) (hm : marks pc ≠ gen) :
    (pcs.length < prog.len ∧ pc ∉ pcs) ∧
      ListInv prog gen (Pike.mark marks pc gen) (pcs ++ [pc]) := by
  have hnot : pc ∉ pcs := fun hq => hm (h.2 pc hq).1
  have hnd : (pcs ++ [pc]).Nodup := by
    rw [List.nodup_append]
    refine ⟨h.1, List.nodup_singleton pc, ?_⟩
    intro a ha hb
    rw [List.mem_singleton] at hb
    subst hb
    exact hnot ha
  have hall : ∀ q ∈ pcs ++ [pc], Pike.mark marks pc gen q = gen ∧ q < prog.len := by
    intro q hq
    rw [List.mem_append, List.mem_singleton] at hq
    rcases hq with hq | hq
    · exact ((h.marked pc).2 q hq)
    · subst hq
      exact ⟨by simp [Pike.mark], hpc⟩
  have hlen := nodup_length_le prog _ hnd fun q hq => (hall q hq).2
  rw [List.length_append, List.length_singleton] at hlen
  exact ⟨⟨by omega, hnot⟩, hnd, hall⟩

/-- The checked `addthread` of `pike.c` never fails its check: from a list in
order it does what `addthread` does, and hands back a list in order. -/
theorem Pike.addthreadChk_eq (prog : Prog) :
    ∀ fuel (st : Pike.St) (l : List Pike.Thread) (t : Pike.Thread) (sp : Nat),
      ListInv prog st.gen st.marks (l.map Pike.Thread.pc) →
      Pike.addthreadChk prog fuel st l t sp = Pike.addthread prog fuel st l t sp ∧
      ∀ r, Pike.addthread prog fuel st l t sp = .ok r →
        r.1.gen = st.gen ∧ ListInv prog st.gen r.1.marks (r.2.map Pike.Thread.pc) := by
  intro fuel
  induction fuel with
  | zero =>
    intro st l t sp _
    exact ⟨rfl, fun r h => by simp [Pike.addthread] at h⟩
  | succ fuel ih =>
    intro st l t sp hinv
    simp only [Pike.addthreadChk, Pike.addthread]
    cases hi : prog.insts[t.pc]? with
    | none => exact ⟨rfl, fun r h => by simp at h⟩
    | some i =>
      simp only
      by_cases hm : st.marks t.pc = st.gen
      · simp only [hm, if_true]
        refine ⟨trivial, fun r h => ?_⟩
        obtain ⟨h1, _, hr⟩ := Res.bind_eq_ok.1 h
        cases hr
        exact ⟨rfl, hinv⟩
      · simp only [hm, if_false]
        have hpc := lt_len_of_fetch hi
        have hw := hinv.write hpc hm
        have hwrite : (l.length < prog.len ∧ t.pc ∉ l.map Pike.Thread.pc) := by
          have := hw.1
          rwa [List.length_map] at this
        have hpost : ∀ r : Pike.St × List Pike.Thread,
            Res.ok (⟨st.gen, Pike.mark st.marks t.pc st.gen, st.heap⟩, l ++ [t]) = Res.ok r →
            r.1.gen = st.gen ∧ ListInv prog st.gen r.1.marks (r.2.map Pike.Thread.pc) := by
          intro r h
          cases h
          refine ⟨rfl, ?_⟩
          simp only [List.map_append, List.map_cons, List.map_nil]
          exact hw.2
        cases i with
        | Char k => simp only [hwrite, and_self, if_true]; exact ⟨rfl, hpost⟩
        | Any => simp only [hwrite, and_self, if_true]; exact ⟨rfl, hpost⟩
        | Match => simp only [hwrite, and_self, if_true]; exact ⟨rfl, hpost⟩
        | Jmp x =>
          exact ih ⟨st.gen, Pike.mark st.marks t.pc st.gen, st.heap⟩ l ⟨x, t.sub⟩ sp
            (hinv.marked t.pc)
        | Split x y =>
          simp only
          cases hinc : incref t.sub st.heap with
          | ok h =>
            simp only [Res.bind_ok]
            obtain ⟨e1, p1⟩ := ih ⟨st.gen, Pike.mark st.marks t.pc st.gen, h⟩ l ⟨x, t.sub⟩ sp
              (hinv.marked t.pc)
            rw [e1]
            cases hx : Pike.addthread prog fuel ⟨st.gen, Pike.mark st.marks t.pc st.gen, h⟩ l
                ⟨x, t.sub⟩ sp with
            | ok r1 =>
              simp only [Res.bind_ok]
              obtain ⟨g1, i1⟩ := p1 r1 hx
              have i1' : ListInv prog r1.1.gen r1.1.marks (r1.2.map Pike.Thread.pc) := by
                rw [g1]; exact i1
              obtain ⟨e2, p2⟩ := ih r1.1 r1.2 ⟨y, t.sub⟩ sp i1'
              refine ⟨e2, fun r hr => ?_⟩
              obtain ⟨g2, i2⟩ := p2 r hr
              rw [g1] at g2 i2
              exact ⟨g2, i2⟩
            | fatal => exact ⟨rfl, fun r h => by simp [Res.bind] at h⟩
            | fault => exact ⟨rfl, fun r h => by simp [Res.bind] at h⟩
            | timeout => exact ⟨rfl, fun r h => by simp [Res.bind] at h⟩
          | fatal => exact ⟨rfl, fun r h => by simp [Res.bind] at h⟩
          | fault => exact ⟨rfl, fun r h => by simp [Res.bind] at h⟩
          | timeout => exact ⟨rfl, fun r h => by simp [Res.bind] at h⟩
        | Save n =>
          simp only
          cases hup : update t.sub n sp st.heap with
          | ok u =>
            simp only [Res.bind_ok]
            exact ih ⟨st.gen, Pike.mark st.marks t.pc st.gen, u.1⟩ l ⟨t.pc + 1, u.2⟩ sp
              (hinv.marked t.pc)
          | fatal => exact ⟨rfl, fun r h => by simp [Res.bind] at h⟩
          | fault => exact ⟨rfl, fun r h => by simp [Res.bind] at h⟩
          | timeout => exact ⟨rfl, fun r h => by simp [Res.bind] at h⟩

/-- The checked pass of `pikevm` never fails a check. -/
theorem Pike.stepChk_eq (prog : Prog) (fuel c sp : Nat) :
    ∀ (cl : List Pike.Thread) (st : Pike.St) (nl : List Pike.Thread) (m : Option Nat),
      ListInv prog st.gen st.marks (nl.map Pike.Thread.pc) →
      Pike.stepChk prog fuel c sp cl st nl m = Pike.step prog fuel c sp cl st nl m ∧
      ∀ r, Pike.step prog fuel c sp cl st nl m = .ok r →
        r.1.gen = st.gen ∧ ListInv prog st.gen r.1.marks (r.2.1.map Pike.Thread.pc) := by
  intro cl
  induction cl with
  | nil =>
    intro st nl m hinv
    refine ⟨rfl, fun r h => ?_⟩
    simp only [Pike.step, Res.ok.injEq] at h
    subst h
    exact ⟨rfl, hinv⟩
  | cons t rest ih =>
    intro st nl m hinv
    have hdead : ∀ f g : Heap → Res (Pike.St × List Pike.Thread × Option Nat),
        (∀ h, f h = g h ∧ ∀ r, g h = .ok r →
          r.1.gen = st.gen ∧ ListInv prog st.gen r.1.marks (r.2.1.map Pike.Thread.pc)) →
        (decref t.sub st.heap).bind f = (decref t.sub st.heap).bind g ∧
        ∀ r, (decref t.sub st.heap).bind g = .ok r →
          r.1.gen = st.gen ∧ ListInv prog st.gen r.1.marks (r.2.1.map Pike.Thread.pc) := by
      intro f g hfg
      cases decref t.sub st.heap with
      | ok h => exact hfg h
      | fatal => exact ⟨rfl, fun r h => by simp [Res.bind] at h⟩
      | fault => exact ⟨rfl, fun r h => by simp [Res.bind] at h⟩
      | timeout => exact ⟨rfl, fun r h => by simp [Res.bind] at h⟩
    have hadd : (Pike.addthreadChk prog fuel st nl ⟨t.pc + 1, t.sub⟩ (sp + 1)).bind
          (fun r => Pike.stepChk prog fuel c sp rest r.1 r.2 m) =
        (Pike.addthread prog fuel st nl ⟨t.pc + 1, t.sub⟩ (sp + 1)).bind
          (fun r => Pike.step prog fuel c sp rest r.1 r.2 m) ∧
        ∀ r, (Pike.addthread prog fuel st nl ⟨t.pc + 1, t.sub⟩ (sp + 1)).bind
          (fun r => Pike.step prog fuel c sp rest r.1 r.2 m) = .ok r →
          r.1.gen = st.gen ∧ ListInv prog st.gen r.1.marks (r.2.1.map Pike.Thread.pc) := by
      obtain ⟨e1, p1⟩ := Pike.addthreadChk_eq prog fuel st nl ⟨t.pc + 1, t.sub⟩ (sp + 1) hinv
      rw [e1]
      cases ha : Pike.addthread prog fuel st nl ⟨t.pc + 1, t.sub⟩ (sp + 1) with
      | ok r1 =>
        simp only [Res.bind_ok]
        obtain ⟨g1, i1⟩ := p1 r1 ha
        have i1' : ListInv prog r1.1.gen r1.1.marks (r1.2.map Pike.Thread.pc) := by
          rw [g1]; exact i1
        obtain ⟨e2, p2⟩ := ih r1.1 r1.2 m i1'
        refine ⟨e2, fun r hr => ?_⟩
        obtain ⟨g2, i2⟩ := p2 r hr
        rw [g1] at g2 i2
        exact ⟨g2, i2⟩
      | fatal => exact ⟨rfl, fun r h => by simp [Res.bind] at h⟩
      | fault => exact ⟨rfl, fun r h => by simp [Res.bind] at h⟩
      | timeout => exact ⟨rfl, fun r h => by simp [Res.bind] at h⟩
    simp only [Pike.stepChk, Pike.step]
    cases hi : prog.insts[t.pc]? with
    | none => exact ⟨rfl, fun r h => by simp at h⟩
    | some i =>
      cases i with
      | Char k =>
        simp only
        by_cases hc : c ≠ k
        · rw [if_pos hc, if_pos hc]
          exact hdead _ _ fun h => ih ⟨st.gen, st.marks, h⟩ nl m hinv
        · rw [if_neg hc, if_neg hc]
          by_cases h0 : c = 0
          · rw [if_pos h0, if_pos h0]
            exact hdead _ _ fun h => ih ⟨st.gen, st.marks, h⟩ nl m hinv
          · rw [if_neg h0, if_neg h0]
            exact hadd
      | Any =>
        simp only
        by_cases h0 : c = 0
        · rw [if_pos h0, if_pos h0]
          exact hdead _ _ fun h => ih ⟨st.gen, st.marks, h⟩ nl m hinv
        · rw [if_neg h0, if_neg h0]
          exact hadd
      | Match =>
        simp only
        refine ⟨trivial, fun r h => ?_⟩
        obtain ⟨h1, _, h2⟩ := Res.bind_eq_ok.1 h
        obtain ⟨h3, _, h4⟩ := Res.bind_eq_ok.1 h2
        cases h4
        exact ⟨rfl, hinv⟩
      | Jmp x => exact ih st nl m hinv
      | Split x y => exact ih st nl m hinv
      | Save n => exact ih st nl m hinv

/-- The checked outer loop of `pikevm` never fails a check. -/
theorem Pike.loopChk_eq (prog : Prog) (fuel : Nat) :
    ∀ (inp : List Nat) (sp : Nat) (st : Pike.St) (cl : List Pike.Thread) (m : Option Nat),
      ListInv prog st.gen st.marks (cl.map Pike.Thread.pc) →
      Pike.loopChk prog fuel inp sp st cl m = Pike.loop prog fuel inp sp st cl m := by
  intro inp
  induction inp with
  | nil =>
    intro sp st cl m hinv
    simp only [Pike.loopChk, Pike.loop, hinv.listOk, not_true_eq_false, if_false]
    split
    · rfl
    · exact (Pike.stepChk_eq prog fuel 0 sp cl ⟨st.gen + 1, st.marks, st.heap⟩ [] m
        (ListInv.empty _ _ _)).1
  | cons c rest ih =>
    intro sp st cl m hinv
    simp only [Pike.loopChk, Pike.loop, hinv.listOk, not_true_eq_false, if_false]
    split
    · rfl
    · obtain ⟨e1, p1⟩ := Pike.stepChk_eq prog fuel c sp cl ⟨st.gen + 1, st.marks, st.heap⟩ [] m
        (ListInv.empty _ _ _)
      rw [e1]
      cases hs : Pike.step prog fuel c sp cl ⟨st.gen + 1, st.marks, st.heap⟩ [] m with
      | ok r =>
        simp only [Res.bind_ok]
        split
        · rfl
        · obtain ⟨g1, i1⟩ := p1 r hs
          refine ih (sp + 1) r.1 r.2.1 r.2.2 ?_
          rw [g1]; exact i1
      | fatal => rfl
      | fault => rfl
      | timeout => rfl

/-- The checked `pikevm` is `pikevm`: no check ever fails. -/
theorem pikevmChk_eq (prog : Prog) (input : List Nat) (subp : List (Option Nat)) (gen : Nat)
    (marks : Nat → Nat) :
    pikevmChk prog input subp gen marks = pikevm prog input subp gen marks := by
  unfold pikevmChk pikevm
  simp only
  obtain ⟨e1, p1⟩ := Pike.addthreadChk_eq prog (prog.len + 1)
    ⟨gen + 1, marks, clearsub (newsub subp.length []).2 subp.length (newsub subp.length []).1⟩
    [] ⟨prog.start, (newsub subp.length []).2⟩ 0 (ListInv.empty _ _ _)
  rw [e1]
  cases ha : Pike.addthread prog (prog.len + 1)
    ⟨gen + 1, marks, clearsub (newsub subp.length []).2 subp.length (newsub subp.length []).1⟩
    [] ⟨prog.start, (newsub subp.length []).2⟩ 0 with
  | ok r =>
    simp only [Res.bind_ok]
    obtain ⟨g1, i1⟩ := p1 r ha
    rw [Pike.loopChk_eq prog (prog.len + 1) input 0 r.1 r.2 none (by rw [g1]; exact i1)]
  | fatal => rfl
  | fault => rfl
  | timeout => rfl

/-- The checked `addthread` of `thompson.c` never fails its check. -/
theorem Thompson.taddthreadChk_eq (prog : Prog) :
    ∀ fuel (st : Thompson.St) (l : List Nat) (pc : Nat), ListInv prog st.gen st.marks l →
      Thompson.addthreadChk prog fuel st l pc = Thompson.addthread prog fuel st l pc ∧
      ∀ r, Thompson.addthread prog fuel st l pc = .ok r →
        r.1.gen = st.gen ∧ ListInv prog st.gen r.1.marks r.2 := by
  intro fuel
  induction fuel with
  | zero =>
    intro st l pc _
    exact ⟨rfl, fun r h => by simp [Thompson.addthread] at h⟩
  | succ fuel ih =>
    intro st l pc hinv
    simp only [Thompson.addthreadChk, Thompson.addthread]
    cases hi : prog.insts[pc]? with
    | none => exact ⟨rfl, fun r h => by simp at h⟩
    | some i =>
      simp only
      by_cases hm : st.marks pc = st.gen
      · rw [if_pos hm, if_pos hm]
        refine ⟨rfl, fun r h => ?_⟩
        cases h
        exact ⟨rfl, hinv⟩
      · rw [if_neg hm, if_neg hm]
        have hw := hinv.write (lt_len_of_fetch hi) hm
        rw [if_neg (not_not.2 hw.1)]
        have hpost : ∀ r : Thompson.St × List Nat,
            Res.ok ((⟨st.gen, Pike.mark st.marks pc st.gen⟩ : Thompson.St), l ++ [pc]) =
              Res.ok r →
            r.1.gen = st.gen ∧ ListInv prog st.gen r.1.marks r.2 := by
          intro r h
          cases h
          exact ⟨rfl, hw.2⟩
        cases i with
        | Char k => exact ⟨rfl, hpost⟩
        | Any => exact ⟨rfl, hpost⟩
        | Match => exact ⟨rfl, hpost⟩
        | Jmp x => exact ih ⟨st.gen, Pike.mark st.marks pc st.gen⟩ (l ++ [pc]) x hw.2
        | Split x y =>
          simp only
          obtain ⟨e1, p1⟩ := ih ⟨st.gen, Pike.mark st.marks pc st.gen⟩ (l ++ [pc]) x hw.2
          rw [e1]
          cases hx : Thompson.addthread prog fuel ⟨st.gen, Pike.mark st.marks pc st.gen⟩
              (l ++ [pc]) x with
          | ok r1 =>
            simp only [Res.bind_ok]
            obtain ⟨g1, i1⟩ := p1 r1 hx
            have i1' : ListInv prog r1.1.gen r1.1.marks r1.2 := by
              rw [g1]; exact i1
            obtain ⟨e2, p2⟩ := ih r1.1 r1.2 y i1'
            refine ⟨e2, fun r hr => ?_⟩
            obtain ⟨g2, i2⟩ := p2 r hr
            rw [g1] at g2 i2
            exact ⟨g2, i2⟩
          | fatal => exact ⟨rfl, fun r h => by simp [Res.bind] at h⟩
          | fault => exact ⟨rfl, fun r h => by simp [Res.bind] at h⟩
          | timeout => exact ⟨rfl, fun r h => by simp [Res.bind] at h⟩
        | Save n => exact ih ⟨st.gen, Pike.mark st.marks pc st.gen⟩ (l ++ [pc]) (pc + 1) hw.2

/-- The checked pass of `thompsonvm` never fails a check. -/
theorem Thompson.tstepChk_eq (prog : Prog) (fuel c sp : Nat) :
    ∀ (cl : List Nat) (a : Thompson.Acc), ListInv prog a.st.gen a.st.marks a.nlist →
      Thompson.stepChk prog fuel c sp cl a = Thompson.step prog fuel c sp cl a ∧
      ∀ r, Thompson.step prog fuel c sp cl a = .ok r →
        r.st.gen = a.st.gen ∧ ListInv prog a.st.gen r.st.marks r.nlist := by
  intro cl
  induction cl with
  | nil =>
    intro a hinv
    refine ⟨rfl, fun r h => ?_⟩
    simp only [Thompson.step, Res.ok.injEq] at h
    subst h
    exact ⟨rfl, hinv⟩
  | cons pc rest ih =>
    intro a hinv
    have hadd : (Thompson.addthreadChk prog fuel a.st a.nlist (pc + 1)).bind
          (fun r => Thompson.stepChk prog fuel c sp rest ⟨r.1, r.2, a.matched, a.subp⟩) =
        (Thompson.addthread prog fuel a.st a.nlist (pc + 1)).bind
          (fun r => Thompson.step prog fuel c sp rest ⟨r.1, r.2, a.matched, a.subp⟩) ∧
        ∀ r, (Thompson.addthread prog fuel a.st a.nlist (pc + 1)).bind
          (fun r => Thompson.step prog fuel c sp rest ⟨r.1, r.2, a.matched, a.subp⟩) = .ok r →
          r.st.gen = a.st.gen ∧ ListInv prog a.st.gen r.st.marks r.nlist := by
      obtain ⟨e1, p1⟩ := Thompson.taddthreadChk_eq prog fuel a.st a.nlist (pc + 1) hinv
      rw [e1]
      cases ha : Thompson.addthread prog fuel a.st a.nlist (pc + 1) with
      | ok r1 =>
        simp only [Res.bind_ok]
        obtain ⟨g1, i1⟩ := p1 r1 ha
        have i1' : ListInv prog r1.1.gen r1.1.marks r1.2 := by
          rw [g1]; exact i1
        obtain ⟨e2, p2⟩ := ih ⟨r1.1, r1.2, a.matched, a.subp⟩ i1'
        refine ⟨e2, fun r hr => ?_⟩
        obtain ⟨g2, i2⟩ := p2 r hr
        simp only at g2 i2
        rw [g1] at g2 i2
        exact ⟨g2, i2⟩
      | fatal => exact ⟨rfl, fun r h => by simp [Res.bind] at h⟩
      | fault => exact ⟨rfl, fun r h => by simp [Res.bind] at h⟩
      | timeout => exact ⟨rfl, fun r h => by simp [Res.bind] at h⟩
    simp only [Thompson.stepChk, Thompson.step]
    cases hi : prog.insts[pc]? with
    | none => exact ⟨rfl, fun r h => by simp at h⟩
    | some i =>
      cases i with
      | Char k =>
        simp only
        by_cases hc : c ≠ k
        · rw [if_pos hc, if_pos hc]
          exact ih a hinv
        · rw [if_neg hc, if_neg hc]
          by_cases h0 : c = 0
          · rw [if_pos h0, if_pos h0]
            exact ih a hinv
          · rw [if_neg h0, if_neg h0]
            exact hadd
      | Any =>
        simp only
        by_cases h0 : c = 0
        · rw [if_pos h0, if_pos h0]
          exact ih a hinv
        · rw [if_neg h0, if_neg h0]
          exact hadd
      | Match =>
        simp only
        refine ⟨trivial, fun r h => ?_⟩
        cases h
        exact ⟨rfl, hinv⟩
      | Jmp x => exact ih a hinv
      | Split x y => exact ih a hinv
      | Save n => exact ih a hinv

/-- The checked outer loop of `thompsonvm` never fails a check. -/
theorem Thompson.tloopChk_eq (prog : Prog) (fuel : Nat) :
    ∀ (inp : List Nat) (sp : Nat) (cl : List Nat) (a : Thompson.Acc),
      ListInv prog a.st.gen a.st.marks cl →
      Thompson.loopChk prog fuel inp sp cl a = Thompson.loop prog fuel inp sp cl a := by
  intro inp
  induction inp with
  | nil =>
    intro sp cl a hinv
    simp only [Thompson.loopChk, Thompson.loop, hinv.listOk, not_true_eq_false, if_false]
    split
    · rfl
    · exact (Thompson.tstepChk_eq prog fuel 0 sp cl
        ⟨⟨a.st.gen + 1, a.st.marks⟩, [], a.matched, a.subp⟩ (ListInv.empty _ _ _)).1
  | cons c rest ih =>
    intro sp cl a hinv
    simp only [Thompson.loopChk, Thompson.loop, hinv.listOk, not_true_eq_false, if_false]
    split
    · rfl
    · obtain ⟨e1, p1⟩ := Thompson.tstepChk_eq prog fuel c sp cl
        ⟨⟨a.st.gen + 1, a.st.marks⟩, [], a.matched, a.subp⟩ (ListInv.empty _ _ _)
      rw [e1]
      cases hs : Thompson.step prog fuel c sp cl
          ⟨⟨a.st.gen + 1, a.st.marks⟩, [], a.matched, a.subp⟩ with
      | ok r =>
        simp only [Res.bind_ok]
        split
        · rfl
        · obtain ⟨g1, i1⟩ := p1 r hs
          refine ih (sp + 1) r.nlist r ?_
          rw [g1]; exact i1
      | fatal => rfl
      | fault => rfl
      | timeout => rfl

/-- The checked `thompsonvm` is `thompsonvm`: no check ever fails. -/
theorem thompsonvmChk_eq (prog : Prog) (input : List Nat) (subp : List (Option Nat))
    (gen : Nat) (marks : Nat → Nat) :
    thompsonvmChk prog input subp gen marks = thompsonvm prog input subp gen marks := by
  unfold thompsonvmChk thompsonvm
  simp only
  obtain ⟨e1, p1⟩ := Thompson.taddthreadChk_eq prog (prog.len + 1) ⟨gen + 1, marks⟩ []
    prog.start (ListInv.empty _ _ _)
  rw [e1]
  cases ha : Thompson.addthread prog (prog.len + 1) ⟨gen + 1, marks⟩ [] prog.start with
  | ok r =>
    simp only [Res.bind_ok]
    obtain ⟨g1, i1⟩ := p1 r ha
    rw [Thompson.tloopChk_eq prog (prog.len + 1) input 0 r.2 ⟨r.1, [], false, _⟩
      (by rw [g1]; exact i1)]
  | fatal => rfl
  | fault => rfl
  | timeout => rfl

/-- C16: in `pikevm` and in `thompsonvm`, on a well-formed program from a valid
generation state, every write of `addthread` to a list falls in the first
`prog.len` entries of the array and adds an instruction the list does not
hold yet, and every list a pass starts on holds no instruction twice and at
most `prog.len` entries: the engines with these checks built in return, and
return what the engines without them return. -/
theorem branch_lists_duplicate_free (prog : Prog) (input : List Nat)
    (subp : List (Option Nat)) (gen : Nat) (marks : Nat → Nat) (hwf : prog.WF)
    (hle : MarksLe gen marks) :
    (∃ r, pikevmChk prog input subp gen marks = .ok r ∧
      pikevm prog input subp gen marks = .ok r) ∧
    (∃ r, thompsonvmChk prog input subp gen marks = .ok r ∧
      thompsonvm prog input subp gen marks = .ok r) := by
  obtain ⟨r, _, h1, _, _⟩ := pikevm_returns prog hwf input subp gen marks hle
  obtain ⟨rt, _, h2, _, _⟩ := thompsonvm_returns prog hwf input subp gen marks hle
  exact ⟨⟨r, (pikevmChk_eq prog input subp gen marks).trans h1, h1⟩,
    ⟨rt, (thompsonvmChk_eq prog input subp gen marks).trans h2, h2⟩⟩

/-- C16 on the program of `a|ab` and the input `ab`. -/
theorem branch_lists_duplicate_free_witness :
    (aOrAb.WF ∧ MarksLe 0 (fun _ => 0)) ∧
    ∃ r, pikevmChk aOrAb [97, 98] [none, none] 0 (fun _ => 0) = .ok r ∧
      pikevm aOrAb [97, 98] [none, none] 0 (fun _ => 0) = .ok r :=
  ⟨⟨by decide, fun _ => Nat.le_refl 0⟩,
   (branch_lists_duplicate_free aOrAb [97, 98] [none, none] 0 (fun _ => 0) (by decide)
      (fun _ => Nat.le_refl 0)).1⟩

/-! ## What the Thompson engine puts on its lists -/

/-- The pass of `thompsonvm` skips the Jump, Split and SaveCapture entries of
its list: it does on a list what it does on the list without them. -/
theorem Thompson.tstep_filter (prog : Prog) (fuel c sp : Nat) :
    ∀ (cl : List Nat) (a : Thompson.Acc), (∀ q ∈ cl, q < prog.len) →
      Thompson.step prog fuel c sp cl a =
        Thompson.step prog fuel c sp (cl.filter (schedB prog)) a := by
  intro cl
  induction cl with
  | nil => intro a _; rfl
  | cons pc rest ih =>
    intro a hcl
    have hrest : ∀ q ∈ rest, q < prog.len := fun q hq => hcl q (List.mem_cons_of_mem _ hq)
    obtain ⟨i, hi⟩ := fetch_of_lt (hcl pc (List.mem_cons_self _ _))
    cases hctl : i.isCtl with
    | true =>
      have hs : schedB prog pc = false := by simp [schedB, hi, hctl]
      rw [List.filter_cons_of_neg (by simp [hs])]
      rw [← ih a hrest]
      cases i with
      | Char k => simp [Inst.isCtl] at hctl
      | Any => simp [Inst.isCtl] at hctl
      | Match => simp [Inst.isCtl] at hctl
      | Jmp x => rw [Thompson.step, hi]
      | Split x y => rw [Thompson.step, hi]
      | Save n => rw [Thompson.step, hi]
    | false =>
      have hs : schedB prog pc = true := by simp [schedB, hi, hctl]
      rw [List.filter_cons_of_pos hs]
      rw [Thompson.step, Thompson.step, hi]
      cases i with
      | Char k => simp only [ih _ hrest]
      | Any => simp only [ih _ hrest]
      | Match => rfl
      | Jmp x => simp [Inst.isCtl] at hctl
      | Split x y => simp [Inst.isCtl] at hctl
      | Save n => simp [Inst.isCtl] at hctl

/-- C17, counterexample: on the program of `a|ab`, `addthread` of
`thompson.c` called on the start instruction hands back the list 0, 1, 2, 4,
whose entries 0 and 1 are the SaveCapture and the Split of the program. -/
theorem thompson_queues_control :
    (Thompson.addthread aOrAb (aOrAb.len + 1) ⟨1, fun _ => 0⟩ [] aOrAb.start).bind
        (fun r => Res.ok r.2) = .ok [0, 1, 2, 4] ∧
    aOrAb.insts[0]? = some (Inst.Save 0) ∧ aOrAb.insts[1]? = some (Inst.Split 2 4) :=
  ⟨rfl, rfl, rfl⟩

/-! ## The lock-step engines terminate -/

theorem decref_ne_timeout (s : Nat) (h : Heap) : decref s h ≠ .timeout := by
  unfold decref
  split
  · exact fun e => Res.noConfusion e
  · split <;> exact fun e => Res.noConfusion e

theorem incref_ne_timeout (s : Nat) (h : Heap) : incref s h ≠ .timeout := by
  unfold incref
  split
  · exact fun e => Res.noConfusion e
  · split <;> exact fun e => Res.noConfusion e

theorem update_ne_timeout (s i p : Nat) (h : Heap) : update s i p h ≠ .timeout := by
  unfold update
  split
  · exact fun e => Res.noConfusion e
  · split
    · exact fun e => Res.noConfusion e
    · split <;> exact fun e => Res.noConfusion e

theorem Res.bind_ne_timeout {α β : Type} {a : Res α} {f : α → Res β} (ha : a ≠ .timeout)
    (hf : ∀ x, a = .ok x → f x ≠ .timeout) : a.bind f ≠ .timeout := by
  cases a with
  | ok x => exact hf x rfl
  | fatal => exact fun e => Res.noConfusion e
  | fault => exact fun e => Res.noConfusion e
  | timeout => exact absurd rfl ha

/-- Marking an instruction of the program that was not marked leaves fewer
instructions to mark. -/
theorem unmarked_mark_lt (prog : Prog) {gen : Nat} {marks : Nat → Nat} {pc : Nat}
    (hpc : pc < prog.len) (hm : marks pc ≠ gen) :
    unmarked prog gen (Pike.mark marks pc gen) < unmarked prog gen marks := by
  unfold unmarked
  refine countP_lt_of_mem _ _ pc _ ?_ (List.mem_range.2 hpc) (by simpa using hm)
    (by simp [Pike.mark])
  intro q hq
  simp only [Pike.mark, ne_eq, decide_eq_true_eq] at hq ⊢
  by_cases h : q = pc
  · simp [h] at hq
  · simpa [h] using hq

/-- Markers that only gain the current generation leave no more instructions
to mark. -/
theorem unmarked_mono (prog : Prog) {gen : Nat} {marks marks1 : Nat → Nat}
    (h : ∀ q, marks q = gen → marks1 q = gen) :
    unmarked prog gen marks1 ≤ unmarked prog gen marks := by
  unfold unmarked
  apply List.countP_mono_left
  intro q _ hq
  simp only [ne_eq, decide_eq_true_eq] at hq ⊢
  exact fun e => hq (h q e)

theorem unmarked_le (prog : Prog) (gen : Nat) (marks : Nat → Nat) :
    unmarked prog gen marks ≤ prog.len := by
  unfold unmarked
  exact (List.countP_le_length _).trans (by simp)

/-- A call of `addthread` of `pike.c` leaves the counter as it is and only adds
markers of the current generation. -/
theorem Pike.addthread_marks (prog : Prog) :
    ∀ fuel (st : Pike.St) (l : List Pike.Thread) (t : Pike.Thread) (sp : Nat)
      (r : Pike.St × List Pike.Thread), Pike.addthread prog fuel st l t sp = .ok r →
      r.1.gen = st.gen ∧ ∀ q, st.marks q = st.gen → r.1.marks q = st.gen := by
  intro fuel
  induction fuel with
  | zero => intro st l t sp r h; simp [Pike.addthread] at h
  | succ fuel ih =>
    intro st l t sp r h
    have hmk : ∀ q, st.marks q = st.gen → Pike.mark st.marks t.pc st.gen q = st.gen := by
      intro q hq
      unfold Pike.mark
      split
      · rfl
      · exact hq
    rw [Pike.addthread] at h
    cases hi : prog.insts[t.pc]? with
    | none => simp [hi] at h
    | some i =>
      rw [hi] at h
      simp only at h
      by_cases hm : st.marks t.pc = st.gen
      · rw [if_pos hm] at h
        obtain ⟨h1, _, hr⟩ := Res.bind_eq_ok.1 h
        cases hr
        exact ⟨rfl, fun q hq => hq⟩
      · rw [if_neg hm] at h
        cases i with
        | Char k => simp only [Res.ok.injEq] at h; subst h; exact ⟨rfl, hmk⟩
        | Any => simp only [Res.ok.injEq] at h; subst h; exact ⟨rfl, hmk⟩
        | Match => simp only [Res.ok.injEq] at h; subst h; exact ⟨rfl, hmk⟩
        | Jmp x =>
          obtain ⟨g, m⟩ := ih _ _ _ _ _ h
          exact ⟨g, fun q hq => m q (hmk q hq)⟩
        | Split x y =>
          simp only at h
          obtain ⟨h1, _, h2⟩ := Res.bind_eq_ok.1 h
          obtain ⟨r1, hx, hy⟩ := Res.bind_eq_ok.1 h2
          obtain ⟨g1, m1⟩ := ih _ _ _ _ _ hx
          obtain ⟨g2, m2⟩ := ih _ _ _ _ _ hy
          simp only at g1 m1
          refine ⟨g2.trans g1, fun q hq => ?_⟩
          have := m2 q (by rw [g1]; exact m1 q (hmk q hq))
          rw [this, g1]
        | Save n =>
          simp only at h
          obtain ⟨u, _, h2⟩ := Res.bind_eq_ok.1 h
          obtain ⟨g, m⟩ := ih _ _ _ _ _ h2
          exact ⟨g, fun q hq => m q (hmk q hq)⟩

/-- A call of `addthread` of `pike.c` nests no deeper than there are
instructions left to mark. -/
theorem Pike.addthread_depth (prog : Prog) :
    ∀ fuel (st : Pike.St) (l : List Pike.Thread) (t : Pike.Thread) (sp : Nat),
      unmarked prog st.gen st.marks < fuel → Pike.addthread prog fuel st l t sp ≠ .timeout := by
  intro fuel
  induction fuel with
  | zero => intro st l t sp h; omega
  | succ fuel ih =>
    intro st l t sp hf
    rw [Pike.addthread]
    cases hi : prog.insts[t.pc]? with
    | none => exact fun e => Res.noConfusion e
    | some i =>
      simp only
      by_cases hm : st.marks t.pc = st.gen
      · rw [if_pos hm]
        exact Res.bind_ne_timeout (decref_ne_timeout _ _) fun _ _ e => Res.noConfusion e
      · rw [if_neg hm]
        have hlt := unmarked_mark_lt prog (lt_len_of_fetch hi) hm
        have hf1 : unmarked prog st.gen (Pike.mark st.marks t.pc st.gen) < fuel := by omega
        cases i with
        | Char k => exact fun e => Res.noConfusion e
        | Any => exact fun e => Res.noConfusion e
        | Match => exact fun e => Res.noConfusion e
        | Jmp x => exact ih ⟨st.gen, _, st.heap⟩ l _ sp hf1
        | Split x y =>
          simp only
          refine Res.bind_ne_timeout (incref_ne_timeout _ _) fun h _ => ?_
          refine Res.bind_ne_timeout (ih ⟨st.gen, _, h⟩ l _ sp hf1) fun r1 hx => ?_
          obtain ⟨g1, m1⟩ := Pike.addthread_marks prog _ _ _ _ _ _ hx
          refine ih r1.1 r1.2 _ sp ?_
          rw [g1]
          exact Nat.lt_of_le_of_lt (unmarked_mono prog m1) hf1
        | Save n =>
          simp only
          refine Res.bind_ne_timeout (update_ne_timeout _ _ _ _) fun u _ => ?_
          exact ih ⟨st.gen, _, u.1⟩ l _ sp hf1

/-- A call of `addthread` of `thompson.c` leaves the counter as it is and only
adds markers of the current generation. -/
theorem Thompson.taddthread_marks (prog : Prog) :
    ∀ fuel (st : Thompson.St) (l : List Nat) (pc : Nat) (r : Thompson.St × List Nat),
      Thompson.addthread prog fuel st l pc = .ok r →
      r.1.gen = st.gen ∧ ∀ q, st.marks q = st.gen → r.1.marks q = st.gen := by
  intro fuel
  induction fuel with
  | zero => intro st l pc r h; simp [Thompson.addthread] at h
  | succ fuel ih =>
    intro st l pc r h
    have hmk : ∀ q, st.marks q = st.gen → Pike.mark st.marks pc st.gen q = st.gen := by
      intro q hq
      unfold Pike.mark
      split
      · rfl
      · exact hq
    rw [Thompson.addthread] at h
    cases hi : prog.insts[pc]? with
    | none => simp [hi] at h
    | some i =>
      rw [hi] at h
      simp only at h
      by_cases hm : st.marks pc = st.gen
      · rw [if_pos hm] at h
        cases h
        exact ⟨rfl, fun q hq => hq⟩
      · rw [if_neg hm] at h
        cases i with
        | Char k => simp only [Res.ok.injEq] at h; subst h; exact ⟨rfl, hmk⟩
        | Any => simp only [Res.ok.injEq] at h; subst h; exact ⟨rfl, hmk⟩
        | Match => simp only [Res.ok.injEq] at h; subst h; exact ⟨rfl, hmk⟩
        | Jmp x =>
          obtain ⟨g, m⟩ := ih _ _ _ _ h
          exact ⟨g, fun q hq => m q (hmk q hq)⟩
        | Split x y =>
          simp only at h
          obtain ⟨r1, hx, hy⟩ := Res.bind_eq_ok.1 h
          obtain ⟨g1, m1⟩ := ih _ _ _ _ hx
          obtain ⟨g2, m2⟩ := ih _ _ _ _ hy
          simp only at g1 m1
          refine ⟨g2.trans g1, fun q hq => ?_⟩
          have := m2 q (by rw [g1]; exact m1 q (hmk q hq))
          rw [this, g1]
        | Save n =>
          obtain ⟨g, m⟩ := ih _ _ _ _ h
          exact ⟨g, fun q hq => m q (hmk q hq)⟩

/-- A call of `addthread` of `thompson.c` nests no deeper than there are
instructions left to mark. -/
theorem Thompson.taddthread_depth (prog : Prog) :
    ∀ fuel (st : Thompson.St) (l : List Nat) (pc : Nat),
      unmarked prog st.gen st.marks < fuel → Thompson.addthread prog fuel st l pc ≠ .timeout := by
  intro fuel
  induction fuel with
  | zero => intro st l pc h; omega
  | succ fuel ih =>
    intro st l pc hf
    rw [Thompson.addthread]
    cases hi : prog.insts[pc]? with
    | none => exact fun e => Res.noConfusion e
    | some i =>
      simp only
      by_cases hm : st.marks pc = st.gen
      · rw [if_pos hm]
        exact fun e => Res.noConfusion e
      · rw [if_neg hm]
        have hlt := unmarked_mark_lt prog (lt_len_of_fetch hi) hm
        have hf1 : unmarked prog st.gen (Pike.mark st.marks pc st.gen) < fuel := by omega
        cases i with
        | Char k => exact fun e => Res.noConfusion e
        | Any => exact fun e => Res.noConfusion e
        | Match => exact fun e => Res.noConfusion e
        | Jmp x => exact ih ⟨st.gen, _⟩ _ _ hf1
        | Split x y =>
          simp only
          refine Res.bind_ne_timeout (ih ⟨st.gen, _⟩ _ _ hf1) fun r1 hx => ?_
          obtain ⟨g1, m1⟩ := Thompson.taddthread_marks prog _ _ _ _ _ hx
          refine ih r1.1 r1.2 _ ?_
          rw [g1]
          exact Nat.lt_of_le_of_lt (unmarked_mono prog m1) hf1
        | Save n => exact ih ⟨st.gen, _⟩ _ _ hf1

/-- The pass of `pikevm` leaves the generation counter as it is. -/
theorem Pike.step_gen (prog : Prog) (fuel c sp : Nat) :
    ∀ (cl : List Pike.Thread) (st : Pike.St) (nl : List Pike.Thread) (m : Option Nat)
      (r : Pike.St × List Pike.Thread × Option Nat),
      Pike.step prog fuel c sp cl st nl m = .ok r → r.1.gen = st.gen := by
  intro cl
  induction cl with
  | nil =>
    intro st nl m r h
    simp only [Pike.step, Res.ok.injEq] at h
    subst h
    rfl
  | cons t rest ih =>
    intro st nl m r h
    have hdead : ∀ r, ((decref t.sub st.heap).bind fun h =>
        Pike.step prog fuel c sp rest ⟨st.gen, st.marks, h⟩ nl m) = .ok r → r.1.gen = st.gen := by
      intro r h
      obtain ⟨h1, _, h2⟩ := Res.bind_eq_ok.1 h
      have := ih _ _ _ _ h2
      exact this
    have hadd : ∀ r, ((Pike.addthread prog fuel st nl ⟨t.pc + 1, t.sub⟩ (sp + 1)).bind fun r =>
        Pike.step prog fuel c sp rest r.1 r.2 m) = .ok r → r.1.gen = st.gen := by
      intro r h
      obtain ⟨r1, h1, h2⟩ := Res.bind_eq_ok.1 h
      rw [ih _ _ _ _ h2]
      exact (Pike.addthread_marks prog _ _ _ _ _ _ h1).1
    cases hi : prog.insts[t.pc]? with
    | none => simp [Pike.step, hi] at h
    | some i =>
      simp only [Pike.step, hi] at h
      cases i with
      | Char k =>
        simp only at h
        split at h
        · exact hdead r h
        · split at h
          · exact hdead r h
          · exact hadd r h
      | Any =>
        simp only at h
        split at h
        · exact hdead r h
        · exact hadd r h
      | Match =>
        simp only at h
        obtain ⟨h1, _, h2⟩ := Res.bind_eq_ok.1 h
        obtain ⟨h3, _, h4⟩ := Res.bind_eq_ok.1 h2
        cases h4
        rfl
      | Jmp x => exact ih _ _ _ _ h
      | Split x y => exact ih _ _ _ _ h
      | Save n => exact ih _ _ _ _ h

/-- The outer loop of `pikevm` makes at most one pass for each byte of the
input and one for its terminator: the generation counter, incremented once
in every pass, grows by at most that. -/
theorem Pike.loop_gen (prog : Prog) (fuel : Nat) :
    ∀ (inp : List Nat) (sp : Nat) (st : Pike.St) (cl : List Pike.Thread) (m : Option Nat)
      (r : Pike.St × List Pike.Thread × Option Nat),
      Pike.loop prog fuel inp sp st cl m = .ok r → r.1.gen ≤ st.gen + (inp.length + 1) := by
  intro inp
  induction inp with
  | nil =>
    intro sp st cl m r h
    rw [Pike.loop] at h
    split at h
    · cases h; simp
    · have := Pike.step_gen prog fuel 0 sp _ _ _ _ _ h
      simp only at this
      rw [this]; simp
  | cons c rest ih =>
    intro sp st cl m r h
    rw [Pike.loop] at h
    split at h
    · cases h; exact Nat.le_add_right _ _
    · obtain ⟨r1, h1, h2⟩ := Res.bind_eq_ok.1 h
      have g1 := Pike.step_gen prog fuel c sp _ _ _ _ _ h1
      simp only at g1
      split at h2
      · cases h2
        rw [g1]; simp only [List.length_cons]; omega
      · have := ih _ _ _ _ _ h2
        rw [g1] at this
        simp only [List.length_cons]; omega

/-- The pass of `thompsonvm` leaves the generation counter as it is. -/
theorem Thompson.tstep_gen (prog : Prog) (fuel c sp : Nat) :
    ∀ (cl : List Nat) (a r : Thompson.Acc),
      Thompson.step prog fuel c sp cl a = .ok r → r.st.gen = a.st.gen := by
  intro cl
  induction cl with
  | nil =>
    intro a r h
    simp only [Thompson.step, Res.ok.injEq] at h
    subst h
    rfl
  | cons pc rest ih =>
    intro a r h
    have hadd : ∀ r, ((Thompson.addthread prog fuel a.st a.nlist (pc + 1)).bind fun r =>
        Thompson.step prog fuel c sp rest ⟨r.1, r.2, a.matched, a.subp⟩) = .ok r →
        r.st.gen = a.st.gen := by
      intro r h
      obtain ⟨r1, h1, h2⟩ := Res.bind_eq_ok.1 h
      rw [ih _ _ h2]
      exact (Thompson.taddthread_marks prog _ _ _ _ _ h1).1
    rw [Thompson.step] at h
    cases hi : prog.insts[pc]? with
    | none => simp [hi] at h
    | some i =>
      rw [hi] at h
      cases i with
      | Char k =>
        simp only at h
        split at h
        · exact ih _ _ h
        · split at h
          · exact ih _ _ h
          · exact hadd r h
      | Any =>
        simp only at h
        split at h
        · exact ih _ _ h
        · exact hadd r h
      | Match =>
        simp only [Res.ok.injEq] at h
        subst h
        rfl
      | Jmp x => exact ih _ _ h
      | Split x y => exact ih _ _ h
      | Save n => exact ih _ _ h

/-- The outer loop of `thompsonvm` makes at most one pass for each byte of the
input and one for its terminator. -/
theorem Thompson.tloop_gen (prog : Prog) (fuel : Nat) :
    ∀ (inp : List Nat) (sp : Nat) (cl : List Nat) (a r : Thompson.Acc),
      Thompson.loop prog fuel inp sp cl a = .ok r → r.st.gen ≤ a.st.gen + (inp.length + 1) := by
  intro inp
  induction inp with
  | nil =>
    intro sp cl a r h
    rw [Thompson.loop] at h
    split at h
    · cases h; simp
    · have := Thompson.tstep_gen prog fuel 0 sp _ _ _ h
      simp only at this
      rw [this]; simp
  | cons c rest ih =>
    intro sp cl a r h
    rw [Thompson.loop] at h
    split at h
    · cases h; exact Nat.le_add_right _ _
    · obtain ⟨r1, h1, h2⟩ := Res.bind_eq_ok.1 h
      have g1 := Thompson.tstep_gen prog fuel c sp _ _ _ h1
      simp only at g1
      split at h2
      · cases h2
        rw [g1]; simp only [List.length_cons]; omega
      · have := ih _ _ _ _ h2
        rw [g1] at this
        simp only [List.length_cons]; omega

/-- The depth `prog.len` is reached: on a ring of Jumps the closure visits
every instruction before it comes back to a marked one, so a budget of
`prog.len` activations, one less than `pikevm` and `thompsonvm` allow, runs
out. -/
theorem addthread_depth_reached :
    Pike.addthread jumpRing jumpRing.len ⟨1, fun _ => 0, [⟨1, []⟩]⟩ [] ⟨0, 0⟩ 0 = .timeout ∧
    Thompson.addthread jumpRing jumpRing.len ⟨1, fun _ => 0⟩ [] 0 = .timeout :=
  ⟨rfl, rfl⟩

/-- C18: on a well-formed program, from a valid generation state, `pikevm`
and `thompsonvm` return on every input, having made at most
`input.length + 1` passes of their outer loop (the generation counter is
incremented once before the loop and once in every pass); and every call of
`addthread`, in any state, comes back within `prog.len` recursive calls
nested below it (a budget of `prog.len + 1` activations never runs out). -/
theorem lockstep_terminates (prog : Prog) (input : List Nat) (subp : List (Option Nat))
    (gen : Nat) (marks : Nat → Nat) (hwf : prog.WF) (hle : MarksLe gen marks) :
    (∃ r, pikevm prog input subp gen marks = .ok r ∧ r.gen ≤ gen + 1 + (input.length + 1)) ∧
    (∃ r, thompsonvm prog input subp gen marks = .ok r ∧
      r.gen ≤ gen + 1 + (input.length + 1)) ∧
    (∀ st l t sp, Pike.addthread prog (prog.len + 1) st l t sp ≠ .timeout) ∧
    (∀ st l pc, Thompson.addthread prog (prog.len + 1) st l pc ≠ .timeout) := by
  refine ⟨?_, ?_, fun st l t sp => ?_, fun st l pc => ?_⟩
  · obtain ⟨r, _, h1, _, _⟩ := pikevm_returns prog hwf input subp gen marks hle
    refine ⟨r, h1, ?_⟩
    unfold pikevm at h1
    simp only at h1
    obtain ⟨r1, ha, h2⟩ := Res.bind_eq_ok.1 h1
    obtain ⟨e, hl, h3⟩ := Res.bind_eq_ok.1 h2
    have g1 := (Pike.addthread_marks prog _ _ _ _ _ _ ha).1
    have g2 := Pike.loop_gen prog _ _ _ _ _ _ _ hl
    simp only at g1
    rw [g1] at g2
    have hr : r.gen = e.1.gen := by
      split at h3
      · obtain ⟨_, _, h4⟩ := Res.bind_eq_ok.1 h3
        cases h4; rfl
      · cases h3; rfl
    rw [hr]
    exact g2
  · obtain ⟨r, _, h1, _, _⟩ := thompsonvm_returns prog hwf input subp gen marks hle
    refine ⟨r, h1, ?_⟩
    unfold thompsonvm at h1
    simp only at h1
    obtain ⟨r1, ha, h2⟩ := Res.bind_eq_ok.1 h1
    obtain ⟨e, hl, h3⟩ := Res.bind_eq_ok.1 h2
    have g1 := (Thompson.taddthread_marks prog _ _ _ _ _ ha).1
    have g2 := Thompson.tloop_gen prog _ _ _ _ _ _ hl
    simp only at g1 g2
    rw [g1] at g2
    cases h3
    exact g2
  · exact Pike.addthread_depth prog _ st l t sp
      (Nat.lt_succ_of_le (unmarked_le prog st.gen st.marks))
  · exact Thompson.taddthread_depth prog _ st l pc
      (Nat.lt_succ_of_le (unmarked_le prog st.gen st.marks))

/-- C18 on the ring of Jumps and the input `ab`: both engines return. -/
theorem lockstep_terminates_witness :
    (jumpRing.WF ∧ MarksLe 0 (fun _ => 0)) ∧
    ∃ r, pikevm jumpRing [97, 98] [none, none] 0 (fun _ => 0) = .ok r ∧
      r.gen ≤ 0 + 1 + ([97, 98].length + 1) :=
  ⟨⟨by decide, fun _ => Nat.le_refl 0⟩,
   (lockstep_terminates jumpRing [97, 98] [none, none] 0 (fun _ => 0) (by decide)
      (fun _ => Nat.le_refl 0)).1⟩

/-! ## When the runs of `backtrack` end -/

/-- The byte under a position inside the input or on its terminator; on
the terminator it is NUL. -/
theorem Backtrack.peek_le {input : List Nat} {sp : Nat} (h : sp ≤ input.length) :
    ∃ b, peek input sp = some b ∧ (b ≠ 0 → sp < input.length) := by
  rcases Nat.lt_or_ge sp input.length with hlt | hge
  · exact ⟨input[sp], by rw [peek_of_lt hlt, List.getElem?_eq_getElem hlt], fun _ => hlt⟩
  · have he : sp = input.length := by omega
    subst he
    exact ⟨0, peek_at_end input, fun h0 => absurd rfl h0⟩

/-- C19, counterexample: the program `Split 1 2; Jmp 1; Match` has every
reference in range and reaches its Match from the start instruction through
the secondary successor of the Split, and on the empty input the run of
`backtrack`, caught in the Jump to itself, is not over after any number of
instructions. -/
theorem backtrack_spins_on_jump_cycle :
    jumpLoop.WF ∧ AccFrom jumpLoop [] jumpLoop.start ∧
    ∀ fuel, backtrack jumpLoop [] [none, none] fuel = .timeout := by
  refine ⟨by decide, AccFrom.splity (x := 1) (y := 2) rfl (AccFrom.mtch rfl), fun fuel => ?_⟩
  rw [backtrack_eq_run]
  cases fuel with
  | zero => rfl
  | succ f =>
    refine Eq.trans (Backtrack.run_inr f ⟨[⟨2, [none, none]⟩], [⟨2, 0, 0⟩], 1, 0, 0⟩ rfl) ?_
    exact Backtrack.jumpLoop_spins _ f _ _

/-! ## Offsets and the end of the input -/

theorem CapsLe.set {caps : Caps} {n p : Nat} (i : Nat) (h : CapsLe caps n) (hp : p ≤ n) :
    CapsLe (caps.set i (some p)) n := by
  intro q hq
  rcases List.mem_or_eq_of_mem_set hq with hq | hq
  · exact h q hq
  · cases hq; exact hp

theorem CapsLe.unset (k n : Nat) : CapsLe (List.replicate k none) n := by
  intro q hq
  simp [List.mem_replicate] at hq

theorem CapsLe.relax {caps : Caps} {n m : Nat} (h : CapsLe caps n) (hm : n ≤ m) :
    CapsLe caps m := fun q hq => Nat.le_trans (h q hq) hm

/-- The offsets copied out of captures bounded by `n` are bounded by `n`. -/
theorem copyout_le {caps : Caps} {n : Nat} (h : CapsLe caps n) (subp : List (Option Nat))
    (i p : Nat) (hi : (copyout caps subp)[i]? = some (some p)) : p ≤ n := by
  have hlt : i < subp.length := by
    by_contra hge
    rw [List.getElem?_eq_none (by simp [copyout]; omega)] at hi
    simp at hi
  rw [copyout_get _ _ i hlt] at hi
  simp only [Option.some.injEq] at hi
  cases hc : caps[i]? with
  | none => rw [hc] at hi; simp at hi
  | some v =>
    rw [hc] at hi
    simp only [Option.getD_some] at hi
    subst hi
    exact h p (List.getElem?_mem hc)

/-- A thread holds no offset behind its position. -/
theorem behindThreadInv (prog : Prog) : ThreadInv prog (fun _ caps sp => CapsLe caps sp) where
  jmp := fun _ _ _ _ _ h => h
  splitx := fun _ _ _ _ _ _ h => h
  splity := fun _ _ _ _ _ _ h => h
  save := fun _ n _ _ _ h => h.set n (Nat.le_refl _)
  char := fun _ _ _ _ _ h => h.relax (Nat.le_succ _)
  any := fun _ _ _ _ h => h.relax (Nat.le_succ _)

/-- A pass of the search at position `sp` records a match at `sp` or keeps
the one it had. -/
theorem Pure.step_pos (prog : Prog) (fuel c sp : Nat) :
    ∀ (cl : List Pure.Thread) (a r : Pure.Acc), Pure.step prog fuel c sp cl a = .ok r →
      r.matched = a.matched ∨ ∃ caps, r.matched = some (sp, caps) := by
  intro cl
  induction cl with
  | nil =>
    intro a r h
    simp only [Pure.step, Res.ok.injEq] at h
    subst h
    exact Or.inl rfl
  | cons t rest ih =>
    intro a r h
    have hadd : ∀ r, ((Pure.addthread prog fuel a.vis a.nlist ⟨t.pc + 1, t.caps⟩ (sp + 1)).bind
        fun x => Pure.step prog fuel c sp rest ⟨x.1, x.2, a.matched⟩) = .ok r →
        r.matched = a.matched ∨ ∃ caps, r.matched = some (sp, caps) := by
      intro r h
      obtain ⟨x, _, h2⟩ := Res.bind_eq_ok.1 h
      have := ih _ _ h2
      exact this
    cases hi : prog.insts[t.pc]? with
    | none => simp [Pure.step, hi] at h
    | some i =>
      simp only [Pure.step, hi] at h
      cases i with
      | Char k =>
        simp only at h
        split at h
        · exact ih _ _ h
        · split at h
          · exact ih _ _ h
          · exact hadd r h
      | Any =>
        simp only at h
        split at h
        · exact ih _ _ h
        · exact hadd r h
      | Match =>
        simp only [Res.ok.injEq] at h
        subst h
        exact Or.inr ⟨_, rfl⟩
      | Jmp x => exact ih _ _ h
      | Split x y => exact ih _ _ h
      | Save n => exact ih _ _ h

/-- The walk over the input records no match behind the end of the input. -/
theorem Pure.loop_pos (prog : Prog) (fuel : Nat) :
    ∀ (inp : List Nat) (sp : Nat) (cl : List Pure.Thread) (m res : Option (Nat × Caps)),
      (∀ k caps, m = some (k, caps) → k ≤ sp + inp.length) →
      Pure.loop prog fuel inp sp cl m = .ok res →
      ∀ k caps, res = some (k, caps) → k ≤ sp + inp.length := by
  intro inp
  induction inp with
  | nil =>
    intro sp cl m res hm h k caps hk
    rw [Pure.loop] at h
    split at h
    · cases h; exact hm k caps hk
    · obtain ⟨r, h1, h2⟩ := Res.bind_eq_ok.1 h
      cases h2
      rcases Pure.step_pos prog fuel 0 sp _ _ _ h1 with e | ⟨c1, e⟩
      · rw [e] at hk; exact hm k caps hk
      · rw [e] at hk; cases hk; simp
  | cons c rest ih =>
    intro sp cl m res hm h k caps hk
    rw [Pure.loop] at h
    split at h
    · cases h; exact hm k caps hk
    · obtain ⟨r, h1, h2⟩ := Res.bind_eq_ok.1 h
      have hr : ∀ k caps, r.matched = some (k, caps) → k ≤ sp + (c :: rest).length := by
        intro k1 caps1 hk1
        rcases Pure.step_pos prog fuel c sp _ _ _ h1 with e | ⟨c1, e⟩
        · rw [e] at hk1; exact hm k1 caps1 hk1
        · rw [e] at hk1; cases hk1; simp
      split at h2
      · cases h2; exact hr k caps hk
      · have := ih (sp + 1) r.nlist r.matched res
          (fun k1 caps1 hk1 => by have := hr k1 caps1 hk1; simp only [List.length_cons] at this; omega)
          h2 k caps hk
        simp only [List.length_cons]; omega

/-- The best match of the search on values: found inside the input or on its
terminator, with no offset behind the position it was found at. -/
theorem Pure.pikevm_pos (prog : Prog) (input : List Nat) (n : Nat) (res : Option (Nat × Caps))
    (h : Pure.pikevm prog input n = .ok res) :
    ∀ k caps, res = some (k, caps) → k ≤ input.length ∧ CapsLe caps input.length := by
  intro k caps hk
  have hinv := Pure.pikevm_inv prog _ (behindThreadInv prog) input n res (CapsLe.unset n 0) h
  obtain ⟨pc, _, hc⟩ := hinv k caps hk
  unfold Pure.pikevm at h
  obtain ⟨r, _, h2⟩ := Res.bind_eq_ok.1 h
  have hpos := Pure.loop_pos prog _ input 0 r.2 none res (fun _ _ e => by cases e) h2 k caps hk
  rw [Nat.zero_add] at hpos
  exact ⟨hpos, hc.relax hpos⟩

/-- On a program without Consume-Literal NUL the depth-first search of
`backtrack` stays inside the input: from a position inside the input, with
captures inside the input, the captures it finds are inside the input. -/
theorem dfs_le (prog : Prog) (input : List Nat) (hnn : NoNulLit prog) :
    ∀ f pc sp (caps res : Caps), sp ≤ input.length → CapsLe caps input.length →
      dfs prog input f pc sp caps = .ok (some res) → CapsLe res input.length := by
  intro f
  induction f with
  | zero => intro pc sp caps res _ _ h; simp [dfs] at h
  | succ f ih =>
    intro pc sp caps res hsp hc h
    rw [dfs] at h
    obtain ⟨b, hp, hb⟩ := Backtrack.peek_le hsp
    cases hi : prog.insts[pc]? with
    | none => simp [hi] at h
    | some i =>
      rw [hi] at h
      cases i with
      | Char ch =>
        simp only [hp] at h
        split at h
        · simp at h
        · rename_i hbc
          have hch : ch ≠ 0 := by
            intro hz
            subst hz
            exact hnn (mem_of_fetch hi)
          have hb0 : b ≠ 0 := fun hz => hbc (fun e => hch (e ▸ hz))
          exact ih _ _ _ _ (hb hb0) hc h
      | Any =>
        simp only [hp] at h
        split at h
        · simp at h
        · rename_i hb0
          exact ih _ _ _ _ (hb hb0) hc h
      | Match =>
        simp only [Res.ok.injEq, Option.some.injEq] at h
        subst h
        exact hc
      | Jmp x => exact ih _ _ _ _ hsp hc h
      | Split x y =>
        simp only at h
        obtain ⟨r, hx, h2⟩ := Res.bind_eq_ok.1 h
        cases r with
        | some found =>
          simp only [Res.ok.injEq, Option.some.injEq] at h2
          subst h2
          exact ih _ _ _ _ hsp hc hx
        | none => exact ih _ _ _ _ hsp hc h2
      | Save n => exact ih _ _ _ _ hsp (hc.set n hsp) h

/-- Apart from the Consume-Literal NUL of `backtrack`, no engine hands back an
offset behind the end of the input: `pikevm` and `thompsonvm` on every
program, from a valid generation state, and `backtrack`, when it reports a
match, on every program without Consume-Literal NUL. -/
theorem offsets_inside_input (prog : Prog) (input : List Nat) (subp : List (Option Nat))
    (gen : Nat) (marks : Nat → Nat) (hle : MarksLe gen marks) :
    (∀ r (i p : Nat), pikevm prog input subp gen marks = .ok r → r.subp[i]? = some (some p) →
      p ≤ input.length) ∧
    (∀ r (i p : Nat), thompsonvm prog input subp gen marks = .ok r → r.subp[i]? = some (some p) →
      p ≤ input.length) ∧
    (NoNulLit prog → ∀ fuel r (i p : Nat), backtrack prog input subp fuel = .ok r →
      r.matched = true → r.subp[i]? = some (some p) → p ≤ input.length) := by
  refine ⟨fun r i p hr hi => ?_, fun r i p hr hi => ?_, fun hnn fuel r i p hr hm hi => ?_⟩
  · have h := pikevm_refines prog input subp gen marks hle
    rw [hr] at h
    obtain ⟨pm, hp, hrel⟩ := h.ok_left
    rw [hrel.2.1] at hi
    cases pm with
    | none => simp [reported, List.getElem?_replicate] at hi
    | some kc =>
      exact copyout_le (Pure.pikevm_pos prog input _ _ hp kc.1 kc.2 rfl).2 _ i p hi
  · have h := thompsonvm_refines prog input subp gen marks hle
    rw [hr] at h
    obtain ⟨pm, hp, hrel⟩ := h.ok_left
    rw [hrel.2.1] at hi
    have h0 : ∀ (l : List (Option Nat)) (q : Nat),
        (∀ (j v : Nat), l[j]? = some (some v) → v ≤ q) →
        ∀ (j w : Nat), w ≤ q → ∀ (x v : Nat), (l.set j (some w))[x]? = some (some v) →
          v ≤ q := by
      intro l q hl j w hw x v hset
      rw [List.getElem?_set] at hset
      split at hset
      · split at hset
        · cases hset; exact hw
        · simp at hset
      · exact hl x v hset
    have hrep : ∀ (j v : Nat), (List.replicate subp.length (none : Option Nat))[j]? = some (some v) →
        v ≤ input.length := by
      intro j v hj
      simp [List.getElem?_replicate] at hj
    have hz := h0 _ input.length hrep 0 0 (Nat.zero_le _)
    cases pm with
    | none =>
      simp only [treported] at hi
      exact hz i p hi
    | some kc =>
      have hk := (Pure.pikevm_pos prog input _ _ hp kc.1 kc.2 rfl).1
      simp only [treported] at hi
      split at hi
      · exact h0 _ input.length hz 1 kc.1 hk i p hi
      · exact hz i p hi
  · obtain ⟨f, res, hd, hrel⟩ := backtrack_dfs prog input subp fuel r hr
    cases res with
    | none => rw [hrel.1] at hm; simp at hm
    | some found =>
      rw [hrel.2 found rfl] at hi
      exact copyout_le (dfs_le prog input hnn f _ _ _ _ (Nat.zero_le _)
        (CapsLe.unset _ _) hd) _ i p hi

theorem offsets_inside_input_witness :
    MarksLe 0 (fun _ => 0) ∧
    ∀ r (i p : Nat), pikevm nulSave [] [none, none] 0 (fun _ => 0) = .ok r →
      r.subp[i]? = some (some p) → p ≤ ([] : List Nat).length :=
  ⟨fun _ => Nat.le_refl 0,
   (offsets_inside_input nulSave [] [none, none] 0 (fun _ => 0) (fun _ => Nat.le_refl 0)).1⟩

/-- C20, the failing input: on the program `Char NUL; Save 0; Match` and the
empty input `backtrack` takes the terminating NUL for the literal, advances
behind the end of the input and reports offset 1 in slot 0, where the input
has length 0; on `Char NUL; Char NUL; Match` it then reads the byte behind
the terminator.  On the same program and input `pikevm` and `thompsonvm`,
whose Consume-Literal falls through to the test for the end of the input,
let the thread die and report no match. -/
theorem backtrack_advances_past_terminator :
    backtrack nulSave [] [none, none] 3 = .ok ⟨true, [some 1, none], [⟨0, [some 1, none]⟩]⟩ ∧
    backtrack ⟨[Inst.Char 0, Inst.Char 0, Inst.Match], 0⟩ [] [none, none] 2 = .fault ∧
    (∃ r, pikevm nulSave [] [none, none] 0 (fun _ => 0) = .ok r ∧ r.matched = false) ∧
    (∃ r, thompsonvm nulSave [] [none, none] 0 (fun _ => 0) = .ok r ∧ r.matched = false) :=
  ⟨by decide, by decide, ⟨_, rfl, rfl⟩, ⟨_, rfl, rfl⟩⟩

/-! ## Slots no engine writes -/

/-- The pass of `thompsonvm` writes slot 1 of the array only. -/
theorem Thompson.tstep_slots (prog : Prog) (fuel c sp : Nat) :
    ∀ (cl : List Nat) (a r : Thompson.Acc), Thompson.step prog fuel c sp cl a = .ok r →
      ∀ i : Nat, i ≠ 1 → r.subp[i]? = a.subp[i]? := by
  intro cl
  induction cl with
  | nil =>
    intro a r h i _
    simp only [Thompson.step, Res.ok.injEq] at h
    subst h
    rfl
  | cons pc rest ih =>
    intro a r h i hi1
    have hadd : ∀ r, ((Thompson.addthread prog fuel a.st a.nlist (pc + 1)).bind fun x =>
        Thompson.step prog fuel c sp rest ⟨x.1, x.2, a.matched, a.subp⟩) = .ok r →
        r.subp[i]? = a.subp[i]? := by
      intro r h
      obtain ⟨x, _, h2⟩ := Res.bind_eq_ok.1 h
      have := ih _ _ h2 i hi1
      exact this
    rw [Thompson.step] at h
    cases hi : prog.insts[pc]? with
    | none => simp [hi] at h
    | some ins =>
      rw [hi] at h
      cases ins with
      | Char k =>
        simp only at h
        split at h
        · exact ih _ _ h i hi1
        · split at h
          · exact ih _ _ h i hi1
          · exact hadd r h
      | Any =>
        simp only at h
        split at h
        · exact ih _ _ h i hi1
        · exact hadd r h
      | Match =>
        simp only [Res.ok.injEq] at h
        subst h
        simp only
        split
        · exact List.getElem?_set_ne (fun e => hi1 e.symm)
        · rfl
      | Jmp x => exact ih _ _ h i hi1
      | Split x y => exact ih _ _ h i hi1
      | Save n => exact ih _ _ h i hi1

/-- The outer loop of `thompsonvm` writes slot 1 of the array only. -/
theorem Thompson.tloop_slots (prog : Prog) (fuel : Nat) :
    ∀ (inp : List Nat) (sp : Nat) (cl : List Nat) (a r : Thompson.Acc),
      Thompson.loop prog fuel inp sp cl a = .ok r →
      ∀ i : Nat, i ≠ 1 → r.subp[i]? = a.subp[i]? := by
  intro inp
  induction inp with
  | nil =>
    intro sp cl a r h i hi1
    rw [Thompson.loop] at h
    split at h
    · cases h; rfl
    · exact Thompson.tstep_slots prog fuel 0 sp _ _ _ h i hi1
  | cons c rest ih =>
    intro sp cl a r h i hi1
    rw [Thompson.loop] at h
    split at h
    · cases h; rfl
    · obtain ⟨r1, h1, h2⟩ := Res.bind_eq_ok.1 h
      have e1 := Thompson.tstep_slots prog fuel c sp _ _ _ h1 i hi1
      simp only at e1
      split at h2
      · cases h2; exact e1
      · rw [ih _ _ _ _ h2 i hi1]; exact e1

/-- C14: the slots the program does not save stay unset.  For every slot `k`
of the array such that the program has no SaveCapture `k`, slot `k` is unset
in the captures `backtrack` reports with a match, and in those `pikevm`
reports with a match from a valid generation state.  On every program, input
and generation state, `thompsonvm` leaves every slot from index 2 on unset
whenever it returns. -/
theorem unsaved_slots_unset (prog : Prog) (input : List Nat) (subp : List (Option Nat))
    (gen : Nat) (marks : Nat → Nat) :
    (∀ k, k < subp.length → Inst.Save k ∉ prog.insts →
      ∀ fuel r, backtrack prog input subp fuel = .ok r → r.matched = true →
        r.subp[k]? = some none) ∧
    (∀ k, k < subp.length → Inst.Save k ∉ prog.insts → MarksLe gen marks →
      ∀ r, pikevm prog input subp gen marks = .ok r → r.matched = true →
        r.subp[k]? = some none) ∧
    (∀ r i, thompsonvm prog input subp gen marks = .ok r → 2 ≤ i → i < subp.length →
      r.subp[i]? = some none) := by
  have hinit : ∀ k, k < subp.length →
      (List.replicate subp.length (none : Option Nat))[k]? = some none := by
    intro k hk
    simp [List.getElem?_replicate, hk]
  refine ⟨fun k hk hno fuel r hr hm => ?_, fun k hk hno hle r hr hm => ?_,
    fun r i hr h2 hi => ?_⟩
  · obtain ⟨f, res, hd, hrel⟩ := backtrack_dfs prog input subp fuel r hr
    cases res with
    | none => rw [hrel.1] at hm; simp at hm
    | some found =>
      rw [hrel.2 found rfl, copyout_get _ _ k hk,
        dfs_keeps_slot prog input k hno _ _ _ _ _ hd, hinit k hk]
      rfl
  · have h := pikevm_refines prog input subp gen marks hle
    rw [hr] at h
    obtain ⟨pm, hp, hrel⟩ := h.ok_left
    have hinv := Pure.pikevm_inv prog _ (unsetThreadInv hno) input subp.length pm
      (hinit k hk) hp
    cases pm with
    | none => rw [hrel.1] at hm; simp at hm
    | some kc =>
      obtain ⟨pc, _, hc⟩ := hinv kc.1 kc.2 rfl
      rw [hrel.2.1, reported_get _ _ k _ hk, hc]
      rfl
  · unfold thompsonvm at hr
    simp only at hr
    obtain ⟨x, _, h2x⟩ := Res.bind_eq_ok.1 hr
    obtain ⟨e, hl, h3⟩ := Res.bind_eq_ok.1 h2x
    cases h3
    have hs := Thompson.tloop_slots prog _ _ _ _ _ _ hl i (by omega)
    simp only at hs ⊢
    rw [hs]
    have h0 : 0 ≠ i := by omega
    split
    · rw [List.getElem?_set_ne h0]; exact hinit i hi
    · exact hinit i hi

/-- C14 on the program of `a|ab`, which saves slots 0 and 1 only, with an
array of three slots, where `backtrack` leaves slot 2 unset; and on the
program of `a(b|c)*`, which saves all its four slots, where `thompsonvm`
leaves slots 2 and 3 unset. -/
theorem unsaved_slots_unset_witness :
    (2 < [none, none, (none : Option Nat)].length ∧ Inst.Save 2 ∉ aOrAb.insts) ∧
    (∃ r, backtrack aOrAb [97, 98] [none, none, none] 9 = .ok r ∧ r.matched = true ∧
      r.subp[2]? = some none) ∧
    ∃ r, thompsonvm groupLoop [97, 98, 99] [none, none, none, none] 0 (fun _ => 0) = .ok r ∧
      r.subp[2]? = some none ∧ r.subp[3]? = some none :=
  ⟨⟨by decide, by decide⟩,
   ⟨_, rfl, rfl,
    (unsaved_slots_unset aOrAb [97, 98] [none, none, none] 0 (fun _ => 0)).1 2 (by decide)
      (by decide) 9 _ rfl rfl⟩,
   ⟨_, rfl,
    (unsaved_slots_unset groupLoop [97, 98, 99] [none, none, none, none] 0 (fun _ => 0)).2.2
      _ 2 rfl (by decide) (by decide),
    (unsaved_slots_unset groupLoop [97, 98, 99] [none, none, none, none] 0 (fun _ => 0)).2.2
      _ 3 rfl (by decide) (by decide)⟩⟩

/-! ## Every instruction the Thompson closure visits is on its list -/

/-- What a call of `addthread` of `thompson.c` adds to its list: exactly the
instructions it newly marks, the instruction it is called on included when
that was not marked; and a Jump, Split or SaveCapture it is called on has its
successors marked when the call is over. -/
theorem Thompson.taddthread_queues (prog : Prog) :
    ∀ fuel (st : Thompson.St) (l : List Nat) (pc : Nat) (r : Thompson.St × List Nat),
      Thompson.addthread prog fuel st l pc = .ok r →
      r.1.marks pc = st.gen ∧
      (∃ N, r.2 = l ++ N ∧ ∀ q, q ∈ N ↔ (r.1.marks q = st.gen ∧ st.marks q ≠ st.gen)) ∧
      ∀ i, prog.insts[pc]? = some i → i.isCtl = true → st.marks pc ≠ st.gen →
        ∀ s ∈ i.succs pc, r.1.marks s = st.gen := by
  intro fuel
  induction fuel with
  | zero => intro st l pc r h; simp [Thompson.addthread] at h
  | succ fuel ih =>
    intro st l pc r h
    have hmono := Thompson.taddthread_marks prog (fuel + 1) st l pc r h
    have hself : Pike.mark st.marks pc st.gen pc = st.gen := by simp [Pike.mark]
    have hother : ∀ q, q ≠ pc → Pike.mark st.marks pc st.gen q = st.marks q := by
      intro q hq
      simp [Pike.mark, hq]
    rw [Thompson.addthread] at h
    cases hi : prog.insts[pc]? with
    | none => simp [hi] at h
    | some i =>
      rw [hi] at h
      simp only at h
      by_cases hm : st.marks pc = st.gen
      · rw [if_pos hm] at h
        cases h
        refine ⟨hm, ⟨[], by simp, fun q => ?_⟩, fun _ _ _ hne => absurd hm hne⟩
        simp only [List.not_mem_nil, false_iff, not_and, not_not]
        exact fun e => e
      · rw [if_neg hm] at h
        -- the instruction is written to the list and nothing is followed
        have hleaf : Res.ok ((⟨st.gen, Pike.mark st.marks pc st.gen⟩ : Thompson.St),
              l ++ [pc]) = Res.ok r → i.isCtl = false →
            r.1.marks pc = st.gen ∧
            (∃ N, r.2 = l ++ N ∧
              ∀ q, q ∈ N ↔ (r.1.marks q = st.gen ∧ st.marks q ≠ st.gen)) ∧
            ∀ j, some i = some j → j.isCtl = true → st.marks pc ≠ st.gen →
              ∀ s ∈ j.succs pc, r.1.marks s = st.gen := by
          intro e hctl
          cases e
          refine ⟨hself, ⟨[pc], rfl, fun q => ?_⟩, fun j hj hjc => ?_⟩
          · simp only [List.mem_singleton]
            constructor
            · intro hq; subst hq; exact ⟨hself, hm⟩
            · intro hq
              by_contra hne
              rw [hother q hne] at hq
              exact hq.2 hq.1
          · cases hj
            rw [hctl] at hjc
            cases hjc
        -- the instruction is written to the list and one successor is followed
        have hone : ∀ x, Thompson.addthread prog fuel
              ⟨st.gen, Pike.mark st.marks pc st.gen⟩ (l ++ [pc]) x = .ok r →
            r.1.marks pc = st.gen ∧
            (∃ N, r.2 = l ++ N ∧
              ∀ q, q ∈ N ↔ (r.1.marks q = st.gen ∧ st.marks q ≠ st.gen)) ∧
            r.1.marks x = st.gen := by
          intro x hx
          obtain ⟨hx1, ⟨N1, e1, hN1⟩, _⟩ := ih _ _ _ _ hx
          obtain ⟨_, m1⟩ := Thompson.taddthread_marks prog _ _ _ _ _ hx
          simp only at hx1 hN1 m1
          have hpc := m1 pc hself
          refine ⟨hpc, ⟨pc :: N1, by rw [e1, List.append_assoc]; rfl, fun q => ?_⟩, hx1⟩
          rw [List.mem_cons, hN1 q]
          by_cases hq : q = pc
          · subst hq
            simp [hpc, hm]
          · rw [hother q hq]
            simp [hq]
        cases i with
        | Char k => exact hleaf h rfl
        | Any => exact hleaf h rfl
        | Match => exact hleaf h rfl
        | Jmp x =>
          obtain ⟨h1, h2, h3⟩ := hone x h
          refine ⟨h1, h2, fun j hj _ _ s hs => ?_⟩
          cases hj
          simp only [Inst.succs, List.mem_singleton] at hs
          subst hs
          exact h3
        | Save n =>
          obtain ⟨h1, h2, h3⟩ := hone (pc + 1) h
          refine ⟨h1, h2, fun j hj _ _ s hs => ?_⟩
          cases hj
          simp only [Inst.succs, List.mem_singleton] at hs
          subst hs
          exact h3
        | Split x y =>
          simp only at h
          obtain ⟨r1, hx, hy⟩ := Res.bind_eq_ok.1 h
          obtain ⟨hx1, ⟨N1, e1, hN1⟩, _⟩ := ih _ _ _ _ hx
          obtain ⟨g1, m1⟩ := Thompson.taddthread_marks prog _ _ _ _ _ hx
          obtain ⟨hy1, ⟨N2, e2, hN2⟩, _⟩ := ih _ _ _ _ hy
          obtain ⟨g2, m2⟩ := Thompson.taddthread_marks prog _ _ _ _ _ hy
          simp only at hx1 hN1 g1 m1
          rw [g1] at hy1 hN2 m2
          have hpc : r.1.marks pc = st.gen := m2 pc (m1 pc hself)
          refine ⟨hpc, ⟨pc :: (N1 ++ N2), ?_, fun q => ?_⟩, fun j hj _ _ s hs => ?_⟩
          · rw [e2, e1]; simp
          · rw [List.mem_cons, List.mem_append, hN1 q, hN2 q]
            by_cases hq : q = pc
            · subst hq
              simp [hpc, hm]
            · rw [hother q hq]
              simp only [hq, false_or]
              constructor
              · rintro (⟨a1, a2⟩ | ⟨a1, a2⟩)
                · exact ⟨m2 q a1, a2⟩
                · exact ⟨a1, fun e => a2 (m1 q (by rw [hother q hq]; exact e))⟩
              · rintro ⟨a1, a2⟩
                by_cases hr1 : r1.1.marks q = st.gen
                · exact Or.inl ⟨hr1, a2⟩
                · exact Or.inr ⟨a1, hr1⟩
          · cases hj
            simp only [Inst.succs, List.mem_cons, List.mem_singleton, List.not_mem_nil,
              or_false] at hs
            rcases hs with hs | hs
            · subst hs; exact m2 _ hx1
            · subst hs; exact hy1

/-- C17, amended: `addthread` of `thompson.c` puts every instruction it newly
visits on the list, Jump, Split and SaveCapture included, and follows these
to their successors: in any state, what a call adds to the list are exactly
the instructions it newly marks, among them the instruction it is called on
when that was not marked, and the successors of a Jump, Split or SaveCapture
it is called on are marked when it returns.  From a valid generation state
the entries added are instructions of the program, and those among them that
are Consume-Literal, Consume-Any or Match are, in order, the threads
`addthread` of `pike.c` lists; the pass of `thompsonvm` skips the other
entries. -/
theorem thompson_control_entries_inert (prog : Prog) (fuel c sp gen : Nat) (marks : Nat → Nat)
    (pc : Nat) (caps : Caps) (cl : List Nat) (a : Thompson.Acc) (hle : MarksLe gen marks)
    (hcl : ∀ q ∈ cl, q < prog.len) :
    (∀ (st : Thompson.St) (l : List Nat) (q : Nat) (r : Thompson.St × List Nat),
      Thompson.addthread prog fuel st l q = .ok r →
      ∃ N, r.2 = l ++ N ∧ (∀ x, x ∈ N ↔ (r.1.marks x = st.gen ∧ st.marks x ≠ st.gen)) ∧
        (st.marks q ≠ st.gen → q ∈ N ∧
          ∀ i, prog.insts[q]? = some i → i.isCtl = true →
            ∀ s ∈ i.succs q, r.1.marks s = st.gen)) ∧
    Res.Rel (fun rt rp => (∀ q ∈ rt.2, q < prog.len) ∧
        rt.2.filter (schedB prog) = rp.2.map Pike.Thread.pc)
      (Thompson.addthread prog fuel ⟨gen + 1, marks⟩ [] pc)
      (Pike.addthread prog fuel ⟨gen + 1, marks, [⟨1, caps⟩]⟩ [] ⟨pc, 0⟩ sp) ∧
    Thompson.step prog fuel c sp cl a =
      Thompson.step prog fuel c sp (cl.filter (schedB prog)) a := by
  refine ⟨fun st l q r hr => ?_, ?_, Thompson.tstep_filter prog fuel c sp cl a hcl⟩
  · obtain ⟨h1, ⟨N, e, hN⟩, h3⟩ := Thompson.taddthread_queues prog fuel st l q r hr
    exact ⟨N, e, hN, fun hm => ⟨(hN q).2 ⟨h1, hm⟩, fun i hi hc => h3 i hi hc hm⟩⟩
  have ht := Thompson.taddthread_refines prog fuel ⟨gen + 1, marks⟩ [] [] pc caps sp []
    (MarkRel.next hle) rfl (fun _ h => absurd h (List.not_mem_nil _))
  have hheap : HeapInv [⟨1, caps⟩] [(0, caps)] := by
    refine ⟨fun x hx => ?_, fun p => ?_⟩
    · simp at hx; subst hx; simp [frame]
    · cases p <;> simp [refOf]
  have hp := Pike.addthread_refines prog fuel ⟨gen + 1, marks, [⟨1, caps⟩]⟩ [] [] ⟨pc, 0⟩
    caps sp [] [] (MarkRel.next hle) hheap
  refine (Res.Rel.meet ht hp).mono ?_
  rintro rt rp ⟨z, h1, N, h2, h3, _⟩
  refine ⟨h1.2.2.2, ?_⟩
  rw [h1.2.2.1, h2, h3]
  simp [conc, pur, List.map_map, Function.comp_def]

/-- C17, the amended statement on the program of `a|ab`: the call of
`addthread` on the start instruction, a SaveCapture not yet marked, puts that
instruction on the list. -/
theorem thompson_control_entries_inert_witness :
    (MarksLe 0 (fun _ => 0) ∧ ∀ q ∈ [0, 1, 2, 4], q < aOrAb.len) ∧
    (∃ r, Thompson.addthread aOrAb 9 ⟨1, fun _ => 0⟩ [] 0 = .ok r ∧
      ∃ N, r.2 = [] ++ N ∧ (∀ x, x ∈ N ↔ (r.1.marks x = 1 ∧ (0 : Nat) ≠ 1)) ∧
        0 ∈ N ∧ r.1.marks 1 = 1) ∧
    Thompson.step aOrAb 9 97 0 [0, 1, 2, 4] ⟨⟨2, fun _ => 0⟩, [], false, [none, none]⟩ =
      Thompson.step aOrAb 9 97 0 ([0, 1, 2, 4].filter (schedB aOrAb))
        ⟨⟨2, fun _ => 0⟩, [], false, [none, none]⟩ :=
  ⟨⟨fun _ => Nat.le_refl 0, by decide⟩,
   ⟨_, rfl,
    match (thompson_control_entries_inert aOrAb 9 97 0 0 (fun _ => 0) 0 [none, none]
      [0, 1, 2, 4] ⟨⟨2, fun _ => 0⟩, [], false, [none, none]⟩ (fun _ => Nat.le_refl 0)
      (by decide)).1 ⟨1, fun _ => 0⟩ [] 0 _ rfl with
    | ⟨N, e, hN, h⟩ =>
      ⟨N, e, hN, (h (by decide)).1,
        (h (by decide)).2 (Inst.Save 0) rfl rfl 1 (List.mem_singleton.2 rfl)⟩⟩,
   (thompson_control_entries_inert aOrAb 9 97 0 0 (fun _ => 0) 0 [none, none] [0, 1, 2, 4]
      ⟨⟨2, fun _ => 0⟩, [], false, [none, none]⟩ (fun _ => Nat.le_refl 0) (by decide)).2.2⟩

/-! ## Overall start and end: the position of the match -/

theorem Res.bind_bind {α β γ : Type} (a : Res α) (f : α → Res β) (g : β → Res γ) :
    (a.bind f).bind g = a.bind fun x => (f x).bind g := by
  cases a <;> rfl

/-- The pass with the observation is the pass of `pikevm`, and what it
observes depends on the instructions of the list only. -/
theorem Pike.stepAt_eq (prog : Prog) (fuel c sp : Nat) :
    ∀ (cl : List Pike.Thread) (st : Pike.St) (nl : List Pike.Thread) (m g : Option Nat),
      Pike.stepAt prog fuel c sp cl st nl m g =
        (Pike.step prog fuel c sp cl st nl m).bind fun r =>
          .ok (r, hitAt prog sp (cl.map Pike.Thread.pc) g) := by
  intro cl
  induction cl with
  | nil => intro st nl m g; rfl
  | cons t rest ih =>
    intro st nl m g
    cases hi : prog.insts[t.pc]? with
    | none => simp only [Pike.stepAt, Pike.step, hi]; rfl
    | some i =>
      cases i with
      | Match =>
        simp only [Pike.stepAt, Pike.step, List.map_cons, hitAt, hi, if_true, Res.bind_bind,
          Res.bind_ok]
      | Char k =>
        have e : hitAt prog sp (t.pc :: rest.map Pike.Thread.pc) g =
            hitAt prog sp (rest.map Pike.Thread.pc) g := by simp [hitAt, hi]
        simp only [Pike.stepAt, Pike.step, List.map_cons, hi, Res.bind_bind, ih, e]
        split
        · simp only [Res.bind_bind]
        · split <;> simp only [Res.bind_bind]
      | Any =>
        have e : hitAt prog sp (t.pc :: rest.map Pike.Thread.pc) g =
            hitAt prog sp (rest.map Pike.Thread.pc) g := by simp [hitAt, hi]
        simp only [Pike.stepAt, Pike.step, List.map_cons, hi, Res.bind_bind, ih, e]
        split <;> simp only [Res.bind_bind]
      | Jmp x =>
        have e : hitAt prog sp (t.pc :: rest.map Pike.Thread.pc) g =
            hitAt prog sp (rest.map Pike.Thread.pc) g := by simp [hitAt, hi]
        simp only [Pike.stepAt, Pike.step, List.map_cons, hi, ih, e]
      | Split x y =>
        have e : hitAt prog sp (t.pc :: rest.map Pike.Thread.pc) g =
            hitAt prog sp (rest.map Pike.Thread.pc) g := by simp [hitAt, hi]
        simp only [Pike.stepAt, Pike.step, List.map_cons, hi, ih, e]
      | Save n =>
        have e : hitAt prog sp (t.pc :: rest.map Pike.Thread.pc) g =
            hitAt prog sp (rest.map Pike.Thread.pc) g := by simp [hitAt, hi]
        simp only [Pike.stepAt, Pike.step, List.map_cons, hi, ih, e]

/-- The pass on values records a position exactly when the pass of `pikevm`
does. -/
theorem Pure.step_hitAt (prog : Prog) (fuel c sp : Nat) :
    ∀ (cl : List Pure.Thread) (a r : Pure.Acc), Pure.step prog fuel c sp cl a = .ok r →
      r.matched.map Prod.fst =
        hitAt prog sp (cl.map Pure.Thread.pc) (a.matched.map Prod.fst) := by
  intro cl
  induction cl with
  | nil => intro a r h; simp only [Pure.step] at h; cases h; rfl
  | cons t rest ih =>
    intro a r h
    rw [Pure.step] at h
    cases hi : prog.insts[t.pc]? with
    | none => rw [hi] at h; cases h
    | some i =>
      rw [hi] at h
      have e : i ≠ Inst.Match → hitAt prog sp ((t :: rest).map Pure.Thread.pc)
          (a.matched.map Prod.fst) =
          hitAt prog sp (rest.map Pure.Thread.pc) (a.matched.map Prod.fst) := by
        intro hne
        simp [hitAt, hi, hne]
      cases i with
      | Match =>
        simp only at h
        cases h
        simp [hitAt, hi]
      | Char k =>
        simp only at h
        rw [e (by simp)]
        split at h
        · exact ih _ _ h
        · split at h
          · exact ih _ _ h
          · obtain ⟨x, -, h2⟩ := Res.bind_eq_ok.1 h
            have := ih ⟨x.1, x.2, a.matched⟩ r h2
            exact this
      | Any =>
        simp only at h
        rw [e (by simp)]
        split at h
        · exact ih _ _ h
        · obtain ⟨x, -, h2⟩ := Res.bind_eq_ok.1 h
          have := ih ⟨x.1, x.2, a.matched⟩ r h2
          exact this
      | Jmp x => rw [e (by simp)]; exact ih _ _ h
      | Split x y => rw [e (by simp)]; exact ih _ _ h
      | Save n => rw [e (by simp)]; exact ih _ _ h


theorem conc_pc (T : List Trip) : (conc T).map Pike.Thread.pc = T.map Prod.fst := by
  simp [conc, List.map_map, Function.comp_def]

theorem pur_pc (T : List Trip) : (pur T).map Pure.Thread.pc = T.map Prod.fst := by
  simp [pur, List.map_map, Function.comp_def]

theorem conc_pur_pc (T : List Trip) :
    (conc T).map Pike.Thread.pc = (pur T).map Pure.Thread.pc := by
  rw [conc_pc, pur_pc]

/-- The outer loop with the observation is the outer loop of `pikevm`. -/
theorem Pike.loopAt_fst (prog : Prog) (fuel : Nat) :
    ∀ (inp : List Nat) (sp : Nat) (st : Pike.St) (cl : List Pike.Thread) (m g : Option Nat),
      ((Pike.loopAt prog fuel inp sp st cl m g).bind fun r => .ok r.1) =
        Pike.loop prog fuel inp sp st cl m := by
  intro inp
  induction inp with
  | nil =>
    intro sp st cl m g
    rw [Pike.loopAt, Pike.loop]
    split
    · rfl
    · rw [Pike.stepAt_eq, Res.bind_bind]
      simp only [Res.bind_ok]
      exact Res.bind_ok_right _
  | cons c rest ih =>
    intro sp st cl m g
    rw [Pike.loopAt, Pike.loop]
    split
    · rfl
    · rw [Pike.stepAt_eq, Res.bind_bind, Res.bind_bind]
      congr 1
      funext r
      simp only [Res.bind_ok]
      split
      · rfl
      · exact ih _ _ _ _ _

/-- What the outer loop observes is the position of the match the walk on
values hands back. -/
theorem Pike.loopAt_pos (prog : Prog) (fuel : Nat) :
    ∀ (inp : List Nat) (sp : Nat) (st : Pike.St) (T : List Trip) (m : Option Nat)
      (pm : Option (Nat × Caps)) (g : Option Nat)
      (ra : (Pike.St × List Pike.Thread × Option Nat) × Option Nat)
      (res : Option (Nat × Caps)),
      (∀ x ∈ T, Sched prog x.1) → MarksLe st.gen st.marks → m.isSome = pm.isSome →
      HeapInv st.heap (own T ++ mown m pm) → g = pm.map Prod.fst →
      Pike.loopAt prog fuel inp sp st (conc T) m g = .ok ra →
      Pure.loop prog fuel inp sp (pur T) pm = .ok res → ra.2 = res.map Prod.fst := by
  intro inp
  induction inp with
  | nil =>
    intro sp st T m pm g ra res hT hle hmm hh hg h1 h2
    rw [Pike.loopAt] at h1
    rw [Pure.loop] at h2
    cases T with
    | nil =>
      simp only [conc, pur, List.map_nil, List.length_nil, if_true] at h1 h2
      cases h1; cases h2
      exact hg
    | cons x T =>
      simp only [conc, pur, List.map_cons, List.length_cons, Nat.succ_ne_zero, if_false] at h1 h2
      rw [Pike.stepAt_eq] at h1
      obtain ⟨r, hs, e1⟩ := Res.bind_eq_ok.1 h1
      obtain ⟨pa, hp, e2⟩ := Res.bind_eq_ok.1 h2
      cases e1; cases e2
      have := Pure.step_hitAt prog fuel 0 sp _ _ _ hp
      have c1 : List.map Pike.Thread.pc
          (⟨x.1, x.2.1⟩ :: List.map (fun x => (⟨x.1, x.2.1⟩ : Pike.Thread)) T) =
          List.map Pure.Thread.pc
            (⟨x.1, x.2.2⟩ :: List.map (fun x => (⟨x.1, x.2.2⟩ : Pure.Thread)) T) :=
        conc_pur_pc (x :: T)
      simp only at this ⊢
      rw [this, hg, c1]
  | cons c rest ih =>
    intro sp st T m pm g ra res hT hle hmm hh hg h1 h2
    rw [Pike.loopAt] at h1
    rw [Pure.loop] at h2
    cases T with
    | nil =>
      simp only [conc, pur, List.map_nil, List.length_nil, if_true] at h1 h2
      cases h1; cases h2
      exact hg
    | cons x T =>
      have href := Pike.step_refines prog fuel c sp (x :: T) ⟨st.gen + 1, st.marks, st.heap⟩ []
        m [] pm hT (by simp) (MarkRel.next hle) hmm (by simpa [own] using hh)
      simp only [conc, pur, List.map_cons, List.map_nil] at href
      simp only [conc, pur, List.map_cons, List.length_cons, Nat.succ_ne_zero, if_false] at h1 h2
      rw [Pike.stepAt_eq, Res.bind_bind] at h1
      obtain ⟨r, hs, e1⟩ := Res.bind_eq_ok.1 h1
      obtain ⟨pa, hp, e2⟩ := Res.bind_eq_ok.1 h2
      rw [hs, hp] at href
      simp only [Res.bind_ok] at e1
      have hpos := Pure.step_hitAt prog fuel c sp _ _ _ hp
      have c1 : List.map Pike.Thread.pc
          (⟨x.1, x.2.1⟩ :: List.map (fun x => (⟨x.1, x.2.1⟩ : Pike.Thread)) T) =
          List.map Pure.Thread.pc
            (⟨x.1, x.2.2⟩ :: List.map (fun x => (⟨x.1, x.2.2⟩ : Pure.Thread)) T) :=
        conc_pur_pc (x :: T)
      simp only at hpos
      rw [← c1, ← hg] at hpos
      by_cases h0 : c = 0
      · rw [if_pos h0] at e1 e2
        cases e1; cases e2
        exact hpos.symm
      · rw [if_neg h0] at e1 e2
        obtain ⟨N, f1, f2, f3, hm1, hmm1, hh1, hs1⟩ := href
        rw [f1] at e1
        rw [f2] at e2
        exact ih (sp + 1) r.1 N r.2.2 pa.matched _ ra res hs1 (by rw [f3]; exact hm1.1) hmm1
          hh1 hpos.symm e1 e2

/-- The function `pikevmAt` is `pikevm` with an observation. -/
theorem pikevmAt_fst (prog : Prog) (input : List Nat) (subp : List (Option Nat))
    (gen : Nat) (marks : Nat → Nat) :
    ((pikevmAt prog input subp gen marks).bind fun r => .ok r.1) =
      pikevm prog input subp gen marks := by
  unfold pikevmAt pikevm
  simp only [Res.bind_bind]
  congr 1
  funext r
  rw [← Pike.loopAt_fst prog _ input 0 r.1 r.2 none none, Res.bind_bind]
  congr 1
  funext e
  simp only [Res.bind_ok]
  cases e.1.2.2 with
  | none => rfl
  | some s =>
    simp only [Res.bind_bind, Res.bind_ok]

/-- What `pikevmAt` observes is the position of the match the search on values
hands back. -/
theorem pikevmAt_pos (prog : Prog) (input : List Nat) (subp : List (Option Nat))
    (gen : Nat) (marks : Nat → Nat) (hle : MarksLe gen marks) (ra : Pike.Ret × Option Nat)
    (res : Option (Nat × Caps)) (h1 : pikevmAt prog input subp gen marks = .ok ra)
    (h2 : Pure.pikevm prog input subp.length = .ok res) : ra.2 = res.map Prod.fst := by
  unfold pikevmAt at h1
  unfold Pure.pikevm at h2
  simp only [(HeapInv.init subp.length).1] at h1
  have hadd := Pike.addthread_refines prog (prog.len + 1)
    ⟨gen + 1, marks, [⟨1, List.replicate subp.length none⟩]⟩ [] [] ⟨prog.start, 0⟩
    (List.replicate subp.length none) 0 [] [] (MarkRel.next hle) (HeapInv.init subp.length).2
  obtain ⟨r1, ha, h3⟩ := Res.bind_eq_ok.1 h1
  obtain ⟨p1, hb, h4⟩ := Res.bind_eq_ok.1 h2
  have ha1 : Pike.addthread prog (prog.len + 1)
      ⟨gen + 1, marks, [⟨1, List.replicate subp.length none⟩]⟩ [] ⟨prog.start, 0⟩ 0 = .ok r1 := by
    simpa [newsub] using ha
  rw [ha1, hb] at hadd
  obtain ⟨N, e1, e2, e3, hm1, hh1, hs1⟩ := hadd
  simp only [List.nil_append] at e1 e2 e3 hm1 hh1
  obtain ⟨e, hl, h5⟩ := Res.bind_eq_ok.1 h3
  rw [e1] at hl
  rw [e2] at h4
  have hpos := Pike.loopAt_pos prog (prog.len + 1) input 0 r1.1 N none none none e res hs1
    (by rw [e3]; exact hm1.1) rfl (by simpa [mown] using hh1) rfl hl h4
  cases hm : e.1.2.2 with
  | none =>
    rw [hm] at h5
    cases h5
    exact hpos
  | some s =>
    rw [hm] at h5
    obtain ⟨h6, -, h7⟩ := Res.bind_eq_ok.1 h5
    cases h7
    exact hpos


/-- C4, counterexample: on the unanchored search for `b`, in which every
SaveCapture 1 is followed by Match, and the input `ab`, both engines match and
`pikevm` has slots 0 and 1 set, to (1, 2), while `thompsonvm` reports (0, 2):
the starts differ.  On the anchored program `Save 0; Save 1; Char a; Match`
and the input `a`, both engines match and `pikevm` has slots 0 and 1 set, to
(0, 0), while `thompsonvm` reports (0, 1): the ends differ. -/
theorem thompson_start_end_differ :
    (EndConv findB ∧
      ∃ rt rp, thompsonvm findB [97, 98] [none, none] 0 (fun _ => 0) = .ok rt ∧
        pikevm findB [97, 98] [none, none] 0 (fun _ => 0) = .ok rp ∧
        rt.matched = true ∧ rp.matched = true ∧
        rp.subp = [some 1, some 2] ∧ rt.subp = [some 0, some 2]) ∧
    (StartConv earlyEnd ∧
      ∃ rt rp, thompsonvm earlyEnd [97] [none, none] 0 (fun _ => 0) = .ok rt ∧
        pikevm earlyEnd [97] [none, none] 0 (fun _ => 0) = .ok rp ∧
        rt.matched = true ∧ rp.matched = true ∧
        rp.subp = [some 0, some 0] ∧ rt.subp = [some 0, some 1]) :=
  ⟨⟨by decide, _, _, rfl, rfl, rfl, rfl, rfl, rfl⟩,
   ⟨by decide, _, _, rfl, rfl, rfl, rfl, rfl, rfl⟩⟩

/-- C4, amended: on a well-formed program, with at least two slots and valid
generation states, both engines return with the same flag, and on a match
`thompsonvm` reports offset 0 in slot 0 and in slot 1 the position `k`, inside
the input or on its terminator, at which `pikevm` found the match it reports
on a Match instruction (the value of `sp` when its case `Match` last replaced
`matched`, as `pikevmAt` observes it).  So slot 0 of `thompsonvm` equals slot
0 of `pikevm` exactly when `pikevm` reports offset 0 there, and slot 1 equals
slot 1 of `pikevm` exactly when `pikevm` reports that position there.  This is
so for slot 1, whenever `pikevm` has it set, when every SaveCapture 1 of the
program is immediately followed by Match, and for slot 0 when the program is
anchored. -/
theorem thompson_bounds (prog : Prog) (input : List Nat) (subp : List (Option Nat))
    (gt : Nat) (mt : Nat → Nat) (gp : Nat) (mp : Nat → Nat) (hwf : prog.WF)
    (hn : 2 ≤ subp.length) (ht : MarksLe gt mt) (hp : MarksLe gp mp) :
    ∃ rt rp pos, thompsonvm prog input subp gt mt = .ok rt ∧
      pikevm prog input subp gp mp = .ok rp ∧
      pikevmAt prog input subp gp mp = .ok (rp, pos) ∧ rt.matched = rp.matched ∧
      (rp.matched = false → pos = none) ∧
      (rp.matched = true →
        rt.subp[0]? = some (some 0) ∧
        (∃ k, pos = some k ∧ k ≤ input.length ∧ rt.subp[1]? = some (some k)) ∧
        (rt.subp[0]? = rp.subp[0]? ↔ rp.subp[0]? = some (some 0)) ∧
        (rt.subp[1]? = rp.subp[1]? ↔ rp.subp[1]? = some pos) ∧
        (EndConv prog → ∀ e, rp.subp[1]? = some (some e) → rt.subp[1]? = some (some e)) ∧
        (StartConv prog → rt.subp[0]? = rp.subp[0]?)) := by
  obtain ⟨rt, pm, h1, h2, h3⟩ := thompsonvm_returns prog hwf input subp gt mt ht
  obtain ⟨rp, pm2, g1, g2, g3⟩ := pikevm_returns prog hwf input subp gp mp hp
  rw [h2] at g2
  cases g2
  have hf := pikevmAt_fst prog input subp gp mp
  rw [g1] at hf
  obtain ⟨ra, hA, hra⟩ := Res.bind_eq_ok.1 hf
  have hpos := pikevmAt_pos prog input subp gp mp hp ra pm hA h2
  obtain ⟨r0, pos⟩ := ra
  simp only at hpos
  cases hra
  refine ⟨rt, r0, pos, h1, g1, hA, by rw [h3.1, g3.1], fun hno => ?_, fun hmatch => ?_⟩
  · rw [g3.1] at hno
    cases pm with
    | none => exact hpos
    | some kc => simp at hno
  rw [g3.1] at hmatch
  cases pm with
  | none => simp at hmatch
  | some kc =>
    obtain ⟨k, caps⟩ := kc
    have htr := treported_get subp.length k caps hn
    have hk := (Pure.pikevm_pos prog input subp.length _ h2 k caps rfl).1
    rw [h3.2.1, g3.2.1]
    refine ⟨htr.1, ⟨k, hpos, hk, htr.2⟩, ?_, ?_, fun hc e he => ?_, fun hc => ?_⟩
    · rw [htr.1]
      exact ⟨fun h => h.symm, fun h => h.symm⟩
    · rw [htr.2, hpos]
      exact ⟨fun h => h.symm, fun h => h.symm⟩
    · obtain ⟨pc, hm, hinv⟩ := Pure.pikevm_inv prog (EndInv prog) (EndInv.threadInv hc) input
        subp.length _ (Or.inl (by simp [List.getElem?_replicate]; omega)) h2 k caps rfl
      rw [reported_get subp.length k 1 caps (by omega)] at he
      rw [htr.2]
      rcases hinv with h | ⟨h, -⟩
      · rw [h] at he; cases he
      · rw [h] at he
        exact he
    · obtain ⟨pc, hm, hinv⟩ := Pure.pikevm_inv prog (StartInv prog) (StartInv.startThreadInv hc) input
        subp.length _ ⟨fun _ => rfl, fun h => absurd rfl h, by simp; omega⟩ h2 k caps rfl
      rw [reported_get subp.length k 0 caps (by omega), htr.1]
      have hpc : pc ≠ prog.start := by
        intro e
        rw [e, hc.1] at hm
        cases hm
      rw [hinv.2.1 hpc]
      rfl

/-- C4, the amended statement on the program of `a|ab`, which follows both
conventions, and the input `ab`. -/
theorem thompson_bounds_witness :
    (aOrAb.WF ∧ 2 ≤ [none, (none : Option Nat)].length ∧ MarksLe 0 (fun _ => 0) ∧
      EndConv aOrAb ∧ StartConv aOrAb) ∧
    ∃ rt rp pos, thompsonvm aOrAb [97, 98] [none, none] 0 (fun _ => 0) = .ok rt ∧
      pikevm aOrAb [97, 98] [none, none] 0 (fun _ => 0) = .ok rp ∧
      pikevmAt aOrAb [97, 98] [none, none] 0 (fun _ => 0) = .ok (rp, pos) ∧
      rt.matched = rp.matched ∧
      (rp.matched = false → pos = none) ∧
      (rp.matched = true →
        rt.subp[0]? = some (some 0) ∧
        (∃ k, pos = some k ∧ k ≤ [97, 98].length ∧ rt.subp[1]? = some (some k)) ∧
        (rt.subp[0]? = rp.subp[0]? ↔ rp.subp[0]? = some (some 0)) ∧
        (rt.subp[1]? = rp.subp[1]? ↔ rp.subp[1]? = some pos) ∧
        (EndConv aOrAb → ∀ e, rp.subp[1]? = some (some e) → rt.subp[1]? = some (some e)) ∧
        (StartConv aOrAb → rt.subp[0]? = rp.subp[0]?)) :=
  ⟨⟨by decide, by decide, fun _ => Nat.le_refl 0, by decide, by decide⟩,
   thompson_bounds aOrAb [97, 98] [none, none] 0 (fun _ => 0) 0 (fun _ => 0) (by decide)
     (by decide) (fun _ => Nat.le_refl 0) (fun _ => Nat.le_refl 0)⟩

/-! ## When the runs of `backtrack` end: the measure -/

namespace Backtrack

theorem weight_pos (rk : Nat → Nat) (n b h pc sp : Nat) : 0 < weight rk n b h pc sp :=
  Nat.pos_pow_of_pos _ (by decide)

/-- A move at the same height that consumes nothing goes to an instruction of
lower rank. -/
theorem weight_eps {rk : Nat → Nat} {pc q : Nat} (n b h sp : Nat) (hq : rk q < rk pc) :
    weight rk n b h q sp < weight rk n b h pc sp :=
  Nat.pow_lt_pow_right (by decide) (by omega)

/-- A thread that runs one higher on the stack weighs less, whatever its
rank. -/
theorem weight_up {rk : Nat → Nat} {pc q : Nat} (n b h sp : Nat) (hh : h < MAX)
    (hq : rk q ≤ b) : weight rk n b (h + 1) q sp < weight rk n b h pc sp := by
  unfold weight
  refine Nat.pow_lt_pow_right (by decide) ?_
  obtain ⟨k, hk⟩ : ∃ k, MAX - h = k + 1 := ⟨MAX - h - 1, by omega⟩
  have hk1 : MAX - (h + 1) = k := by omega
  rw [hk, hk1]
  have e : ((k + 1) * (n + 1) + (n - sp)) * (b + 1) =
      (k * (n + 1) + (n - sp)) * (b + 1) + (n + 1) * (b + 1) := by ring
  have e2 : (n + 1) * (b + 1) = n * (b + 1) + b + 1 := by ring
  omega

/-- The two successors of a Split weigh less than the Split: the primary one
runs one higher on the stack, the secondary one has a lower rank. -/
theorem weight_split {rk : Nat → Nat} {pc x y : Nat} (n b h sp : Nat) (hh : h < MAX)
    (hx : rk x ≤ b) (hy : rk y < rk pc) :
    weight rk n b (h + 1) x sp + weight rk n b h y sp < weight rk n b h pc sp := by
  have h1 : ((MAX - (h + 1)) * (n + 1) + (n - sp)) * (b + 1) + rk x <
      ((MAX - h) * (n + 1) + (n - sp)) * (b + 1) + rk pc := by
    have := @weight_up rk pc x n b h sp hh hx
    unfold weight at this
    exact (Nat.pow_lt_pow_iff_right (by decide)).1 this
  unfold weight
  obtain ⟨e, he⟩ : ∃ e, ((MAX - h) * (n + 1) + (n - sp)) * (b + 1) + rk pc = e + 1 :=
    ⟨_, (Nat.succ_pred_eq_of_pos (by omega)).symm⟩
  rw [he] at h1 ⊢
  have a1 : 3 ^ (((MAX - (h + 1)) * (n + 1) + (n - sp)) * (b + 1) + rk x) ≤ 3 ^ e :=
    Nat.pow_le_pow_right (by decide) (by omega)
  have a2 : 3 ^ (((MAX - h) * (n + 1) + (n - sp)) * (b + 1) + rk y) ≤ 3 ^ e :=
    Nat.pow_le_pow_right (by decide) (by omega)
  have a3 : 0 < 3 ^ e := Nat.pos_pow_of_pos _ (by decide)
  have a4 : 3 ^ (e + 1) = 3 * 3 ^ e := by rw [Nat.pow_succ, Nat.mul_comm]
  omega

/-- A move that consumes a byte goes to a lighter thread, whatever its rank. -/
theorem weight_adv {rk : Nat → Nat} {pc q sp : Nat} (n b h : Nat) (hsp : sp < n)
    (hq : rk q ≤ b) : weight rk n b h q (sp + 1) < weight rk n b h pc sp := by
  unfold weight
  refine Nat.pow_lt_pow_right (by decide) ?_
  obtain ⟨k, hk⟩ : ∃ k, n - sp = k + 1 := ⟨n - sp - 1, by omega⟩
  have hk1 : n - (sp + 1) = k := by omega
  rw [hk, hk1]
  have e : ((MAX - h) * (n + 1) + (k + 1)) * (b + 1) =
      ((MAX - h) * (n + 1) + k) * (b + 1) + b + 1 := by ring
  omega

/-- The label `Dead` in a state in order: the call returns without a match, or
the next thread is popped and the state weighs less. -/
theorem dead_progress (prog : Prog) (input : List Nat) (subp : List (Option Nat))
    (rk : Nat → Nat) (b : Nat) (s : State) (hl : Live prog input s) :
    (∃ r, dead subp s = .ok (.inl r)) ∨
    ∃ s1, dead subp s = .ok (.inr s1) ∧ Live prog input s1 ∧
      total rk input.length b s1 < total rk input.length b s := by
  obtain ⟨caps, T, hready, hh, hpc, hsp, hrc, hst⟩ := hl
  unfold dead
  obtain ⟨h1, hd1, hh1⟩ := hh.decref
  rw [hd1, Res.bind_ok, hready]
  cases T with
  | nil => exact Or.inl ⟨_, rfl⟩
  | cons x T1 =>
    have hh2 : HeapInv h1 ((x.2.2.1, x.2.2.2) :: bown T1) := by simpa [bown] using hh1
    have hne : refOf h1 x.2.2.1 ≠ 0 := by rw [hh2.refOf_head]; omega
    refine Or.inr ⟨⟨h1, bconc T1, x.1, x.2.1, x.2.2.1⟩, ?_, ?_, ?_⟩
    · simp only [bconc, List.map_cons, hne, if_false]
    · have hx := hst ⟨x.1, x.2.1, x.2.2.1⟩ (by rw [hready]; simp [bconc])
      refine ⟨x.2.2.2, T1, rfl, hh2, hx.1, hx.2.1, hx.2.2, fun t ht => hst t ?_⟩
      rw [hready]
      simp only [bconc, List.map_cons]
      exact List.mem_cons_of_mem _ ht
    · have hw := weight_pos rk input.length b s.ready.length s.pc s.sp
      simp only [total, hready, bconc, List.map_cons, stackWeight] at hw ⊢
      omega

/-- One instruction of `backtrack` in a state in order: the call ends in the
capacity failure, or returns, or goes on in a state in order that weighs
less. -/
theorem exec_progress (prog : Prog) (input : List Nat) (subp : List (Option Nat))
    (rk : Nat → Nat) (b : Nat) (hwf : prog.WF) (hnn : NoNulLit prog) (hrk : Ranked prog rk)
    (hb : ∀ pc, pc < prog.len → rk pc ≤ b) (s : State) (hl : Live prog input s) :
    exec prog input subp s = .fatal ∨ (∃ r, exec prog input subp s = .ok (.inl r)) ∨
    ∃ s1, exec prog input subp s = .ok (.inr s1) ∧ Live prog input s1 ∧
      total rk input.length b s1 < total rk input.length b s := by
  have hd := dead_progress prog input subp rk b s hl
  obtain ⟨caps, T, hready, hh, hpc, hsp, hrc, hst⟩ := hl
  obtain ⟨i, hi⟩ := fetch_of_lt hpc
  have hrank : ∀ q ∈ i.level s.pc, rk q < rk s.pc := hrk s.pc hrc i hi
  have hsucc : ∀ q ∈ i.succs s.pc, q < prog.len := fun q hq => hwf.succ_lt hi hq
  have hnext : ∀ q ∈ i.succs s.pc, Reach prog q := fun q hq => Reach.move hrc hi hq
  obtain ⟨c0, hp, hc0⟩ := peek_le hsp
  -- the thread consumes the byte under `sp`
  have hadv : c0 ≠ 0 → s.pc + 1 < prog.len → Reach prog (s.pc + 1) →
      ∃ s1, Res.ok (Sum.inr (⟨s.heap, s.ready, s.pc + 1, s.sp + 1, s.sub⟩ : State)) =
          (Res.ok (Sum.inr s1) : Res (Ret ⊕ State)) ∧
        Live prog input s1 ∧ total rk input.length b s1 < total rk input.length b s := by
    intro h0 hn hr
    refine ⟨_, rfl, ⟨caps, T, hready, hh, hn, hc0 h0, hr, hst⟩, ?_⟩
    have := @weight_adv rk s.pc (s.pc + 1) s.sp input.length b s.ready.length (hc0 h0)
      (hb _ hn)
    simp only [total]
    omega
  unfold exec
  rw [hi]
  cases i with
  | Char c =>
    simp only [hp]
    by_cases hne : c0 ≠ c
    · rw [if_pos hne]
      exact Or.inr hd
    · rw [if_neg hne]
      have hc : c ≠ 0 := by
        intro hz
        subst hz
        exact hnn (mem_of_fetch hi)
      have h0 : c0 ≠ 0 := fun hz => hne (fun e => hc (e ▸ hz))
      exact Or.inr (Or.inr (hadv h0 (hsucc _ (by simp [Inst.succs]))
        (hnext _ (by simp [Inst.succs]))))
  | Any =>
    simp only [hp]
    by_cases h0 : c0 = 0
    · rw [if_pos h0]
      exact Or.inr hd
    · rw [if_neg h0]
      exact Or.inr (Or.inr (hadv h0 (hsucc _ (by simp [Inst.succs]))
        (hnext _ (by simp [Inst.succs]))))
  | Match =>
    simp only
    obtain ⟨h1, hd1, _⟩ := hh.decref
    rw [hd1, Res.bind_ok]
    exact Or.inr (Or.inl ⟨_, rfl⟩)
  | Jmp x =>
    simp only
    refine Or.inr (Or.inr ⟨_, rfl, ⟨caps, T, hready, hh, hsucc x (by simp [Inst.succs]), hsp,
      hnext x (by simp [Inst.succs]), hst⟩, ?_⟩)
    have := @weight_eps rk s.pc x input.length b s.ready.length s.sp
      (hrank x (by simp [Inst.level]))
    simp only [total]
    omega
  | Split x y =>
    simp only
    by_cases hmax : MAX ≤ s.ready.length
    · rw [if_pos hmax]
      exact Or.inl rfl
    · rw [if_neg hmax]
      obtain ⟨h1, hd1, hh1⟩ := hh.incref
      rw [hd1, Res.bind_ok]
      refine Or.inr (Or.inr ⟨_, rfl, ⟨caps, (y, s.sp, s.sub, caps) :: T, by simp [bconc, hready],
        by simpa [bown] using hh1, hsucc x (by simp [Inst.succs]), hsp,
        hnext x (by simp [Inst.succs]), ?_⟩, ?_⟩)
      · intro t ht
        rcases List.mem_cons.1 ht with ht | ht
        · subst ht
          exact ⟨hsucc y (by simp [Inst.succs]), hsp, hnext y (by simp [Inst.succs])⟩
        · exact hst t ht
      · have := @weight_split rk s.pc x y input.length b s.ready.length s.sp
          (Nat.lt_of_not_le hmax) (hb x (hsucc x (by simp [Inst.succs])))
          (hrank y (by simp [Inst.level]))
        simp only [total, stackWeight, List.length_cons]
        omega
  | Save k =>
    simp only
    obtain ⟨h1, s1, hd1, hh1⟩ := hh.update k s.sp
    rw [hd1, Res.bind_ok]
    refine Or.inr (Or.inr ⟨_, rfl, ⟨caps.set k (some s.sp), T, hready, hh1,
      hsucc _ (by simp [Inst.succs]), hsp, hnext _ (by simp [Inst.succs]), hst⟩, ?_⟩)
    have := @weight_eps rk s.pc (s.pc + 1) input.length b s.ready.length s.sp
      (hrank (s.pc + 1) (by simp [Inst.level]))
    simp only [total]
    omega

/-- From a state in order the loops of `backtrack` end within as many
instructions as the state weighs, in a return or in the capacity failure. -/
theorem run_ends (prog : Prog) (input : List Nat) (subp : List (Option Nat))
    (rk : Nat → Nat) (b : Nat) (hwf : prog.WF) (hnn : NoNulLit prog) (hrk : Ranked prog rk)
    (hb : ∀ pc, pc < prog.len → rk pc ≤ b) :
    ∀ n (s : State), Live prog input s → total rk input.length b s ≤ n →
      (∃ r, run prog input subp (n + 1) s = .ok r) ∨ run prog input subp (n + 1) s = .fatal := by
  intro n
  induction n with
  | zero =>
    intro s hl hn
    have := weight_pos rk input.length b s.ready.length s.pc s.sp
    simp only [total] at hn
    omega
  | succ n ih =>
    intro s hl hn
    rw [run_succ_eq]
    rcases exec_progress prog input subp rk b hwf hnn hrk hb s hl with h | ⟨r, h⟩ | ⟨s1, h, hl1, hlt⟩
    · rw [h]; exact Or.inr rfl
    · rw [h]; exact Or.inl ⟨r, rfl⟩
    · rw [h]
      exact ih s1 hl1 (by omega)

end Backtrack

/-- A ranking that falls at every instruction, reached or not, is a ranking
in the sense of `Ranked`. -/
theorem Ranked.of_all {prog : Prog} {rk : Nat → Nat}
    (h : ∀ pc, pc < prog.len →
      ∀ q ∈ (prog.insts.getD pc Inst.Match).level pc, rk q < rk pc) : Ranked prog rk := by
  intro pc _ i hi q hq
  have := h pc (lt_len_of_fetch hi)
  rw [List.getD_eq_getElem?_getD, hi] at this
  exact this q hq

/-- Control reaches the first two instructions of `primaryLoop` only. -/
theorem primaryLoop_reach {pc : Nat} (h : Reach primaryLoop pc) : pc < 2 := by
  induction h with
  | start => decide
  | @move p q i _ hi hq ih =>
    have hp : p = 0 ∨ p = 1 := by omega
    rcases hp with hp | hp
    · subst hp
      have e : Inst.Split 0 1 = i := by simpa [primaryLoop] using hi
      subst e
      simp only [Inst.succs, List.mem_cons, List.mem_singleton, List.not_mem_nil,
        or_false] at hq
      omega
    · subst hp
      have e : Inst.Match = i := by simpa [primaryLoop] using hi
      subst e
      simp [Inst.succs] at hq

/-- The ranking 1, 0 falls along the moves of `primaryLoop` that control
reaches and that leave the stack as high as it is: the Jump to itself is not
reached, and the Split is its own primary successor only. -/
theorem primaryLoop_ranked : Ranked primaryLoop (fun pc => [1, 0].getD pc 0) := by
  intro pc hr i hi q hq
  have hlt := primaryLoop_reach hr
  have hp : pc = 0 ∨ pc = 1 := by omega
  rcases hp with hp | hp
  · subst hp
    have e : Inst.Split 0 1 = i := by simpa [primaryLoop] using hi
    subst e
    simp only [Inst.level, List.mem_singleton] at hq
    subst hq
    decide
  · subst hp
    have e : Inst.Match = i := by simpa [primaryLoop] using hi
    subst e
    simp [Inst.level] at hq

/-- The run of `primaryLoop` with `k` threads waiting: every turn of the Split
pushes one more, until the stack is full. -/
theorem Backtrack.primaryLoop_fills (input : List Nat) (subp : List (Option Nat))
    (caps : Caps) :
    ∀ d k f, k + d = Backtrack.MAX →
      Backtrack.run primaryLoop input subp (f + 1 + d)
        ⟨[⟨k + 1, caps⟩], List.replicate k ⟨1, 0, 0⟩, 0, 0, 0⟩ = .fatal := by
  intro d
  induction d with
  | zero =>
    intro k f hk
    have hfull : Backtrack.MAX ≤ (List.replicate k (⟨1, 0, 0⟩ : Backtrack.Thread)).length := by
      rw [List.length_replicate]; omega
    rw [Nat.add_zero, Backtrack.run_succ_eq]
    simp only [Backtrack.exec, primaryLoop, List.getElem?_cons_zero, hfull, if_true]
    rfl
  | succ d ih =>
    intro k f hk
    have hroom : ¬ Backtrack.MAX ≤
        (List.replicate k (⟨1, 0, 0⟩ : Backtrack.Thread)).length := by
      rw [List.length_replicate]; omega
    have hstep : Backtrack.exec primaryLoop input subp
        ⟨[⟨k + 1, caps⟩], List.replicate k ⟨1, 0, 0⟩, 0, 0, 0⟩ =
        .ok (.inr ⟨[⟨k + 1 + 1, caps⟩], List.replicate (k + 1) ⟨1, 0, 0⟩, 0, 0, 0⟩) := by
      simp only [Backtrack.exec, primaryLoop, List.getElem?_cons_zero, hroom, if_false]
      simp [incref, List.replicate_succ]
    rw [← Nat.add_assoc, Backtrack.run_inr _ _ hstep, Nat.add_right_comm]
    have := ih (k + 1) f (by omega)
    rw [Nat.add_right_comm f 1 d] at this
    exact this

/-- On `primaryLoop` the run of `backtrack` ends in the capacity failure: the
Split is its own primary successor and pushes a thread on every turn. -/
theorem primaryLoop_overflows (input : List Nat) (subp : List (Option Nat)) (f : Nat) :
    backtrack primaryLoop input subp (f + 1 + Backtrack.MAX) = .fatal := by
  rw [backtrack_eq_run]
  exact Backtrack.primaryLoop_fills input subp _ Backtrack.MAX 0 f (Nat.zero_add _)

/-- C19, amended: on a well-formed program without Consume-Literal NUL in
which every cycle of Jump, Split and SaveCapture moves among the instructions
reached from the start goes through the primary successor of a Split (some
ranking falls, at every instruction reached, along a Jump, along a SaveCapture
and along the move from a Split to its secondary successor), the run of
`backtrack` ends on every input after finitely many instructions, in a return
(match or no match) or in the capacity failure. -/
theorem backtrack_ends_without_empty_cycle (prog : Prog) (input : List Nat)
    (subp : List (Option Nat)) (rk : Nat → Nat) (hwf : prog.WF) (hnn : NoNulLit prog)
    (hrk : Ranked prog rk) :
    ∃ fuel, (∃ r, backtrack prog input subp fuel = .ok r) ∨
      backtrack prog input subp fuel = .fatal := by
  have hb : ∀ pc, pc < prog.len → rk pc ≤ (Finset.range prog.len).sup rk :=
    fun pc hpc => Finset.le_sup (f := rk) (Finset.mem_range.2 hpc)
  have hl : Backtrack.Live prog input
      ⟨[⟨1, List.replicate subp.length none⟩], [], prog.start, 0, 0⟩ :=
    ⟨List.replicate subp.length none, [], rfl, (HeapInv.init subp.length).2, hwf.1,
      Nat.zero_le _, Reach.start, fun _ h => absurd h (List.not_mem_nil _)⟩
  refine ⟨Backtrack.total rk input.length ((Finset.range prog.len).sup rk)
    ⟨[⟨1, List.replicate subp.length none⟩], [], prog.start, 0, 0⟩ + 1, ?_⟩
  rw [backtrack_eq_run]
  exact Backtrack.run_ends prog input subp rk _ hwf hnn hrk hb _ _ hl (Nat.le_refl _)

/-- C19, the amended statement on a Split that is its own primary successor,
followed by a Match and by a Jump to itself that is never reached, with the
input `a`: the only cycle that is reached goes through the primary successor
of the Split, and the run ends. -/
theorem backtrack_ends_without_empty_cycle_witness :
    (primaryLoop.WF ∧ NoNulLit primaryLoop ∧
      Ranked primaryLoop (fun pc => [1, 0].getD pc 0)) ∧
    ∃ fuel, (∃ r, backtrack primaryLoop [97] [none, none] fuel = .ok r) ∨
      backtrack primaryLoop [97] [none, none] fuel = .fatal :=
  ⟨⟨by decide, by decide, primaryLoop_ranked⟩,
   backtrack_ends_without_empty_cycle primaryLoop [97] [none, none]
     (fun pc => [1, 0].getD pc 0) (by decide) (by decide) primaryLoop_ranked⟩

end Re1
